import Mathlib

/-! # scclust: seed finding on nearest-neighbour graphs and the NN search kernel

A shallow embedding of `src/nng_findseeds.c` and `src/nn_search.c`.

Conventions of the embedding:

* C arrays that the code mutates (`marks`, `seeds`, `sorted_vertices`, ...) are total
  functions from the index to the content (`Nat → α`); a write is `Function.update`.
  Pointers into an array are the index of the slot they point to.
* The input digraph is a CSR value with `head` and `tail_ptr` stored as lists; a read
  is `List.getD _ _ 0`.
* Integers are natural numbers.  The code asserts `vertices < SCC_DPID_MAX`, so vertex
  IDs and arc counts do not wrap.
* `malloc`, `calloc` and `realloc` are answered by an oracle `mem site n`, which says
  whether the request for `n` elements made at program point `site` succeeds.
* Assertions are compiled out (`NDEBUG`); the build flag `SCC_STABLE_CLUSTERING` is
  not set (the default build).
-/

namespace Scclust

/-! ## Error codes, selectors, allocation -/

/-- Error codes used by the two source files (`scc_ErrorCode`). -/
inductive scc_ErrorCode where
  | SCC_ER_OK
  | SCC_ER_NO_MEMORY
  | SCC_ER_TOO_LARGE_PROBLEM
  | SCC_ER_NOT_IMPLEMENTED
  deriving DecidableEq, Repr

/-- Seed method selector (`scc_SeedMethod`); `SCC_SM_UNKNOWN` stands for every selector
value outside the five named ones (the `default:` branch of the switch). -/
inductive scc_SeedMethod where
  | SCC_SM_LEXICAL
  | SCC_SM_INWARDS_ORDER
  | SCC_SM_INWARDS_UPDATING
  | SCC_SM_EXCLUSION_ORDER
  | SCC_SM_EXCLUSION_UPDATING
  | SCC_SM_UNKNOWN
  deriving DecidableEq, Repr

/-- Program points that request memory. -/
inductive AllocSite where
  | marks
  | seeds
  | seeds_grow
  | seeds_shrink
  | not_excluded
  | inwards_count
  | sorted_vertices
  | bucket_count
  | bucket_index
  | vertex_index
  | nng_transpose
  | nng_nng_transpose
  | exclusion_graph
  | sort_scratch
  deriving DecidableEq, Repr

/-- Allocation oracle: `mem site n` is `true` iff the request for `n` elements made at
`site` succeeds. -/
abbrev Mem := AllocSite → Nat → Bool

/-! ## Digraphs in CSR form -/

/-- CSR digraph (`iscc_Digraph`): `tail_ptr` has `vertices + 1` offsets into `head`. -/
structure iscc_Digraph where
  vertices : Nat
  max_arcs : Nat
  head : List Nat
  tail_ptr : List Nat
  deriving Repr

/-- Read of `tail_ptr[v]`. -/
def iscc_Digraph.tp (dg : iscc_Digraph) (v : Nat) : Nat := dg.tail_ptr.getD v 0

/-- The values `head[lo], head[lo+1], ..., head[hi-1]`: what a pointer that runs from
`head + lo` to `head + hi` reads. -/
def iscc_Digraph.arc_slice (dg : iscc_Digraph) (lo hi : Nat) : List Nat :=
  (List.range' lo (hi - lo)).map (fun a => dg.head.getD a 0)

/-- Successors of `v`: `head[tail_ptr[v]] .. head[tail_ptr[v+1] - 1]`. -/
def iscc_Digraph.arcs (dg : iscc_Digraph) (v : Nat) : List Nat :=
  dg.arc_slice (dg.tp v) (dg.tp (v + 1))

/-- Closed neighbourhood of `v`: `v` and its successors. -/
def iscc_Digraph.closed (dg : iscc_Digraph) (v : Nat) : List Nat := v :: dg.arcs v

/-- Sound digraph (section 3 of the spec): `vertices + 1` offsets that start at 0, are
non-decreasing and stay within `max_arcs`, which the `head` array holds; no arc targets
an index `≥ vertices`. -/
def iscc_digraph_is_sound (dg : iscc_Digraph) : Prop :=
  dg.tail_ptr.length = dg.vertices + 1 ∧
  dg.tp 0 = 0 ∧
  (∀ v, v < dg.vertices → dg.tp v ≤ dg.tp (v + 1)) ∧
  dg.tp dg.vertices ≤ dg.max_arcs ∧
  dg.max_arcs ≤ dg.head.length ∧
  (∀ a, a < dg.tp dg.vertices → dg.head.getD a 0 < dg.vertices)

instance (dg : iscc_Digraph) : Decidable (iscc_digraph_is_sound dg) := by
  unfold iscc_digraph_is_sound
  infer_instance

/-- No vertex has an arc to itself. -/
def no_self_loops (dg : iscc_Digraph) : Prop :=
  ∀ v, v < dg.vertices → v ∉ dg.arcs v

instance (dg : iscc_Digraph) : Decidable (no_self_loops dg) := by
  unfold no_self_loops
  infer_instance

/-- No vertex lists the same successor twice. -/
def no_duplicate_arcs (dg : iscc_Digraph) : Prop :=
  ∀ v, v < dg.vertices → (dg.arcs v).Nodup

instance (dg : iscc_Digraph) : Decidable (no_duplicate_arcs dg) := by
  unfold no_duplicate_arcs
  infer_instance

/-- The CSR digraph on `n` vertices whose row `v` is the list `rows v`. -/
def digraph_of_rows (n : Nat) (rows : Nat → List Nat) : iscc_Digraph :=
  { vertices := n
    max_arcs := ((List.range n).flatMap rows).length
    head := (List.range n).flatMap rows
    tail_ptr := (List.range (n + 1)).map (fun v => ((List.range v).flatMap rows).length) }

/-! ## Seed results -/

/-- Growable seed array (`iscc_SeedResult`); `seeds = none` is the NULL pointer. -/
structure iscc_SeedResult where
  capacity : Nat
  count : Nat
  seeds : Option (Nat → Nat)

/-- The null seed result (`ISCC_NULL_SEED_RESULT`): no array, count 0. -/
def ISCC_NULL_SEED_RESULT : iscc_SeedResult := { capacity := 0, count := 0, seeds := none }

/-- Read of `seeds[i]`. -/
def iscc_SeedResult.seed (r : iscc_SeedResult) (i : Nat) : Nat :=
  match r.seeds with
  | some a => a i
  | none => 0

/-- The seeds a result holds: `seeds[0], ..., seeds[count - 1]`. -/
def iscc_SeedResult.toList (r : iscc_SeedResult) : List Nat :=
  (List.range r.count).map r.seed

/-- Append to the seed array (`iscc_fs_add_seed`). `clabel_max` is `SCC_CLABEL_MAX`. -/
def iscc_fs_add_seed (clabel_max : Nat) (mem : Mem) (s : Nat) (out_seeds : iscc_SeedResult) :
    scc_ErrorCode × iscc_SeedResult :=
  let grown : scc_ErrorCode × iscc_SeedResult :=
    if out_seeds.count = out_seeds.capacity then
      let cap := out_seeds.capacity + (out_seeds.capacity >>> 3) + 1024
      let cap := if cap > clabel_max then clabel_max else cap
      if mem AllocSite.seeds_grow cap then
        (scc_ErrorCode.SCC_ER_OK, { out_seeds with capacity := cap })
      else
        (scc_ErrorCode.SCC_ER_NO_MEMORY, { out_seeds with capacity := cap })
    else (scc_ErrorCode.SCC_ER_OK, out_seeds)
  if grown.1 ≠ scc_ErrorCode.SCC_ER_OK then grown
  else
    let o := grown.2
    let o1 : iscc_SeedResult :=
      { capacity := o.capacity
        count := o.count + 1
        seeds := some (Function.update o.seed o.count s) }
    if o1.count = clabel_max then (scc_ErrorCode.SCC_ER_TOO_LARGE_PROBLEM, o1)
    else (scc_ErrorCode.SCC_ER_OK, o1)

/-! ## Marks -/

/-- Can `cv` be a seed now (`iscc_fs_check_neighbors_marks`)? -/
def iscc_fs_check_neighbors_marks (cv : Nat) (nng : iscc_Digraph) (marks : Nat → Bool) : Bool :=
  if marks cv then false
  else if nng.tp cv = nng.tp (cv + 1) then false
  else (nng.arcs cv).all (fun a => !marks a)

/-- Mark a seed and its successors (`iscc_fs_mark_seed_neighbors`). -/
def iscc_fs_mark_seed_neighbors (s : Nat) (nng : iscc_Digraph) (marks : Nat → Bool) :
    Nat → Bool :=
  (nng.arcs s).foldl (fun m a => Function.update m a true) (Function.update marks s true)

/-! ## Bucket sort on in-degree -/

/-- Result of the bucket sort (`iscc_fs_SortResult`). `vertex_index[v]` and
`bucket_index[b]` are positions in `sorted_vertices`. A NULL array is the constant-zero
array. -/
structure iscc_fs_SortResult where
  inwards_count : Nat → Nat
  sorted_vertices : Nat → Nat
  vertex_index : Nat → Nat
  bucket_index : Nat → Nat

/-- The counting loop of `iscc_fs_sort_by_inwards`: `++inwards_count[*arc]` for every arc. -/
def sort_count_inwards (nng : iscc_Digraph) : Nat → Nat :=
  (nng.arc_slice 0 (nng.tp nng.vertices)).foldl
    (fun c a => Function.update c a (c a + 1)) (fun _ => 0)

/-- The maximum loop of `iscc_fs_sort_by_inwards`. -/
def sort_max_inwards (vertices : Nat) (inwards_count : Nat → Nat) : Nat :=
  (List.range vertices).foldl
    (fun m v => if m < inwards_count v then inwards_count v else m) 0

/-- The loop `++bucket_count[inwards_count[v]]` of `iscc_fs_sort_by_inwards`. -/
def sort_bucket_count (vertices : Nat) (inwards_count : Nat → Nat) : Nat → Nat :=
  (List.range vertices).foldl
    (fun bc v => Function.update bc (inwards_count v) (bc (inwards_count v) + 1)) (fun _ => 0)

/-- The cumulative-sum loop of `iscc_fs_sort_by_inwards`; the state is
`(bucket_cumsum, bucket_index)`. -/
def sort_bucket_cumsum (max_inwards : Nat) (bucket_count : Nat → Nat) : Nat × (Nat → Nat) :=
  (List.range (max_inwards + 1)).foldl
    (fun st b => (st.1 + bucket_count b, Function.update st.2 b (st.1 + bucket_count b)))
    (0, fun _ => 0)

/-- The placing loop of `iscc_fs_sort_by_inwards`, `for (v = vertices; v > 0; ) { --v; ... }`,
for both values of `make_indices`. -/
def sort_place (make_indices : Bool) : Nat → iscc_fs_SortResult → iscc_fs_SortResult
  | 0, sr => sr
  | v + 1, sr =>
    let b := sr.inwards_count v
    let slot := sr.bucket_index b - 1
    sort_place make_indices v
      { inwards_count := sr.inwards_count
        sorted_vertices := Function.update sr.sorted_vertices slot v
        vertex_index :=
          if make_indices then Function.update sr.vertex_index v slot else sr.vertex_index
        bucket_index := Function.update sr.bucket_index b slot }

/-- Bucket sort of the vertices by in-degree (`iscc_fs_sort_by_inwards`). -/
def iscc_fs_sort_by_inwards (mem : Mem) (nng : iscc_Digraph) (make_indices : Bool) :
    scc_ErrorCode × iscc_fs_SortResult :=
  let vertices := nng.vertices
  let null : iscc_fs_SortResult :=
    { inwards_count := fun _ => 0, sorted_vertices := fun _ => 0,
      vertex_index := fun _ => 0, bucket_index := fun _ => 0 }
  if !(mem AllocSite.inwards_count vertices && mem AllocSite.sorted_vertices vertices) then
    (scc_ErrorCode.SCC_ER_NO_MEMORY, null)
  else
    let inwards_count := sort_count_inwards nng
    let max_inwards := sort_max_inwards vertices inwards_count
    if !(mem AllocSite.bucket_count (max_inwards + 1) &&
          mem AllocSite.bucket_index (max_inwards + 1)) then
      (scc_ErrorCode.SCC_ER_NO_MEMORY, null)
    else
      let bucket_count := sort_bucket_count vertices inwards_count
      let bucket_index := (sort_bucket_cumsum max_inwards bucket_count).2
      let sr0 : iscc_fs_SortResult :=
        { inwards_count := inwards_count, sorted_vertices := fun _ => 0,
          vertex_index := fun _ => 0, bucket_index := bucket_index }
      if make_indices then
        if !(mem AllocSite.vertex_index vertices) then
          (scc_ErrorCode.SCC_ER_NO_MEMORY, null)
        else
          (scc_ErrorCode.SCC_ER_OK, sort_place true vertices sr0)
      else
        let sr := sort_place false vertices sr0
        (scc_ErrorCode.SCC_ER_OK,
          { inwards_count := fun _ => 0, sorted_vertices := sr.sorted_vertices,
            vertex_index := sr.vertex_index, bucket_index := fun _ => 0 })

/-- Move `v_to_decrease` one bucket down (`iscc_fs_decrease_v_in_sort`, default build).
`current_pos` is the position of the scan cursor. The key is a natural number, so the
decrement of a zero key stays at zero. -/
def iscc_fs_decrease_v_in_sort (v_to_decrease : Nat) (sr : iscc_fs_SortResult)
    (current_pos : Nat) : iscc_fs_SortResult :=
  let move_from := sr.vertex_index v_to_decrease
  let key := sr.inwards_count v_to_decrease
  let clamp : Bool := decide (sr.bucket_index key ≤ current_pos)
  let move_to := if clamp then current_pos + 1 else sr.bucket_index key
  let bucket_index1 :=
    if clamp then Function.update sr.bucket_index (key - 1) move_to else sr.bucket_index
  let bucket_index2 := Function.update bucket_index1 key (move_to + 1)
  let inwards_count1 := Function.update sr.inwards_count v_to_decrease (key - 1)
  if move_from ≠ move_to then
    let sorted1 := Function.update sr.sorted_vertices move_from (sr.sorted_vertices move_to)
    let sorted2 := Function.update sorted1 move_to v_to_decrease
    let vertex_index1 := Function.update sr.vertex_index (sorted2 move_to) move_to
    let vertex_index2 := Function.update vertex_index1 (sorted2 move_from) move_from
    { inwards_count := inwards_count1, sorted_vertices := sorted2,
      vertex_index := vertex_index2, bucket_index := bucket_index2 }
  else
    { inwards_count := inwards_count1, sorted_vertices := sr.sorted_vertices,
      vertex_index := sr.vertex_index, bucket_index := bucket_index2 }

/-! ## The seed finders -/

/-- State of a scan: error code, marks (or `not_excluded`), sort structure, seeds. -/
structure ScanState where
  ec : scc_ErrorCode
  marks : Nat → Bool
  sort : iscc_fs_SortResult
  out : iscc_SeedResult

/-- The null sort structure, used where a finder has none. -/
def null_sort : iscc_fs_SortResult :=
  { inwards_count := fun _ => 0, sorted_vertices := fun _ => 0,
    vertex_index := fun _ => 0, bucket_index := fun _ => 0 }

/-- The scan loop of `iscc_findseeds_lexical`: `n` iterations starting at vertex `cv`. -/
def lexical_loop (clabel_max : Nat) (mem : Mem) (nng : iscc_Digraph) :
    Nat → Nat → (Nat → Bool) → iscc_SeedResult → ScanState
  | 0, _, marks, out =>
    { ec := scc_ErrorCode.SCC_ER_OK, marks := marks, sort := null_sort, out := out }
  | n + 1, cv, marks, out =>
    if iscc_fs_check_neighbors_marks cv nng marks then
      let r := iscc_fs_add_seed clabel_max mem cv out
      if r.1 ≠ scc_ErrorCode.SCC_ER_OK then
        { ec := r.1, marks := marks, sort := null_sort, out := r.2 }
      else
        lexical_loop clabel_max mem nng n (cv + 1) (iscc_fs_mark_seed_neighbors cv nng marks) r.2
    else
      lexical_loop clabel_max mem nng n (cv + 1) marks out

/-- Seeds in vertex order (`iscc_findseeds_lexical`). -/
def iscc_findseeds_lexical (clabel_max : Nat) (mem : Mem) (nng : iscc_Digraph)
    (out_seeds : iscc_SeedResult) : ScanState :=
  if !(mem AllocSite.marks nng.vertices && mem AllocSite.seeds out_seeds.capacity) then
    { ec := scc_ErrorCode.SCC_ER_NO_MEMORY, marks := fun _ => false, sort := null_sort,
      out := out_seeds }
  else
    lexical_loop clabel_max mem nng nng.vertices 0 (fun _ => false)
      { out_seeds with seeds := some (fun _ => 0) }

/-- The update of `iscc_findseeds_inwards` after the seed at position `pos` was marked:
every unmarked, not yet scanned successor of a successor of the seed moves one bucket
down. -/
def inwards_update (nng : iscc_Digraph) (marks : Nat → Bool) (pos : Nat) (seed : Nat)
    (sort : iscc_fs_SortResult) : iscc_fs_SortResult :=
  (nng.arcs seed).foldl
    (fun sr v_arc =>
      (nng.arcs v_arc).foldl
        (fun sr v_arc_arc =>
          if !marks v_arc_arc && decide (pos < sr.vertex_index v_arc_arc) then
            iscc_fs_decrease_v_in_sort v_arc_arc sr pos
          else sr)
        sr)
    sort

/-- The scan loop of `iscc_findseeds_inwards`: `n` iterations starting at position `pos`
of `sorted_vertices`. -/
def inwards_loop (clabel_max : Nat) (mem : Mem) (nng : iscc_Digraph) (updating : Bool) :
    Nat → Nat → (Nat → Bool) → iscc_fs_SortResult → iscc_SeedResult → ScanState
  | 0, _, marks, sort, out =>
    { ec := scc_ErrorCode.SCC_ER_OK, marks := marks, sort := sort, out := out }
  | n + 1, pos, marks, sort, out =>
    let v := sort.sorted_vertices pos
    if iscc_fs_check_neighbors_marks v nng marks then
      let r := iscc_fs_add_seed clabel_max mem v out
      if r.1 ≠ scc_ErrorCode.SCC_ER_OK then
        { ec := r.1, marks := marks, sort := sort, out := r.2 }
      else
        let marks1 := iscc_fs_mark_seed_neighbors v nng marks
        let sort1 := if updating then inwards_update nng marks1 pos v sort else sort
        inwards_loop clabel_max mem nng updating n (pos + 1) marks1 sort1 r.2
    else
      inwards_loop clabel_max mem nng updating n (pos + 1) marks sort out

/-- Seeds in order of in-degree (`iscc_findseeds_inwards`). -/
def iscc_findseeds_inwards (clabel_max : Nat) (mem : Mem) (nng : iscc_Digraph)
    (updating : Bool) (out_seeds : iscc_SeedResult) : ScanState :=
  let s := iscc_fs_sort_by_inwards mem nng updating
  if s.1 ≠ scc_ErrorCode.SCC_ER_OK then
    { ec := s.1, marks := fun _ => false, sort := s.2, out := out_seeds }
  else if !(mem AllocSite.marks nng.vertices && mem AllocSite.seeds out_seeds.capacity) then
    { ec := scc_ErrorCode.SCC_ER_NO_MEMORY, marks := fun _ => false, sort := s.2,
      out := out_seeds }
  else
    inwards_loop clabel_max mem nng updating nng.vertices 0 (fun _ => false) s.2
      { out_seeds with seeds := some (fun _ => 0) }

/-! ## Digraph operations used by the exclusion finder -/

/-- Modelled from the spec: `iscc_digraph_transpose` (section 4.C, `transpose(G)`), whose
source file is not part of the sources at hand. Row `w` of the result lists the tails
`v` of the arcs `v → w`, in ascending `v`, one entry per arc. -/
def iscc_digraph_transpose (mem : Mem) (dg : iscc_Digraph) : scc_ErrorCode × iscc_Digraph :=
  if !(mem AllocSite.nng_transpose (dg.tp dg.vertices)) then
    (scc_ErrorCode.SCC_ER_NO_MEMORY, digraph_of_rows 0 (fun _ => []))
  else
    (scc_ErrorCode.SCC_ER_OK,
      digraph_of_rows dg.vertices (fun w =>
        (List.range dg.vertices).flatMap (fun v =>
          ((dg.arcs v).filter (fun x => x = w)).map (fun _ => v))))

/-- Modelled from the spec: `iscc_adjacency_product` (section 4.C,
`adjacency_product(A, B, force_diagonal, ignore_diagonal)`), whose source file is not
part of the sources at hand. The result has an arc `u → w` iff some `v` has an `A`-arc
`u → v` and a `B`-arc `v → w`. With `force_diagonal` the arc `u → u` counts as an arc of
`A`, so that the row of `u` is taken over the closed neighbourhood of `u` and a vertex
without arcs in `A` gets the arcs of its row of `B` (the comment in
`iscc_exclusion_graph`: in the exclusion graph such a vertex would have arcs to the
vertices that point to it), and `u → u` is inserted into the result; `ignore_diagonal`
drops `u → u` from it. Rows are deduplicated (ascending targets). -/
def iscc_adjacency_product (mem : Mem) (dg_a dg_b : iscc_Digraph)
    (force_diagonal ignore_diagonal : Bool) : scc_ErrorCode × iscc_Digraph :=
  let row : Nat → List Nat := fun u =>
    (List.range dg_a.vertices).filter (fun w =>
      (((dg_a.arcs u).any (fun v => decide (w ∈ dg_b.arcs v))) ||
        (force_diagonal && (decide (w ∈ dg_b.arcs u) || decide (w = u)))) &&
      !(ignore_diagonal && decide (w = u)))
  if !(mem AllocSite.nng_nng_transpose (((List.range dg_a.vertices).flatMap row).length)) then
    (scc_ErrorCode.SCC_ER_NO_MEMORY, digraph_of_rows 0 (fun _ => []))
  else
    (scc_ErrorCode.SCC_ER_OK, digraph_of_rows dg_a.vertices row)

/-- Modelled from the spec: `iscc_digraph_union_and_delete` (section 4.C,
`union_and_delete(Gs, keep_mask)`), whose source file is not part of the sources at
hand. Row `v` of the result is the union of the rows `v` of the given digraphs,
restricted to the targets `w` with `keep_mask[w]`, and is empty if `keep_mask[v]` is
false. Rows are deduplicated (ascending targets). `vertices` is the vertex count of the
given digraphs. -/
def iscc_digraph_union_and_delete (mem : Mem) (vertices : Nat) (dgs : List iscc_Digraph)
    (keep_mask : Nat → Bool) : scc_ErrorCode × iscc_Digraph :=
  let row : Nat → List Nat := fun v =>
    if keep_mask v then
      (List.range vertices).filter (fun w =>
        keep_mask w && dgs.any (fun dg => decide (w ∈ dg.arcs v)))
    else []
  if !(mem AllocSite.exclusion_graph (((List.range vertices).flatMap row).length)) then
    (scc_ErrorCode.SCC_ER_NO_MEMORY, digraph_of_rows 0 (fun _ => []))
  else
    (scc_ErrorCode.SCC_ER_OK, digraph_of_rows vertices row)

/-- The exclusion graph of an NNG (`iscc_exclusion_graph`). -/
def iscc_exclusion_graph (mem : Mem) (nng : iscc_Digraph) (not_excluded : Nat → Bool) :
    scc_ErrorCode × iscc_Digraph :=
  let t := iscc_digraph_transpose mem nng
  if t.1 ≠ scc_ErrorCode.SCC_ER_OK then (t.1, digraph_of_rows 0 (fun _ => []))
  else
    let p := iscc_adjacency_product mem nng t.2 true false
    if p.1 ≠ scc_ErrorCode.SCC_ER_OK then (p.1, digraph_of_rows 0 (fun _ => []))
    else
      let u := iscc_digraph_union_and_delete mem nng.vertices [nng, p.2] not_excluded
      if u.1 ≠ scc_ErrorCode.SCC_ER_OK then (u.1, digraph_of_rows 0 (fun _ => []))
      else (scc_ErrorCode.SCC_ER_OK, u.2)

/-- The exclusion step of `iscc_findseeds_exclusion` after the seed at position `pos` was
appended and excluded: every not yet excluded successor of the seed in the exclusion
graph is excluded and, when updating, each of its not excluded successors moves one
bucket down. The state is `(not_excluded, sort)`. -/
def exclusion_update (exclusion_graph : iscc_Digraph) (updating : Bool) (pos : Nat)
    (seed : Nat) (st : (Nat → Bool) × iscc_fs_SortResult) :
    (Nat → Bool) × iscc_fs_SortResult :=
  (exclusion_graph.arcs seed).foldl
    (fun st ex_arc =>
      if st.1 ex_arc then
        let not_excluded := Function.update st.1 ex_arc false
        if updating then
          (not_excluded,
            (exclusion_graph.arcs ex_arc).foldl
              (fun sr ex_arc_arc =>
                if not_excluded ex_arc_arc then
                  iscc_fs_decrease_v_in_sort ex_arc_arc sr pos
                else sr)
              st.2)
        else (not_excluded, st.2)
      else st)
    st

/-- The scan loop of `iscc_findseeds_exclusion`: `n` iterations starting at position
`pos` of `sorted_vertices`; the `marks` field of the state is `not_excluded`. -/
def exclusion_loop (clabel_max : Nat) (mem : Mem) (exclusion_graph : iscc_Digraph)
    (updating : Bool) :
    Nat → Nat → (Nat → Bool) → iscc_fs_SortResult → iscc_SeedResult → ScanState
  | 0, _, not_excluded, sort, out =>
    { ec := scc_ErrorCode.SCC_ER_OK, marks := not_excluded, sort := sort, out := out }
  | n + 1, pos, not_excluded, sort, out =>
    let v := sort.sorted_vertices pos
    if not_excluded v then
      let r := iscc_fs_add_seed clabel_max mem v out
      if r.1 ≠ scc_ErrorCode.SCC_ER_OK then
        { ec := r.1, marks := not_excluded, sort := sort, out := r.2 }
      else
        let st := exclusion_update exclusion_graph updating pos v
          (Function.update not_excluded v false, sort)
        exclusion_loop clabel_max mem exclusion_graph updating n (pos + 1) st.1 st.2 r.2
    else
      exclusion_loop clabel_max mem exclusion_graph updating n (pos + 1) not_excluded sort out

/-- The initial `not_excluded` array of `iscc_findseeds_exclusion`: vertex `v` is not
excluded iff it has an arc. The array has `vertices` entries. -/
def exclusion_init (nng : iscc_Digraph) : Nat → Bool :=
  fun v => decide (v < nng.vertices) && decide (nng.tp v ≠ nng.tp (v + 1))

/-- Seeds by independence in the exclusion graph (`iscc_findseeds_exclusion`). -/
def iscc_findseeds_exclusion (clabel_max : Nat) (mem : Mem) (nng : iscc_Digraph)
    (updating : Bool) (out_seeds : iscc_SeedResult) : ScanState :=
  if !(mem AllocSite.not_excluded nng.vertices) then
    { ec := scc_ErrorCode.SCC_ER_NO_MEMORY, marks := fun _ => false, sort := null_sort,
      out := out_seeds }
  else
    let not_excluded := exclusion_init nng
    let e := iscc_exclusion_graph mem nng not_excluded
    if e.1 ≠ scc_ErrorCode.SCC_ER_OK then
      { ec := e.1, marks := not_excluded, sort := null_sort, out := out_seeds }
    else
      let s := iscc_fs_sort_by_inwards mem e.2 updating
      if s.1 ≠ scc_ErrorCode.SCC_ER_OK then
        { ec := s.1, marks := not_excluded, sort := s.2, out := out_seeds }
      else if !(mem AllocSite.seeds out_seeds.capacity) then
        { ec := scc_ErrorCode.SCC_ER_NO_MEMORY, marks := not_excluded, sort := s.2,
          out := out_seeds }
      else
        exclusion_loop clabel_max mem e.2 updating nng.vertices 0 not_excluded s.2
          { out_seeds with seeds := some (fun _ => 0) }

/-- Find seeds with the selected heuristic (`iscc_find_seeds`). -/
def iscc_find_seeds (clabel_max : Nat) (mem : Mem) (nng : iscc_Digraph)
    (sm : scc_SeedMethod) (out_seeds : iscc_SeedResult) : scc_ErrorCode × iscc_SeedResult :=
  let out1 : iscc_SeedResult :=
    if out_seeds.capacity < 128 then { out_seeds with capacity := 128 } else out_seeds
  let r : scc_ErrorCode × iscc_SeedResult :=
    match sm with
    | scc_SeedMethod.SCC_SM_LEXICAL =>
      let s := iscc_findseeds_lexical clabel_max mem nng out1
      (s.ec, s.out)
    | scc_SeedMethod.SCC_SM_INWARDS_ORDER =>
      let s := iscc_findseeds_inwards clabel_max mem nng false out1
      (s.ec, s.out)
    | scc_SeedMethod.SCC_SM_INWARDS_UPDATING =>
      let s := iscc_findseeds_inwards clabel_max mem nng true out1
      (s.ec, s.out)
    | scc_SeedMethod.SCC_SM_EXCLUSION_ORDER =>
      let s := iscc_findseeds_exclusion clabel_max mem nng false out1
      (s.ec, s.out)
    | scc_SeedMethod.SCC_SM_EXCLUSION_UPDATING =>
      let s := iscc_findseeds_exclusion clabel_max mem nng true out1
      (s.ec, s.out)
    | scc_SeedMethod.SCC_SM_UNKNOWN => (scc_ErrorCode.SCC_ER_NOT_IMPLEMENTED, out1)
  if r.1 = scc_ErrorCode.SCC_ER_OK then
    if r.2.count < r.2.capacity ∧ r.2.count > 0 then
      if mem AllocSite.seeds_shrink r.2.count then
        (scc_ErrorCode.SCC_ER_OK, { r.2 with capacity := r.2.count })
      else (scc_ErrorCode.SCC_ER_OK, r.2)
    else (scc_ErrorCode.SCC_ER_OK, r.2)
  else (r.1, ISCC_NULL_SEED_RESULT)

/-! ## The nearest-neighbour search kernel (`nn_search.c`) -/

/-- Modelled from the spec: the build constant `SCC_VID_MAX` of `config.h`, which is not
part of the sources at hand; section 6 gives the default vertex-ID width, 32-bit
unsigned, and `VID_SENTINEL = MAX`. -/
def SCC_VID_MAX : Nat := 2 ^ 32 - 1

/-- Data set (`scc_DataSetObject`): a row-major `rows × cols` matrix. Coordinates and
distances are exact rationals. -/
structure scc_DataSetObject where
  cols : Nat
  rows : Nat
  elements : List ℚ

/-- Euclidean distance of two rows (`iscc_get_dist`); `sqrt` is the square root of the
math library, taken as a parameter. -/
def iscc_get_dist (sqrt : ℚ → ℚ) (data_set_object : scc_DataSetObject)
    (index1 index2 : Nat) : ℚ :=
  sqrt ((List.range data_set_object.cols).foldl
    (fun tmp_dist dim =>
      let value_diff :=
        data_set_object.elements.getD (data_set_object.cols * index1 + dim) 0 -
          data_set_object.elements.getD (data_set_object.cols * index2 + dim) 0
      tmp_dist + value_diff * value_diff)
    0)

/-- Search object (`scc_NNSearchObject`); `search_indices = none` is the NULL pointer. -/
structure scc_NNSearchObject where
  data_set_object : scc_DataSetObject
  k : Nat
  radius_search : Bool
  radius : ℚ
  n_search_points : Nat
  search_indices : Option (List Nat)

/-- The search point enumerated at step `sp`. -/
def scc_NNSearchObject.search_point (so : scc_NNSearchObject) (sp : Nat) : Nat :=
  match so.search_indices with
  | none => sp
  | some l => l.getD sp 0

/-- The search set in its enumeration order. -/
def scc_NNSearchObject.search_set (so : scc_NNSearchObject) : List Nat :=
  (List.range so.n_search_points).map so.search_point

/-- Output cursor of the search: the index array, the distance array in use (the
caller's `nn_dists` or `sort_scratch`) and the two write positions. -/
structure NNState where
  nn_indices : Nat → Nat
  dists : Nat → ℚ
  index_pos : Nat
  dist_pos : Nat

/-- The bubble loop of `scc_nearest_neighbor_search`: `n` is `check_dist - start_dist_pos`;
the entry at `check_dist` moves left while its left neighbour is strictly farther. -/
def nn_bubble : Nat → Nat → Nat → (Nat → Nat) × (Nat → ℚ) → (Nat → Nat) × (Nat → ℚ)
  | 0, _, _, a => a
  | n + 1, check_index, check_dist, a =>
    if a.2 (check_dist - 1) > a.2 check_dist then
      let tmp_index := a.1 check_index
      let tmp_dist := a.2 check_dist
      let idx1 := Function.update a.1 check_index (a.1 (check_index - 1))
      let dst1 := Function.update a.2 check_dist (a.2 (check_dist - 1))
      let idx2 := Function.update idx1 (check_index - 1) tmp_index
      let dst2 := Function.update dst1 (check_dist - 1) tmp_dist
      nn_bubble n (check_index - 1) (check_dist - 1) (idx2, dst2)
    else a

/-- One iteration of the loop over the search points in `scc_nearest_neighbor_search`. -/
def nn_visit (sqrt : ℚ → ℚ) (so : scc_NNSearchObject) (current_query : Nat)
    (start_dist_pos stop_dist_pos : Nat) (st : NNState) (search_point : Nat) : NNState :=
  let tmp_dist := iscc_get_dist sqrt so.data_set_object current_query search_point
  if so.radius_search && decide (tmp_dist ≥ so.radius) then st
  else
    let st1 : NNState :=
      if st.dist_pos ≠ stop_dist_pos then
        { nn_indices := Function.update st.nn_indices st.index_pos search_point
          dists := Function.update st.dists st.dist_pos tmp_dist
          index_pos := st.index_pos + 1
          dist_pos := st.dist_pos + 1 }
      else if st.dists (st.dist_pos - 1) > tmp_dist then
        { nn_indices := Function.update st.nn_indices (st.index_pos - 1) search_point
          dists := Function.update st.dists (st.dist_pos - 1) tmp_dist
          index_pos := st.index_pos
          dist_pos := st.dist_pos }
      else st
    let a := nn_bubble (st1.dist_pos - 1 - start_dist_pos) (st1.index_pos - 1)
      (st1.dist_pos - 1) (st1.nn_indices, st1.dists)
    { nn_indices := a.1, dists := a.2, index_pos := st1.index_pos, dist_pos := st1.dist_pos }

/-- The sentinel loop of `scc_nearest_neighbor_search`: `n` is `stop_dist_pos - dist_pos`. -/
def nn_fill : Nat → NNState → NNState
  | 0, st => st
  | n + 1, st =>
    nn_fill n
      { nn_indices := Function.update st.nn_indices st.index_pos SCC_VID_MAX
        dists := Function.update st.dists st.dist_pos (-1)
        index_pos := st.index_pos + 1
        dist_pos := st.dist_pos + 1 }

/-- The query enumerated at step `qp`. -/
def nn_query (query_indices : Option (List Nat)) (qp : Nat) : Nat :=
  match query_indices with
  | none => qp
  | some l => l.getD qp 0

/-- One iteration of the loop over the queries in `scc_nearest_neighbor_search`;
`scratch` says that `nn_dists` is NULL, so that the window restarts at slot 0 of
`sort_scratch`. -/
def nn_query_step (sqrt : ℚ → ℚ) (so : scc_NNSearchObject)
    (query_indices : Option (List Nat)) (scratch : Bool) (st : NNState) (qp : Nat) : NNState :=
  let current_query := nn_query query_indices qp
  let st0 : NNState := if scratch then { st with dist_pos := 0 } else st
  let start_dist_pos := st0.dist_pos
  let stop_dist_pos := st0.dist_pos + so.k
  let st1 := (List.range so.n_search_points).foldl
    (fun st sp => nn_visit sqrt so current_query start_dist_pos stop_dist_pos st
      (so.search_point sp))
    st0
  nn_fill (stop_dist_pos - st1.dist_pos) st1

/-- The `k` nearest search points of each query (`scc_nearest_neighbor_search`). The
result is the return value, the index output and the distance output (`none` when the
caller passed NULL). -/
def scc_nearest_neighbor_search (sqrt : ℚ → ℚ) (mem : Mem) (so : scc_NNSearchObject)
    (n_query_points : Nat) (query_indices : Option (List Nat)) (nn_indices : Nat → Nat)
    (nn_dists : Option (Nat → ℚ)) : Bool × (Nat → Nat) × Option (Nat → ℚ) :=
  match nn_dists with
  | none =>
    if !(mem AllocSite.sort_scratch so.k) then (false, nn_indices, none)
    else
      let st := (List.range n_query_points).foldl
        (nn_query_step sqrt so query_indices true)
        { nn_indices := nn_indices, dists := fun _ => 0, index_pos := 0, dist_pos := 0 }
      (true, st.nn_indices, none)
  | some d =>
    let st := (List.range n_query_points).foldl
      (nn_query_step sqrt so query_indices false)
      { nn_indices := nn_indices, dists := d, index_pos := 0, dist_pos := 0 }
    (true, st.nn_indices, some st.dists)

/-! ## Predicates used in the statements and proofs -/

/-- Marks and seed list agree: a vertex is marked iff it lies in the closed neighbourhood
of a listed seed, and the closed neighbourhoods of the listed seeds are pairwise
disjoint. -/
def SeedInv (nng : iscc_Digraph) (marks : Nat → Bool) (l : List Nat) : Prop :=
  (∀ x, marks x = true ↔ ∃ s ∈ l, x ∈ nng.closed s) ∧
  l.Pairwise (fun s s' => ∀ x, x ∈ nng.closed s → x ∉ nng.closed s')

/-! ## Concrete inputs -/

/-- The allocator that never fails. -/
def mem_ok : Mem := fun _ _ => true

/-- The NNG of scenario S1: `x = [0, 1, 10, 11]`, `k = 1`. -/
def nng_S1 : iscc_Digraph :=
  { vertices := 4, max_arcs := 4, head := [1, 0, 3, 2], tail_ptr := [0, 1, 2, 3, 4] }

/-- The NNG of scenario S2: the regular hexagon with `k = 2`; every vertex points to its
two adjacent vertices. -/
def nng_S2 : iscc_Digraph :=
  { vertices := 6, max_arcs := 12, head := [1, 5, 0, 2, 1, 3, 2, 4, 3, 5, 0, 4],
    tail_ptr := [0, 2, 4, 6, 8, 10, 12] }

/-- The NNG of scenario S3: `x = [0, 1, 2, 3, 4]`, `k = 2`. -/
def nng_S3 : iscc_Digraph :=
  { vertices := 5, max_arcs := 10, head := [1, 2, 0, 2, 1, 3, 2, 4, 3, 2],
    tail_ptr := [0, 2, 4, 6, 8, 10] }

/-- The directed 3-cycle `0 → 1 → 2 → 0` (every vertex has exactly one successor). -/
def nng_cycle3 : iscc_Digraph :=
  { vertices := 3, max_arcs := 3, head := [1, 2, 0], tail_ptr := [0, 1, 2, 3] }

/-- State of the exclusion scan: a vertex is not excluded iff it has an arc, is not a
listed seed and is not a successor, in the exclusion graph `eg`, of a listed seed; no
listed seed is a successor in `eg` of an earlier one. -/
def ExclInv (nng eg : iscc_Digraph) (ne : Nat → Bool) (l : List Nat) : Prop :=
  (∀ x, ne x = true ↔ (exclusion_init nng x = true ∧ x ∉ l ∧ ∀ s ∈ l, x ∉ eg.arcs s)) ∧
  (∀ s ∈ l, exclusion_init nng s = true) ∧
  l.Pairwise (fun s s' => s' ≠ s ∧ s' ∉ eg.arcs s)

/-- Position of vertex `v` in the bucket sort of the vertices `0 .. n-1` by `key`: the
number of vertices with a smaller key plus the number of smaller vertices with the same
key. -/
def sorted_pos (n : Nat) (key : Nat → Nat) (v : Nat) : Nat :=
  (List.range n).countP (fun u => decide (key u < key v)) +
    (List.range v).countP (fun u => decide (key u = key v))

/-- Consistency of the sort structure over `n` vertices with keys at most `m`, for the
positions from `lo` on: `vertex_index` is inverse to `sorted_vertices`, and position
`i ≥ lo` lies at or after `bucket_index[b]` iff the vertex there has key at least `b`. -/
structure SortInv (n lo m : Nat) (sr : iscc_fs_SortResult) : Prop where
  vidx_lt : ∀ v, v < n → sr.vertex_index v < n
  sorted_vidx : ∀ v, v < n → sr.sorted_vertices (sr.vertex_index v) = v
  key_le : ∀ v, v < n → sr.inwards_count v ≤ m
  bucket : ∀ b, b ≤ m → ∀ i, lo ≤ i → i < n →
    (sr.bucket_index b ≤ i ↔ b ≤ sr.inwards_count (sr.sorted_vertices i))

/-- The slot `move_to` that `iscc_fs_decrease_v_in_sort` swaps the vertex into. -/
def decrease_move_to (v : Nat) (sr : iscc_fs_SortResult) (current_pos : Nat) : Nat :=
  if sr.bucket_index (sr.inwards_count v) ≤ current_pos then current_pos + 1
  else sr.bucket_index (sr.inwards_count v)

/-- Number of arcs `u → w` of `dg` whose tail `u` is live. -/
def live_indegree (dg : iscc_Digraph) (live : Nat → Bool) (w : Nat) : Nat :=
  ((List.range dg.vertices).map (fun u => if live u then (dg.arcs u).count w else 0)).sum

/-- The covered vertices of a seed list: the union of the closed neighbourhoods. -/
def covered (nng : iscc_Digraph) (seeds : List Nat) (x : Nat) : Prop :=
  ∃ s ∈ seeds, x ∈ nng.closed s

/-- Vertex `v` is a valid next seed (section 4.D): it is not covered, has an arc, and none
of its successors is covered. -/
def valid_next_seed (nng : iscc_Digraph) (seeds : List Nat) (v : Nat) : Prop :=
  ¬ covered nng seeds v ∧ 0 < (nng.arcs v).length ∧ ∀ u ∈ nng.arcs v, ¬ covered nng seeds u

/-! ## Labelling the seeds' neighbourhoods (section 4.E, step 2) -/

/-- Label array of the assembler (`none` is UNASSIGNED), with a flag that records
whether some write found its entry already assigned. -/
structure LabelState where
  labels : Nat → Option Nat
  relabelled : Bool

/-- The unassigned label array. -/
def unassigned : LabelState := { labels := fun _ => none, relabelled := false }

/-- Modelled from the spec: the assignment `labels[x] = K` of step 2 in section 4.E. -/
def assign_label (k : Nat) (st : LabelState) (x : Nat) : LabelState :=
  { labels := Function.update st.labels x (some k)
    relabelled := st.relabelled || (st.labels x).isSome }

/-- Modelled from the spec: step 2 of the clustering assembler (section 4.E), whose
source file is not part of the sources at hand: for each seed in order, label `K` goes
to the seed and to every successor of the seed, then `K` is incremented. -/
def label_seeds (nng : iscc_Digraph) : List Nat → Nat → LabelState → LabelState
  | [], _, st => st
  | s :: rest, k, st => label_seeds nng rest (k + 1) ((nng.closed s).foldl (assign_label k) st)

/-- Number of the vertices `0 .. n-1` that carry label `k`. -/
def cluster_size (n : Nat) (labels : Nat → Option Nat) (k : Nat) : Nat :=
  ((List.range n).filter (fun v => decide (labels v = some k))).length

/-- Every vertex has exactly `k` distinct successors, none equal to itself. -/
def is_regular_nng (nng : iscc_Digraph) (k : Nat) : Prop :=
  ∀ v, v < nng.vertices → (nng.arcs v).length = k ∧ (nng.arcs v).Nodup ∧ v ∉ nng.arcs v

instance (nng : iscc_Digraph) (k : Nat) : Decidable (is_regular_nng nng k) := by
  unfold is_regular_nng
  infer_instance

/-! ## Reference notions for the nearest-neighbour search -/

/-- Is search point `s` admissible for query `q`: radius search is off, or `s` is
strictly closer than the radius. -/
def nn_admissible (sqrt : ℚ → ℚ) (so : scc_NNSearchObject) (q s : Nat) : Bool :=
  !(so.radius_search && decide (iscc_get_dist sqrt so.data_set_object q s ≥ so.radius))

/-- The admissible search points of query `q`, in the enumeration order of the search
set. -/
def nn_admissible_list (sqrt : ℚ → ℚ) (so : scc_NNSearchObject) (q : Nat) : List Nat :=
  so.search_set.filter (nn_admissible sqrt so q)

/-- The admissible search points of query `q`, stably sorted by their distance to `q`
(insertion sort keeps the enumeration order among equal distances). -/
def nn_sorted (sqrt : ℚ → ℚ) (so : scc_NNSearchObject) (q : Nat) : List Nat :=
  List.insertionSort
    (fun a b => iscc_get_dist sqrt so.data_set_object q a ≤
      iscc_get_dist sqrt so.data_set_object q b)
    (nn_admissible_list sqrt so q)

/-- Insert `c` into a list after every leading entry whose key is at most the key of
`c`. -/
def insert_after (d : Nat → ℚ) (c : Nat) : List Nat → List Nat
  | [] => [c]
  | x :: l => if d x ≤ d c then x :: insert_after d c l else c :: x :: l

/-- The `n` consecutive entries of an array from slot `b` on. -/
def nn_block {α : Type} (f : Nat → α) (b n : Nat) : List α :=
  (List.range n).map (fun j => f (b + j))

/-- State of the search window of one query: the window starts at slot `ib` of the index
array and slot `db` of the distance array, holds the list `w`, every distance slot holds
the distance of the search point in the matching index slot, and the slots before the
window are as they were (`idx0`, `dst0`). -/
structure WindowInv (d : Nat → ℚ) (k ib db : Nat) (idx0 : Nat → Nat) (dst0 : Nat → ℚ)
    (w : List Nat) (st : NNState) : Prop where
  len_le : w.length ≤ k
  ipos : st.index_pos = ib + w.length
  dpos : st.dist_pos = db + w.length
  view : nn_block st.nn_indices ib w.length = w
  pairs : ∀ j, j < w.length → st.dists (db + j) = d (st.nn_indices (ib + j))
  frame_idx : ∀ i, i < ib → st.nn_indices i = idx0 i
  frame_dst : ∀ i, i < db → st.dists i = dst0 i

/-- The slots of query number `qp` hold its result: the first entries of the index block
that starts at slot `qp * k` list the `k` closest admissible search points in stable
order, the rest of the block holds `SCC_VID_MAX`, and (when the distances are kept, that
is when `scratch` is false) the distance block holds the matching distances and `-1`. -/
def nn_block_ok (sqrt : ℚ → ℚ) (so : scc_NNSearchObject) (query_indices : Option (List Nat))
    (scratch : Bool) (st : NNState) (qp : Nat) : Prop :=
  nn_block st.nn_indices (qp * so.k)
      ((nn_sorted sqrt so (nn_query query_indices qp)).take so.k).length =
    (nn_sorted sqrt so (nn_query query_indices qp)).take so.k ∧
  (∀ j, ((nn_sorted sqrt so (nn_query query_indices qp)).take so.k).length ≤ j → j < so.k →
    st.nn_indices (qp * so.k + j) = SCC_VID_MAX) ∧
  (scratch = false →
    (∀ j, j < ((nn_sorted sqrt so (nn_query query_indices qp)).take so.k).length →
      st.dists (qp * so.k + j) =
        iscc_get_dist sqrt so.data_set_object (nn_query query_indices qp)
          (st.nn_indices (qp * so.k + j))) ∧
    (∀ j, ((nn_sorted sqrt so (nn_query query_indices qp)).take so.k).length ≤ j → j < so.k →
      st.dists (qp * so.k + j) = -1))

/-! ## Scenario S4 of the nearest-neighbour search -/

/-- The data set of scenario S4: the three points `x = [0, 1, 2]` on a line. -/
def ds_S4 : scc_DataSetObject := { cols := 1, rows := 3, elements := [0, 1, 2] }

/-- The search object of scenario S4: `k = 2`, no radius, every row is a search point. -/
def so_S4 : scc_NNSearchObject :=
  { data_set_object := ds_S4, k := 2, radius_search := false, radius := 0,
    n_search_points := 3, search_indices := none }

/-- A radius search on the data of scenario S4: `k = 3` within the radius `3 / 2`. -/
def so_S4_radius : scc_NNSearchObject :=
  { data_set_object := ds_S4, k := 3, radius_search := true, radius := 3 / 2,
    n_search_points := 3, search_indices := none }

/-- A square root that is exact on the squared distances `0`, `1` and `4` of scenario
S4. -/
def sqrt_S4 (x : ℚ) : ℚ := if x = 4 then 2 else x

/-! ## Farthest search point (`scc_get_max_dist`) -/

/-- Search object of the farthest-point query (`scc_MaxDistObject`);
`search_indices = none` is the NULL pointer. -/
structure scc_MaxDistObject where
  data_set_object : scc_DataSetObject
  n_search_points : Nat
  search_indices : Option (List Nat)

/-- The search point enumerated at step `sp`. -/
def scc_MaxDistObject.search_point (mdo : scc_MaxDistObject) (sp : Nat) : Nat :=
  match mdo.search_indices with
  | none => sp
  | some l => l.getD sp 0

/-- The search set in its enumeration order. -/
def scc_MaxDistObject.search_set (mdo : scc_MaxDistObject) : List Nat :=
  (List.range mdo.n_search_points).map mdo.search_point

/-- One iteration of the loop over the search points in `scc_get_max_dist`; the state is
`(max_dist, max_indices)`. -/
def max_dist_visit (sqrt : ℚ → ℚ) (mdo : scc_MaxDistObject) (current_query qp : Nat)
    (st : ℚ × (Nat → Nat)) (search_point : Nat) : ℚ × (Nat → Nat) :=
  let tmp_dist := iscc_get_dist sqrt mdo.data_set_object current_query search_point
  if st.1 < tmp_dist then (tmp_dist, Function.update st.2 qp search_point) else st

/-- One iteration of the loop over the queries in `scc_get_max_dist`; the state is
`(max_indices, max_dists)`. -/
def max_dist_query_step (sqrt : ℚ → ℚ) (mdo : scc_MaxDistObject)
    (query_indices : Option (List Nat)) (st : (Nat → Nat) × Option (Nat → ℚ)) (qp : Nat) :
    (Nat → Nat) × Option (Nat → ℚ) :=
  let current_query := nn_query query_indices qp
  let r := (List.range mdo.n_search_points).foldl
    (fun st sp => max_dist_visit sqrt mdo current_query qp st (mdo.search_point sp))
    (-1, st.1)
  (r.2, st.2.map (fun d => Function.update d qp r.1))

/-- The farthest search point of each query (`scc_get_max_dist`). The result is the
return value, the index output and the distance output (`none` when the caller passed
NULL). -/
def scc_get_max_dist (sqrt : ℚ → ℚ) (mdo : scc_MaxDistObject) (n_query_points : Nat)
    (query_indices : Option (List Nat)) (max_indices : Nat → Nat)
    (max_dists : Option (Nat → ℚ)) : Bool × (Nat → Nat) × Option (Nat → ℚ) :=
  let st := (List.range n_query_points).foldl (max_dist_query_step sqrt mdo query_indices)
    (max_indices, max_dists)
  (true, st.1, st.2)

/-- The farthest-point search object on the data of scenario S4: every row is a search
point. -/
def mdo_S4 : scc_MaxDistObject :=
  { data_set_object := ds_S4, n_search_points := 3, search_indices := none }

/-- The outputs of `scc_get_max_dist` are right for query number `qp`: the index written
is a search point that is at least as far from the query as every search point and
strictly farther than every search point enumerated before it, and the distance written
(when distances are kept) is its distance. -/
def max_dist_ok (sqrt : ℚ → ℚ) (mdo : scc_MaxDistObject) (query_indices : Option (List Nat))
    (out : (Nat → Nat) × Option (Nat → ℚ)) (qp : Nat) : Prop :=
  ∃ i, i < mdo.search_set.length ∧ mdo.search_set.getD i 0 = out.1 qp ∧
    (∀ j, j < i →
      iscc_get_dist sqrt mdo.data_set_object (nn_query query_indices qp)
          (mdo.search_set.getD j 0) <
        iscc_get_dist sqrt mdo.data_set_object (nn_query query_indices qp) (out.1 qp)) ∧
    (∀ s, s ∈ mdo.search_set →
      iscc_get_dist sqrt mdo.data_set_object (nn_query query_indices qp) s ≤
        iscc_get_dist sqrt mdo.data_set_object (nn_query query_indices qp) (out.1 qp)) ∧
    ∀ od, out.2 = some od →
      od qp = iscc_get_dist sqrt mdo.data_set_object (nn_query query_indices qp) (out.1 qp)

/-! ## Distance matrix (`scc_get_dist_matrix`) -/

/-- The two nested loops of `scc_get_dist_matrix`; `point p` is the data point at position
`p` of the list (`p` itself in the branch without `point_indices`). The state is the
offset of the write pointer from the start of `output_dists` and the output array. -/
def dist_matrix_loops (sqrt : ℚ → ℚ) (data_set_object : scc_DataSetObject) (n_points : Nat)
    (point : Nat → Nat) (output_dists : Nat → ℚ) : Nat × (Nat → ℚ) :=
  (List.range n_points).foldl
    (fun st p1 =>
      (List.range' (p1 + 1) (n_points - (p1 + 1))).foldl
        (fun st p2 =>
          (st.1 + 1,
            Function.update st.2 st.1 (iscc_get_dist sqrt data_set_object (point p1) (point p2))))
        st)
    (0, output_dists)

/-- The distances between all pairs of the given points (`scc_get_dist_matrix`);
`point_indices = none` is the NULL pointer. The result is the return value and the
output array. -/
def scc_get_dist_matrix (sqrt : ℚ → ℚ) (data_set_object : scc_DataSetObject) (n_points : Nat)
    (point_indices : Option (List Nat)) (output_dists : Nat → ℚ) : Bool × (Nat → ℚ) :=
  match point_indices with
  | none =>
    (true, (dist_matrix_loops sqrt data_set_object n_points (fun p => p) output_dists).2)
  | some l =>
    (true,
      (dist_matrix_loops sqrt data_set_object n_points (fun p => l.getD p 0) output_dists).2)

/-- The point at position `p` of the point list of `scc_get_dist_matrix`. -/
def dist_matrix_point (point_indices : Option (List Nat)) (p : Nat) : Nat :=
  match point_indices with
  | none => p
  | some l => l.getD p 0

/-- Number of pairs `(r, j)` with `r < i` and `r < j < n`: the offset at which row `i` of
the distance matrix starts. -/
def row_offset (n : Nat) : Nat → Nat
  | 0 => 0
  | i + 1 => row_offset n i + (n - 1 - i)

/-! ## The two halves of `iscc_find_seeds` -/

/-- The seed result the heuristics start from: `iscc_find_seeds` raises the capacity to at
least 128. -/
def find_seeds_start (out_seeds : iscc_SeedResult) : iscc_SeedResult :=
  if out_seeds.capacity < 128 then { out_seeds with capacity := 128 } else out_seeds

/-- The heuristic run inside `iscc_find_seeds` (its `switch` statement): the error code
and the seed result the heuristic leaves behind. -/
def find_seeds_switch (clabel_max : Nat) (mem : Mem) (nng : iscc_Digraph)
    (sm : scc_SeedMethod) (out1 : iscc_SeedResult) : scc_ErrorCode × iscc_SeedResult :=
  match sm with
  | scc_SeedMethod.SCC_SM_LEXICAL =>
    ((iscc_findseeds_lexical clabel_max mem nng out1).ec,
      (iscc_findseeds_lexical clabel_max mem nng out1).out)
  | scc_SeedMethod.SCC_SM_INWARDS_ORDER =>
    ((iscc_findseeds_inwards clabel_max mem nng false out1).ec,
      (iscc_findseeds_inwards clabel_max mem nng false out1).out)
  | scc_SeedMethod.SCC_SM_INWARDS_UPDATING =>
    ((iscc_findseeds_inwards clabel_max mem nng true out1).ec,
      (iscc_findseeds_inwards clabel_max mem nng true out1).out)
  | scc_SeedMethod.SCC_SM_EXCLUSION_ORDER =>
    ((iscc_findseeds_exclusion clabel_max mem nng false out1).ec,
      (iscc_findseeds_exclusion clabel_max mem nng false out1).out)
  | scc_SeedMethod.SCC_SM_EXCLUSION_UPDATING =>
    ((iscc_findseeds_exclusion clabel_max mem nng true out1).ec,
      (iscc_findseeds_exclusion clabel_max mem nng true out1).out)
  | scc_SeedMethod.SCC_SM_UNKNOWN => (scc_ErrorCode.SCC_ER_NOT_IMPLEMENTED, out1)

/-! ## The distance operation with its assertions -/

/-- What a call of `iscc_get_dist` does in a build with assertions (`NDEBUG` not
defined): it stops at a failed assertion, or it returns a distance. -/
inductive iscc_DistOutcome where
  | assertion_failed
  | returned (dist : ℚ)

/-- The function `iscc_get_dist` with its two entry assertions,
`assert(index1 < data_set_object->rows)` and `assert(index2 < data_set_object->rows)`,
followed by the computation of the distance. -/
def iscc_get_dist_outcome (sqrt : ℚ → ℚ) (data_set_object : scc_DataSetObject)
    (index1 index2 : Nat) : iscc_DistOutcome :=
  if ¬ index1 < data_set_object.rows then iscc_DistOutcome.assertion_failed
  else if ¬ index2 < data_set_object.rows then iscc_DistOutcome.assertion_failed
  else iscc_DistOutcome.returned (iscc_get_dist sqrt data_set_object index1 index2)

/-! ## Reference greedy scan (section 4.D of the spec) -/

/-- Reference, in the words of the spec: `v` is a valid next seed iff `¬marks[v]`, the
out-degree of `v` is positive and no successor of `v` is marked. -/
def spec_valid_next_seed (nng : iscc_Digraph) (marks : Nat → Bool) (v : Nat) : Bool :=
  !marks v && decide (0 < (nng.arcs v).length) && (nng.arcs v).all (fun u => !marks u)

/-- Reference, in the words of the spec: when `v` is chosen, all of its closed
neighbourhood is set in `marks`. -/
def spec_mark_closed (nng : iscc_Digraph) (marks : Nat → Bool) (v : Nat) : Nat → Bool :=
  fun x => marks x || decide (x ∈ nng.closed v)

/-- Reference, in the words of the spec: one step of the greedy scan appends `v` and marks
its closed neighbourhood iff `v` is a valid next seed at that moment. The state is
`(marks, seeds)`. -/
def spec_greedy_step (nng : iscc_Digraph) (st : (Nat → Bool) × List Nat) (v : Nat) :
    (Nat → Bool) × List Nat :=
  if spec_valid_next_seed nng st.1 v then (spec_mark_closed nng st.1 v, st.2 ++ [v]) else st

/-- Reference, in the words of the spec (LEXICAL): the greedy scan over
`v = 0, 1, ..., N - 1`, starting with no marks and no seeds. -/
def spec_lexical (nng : iscc_Digraph) : List Nat :=
  ((List.range nng.vertices).foldl (spec_greedy_step nng) (fun _ => false, [])).2

/-! ## In-degree -/

/-- Number of arcs of `dg` that point to `v`. -/
def in_degree (dg : iscc_Digraph) (v : Nat) : Nat :=
  ((List.range dg.vertices).flatMap dg.arcs).count v

/-- The first `n` entries of `sorted_vertices`. -/
def iscc_fs_SortResult.toList (sr : iscc_fs_SortResult) (n : Nat) : List Nat :=
  (List.range n).map sr.sorted_vertices

/-- Reference, in the words of the spec (EXCLUSION_ORDER): if `v` is not yet excluded, `v`
is emitted as a seed and every successor of `v` in the exclusion graph, and `v` itself,
is marked as excluded. The state is `(not_excluded, seeds)`. -/
def spec_exclusion_step (eg : iscc_Digraph) (st : (Nat → Bool) × List Nat) (v : Nat) :
    (Nat → Bool) × List Nat :=
  if st.1 v then
    (fun x => st.1 x && !(decide (x = v) || decide (x ∈ eg.arcs v)), st.2 ++ [v])
  else st

/-- The array `sorted_vertices` lists every vertex `0 .. n-1` once and `vertex_index` is
its inverse: the slot that `vertex_index[v]` points to contains `v`. -/
def sort_index_ok (n : Nat) (sr : iscc_fs_SortResult) : Prop :=
  (sr.toList n).Perm (List.range n) ∧
  ∀ v, v < n → sr.vertex_index v < n ∧ sr.sorted_vertices (sr.vertex_index v) = v


/-! ## The test helper for balanced digraphs -/

/-- Modelled from the spec: `thm_sound_digraph(dg, vertices)`, whose code is not in the
test header: the digraph has the given number of vertices and is sound (section 3). -/
def thm_sound_digraph (dg : iscc_Digraph) (vertices : Nat) : Bool :=
  decide (dg.vertices = vertices ∧ iscc_digraph_is_sound dg)

/-- The loop `for (i = 0; i <= vertices; ++i)` of `_assert_balanced_digraph`, started at
`i` with `n` iterations left; the result is the flag `is_balanced`. The product
`i * arcs_per_vertex` is taken in `size_t`, both factors being 32-bit values, and does
not wrap around. -/
def balanced_loop (dg : iscc_Digraph) (arcs_per_vertex : Nat) : Nat → Nat → Bool
  | 0, _ => true
  | n + 1, i =>
    if dg.tp i ≠ i * arcs_per_vertex then false
    else balanced_loop dg arcs_per_vertex n (i + 1)

/-- Test helper `_assert_balanced_digraph`: the result is `true` iff the helper returns
without calling `_fail`. -/
def assert_balanced_digraph (dg : iscc_Digraph) (vertices arcs_per_vertex : Nat) : Bool :=
  if !thm_sound_digraph dg vertices then false
  else if dg.tp vertices ≠ 0 then
    balanced_loop dg arcs_per_vertex (vertices + 1) 0
  else true

/-! ## Entry assertions of `iscc_fs_add_seed` -/

/-- The assertions `iscc_fs_add_seed` makes on entry about the fields of `*out_seeds`:
`seeds == NULL`, `capacity >= 128` and `count <= capacity`. -/
def add_seed_asserts (out_seeds : iscc_SeedResult) : Prop :=
  out_seeds.seeds = none ∧ 128 ≤ out_seeds.capacity ∧ out_seeds.count ≤ out_seeds.capacity

/-! ## The stable build (`SCC_STABLE_CLUSTERING`) -/

/-- The loop of `iscc_fs_debug_bucket_sort` with `n` iterations left before `pos` reaches
`bucket_start`; the state is `(sorted_vertices, vertex_index)` and the result carries the
final `pos`. -/
def debug_bucket_sort_loop (tmp_v : Nat) :
    Nat → Nat → (Nat → Nat) × (Nat → Nat) → Nat × ((Nat → Nat) × (Nat → Nat))
  | 0, pos, a => (pos, a)
  | n + 1, pos, a =>
    if tmp_v ≥ a.1 (pos - 1) then (pos, a)
    else
      let sorted1 := Function.update a.1 pos (a.1 (pos - 1))
      let vertex_index1 := Function.update a.2 (sorted1 pos) pos
      debug_bucket_sort_loop tmp_v n (pos - 1) (sorted1, vertex_index1)

/-- Move the entry at `pos` down into the run of entries that starts at `bucket_start`,
keeping the run ascending in vertex ID (`iscc_fs_debug_bucket_sort`). The loop runs
`pos - bucket_start` times at most; the callers pass `bucket_start ≤ pos`. -/
def iscc_fs_debug_bucket_sort (bucket_start pos : Nat) (sr : iscc_fs_SortResult) :
    iscc_fs_SortResult :=
  let tmp_v := sr.sorted_vertices pos
  let r := debug_bucket_sort_loop tmp_v (pos - bucket_start) pos
    (sr.sorted_vertices, sr.vertex_index)
  let sorted1 := Function.update r.2.1 r.1 tmp_v
  { inwards_count := sr.inwards_count
    sorted_vertices := sorted1
    vertex_index := Function.update r.2.2 (sorted1 r.1) r.1
    bucket_index := sr.bucket_index }

/-- The function `iscc_fs_decrease_v_in_sort` as compiled with `SCC_STABLE_CLUSTERING`:
the statements of the default build, which are those of `iscc_fs_decrease_v_in_sort`,
then, if a swap was made (`move_from != move_to`), the old bucket is sorted again from
`move_to + 1` to `move_from`; at the end the start of the new bucket is moved behind the
cursor if it lies at or before it, and the new bucket is sorted up to `move_to`. -/
def iscc_fs_decrease_v_in_sort_stable (v_to_decrease : Nat) (sr : iscc_fs_SortResult)
    (current_pos : Nat) : iscc_fs_SortResult :=
  let move_from := sr.vertex_index v_to_decrease
  let move_to := decrease_move_to v_to_decrease sr current_pos
  let sr1 := iscc_fs_decrease_v_in_sort v_to_decrease sr current_pos
  let sr2 :=
    if move_from ≠ move_to then iscc_fs_debug_bucket_sort (move_to + 1) move_from sr1
    else sr1
  let b := sr2.inwards_count v_to_decrease
  let sr3 : iscc_fs_SortResult :=
    if sr2.bucket_index b ≤ current_pos then
      { inwards_count := sr2.inwards_count
        sorted_vertices := sr2.sorted_vertices
        vertex_index := sr2.vertex_index
        bucket_index := Function.update sr2.bucket_index b (current_pos + 1) }
    else sr2
  iscc_fs_debug_bucket_sort (sr3.bucket_index b) move_to sr3

/-- The function `iscc_fs_decrease_v_in_sort` of the build selected by `stable`
(`SCC_STABLE_CLUSTERING` defined or not). -/
def decrease_in_build (stable : Bool) (v_to_decrease : Nat) (sr : iscc_fs_SortResult)
    (current_pos : Nat) : iscc_fs_SortResult :=
  if stable then iscc_fs_decrease_v_in_sort_stable v_to_decrease sr current_pos
  else iscc_fs_decrease_v_in_sort v_to_decrease sr current_pos

/-- The checks of `iscc_fs_debug_check_sort(current_pos, last_pos, inwards_count)` with
`last_pos` the last of the `n` entries: every entry from `current_pos` on has a key not
above the key of the next entry and, if the keys are equal, a smaller vertex ID. -/
def iscc_fs_debug_check_sort (n current_pos : Nat) (sr : iscc_fs_SortResult) : Prop :=
  ∀ p, current_pos ≤ p → p + 1 < n →
    sr.inwards_count (sr.sorted_vertices p) ≤ sr.inwards_count (sr.sorted_vertices (p + 1)) ∧
    (sr.inwards_count (sr.sorted_vertices p) = sr.inwards_count (sr.sorted_vertices (p + 1)) →
      sr.sorted_vertices p < sr.sorted_vertices (p + 1))

/-! ## The record of a scan with updating -/

/-- What a scan records: `scan` at the top of an iteration, with the cursor position, the
marks (or `not_excluded`) and the sort structure; `decrease` at a call of
`iscc_fs_decrease_v_in_sort`, with its arguments on entry. -/
inductive ScanEvent where
  | scan (pos : Nat) (marks : Nat → Bool) (sort : iscc_fs_SortResult)
  | decrease (v_to_decrease : Nat) (sort : iscc_fs_SortResult) (current_pos : Nat)

/-- The update of `iscc_findseeds_inwards` (see `inwards_update`) in the build selected by
`stable`, with the record of the calls of `iscc_fs_decrease_v_in_sort`. -/
def inwards_update_trace (stable : Bool) (nng : iscc_Digraph) (marks : Nat → Bool)
    (pos : Nat) (seed : Nat) (st : iscc_fs_SortResult × List ScanEvent) :
    iscc_fs_SortResult × List ScanEvent :=
  (nng.arcs seed).foldl
    (fun st v_arc =>
      (nng.arcs v_arc).foldl
        (fun st v_arc_arc =>
          if !marks v_arc_arc && decide (pos < st.1.vertex_index v_arc_arc) then
            (decrease_in_build stable v_arc_arc st.1 pos,
              st.2 ++ [ScanEvent.decrease v_arc_arc st.1 pos])
          else st)
        st)
    st

/-- The scan loop of `iscc_findseeds_inwards` with `updating` set (see `inwards_loop`) in
the build selected by `stable`, with the record of the scan. -/
def inwards_loop_trace (stable : Bool) (clabel_max : Nat) (mem : Mem) (nng : iscc_Digraph) :
    Nat → Nat → (Nat → Bool) → iscc_fs_SortResult → iscc_SeedResult → List ScanEvent →
      ScanState × List ScanEvent
  | 0, _, marks, sort, out, tr =>
    ({ ec := scc_ErrorCode.SCC_ER_OK, marks := marks, sort := sort, out := out }, tr)
  | n + 1, pos, marks, sort, out, tr =>
    let tr1 := tr ++ [ScanEvent.scan pos marks sort]
    let v := sort.sorted_vertices pos
    if iscc_fs_check_neighbors_marks v nng marks then
      let r := iscc_fs_add_seed clabel_max mem v out
      if r.1 ≠ scc_ErrorCode.SCC_ER_OK then
        ({ ec := r.1, marks := marks, sort := sort, out := r.2 }, tr1)
      else
        let marks1 := iscc_fs_mark_seed_neighbors v nng marks
        let u := inwards_update_trace stable nng marks1 pos v (sort, tr1)
        inwards_loop_trace stable clabel_max mem nng n (pos + 1) marks1 u.1 r.2 u.2
    else
      inwards_loop_trace stable clabel_max mem nng n (pos + 1) marks sort out tr1

/-- The exclusion step of `iscc_findseeds_exclusion` with `updating` set (see
`exclusion_update`) in the build selected by `stable`, with the record of the calls of
`iscc_fs_decrease_v_in_sort`. The state is `(not_excluded, sort, record)`. -/
def exclusion_update_trace (stable : Bool) (exclusion_graph : iscc_Digraph) (pos : Nat)
    (seed : Nat) (st : (Nat → Bool) × iscc_fs_SortResult × List ScanEvent) :
    (Nat → Bool) × iscc_fs_SortResult × List ScanEvent :=
  (exclusion_graph.arcs seed).foldl
    (fun st ex_arc =>
      if st.1 ex_arc then
        let not_excluded := Function.update st.1 ex_arc false
        (not_excluded,
          (exclusion_graph.arcs ex_arc).foldl
            (fun (s : iscc_fs_SortResult × List ScanEvent) ex_arc_arc =>
              if not_excluded ex_arc_arc then
                (decrease_in_build stable ex_arc_arc s.1 pos,
                  s.2 ++ [ScanEvent.decrease ex_arc_arc s.1 pos])
              else s)
            st.2)
      else st)
    st

/-- The scan loop of `iscc_findseeds_exclusion` with `updating` set (see `exclusion_loop`)
in the build selected by `stable`, with the record of the scan. -/
def exclusion_loop_trace (stable : Bool) (clabel_max : Nat) (mem : Mem)
    (exclusion_graph : iscc_Digraph) :
    Nat → Nat → (Nat → Bool) → iscc_fs_SortResult → iscc_SeedResult → List ScanEvent →
      ScanState × List ScanEvent
  | 0, _, not_excluded, sort, out, tr =>
    ({ ec := scc_ErrorCode.SCC_ER_OK, marks := not_excluded, sort := sort, out := out }, tr)
  | n + 1, pos, not_excluded, sort, out, tr =>
    let tr1 := tr ++ [ScanEvent.scan pos not_excluded sort]
    let v := sort.sorted_vertices pos
    if not_excluded v then
      let r := iscc_fs_add_seed clabel_max mem v out
      if r.1 ≠ scc_ErrorCode.SCC_ER_OK then
        ({ ec := r.1, marks := not_excluded, sort := sort, out := r.2 }, tr1)
      else
        let st := exclusion_update_trace stable exclusion_graph pos v
          (Function.update not_excluded v false, sort, tr1)
        exclusion_loop_trace stable clabel_max mem exclusion_graph n (pos + 1) st.1 st.2.1 r.2
          st.2.2
    else
      exclusion_loop_trace stable clabel_max mem exclusion_graph n (pos + 1) not_excluded sort
        out tr1

/-! ## Invariants of the updating scans -/

/-- The sort structure is consistent from position `lo` on and, if `stable` is set, its
entries from `lo` on pass the checks of `iscc_fs_debug_check_sort`. -/
def BuildInv (stable : Bool) (n m lo : Nat) (sr : iscc_fs_SortResult) : Prop :=
  SortInv n lo m sr ∧ (stable = true → iscc_fs_debug_check_sort n lo sr)

/-- A call `iscc_fs_decrease_v_in_sort(v, ..., current_pos)` is in order: the sort
structure is consistent behind the cursor, `v` is a vertex that lies behind the cursor
and its key is positive. -/
def decrease_call_ok (stable : Bool) (n m : Nat) (v : Nat) (sr : iscc_fs_SortResult)
    (current_pos : Nat) : Prop :=
  BuildInv stable n m (current_pos + 1) sr ∧ v < n ∧ current_pos < sr.vertex_index v ∧
    1 ≤ sr.inwards_count v

/-- Every recorded event is in order: at the top of an iteration the cursor is inside
the array and the sort structure is consistent from the cursor on; every call of
`iscc_fs_decrease_v_in_sort` is in order. -/
def event_ok (stable : Bool) (n m : Nat) : ScanEvent → Prop
  | ScanEvent.scan pos _ sort => pos < n ∧ BuildInv stable n m pos sort
  | ScanEvent.decrease v sort current_pos => decrease_call_ok stable n m v sort current_pos

/-- What the proofs use of `iscc_fs_decrease_v_in_sort` in the build `stable`: a call
that is in order keeps the sort structure consistent behind the cursor, leaves the
entries up to the cursor in place and lowers the key of the vertex by one, and no other
key. -/
def decrease_step_ok (stable : Bool) (n m : Nat) : Prop :=
  ∀ v sr cur, decrease_call_ok stable n m v sr cur →
    BuildInv stable n m (cur + 1) (decrease_in_build stable v sr cur) ∧
    (∀ i, i ≤ cur →
      (decrease_in_build stable v sr cur).sorted_vertices i = sr.sorted_vertices i) ∧
    (decrease_in_build stable v sr cur).inwards_count =
      Function.update sr.inwards_count v (sr.inwards_count v - 1)

/-- The innermost loop of the recorded updates over a list `T` of vertices, with the
guard `g` of the call. -/
def decrease_fold_trace (stable : Bool) (g : iscc_fs_SortResult → Nat → Bool) (cur : Nat)
    (T : List Nat) (st : iscc_fs_SortResult × List ScanEvent) :
    iscc_fs_SortResult × List ScanEvent :=
  T.foldl
    (fun st w =>
      if g st.1 w then
        (decrease_in_build stable w st.1 cur, st.2 ++ [ScanEvent.decrease w st.1 cur])
      else st)
    st

/-- The outer loop of the recorded exclusion step over a list `l` of successors of the
seed (see `exclusion_update_trace`). -/
def exclusion_fold_trace (stable : Bool) (exclusion_graph : iscc_Digraph) (pos : Nat)
    (l : List Nat) (st : (Nat → Bool) × iscc_fs_SortResult × List ScanEvent) :
    (Nat → Bool) × iscc_fs_SortResult × List ScanEvent :=
  l.foldl
    (fun st ex_arc =>
      if st.1 ex_arc then
        (Function.update st.1 ex_arc false,
          decrease_fold_trace stable (fun _ w => Function.update st.1 ex_arc false w) pos
            (exclusion_graph.arcs ex_arc) st.2)
      else st)
    st

/-- The vertices the scan examined, in order: the entry under the cursor at the top of
each recorded iteration. -/
def examined : List ScanEvent → List Nat
  | [] => []
  | ScanEvent.scan pos _ sort :: tr => sort.sorted_vertices pos :: examined tr
  | ScanEvent.decrease _ _ _ :: tr => examined tr

/-- At the top of an iteration of the inwards scan, every unmarked vertex at or after the
cursor has as key the number of arcs to it from unmarked vertices. -/
def inwards_count_exact (nng : iscc_Digraph) : ScanEvent → Prop
  | ScanEvent.scan pos marks sort =>
    ∀ w, w < nng.vertices → marks w = false → pos ≤ sort.vertex_index w →
      sort.inwards_count w = live_indegree nng (fun u => !marks u) w
  | ScanEvent.decrease _ _ _ => True

/-- What holds of a recorded event of the inwards scan. -/
def inwards_event_ok (stable : Bool) (nng : iscc_Digraph) (m : Nat) (e : ScanEvent) : Prop :=
  event_ok stable nng.vertices m e ∧ (no_self_loops nng → inwards_count_exact nng e)

/-- Invariant of the recorded inwards scan at the top of the iteration with cursor `pos`. -/
def InwardsRunInv (stable : Bool) (nng : iscc_Digraph) (m : Nat) (pos : Nat)
    (marks : Nat → Bool) (sort : iscc_fs_SortResult) (tr : List ScanEvent) : Prop :=
  pos ≤ nng.vertices ∧
  BuildInv stable nng.vertices m pos sort ∧
  (∀ w, live_indegree nng (fun u => !marks u) w ≤ sort.inwards_count w) ∧
  (no_self_loops nng → inwards_count_exact nng (ScanEvent.scan pos marks sort)) ∧
  examined tr = (List.range pos).map sort.sorted_vertices ∧
  (∀ e, e ∈ tr → inwards_event_ok stable nng m e)

/-- Invariant of the recorded exclusion scan at the top of the iteration with cursor
`pos`. -/
def ExclusionRunInv (stable : Bool) (eg : iscc_Digraph) (m : Nat) (pos : Nat)
    (ne : Nat → Bool) (sort : iscc_fs_SortResult) (tr : List ScanEvent) : Prop :=
  pos ≤ eg.vertices ∧
  BuildInv stable eg.vertices m pos sort ∧
  (∀ w, live_indegree eg ne w ≤ sort.inwards_count w) ∧
  (∀ i, i < pos → ne (sort.sorted_vertices i) = false) ∧
  examined tr = (List.range pos).map sort.sorted_vertices ∧
  (∀ e, e ∈ tr → event_ok stable eg.vertices m e)

/-! ## What the claims say of a recorded event -/

/-- At a call of `iscc_fs_decrease_v_in_sort` the key of the vertex is at least 1 and at
most `m`, the last index of `bucket_index`. -/
def decrease_key_in_range (m : Nat) : ScanEvent → Prop
  | ScanEvent.scan _ _ _ => True
  | ScanEvent.decrease v sort _ => 1 ≤ sort.inwards_count v ∧ sort.inwards_count v ≤ m

/-- The entries of `sorted_vertices` strictly after position `cur` are in non-decreasing
order of their keys, and each of them lies at or after the bucket start of its key. -/
def pending_sorted (n cur : Nat) (sr : iscc_fs_SortResult) : Prop :=
  (∀ i j, cur < i → i ≤ j → j < n →
    sr.inwards_count (sr.sorted_vertices i) ≤ sr.inwards_count (sr.sorted_vertices j)) ∧
  (∀ i, cur < i → i < n → sr.bucket_index (sr.inwards_count (sr.sorted_vertices i)) ≤ i)

/-- At the top of an iteration and at a call of `iscc_fs_decrease_v_in_sort` the entries
after the cursor are in order; at a call, the entries at `move_from` and `move_to` have
the same key (the assertion of `iscc_fs_decrease_v_in_sort`). -/
def pending_in_order (n : Nat) : ScanEvent → Prop
  | ScanEvent.scan pos _ sort => pending_sorted n pos sort
  | ScanEvent.decrease v sort cur =>
    pending_sorted n cur sort ∧
    sort.inwards_count (sort.sorted_vertices (sort.vertex_index v)) =
      sort.inwards_count (sort.sorted_vertices (decrease_move_to v sort cur))

/-- A call of `iscc_fs_decrease_v_in_sort` of the default build leaves the entries up to
the cursor in place: `move_from` and `move_to` lie behind the cursor and the call
exchanges the entries at these two positions. -/
def decrease_frame : ScanEvent → Prop
  | ScanEvent.scan _ _ _ => True
  | ScanEvent.decrease v sort cur =>
    (∀ i, i ≤ cur →
      (iscc_fs_decrease_v_in_sort v sort cur).sorted_vertices i = sort.sorted_vertices i) ∧
    cur < sort.vertex_index v ∧ cur < decrease_move_to v sort cur ∧
    (iscc_fs_decrease_v_in_sort v sort cur).sorted_vertices =
      Function.update
        (Function.update sort.sorted_vertices (sort.vertex_index v)
          (sort.sorted_vertices (decrease_move_to v sort cur)))
        (decrease_move_to v sort cur) (sort.sorted_vertices (sort.vertex_index v))
/-! ## Marks, seeds and the scan invariant -/

open scc_ErrorCode scc_SeedMethod

theorem foldl_mark_true (l : List Nat) (m : Nat → Bool) (x : Nat) :
    (l.foldl (fun m a => Function.update m a true) m) x = true ↔ m x = true ∨ x ∈ l := by
  induction l generalizing m with
  | nil => simp
  | cons a l ih =>
    rw [List.foldl_cons, ih]
    by_cases h : x = a
    · subst h; simp
    · simp [Function.update_noteq h, h]

theorem mark_seed_neighbors_true (s : Nat) (nng : iscc_Digraph) (marks : Nat → Bool) (x : Nat) :
    iscc_fs_mark_seed_neighbors s nng marks x = true ↔ marks x = true ∨ x ∈ nng.closed s := by
  unfold iscc_fs_mark_seed_neighbors iscc_Digraph.closed
  rw [foldl_mark_true]
  by_cases h : x = s
  · subst h; simp
  · simp [Function.update_noteq h, h]

theorem check_neighbors_marks_true (cv : Nat) (nng : iscc_Digraph) (marks : Nat → Bool) :
    iscc_fs_check_neighbors_marks cv nng marks = true ↔
      marks cv = false ∧ nng.tp cv ≠ nng.tp (cv + 1) ∧ ∀ a ∈ nng.arcs cv, marks a = false := by
  unfold iscc_fs_check_neighbors_marks
  by_cases h1 : marks cv = true
  · simp [h1]
  · by_cases h2 : nng.tp cv = nng.tp (cv + 1)
    · simp [h1, h2]
    · simp [h1, h2]

theorem add_seed_ok (clabel_max : Nat) (mem : Mem) (s : Nat) (out : iscc_SeedResult)
    (h : (iscc_fs_add_seed clabel_max mem s out).1 = SCC_ER_OK) :
    (iscc_fs_add_seed clabel_max mem s out).2.count = out.count + 1 ∧
    (iscc_fs_add_seed clabel_max mem s out).2.seeds =
      some (Function.update out.seed out.count s) := by
  unfold iscc_fs_add_seed at h ⊢
  dsimp only at h ⊢
  split_ifs at h ⊢ <;> first | exact absurd h (by decide) | exact ⟨rfl, rfl⟩ | simp_all

theorem toList_add_seed (clabel_max : Nat) (mem : Mem) (s : Nat) (out : iscc_SeedResult)
    (h : (iscc_fs_add_seed clabel_max mem s out).1 = SCC_ER_OK) :
    (iscc_fs_add_seed clabel_max mem s out).2.toList = out.toList ++ [s] := by
  obtain ⟨hc, hs⟩ := add_seed_ok clabel_max mem s out h
  unfold iscc_SeedResult.toList
  rw [hc, List.range_succ, List.map_append]
  have hseed : ∀ i, (iscc_fs_add_seed clabel_max mem s out).2.seed i =
      Function.update out.seed out.count s i := by
    intro i
    unfold iscc_SeedResult.seed
    rw [hs]
    rfl
  congr 1
  · apply List.map_congr_left
    intro i hi
    have hne : i ≠ out.count := by
      have := List.mem_range.mp hi
      omega
    rw [hseed, Function.update_noteq hne]
  · simp [hseed]

theorem SeedInv_nil (nng : iscc_Digraph) : SeedInv nng (fun _ => false) [] := by
  constructor
  · intro x; simp
  · exact List.Pairwise.nil

theorem SeedInv_step (nng : iscc_Digraph) (marks : Nat → Bool) (l : List Nat) (v : Nat)
    (hinv : SeedInv nng marks l) (hc : iscc_fs_check_neighbors_marks v nng marks = true) :
    SeedInv nng (iscc_fs_mark_seed_neighbors v nng marks) (l ++ [v]) := by
  obtain ⟨hm, hp⟩ := hinv
  rw [check_neighbors_marks_true] at hc
  obtain ⟨hv, _, ha⟩ := hc
  have hunmarked : ∀ x, x ∈ nng.closed v → marks x = false := by
    intro x hx
    rcases List.mem_cons.mp hx with h | h
    · rw [h]; exact hv
    · exact ha x h
  constructor
  · intro x
    rw [mark_seed_neighbors_true, hm]
    constructor
    · rintro (⟨s, hs, hx⟩ | hx)
      · exact ⟨s, List.mem_append_left _ hs, hx⟩
      · exact ⟨v, by simp, hx⟩
    · rintro ⟨s, hs, hx⟩
      rcases List.mem_append.mp hs with h | h
      · exact Or.inl ⟨s, h, hx⟩
      · rw [List.mem_singleton] at h; subst h; exact Or.inr hx
  · rw [List.pairwise_append]
    refine ⟨hp, List.pairwise_singleton _ _, ?_⟩
    intro s hs s' hs' x hx hx'
    rw [List.mem_singleton] at hs'
    subst hs'
    have h1 : marks x = true := (hm x).mpr ⟨s, hs, hx⟩
    rw [hunmarked x hx'] at h1
    exact absurd h1 (by decide)


/-! ## Loop rules -/

theorem lexical_loop_rule (clabel_max : Nat) (mem : Mem) (nng : iscc_Digraph)
    (P : Nat → (Nat → Bool) → iscc_SeedResult → Prop)
    (hskip : ∀ cv marks out, P cv marks out →
      iscc_fs_check_neighbors_marks cv nng marks = false → P (cv + 1) marks out)
    (hseed : ∀ cv marks out, P cv marks out →
      iscc_fs_check_neighbors_marks cv nng marks = true →
      (iscc_fs_add_seed clabel_max mem cv out).1 = SCC_ER_OK →
      P (cv + 1) (iscc_fs_mark_seed_neighbors cv nng marks)
        (iscc_fs_add_seed clabel_max mem cv out).2) :
    ∀ n cv marks out, P cv marks out →
      (lexical_loop clabel_max mem nng n cv marks out).ec = SCC_ER_OK →
      P (cv + n) (lexical_loop clabel_max mem nng n cv marks out).marks
        (lexical_loop clabel_max mem nng n cv marks out).out := by
  intro n
  induction n with
  | zero => intro cv marks out hP _; exact hP
  | succ n ih =>
    intro cv marks out hP hok
    unfold lexical_loop at hok ⊢
    by_cases hc : iscc_fs_check_neighbors_marks cv nng marks = true
    · rw [if_pos hc] at hok ⊢
      by_cases ha : (iscc_fs_add_seed clabel_max mem cv out).1 = SCC_ER_OK
      · simp only [ha, ne_eq, not_true_eq_false, if_false] at hok ⊢
        have := ih (cv + 1) _ _ (hseed cv marks out hP hc ha) hok
        rwa [Nat.add_assoc, Nat.add_comm 1 n] at this
      · simp only [ne_eq, ha, not_false_eq_true, if_true] at hok
    · rw [if_neg hc] at hok ⊢
      have hc' : iscc_fs_check_neighbors_marks cv nng marks = false := by
        simpa using hc
      have := ih (cv + 1) _ _ (hskip cv marks out hP hc') hok
      rwa [Nat.add_assoc, Nat.add_comm 1 n] at this

theorem inwards_loop_rule (clabel_max : Nat) (mem : Mem) (nng : iscc_Digraph)
    (updating : Bool)
    (P : Nat → (Nat → Bool) → iscc_fs_SortResult → iscc_SeedResult → Prop)
    (hskip : ∀ pos marks sort out, P pos marks sort out →
      iscc_fs_check_neighbors_marks (sort.sorted_vertices pos) nng marks = false →
      P (pos + 1) marks sort out)
    (hseed : ∀ pos marks sort out, P pos marks sort out →
      iscc_fs_check_neighbors_marks (sort.sorted_vertices pos) nng marks = true →
      (iscc_fs_add_seed clabel_max mem (sort.sorted_vertices pos) out).1 = SCC_ER_OK →
      P (pos + 1) (iscc_fs_mark_seed_neighbors (sort.sorted_vertices pos) nng marks)
        (if updating then
          inwards_update nng (iscc_fs_mark_seed_neighbors (sort.sorted_vertices pos) nng marks)
            pos (sort.sorted_vertices pos) sort
         else sort)
        (iscc_fs_add_seed clabel_max mem (sort.sorted_vertices pos) out).2) :
    ∀ n pos marks sort out, P pos marks sort out →
      (inwards_loop clabel_max mem nng updating n pos marks sort out).ec = SCC_ER_OK →
      P (pos + n) (inwards_loop clabel_max mem nng updating n pos marks sort out).marks
        (inwards_loop clabel_max mem nng updating n pos marks sort out).sort
        (inwards_loop clabel_max mem nng updating n pos marks sort out).out := by
  intro n
  induction n with
  | zero => intro pos marks sort out hP _; exact hP
  | succ n ih =>
    intro pos marks sort out hP hok
    unfold inwards_loop at hok ⊢
    dsimp only at hok ⊢
    by_cases hc : iscc_fs_check_neighbors_marks (sort.sorted_vertices pos) nng marks = true
    · rw [if_pos hc] at hok ⊢
      by_cases ha :
          (iscc_fs_add_seed clabel_max mem (sort.sorted_vertices pos) out).1 = SCC_ER_OK
      · simp only [ha, ne_eq, not_true_eq_false, if_false] at hok ⊢
        have := ih (pos + 1) _ _ _ (hseed pos marks sort out hP hc ha) hok
        rwa [Nat.add_assoc, Nat.add_comm 1 n] at this
      · simp only [ne_eq, ha, not_false_eq_true, if_true] at hok
    · rw [if_neg hc] at hok ⊢
      have hc' : iscc_fs_check_neighbors_marks (sort.sorted_vertices pos) nng marks = false := by
        simpa using hc
      have := ih (pos + 1) _ _ _ (hskip pos marks sort out hP hc') hok
      rwa [Nat.add_assoc, Nat.add_comm 1 n] at this

theorem exclusion_loop_rule (clabel_max : Nat) (mem : Mem) (eg : iscc_Digraph)
    (updating : Bool)
    (P : Nat → (Nat → Bool) → iscc_fs_SortResult → iscc_SeedResult → Prop)
    (hskip : ∀ pos ne sort out, P pos ne sort out →
      ne (sort.sorted_vertices pos) = false → P (pos + 1) ne sort out)
    (hseed : ∀ pos ne sort out, P pos ne sort out →
      ne (sort.sorted_vertices pos) = true →
      (iscc_fs_add_seed clabel_max mem (sort.sorted_vertices pos) out).1 = SCC_ER_OK →
      P (pos + 1)
        (exclusion_update eg updating pos (sort.sorted_vertices pos)
          (Function.update ne (sort.sorted_vertices pos) false, sort)).1
        (exclusion_update eg updating pos (sort.sorted_vertices pos)
          (Function.update ne (sort.sorted_vertices pos) false, sort)).2
        (iscc_fs_add_seed clabel_max mem (sort.sorted_vertices pos) out).2) :
    ∀ n pos ne sort out, P pos ne sort out →
      (exclusion_loop clabel_max mem eg updating n pos ne sort out).ec = SCC_ER_OK →
      P (pos + n) (exclusion_loop clabel_max mem eg updating n pos ne sort out).marks
        (exclusion_loop clabel_max mem eg updating n pos ne sort out).sort
        (exclusion_loop clabel_max mem eg updating n pos ne sort out).out := by
  intro n
  induction n with
  | zero => intro pos ne sort out hP _; exact hP
  | succ n ih =>
    intro pos ne sort out hP hok
    unfold exclusion_loop at hok ⊢
    dsimp only at hok ⊢
    by_cases hc : ne (sort.sorted_vertices pos) = true
    · rw [if_pos hc] at hok ⊢
      by_cases ha :
          (iscc_fs_add_seed clabel_max mem (sort.sorted_vertices pos) out).1 = SCC_ER_OK
      · simp only [ha, ne_eq, not_true_eq_false, if_false] at hok ⊢
        have := ih (pos + 1) _ _ _ (hseed pos ne sort out hP hc ha) hok
        rwa [Nat.add_assoc, Nat.add_comm 1 n] at this
      · simp only [ne_eq, ha, not_false_eq_true, if_true] at hok
    · rw [if_neg hc] at hok ⊢
      have hc' : ne (sort.sorted_vertices pos) = false := by simpa using hc
      have := ih (pos + 1) _ _ _ (hskip pos ne sort out hP hc') hok
      rwa [Nat.add_assoc, Nat.add_comm 1 n] at this

/-! ## What `iscc_find_seeds` returns -/

/-- The seed result the finders start from: capacity at least 128. -/
theorem find_seeds_cases (clabel_max : Nat) (mem : Mem) (nng : iscc_Digraph)
    (sm : scc_SeedMethod) (out_seeds : iscc_SeedResult)
    (hok : (iscc_find_seeds clabel_max mem nng sm out_seeds).1 = SCC_ER_OK) :
    ∃ (st : ScanState) (out1 : iscc_SeedResult),
      out1.count = out_seeds.count ∧ st.ec = SCC_ER_OK ∧
      (iscc_find_seeds clabel_max mem nng sm out_seeds).2.toList = st.out.toList ∧
      ((sm = SCC_SM_LEXICAL ∧ st = iscc_findseeds_lexical clabel_max mem nng out1) ∨
       (sm = SCC_SM_INWARDS_ORDER ∧ st = iscc_findseeds_inwards clabel_max mem nng false out1) ∨
       (sm = SCC_SM_INWARDS_UPDATING ∧
          st = iscc_findseeds_inwards clabel_max mem nng true out1) ∨
       (sm = SCC_SM_EXCLUSION_ORDER ∧
          st = iscc_findseeds_exclusion clabel_max mem nng false out1) ∨
       (sm = SCC_SM_EXCLUSION_UPDATING ∧
          st = iscc_findseeds_exclusion clabel_max mem nng true out1)) := by
  have hout1 : (if out_seeds.capacity < 128 then
      ({ out_seeds with capacity := 128 } : iscc_SeedResult) else out_seeds).count =
      out_seeds.count := by
    split <;> rfl
  unfold iscc_find_seeds at hok ⊢
  dsimp only at hok ⊢
  generalize (if out_seeds.capacity < 128 then
      ({ out_seeds with capacity := 128 } : iscc_SeedResult) else out_seeds) = out1
    at hok hout1 ⊢
  have fin : ∀ st : ScanState,
      (if st.ec = SCC_ER_OK then
        if st.out.count < st.out.capacity ∧ st.out.count > 0 then
          if mem AllocSite.seeds_shrink st.out.count = true then
            (SCC_ER_OK, ({ st.out with capacity := st.out.count } : iscc_SeedResult))
          else (SCC_ER_OK, st.out)
        else (SCC_ER_OK, st.out)
      else (st.ec, ISCC_NULL_SEED_RESULT)).1 = SCC_ER_OK →
      st.ec = SCC_ER_OK ∧
      (if st.ec = SCC_ER_OK then
        if st.out.count < st.out.capacity ∧ st.out.count > 0 then
          if mem AllocSite.seeds_shrink st.out.count = true then
            (SCC_ER_OK, ({ st.out with capacity := st.out.count } : iscc_SeedResult))
          else (SCC_ER_OK, st.out)
        else (SCC_ER_OK, st.out)
      else (st.ec, ISCC_NULL_SEED_RESULT)).2.toList = st.out.toList := by
    intro st h
    by_cases hec : st.ec = SCC_ER_OK
    · refine ⟨hec, ?_⟩
      rw [if_pos hec]
      split_ifs <;> rfl
    · rw [if_neg hec] at h
      exact absurd h hec
  cases sm
  case SCC_SM_UNKNOWN => simp at hok
  case SCC_SM_LEXICAL =>
    exact ⟨iscc_findseeds_lexical clabel_max mem nng out1, out1, hout1, (fin _ hok).1,
      (fin _ hok).2, Or.inl ⟨rfl, rfl⟩⟩
  case SCC_SM_INWARDS_ORDER =>
    exact ⟨iscc_findseeds_inwards clabel_max mem nng false out1, out1, hout1, (fin _ hok).1,
      (fin _ hok).2, Or.inr (Or.inl ⟨rfl, rfl⟩)⟩
  case SCC_SM_INWARDS_UPDATING =>
    exact ⟨iscc_findseeds_inwards clabel_max mem nng true out1, out1, hout1, (fin _ hok).1,
      (fin _ hok).2, Or.inr (Or.inr (Or.inl ⟨rfl, rfl⟩))⟩
  case SCC_SM_EXCLUSION_ORDER =>
    exact ⟨iscc_findseeds_exclusion clabel_max mem nng false out1, out1, hout1, (fin _ hok).1,
      (fin _ hok).2, Or.inr (Or.inr (Or.inr (Or.inl ⟨rfl, rfl⟩)))⟩
  case SCC_SM_EXCLUSION_UPDATING =>
    exact ⟨iscc_findseeds_exclusion clabel_max mem nng true out1, out1, hout1, (fin _ hok).1,
      (fin _ hok).2, Or.inr (Or.inr (Or.inr (Or.inr ⟨rfl, rfl⟩)))⟩


/-! ## Seed disjointness for the lexical and inwards finders -/

theorem toList_of_count_zero (out : iscc_SeedResult) (f : Nat → Nat) (h : out.count = 0) :
    iscc_SeedResult.toList { out with seeds := some f } = [] := by
  simp [iscc_SeedResult.toList, h]

theorem lexical_seedinv (clabel_max : Nat) (mem : Mem) (nng : iscc_Digraph)
    (out1 : iscc_SeedResult) (h0 : out1.count = 0)
    (hok : (iscc_findseeds_lexical clabel_max mem nng out1).ec = SCC_ER_OK) :
    SeedInv nng (iscc_findseeds_lexical clabel_max mem nng out1).marks
      (iscc_findseeds_lexical clabel_max mem nng out1).out.toList := by
  unfold iscc_findseeds_lexical at hok ⊢
  by_cases hm : (!(mem AllocSite.marks nng.vertices &&
      mem AllocSite.seeds out1.capacity)) = true
  · rw [if_pos hm] at hok
    simp at hok
  · rw [if_neg hm] at hok ⊢
    have := lexical_loop_rule clabel_max mem nng
      (fun _ marks out => SeedInv nng marks out.toList)
      (fun _ _ _ hP _ => hP)
      (fun cv marks out hP hc ha => by
        show SeedInv nng _ (iscc_fs_add_seed clabel_max mem cv out).2.toList
        rw [toList_add_seed clabel_max mem cv out ha]
        exact SeedInv_step nng marks _ cv hP hc)
      nng.vertices 0 (fun _ => false) { out1 with seeds := some (fun _ => 0) }
      (by
        show SeedInv nng _ (iscc_SeedResult.toList { out1 with seeds := some (fun _ => 0) })
        rw [toList_of_count_zero _ _ h0]
        exact SeedInv_nil nng) hok
    exact this

theorem inwards_seedinv (clabel_max : Nat) (mem : Mem) (nng : iscc_Digraph)
    (updating : Bool) (out1 : iscc_SeedResult) (h0 : out1.count = 0)
    (hok : (iscc_findseeds_inwards clabel_max mem nng updating out1).ec = SCC_ER_OK) :
    SeedInv nng (iscc_findseeds_inwards clabel_max mem nng updating out1).marks
      (iscc_findseeds_inwards clabel_max mem nng updating out1).out.toList := by
  unfold iscc_findseeds_inwards at hok ⊢
  dsimp only at hok ⊢
  by_cases hs : (iscc_fs_sort_by_inwards mem nng updating).1 ≠ SCC_ER_OK
  · rw [if_pos hs] at hok
    exact absurd hok hs
  rw [if_neg hs] at hok ⊢
  by_cases hm : (!(mem AllocSite.marks nng.vertices &&
      mem AllocSite.seeds out1.capacity)) = true
  · rw [if_pos hm] at hok
    simp at hok
  · rw [if_neg hm] at hok ⊢
    have := inwards_loop_rule clabel_max mem nng updating
      (fun _ marks _ out => SeedInv nng marks out.toList)
      (fun _ _ _ _ hP _ => hP)
      (fun pos marks sort out hP hc ha => by
        show SeedInv nng _ (iscc_fs_add_seed clabel_max mem _ out).2.toList
        rw [toList_add_seed clabel_max mem _ out ha]
        exact SeedInv_step nng marks _ _ hP hc)
      nng.vertices 0 (fun _ => false) (iscc_fs_sort_by_inwards mem nng updating).2
      { out1 with seeds := some (fun _ => 0) }
      (by
        show SeedInv nng _ (iscc_SeedResult.toList { out1 with seeds := some (fun _ => 0) })
        rw [toList_of_count_zero _ _ h0]
        exact SeedInv_nil nng) hok
    exact this

theorem SeedInv_disjoint (nng : iscc_Digraph) (marks : Nat → Bool) (l : List Nat)
    (h : SeedInv nng marks l) :
    l.Nodup ∧ ∀ s ∈ l, ∀ s' ∈ l, s ≠ s' → ∀ x, x ∈ nng.closed s → x ∉ nng.closed s' := by
  obtain ⟨_, hp⟩ := h
  constructor
  · refine hp.imp ?_
    intro a b hab heq
    subst heq
    exact hab a (List.mem_cons_self _ _) (List.mem_cons_self _ _)
  · intro s hs s' hs' hne
    have hsymm : Symmetric (fun s s' => ∀ x, x ∈ nng.closed s → x ∉ nng.closed s') := by
      intro a b hab x hxb hxa
      exact hab x hxa hxb
    exact hp.forall hsymm hs hs' hne

/-- C1: on a sound NNG without self-loops or duplicate arcs, the seeds that
`iscc_find_seeds` returns for Lexical, InwardsOrder or InwardsUpdating are pairwise
different and any two different seeds have disjoint closed neighbourhoods. -/
theorem seed_disjointness_lexical_inwards (clabel_max : Nat) (mem : Mem) (nng : iscc_Digraph)
    (sm : scc_SeedMethod) (out_seeds : iscc_SeedResult)
    (_hsound : iscc_digraph_is_sound nng) (_hloops : no_self_loops nng)
    (_hdups : no_duplicate_arcs nng)
    (hsm : sm = SCC_SM_LEXICAL ∨ sm = SCC_SM_INWARDS_ORDER ∨ sm = SCC_SM_INWARDS_UPDATING)
    (hcount : out_seeds.count = 0)
    (hok : (iscc_find_seeds clabel_max mem nng sm out_seeds).1 = SCC_ER_OK) :
    (iscc_find_seeds clabel_max mem nng sm out_seeds).2.toList.Nodup ∧
    ∀ s ∈ (iscc_find_seeds clabel_max mem nng sm out_seeds).2.toList,
      ∀ s' ∈ (iscc_find_seeds clabel_max mem nng sm out_seeds).2.toList,
        s ≠ s' → ∀ x, x ∈ nng.closed s → x ∉ nng.closed s' := by
  obtain ⟨st, out1, hc1, hec, hl, hcases⟩ :=
    find_seeds_cases clabel_max mem nng sm out_seeds hok
  rw [hl]
  have h0 : out1.count = 0 := by rw [hc1, hcount]
  rcases hcases with ⟨_, hst⟩ | ⟨_, hst⟩ | ⟨_, hst⟩ | ⟨h, _⟩ | ⟨h, _⟩
  · subst hst
    exact SeedInv_disjoint nng _ _ (lexical_seedinv clabel_max mem nng out1 h0 hec)
  · subst hst
    exact SeedInv_disjoint nng _ _ (inwards_seedinv clabel_max mem nng false out1 h0 hec)
  · subst hst
    exact SeedInv_disjoint nng _ _ (inwards_seedinv clabel_max mem nng true out1 h0 hec)
  · rcases hsm with h' | h' | h' <;> rw [h'] at h <;> exact absurd h (by decide)
  · rcases hsm with h' | h' | h' <;> rw [h'] at h <;> exact absurd h (by decide)

set_option maxRecDepth 100000 in
/-- Witness for C1: InwardsUpdating on the hexagon NNG of scenario S2. -/
theorem seed_disjointness_lexical_inwards_witness :
    (iscc_find_seeds 1000 mem_ok nng_S2 SCC_SM_INWARDS_UPDATING
        ISCC_NULL_SEED_RESULT).2.toList.Nodup ∧
    ∀ s ∈ (iscc_find_seeds 1000 mem_ok nng_S2 SCC_SM_INWARDS_UPDATING
        ISCC_NULL_SEED_RESULT).2.toList,
      ∀ s' ∈ (iscc_find_seeds 1000 mem_ok nng_S2 SCC_SM_INWARDS_UPDATING
          ISCC_NULL_SEED_RESULT).2.toList,
        s ≠ s' → ∀ x, x ∈ nng_S2.closed s → x ∉ nng_S2.closed s' :=
  seed_disjointness_lexical_inwards 1000 mem_ok nng_S2 SCC_SM_INWARDS_UPDATING
    ISCC_NULL_SEED_RESULT (by decide) (by decide) (by decide)
    (Or.inr (Or.inr rfl)) rfl (by decide)

/-! ## Rows of CSR digraphs -/

theorem tp_mono (dg : iscc_Digraph) (hs : iscc_digraph_is_sound dg) :
    ∀ b, b ≤ dg.vertices → ∀ a, a ≤ b → dg.tp a ≤ dg.tp b := by
  intro b
  induction b with
  | zero => intro _ a ha; rw [Nat.le_zero.mp ha]
  | succ b ih =>
    intro hb a ha
    rcases Nat.lt_or_ge a (b + 1) with h | h
    · exact Nat.le_trans (ih (by omega) a (by omega)) (hs.2.2.1 b (by omega))
    · rw [Nat.le_antisymm ha h]

theorem mem_arc_slice (dg : iscc_Digraph) (lo hi x : Nat) :
    x ∈ dg.arc_slice lo hi ↔ ∃ a, lo ≤ a ∧ a < hi ∧ dg.head.getD a 0 = x := by
  unfold iscc_Digraph.arc_slice
  rw [List.mem_map]
  constructor
  · rintro ⟨a, ha, rfl⟩
    rw [List.mem_range'_1] at ha
    exact ⟨a, ha.1, by omega, rfl⟩
  · rintro ⟨a, h1, h2, rfl⟩
    exact ⟨a, by rw [List.mem_range'_1]; omega, rfl⟩

theorem mem_arcs_lt (dg : iscc_Digraph) (hs : iscc_digraph_is_sound dg) (v x : Nat)
    (hv : v < dg.vertices) (hx : x ∈ dg.arcs v) : x < dg.vertices := by
  unfold iscc_Digraph.arcs at hx
  rw [mem_arc_slice] at hx
  obtain ⟨a, _, h2, rfl⟩ := hx
  have := tp_mono dg hs dg.vertices (Nat.le_refl _) (v + 1) hv
  exact hs.2.2.2.2.2 a (by omega)

theorem slice_append_eq (A B C : List Nat) :
    (List.range' A.length B.length).map (fun a => (A ++ B ++ C).getD a 0) = B := by
  apply List.ext_getElem
  · simp
  · intro i h1 h2
    simp only [List.getElem_map, List.getElem_range']
    rw [List.getD_eq_getElem?_getD, List.append_assoc, List.getElem?_append_right (by omega)]
    have : A.length + 1 * i - A.length = i := by omega
    rw [this, List.getElem?_append_left h2, List.getElem?_eq_getElem h2]
    rfl

theorem range_split (n v : Nat) (hv : v < n) :
    List.range n = List.range v ++ [v] ++ (List.range (n - v - 1)).map (fun i => v + 1 + i) := by
  have h : n = (v + 1) + (n - v - 1) := by omega
  conv_lhs => rw [h, List.range_add, List.range_succ]

theorem tp_digraph_of_rows (n : Nat) (rows : Nat → List Nat) (v : Nat) (hv : v ≤ n) :
    (digraph_of_rows n rows).tp v = ((List.range v).flatMap rows).length := by
  unfold iscc_Digraph.tp digraph_of_rows
  simp only
  rw [List.getD_eq_getElem?_getD, List.getElem?_map, List.getElem?_range (by omega)]
  rfl

theorem tp_digraph_of_rows_ge (n : Nat) (rows : Nat → List Nat) (v : Nat) (hv : n < v) :
    (digraph_of_rows n rows).tp v = 0 := by
  unfold iscc_Digraph.tp digraph_of_rows
  simp only
  rw [List.getD_eq_getElem?_getD, List.getElem?_eq_none (by simp; omega)]
  rfl

theorem arcs_digraph_of_rows (n : Nat) (rows : Nat → List Nat) (v : Nat) :
    (digraph_of_rows n rows).arcs v = if v < n then rows v else [] := by
  by_cases hv : v < n
  · rw [if_pos hv]
    unfold iscc_Digraph.arcs iscc_Digraph.arc_slice
    rw [tp_digraph_of_rows n rows v (by omega), tp_digraph_of_rows n rows (v + 1) (by omega)]
    have hhead : (digraph_of_rows n rows).head =
        (List.range v).flatMap rows ++ rows v ++
          ((List.range (n - v - 1)).map (fun i => v + 1 + i)).flatMap rows := by
      unfold digraph_of_rows
      simp only
      conv_lhs => rw [range_split n v hv]
      simp [List.flatMap_append]
    rw [hhead, List.range_succ, List.flatMap_append]
    simp only [List.flatMap_singleton, List.length_append, Nat.add_sub_cancel_left]
    exact slice_append_eq _ _ _
  · rw [if_neg hv]
    unfold iscc_Digraph.arcs iscc_Digraph.arc_slice
    rw [tp_digraph_of_rows_ge n rows (v + 1) (by omega)]
    simp

theorem vertices_digraph_of_rows (n : Nat) (rows : Nat → List Nat) :
    (digraph_of_rows n rows).vertices = n := rfl

/-! ## The exclusion graph -/

theorem exclusion_graph_ok (mem : Mem) (nng : iscc_Digraph) (keep : Nat → Bool)
    (h : (iscc_exclusion_graph mem nng keep).1 = SCC_ER_OK) :
    (iscc_exclusion_graph mem nng keep).2 =
      (iscc_digraph_union_and_delete mem nng.vertices
        [nng, (iscc_adjacency_product mem nng (iscc_digraph_transpose mem nng).2 true false).2]
        keep).2 ∧
    (iscc_digraph_transpose mem nng).1 = SCC_ER_OK ∧
    (iscc_adjacency_product mem nng (iscc_digraph_transpose mem nng).2 true false).1 =
      SCC_ER_OK ∧
    (iscc_digraph_union_and_delete mem nng.vertices
        [nng, (iscc_adjacency_product mem nng (iscc_digraph_transpose mem nng).2 true false).2]
        keep).1 = SCC_ER_OK := by
  unfold iscc_exclusion_graph at h ⊢
  dsimp only at h ⊢
  by_cases h1 : (iscc_digraph_transpose mem nng).1 ≠ SCC_ER_OK
  · rw [if_pos h1] at h; exact absurd h h1
  rw [if_neg h1] at h ⊢
  by_cases h2 : (iscc_adjacency_product mem nng (iscc_digraph_transpose mem nng).2
      true false).1 ≠ SCC_ER_OK
  · rw [if_pos h2] at h; exact absurd h h2
  rw [if_neg h2] at h ⊢
  by_cases h3 : (iscc_digraph_union_and_delete mem nng.vertices
        [nng, (iscc_adjacency_product mem nng (iscc_digraph_transpose mem nng).2 true false).2]
        keep).1 ≠ SCC_ER_OK
  · rw [if_pos h3] at h; exact absurd h h3
  rw [if_neg h3] at h ⊢
  exact ⟨rfl, not_not.mp h1, not_not.mp h2, not_not.mp h3⟩

theorem transpose_arcs (mem : Mem) (dg : iscc_Digraph)
    (h : (iscc_digraph_transpose mem dg).1 = SCC_ER_OK) (w v : Nat) :
    v ∈ (iscc_digraph_transpose mem dg).2.arcs w ↔
      w < dg.vertices ∧ v < dg.vertices ∧ w ∈ dg.arcs v := by
  unfold iscc_digraph_transpose at h ⊢
  split_ifs at h ⊢ with hm
  dsimp only
  rw [arcs_digraph_of_rows]
  by_cases hw : w < dg.vertices
  · rw [if_pos hw]
    simp only [List.mem_flatMap, List.mem_range, List.mem_map, List.mem_filter,
      decide_eq_true_eq]
    constructor
    · rintro ⟨a, ha, x, ⟨hx, rfl⟩, rfl⟩
      exact ⟨hw, ha, hx⟩
    · rintro ⟨_, hv, hx⟩
      exact ⟨v, hv, w, ⟨hx, rfl⟩, rfl⟩
  · rw [if_neg hw]
    simp [hw]

theorem product_arcs (mem : Mem) (dg_a dg_b : iscc_Digraph)
    (h : (iscc_adjacency_product mem dg_a dg_b true false).1 = SCC_ER_OK) (u w : Nat) :
    w ∈ (iscc_adjacency_product mem dg_a dg_b true false).2.arcs u ↔
      u < dg_a.vertices ∧ w < dg_a.vertices ∧
        (w ∈ dg_b.arcs u ∨ (∃ v, v ∈ dg_a.arcs u ∧ w ∈ dg_b.arcs v) ∨ w = u) := by
  unfold iscc_adjacency_product at h ⊢
  dsimp only at h ⊢
  split_ifs at h ⊢ with hm
  dsimp only
  rw [arcs_digraph_of_rows]
  by_cases hu : u < dg_a.vertices
  · rw [if_pos hu]
    simp only [List.mem_filter, List.mem_range, List.any_eq_true, decide_eq_true_eq,
      Bool.true_and, Bool.false_and, Bool.not_false, Bool.and_true, Bool.or_eq_true, hu,
      true_and]
    constructor
    · rintro ⟨h1, h2 | h2 | h2⟩
      · exact ⟨h1, Or.inr (Or.inl h2)⟩
      · exact ⟨h1, Or.inl h2⟩
      · exact ⟨h1, Or.inr (Or.inr h2)⟩
    · rintro ⟨h1, h2 | h2 | h2⟩
      · exact ⟨h1, Or.inr (Or.inl h2)⟩
      · exact ⟨h1, Or.inl h2⟩
      · exact ⟨h1, Or.inr (Or.inr h2)⟩
  · rw [if_neg hu]
    simp [hu]

theorem union_arcs (mem : Mem) (n : Nat) (g1 g2 : iscc_Digraph) (keep : Nat → Bool)
    (h : (iscc_digraph_union_and_delete mem n [g1, g2] keep).1 = SCC_ER_OK) (v w : Nat) :
    w ∈ (iscc_digraph_union_and_delete mem n [g1, g2] keep).2.arcs v ↔
      v < n ∧ keep v = true ∧ w < n ∧ keep w = true ∧ (w ∈ g1.arcs v ∨ w ∈ g2.arcs v) := by
  unfold iscc_digraph_union_and_delete at h ⊢
  dsimp only at h ⊢
  split_ifs at h ⊢ with hm
  dsimp only
  rw [arcs_digraph_of_rows]
  by_cases hv : v < n
  · rw [if_pos hv]
    by_cases hk : keep v = true
    · simp [List.mem_filter, hv, hk]
    · simp [hv, hk]
  · rw [if_neg hv]
    simp [hv]

theorem union_vertices (mem : Mem) (n : Nat) (gs : List iscc_Digraph) (keep : Nat → Bool)
    (h : (iscc_digraph_union_and_delete mem n gs keep).1 = SCC_ER_OK) :
    (iscc_digraph_union_and_delete mem n gs keep).2.vertices = n := by
  unfold iscc_digraph_union_and_delete at h ⊢
  dsimp only at h ⊢
  split_ifs at h ⊢ with hm
  rfl

/-- Arcs of the exclusion graph, as the operations of section 4.C define it: `u → w` is
an arc iff both are kept and `w` is a successor of `u`, or `u` itself, or has `u` as a
successor, or shares a successor with `u`. -/
theorem exclusion_graph_arcs (mem : Mem) (nng : iscc_Digraph) (keep : Nat → Bool)
    (h : (iscc_exclusion_graph mem nng keep).1 = SCC_ER_OK) (u w : Nat) :
    w ∈ (iscc_exclusion_graph mem nng keep).2.arcs u ↔
      u < nng.vertices ∧ keep u = true ∧ w < nng.vertices ∧ keep w = true ∧
        (w ∈ nng.arcs u ∨ w = u ∨ u ∈ nng.arcs w ∨
          ∃ v, v < nng.vertices ∧ v ∈ nng.arcs u ∧ v ∈ nng.arcs w) := by
  obtain ⟨he, ht, hp, hu⟩ := exclusion_graph_ok mem nng keep h
  rw [he, union_arcs mem _ _ _ keep hu, product_arcs mem _ _ hp]
  constructor
  · rintro ⟨h1, h2, h3, h4, h5⟩
    refine ⟨h1, h2, h3, h4, ?_⟩
    rcases h5 with h5 | ⟨_, _, hw | ⟨v, hv, hw⟩ | h5⟩
    · exact Or.inl h5
    · rw [transpose_arcs mem nng ht] at hw
      exact Or.inr (Or.inr (Or.inl hw.2.2))
    · rw [transpose_arcs mem nng ht] at hw
      exact Or.inr (Or.inr (Or.inr ⟨v, hw.1, hv, hw.2.2⟩))
    · exact Or.inr (Or.inl h5)
  · rintro ⟨h1, h2, h3, h4, h5⟩
    refine ⟨h1, h2, h3, h4, ?_⟩
    rcases h5 with h5 | h5 | h5 | ⟨v, hv, hvu, hvw⟩
    · exact Or.inl h5
    · exact Or.inr ⟨h1, h3, Or.inr (Or.inr h5)⟩
    · refine Or.inr ⟨h1, h3, Or.inl ?_⟩
      rw [transpose_arcs mem nng ht]
      exact ⟨h1, h3, h5⟩
    · refine Or.inr ⟨h1, h3, Or.inr (Or.inl ⟨v, hvu, ?_⟩)⟩
      rw [transpose_arcs mem nng ht]
      exact ⟨hv, h3, hvw⟩

theorem exclusion_graph_vertices (mem : Mem) (nng : iscc_Digraph) (keep : Nat → Bool)
    (h : (iscc_exclusion_graph mem nng keep).1 = SCC_ER_OK) :
    (iscc_exclusion_graph mem nng keep).2.vertices = nng.vertices := by
  obtain ⟨he, _, _, hu⟩ := exclusion_graph_ok mem nng keep h
  rw [he, union_vertices mem _ _ keep hu]

/-! ## The exclusion scan -/

theorem exclusion_update_fst (eg : iscc_Digraph) (updating : Bool) (pos : Nat)
    (l : List Nat) (st : (Nat → Bool) × iscc_fs_SortResult) (x : Nat) :
    (l.foldl
      (fun st ex_arc =>
        if st.1 ex_arc then
          let not_excluded := Function.update st.1 ex_arc false
          if updating then
            (not_excluded,
              (eg.arcs ex_arc).foldl
                (fun sr ex_arc_arc =>
                  if not_excluded ex_arc_arc then
                    iscc_fs_decrease_v_in_sort ex_arc_arc sr pos
                  else sr)
                st.2)
          else (not_excluded, st.2)
        else st)
      st).1 x = (st.1 x && decide (x ∉ l)) := by
  induction l generalizing st with
  | nil => simp
  | cons a l ih =>
    rw [List.foldl_cons, ih]
    by_cases ha : st.1 a = true
    · by_cases hx : x = a
      · subst hx
        cases updating <;> simp [ha]
      · have hx' : ¬ a = x := fun h => hx h.symm
        cases updating <;> simp [ha, Function.update_noteq hx, hx, hx']
    · by_cases hx : x = a
      · subst hx
        simp [ha]
      · have hx' : ¬ a = x := fun h => hx h.symm
        simp [ha, hx, hx']

theorem exclusion_update_ne (eg : iscc_Digraph) (updating : Bool) (pos seed : Nat)
    (ne : Nat → Bool) (sort : iscc_fs_SortResult) (x : Nat) :
    (exclusion_update eg updating pos seed (Function.update ne seed false, sort)).1 x = true ↔
      ne x = true ∧ x ≠ seed ∧ x ∉ eg.arcs seed := by
  unfold exclusion_update
  rw [exclusion_update_fst]
  by_cases hx : x = seed
  · subst hx; simp
  · simp [Function.update_noteq hx, hx]

theorem exclusion_init_true (nng : iscc_Digraph) (x : Nat) :
    exclusion_init nng x = true ↔ x < nng.vertices ∧ nng.tp x ≠ nng.tp (x + 1) := by
  unfold exclusion_init
  simp

theorem ExclInv_step (nng eg : iscc_Digraph) (updating : Bool) (pos : Nat) (ne : Nat → Bool)
    (sort : iscc_fs_SortResult) (l : List Nat) (v : Nat)
    (hinv : ExclInv nng eg ne l) (hv : ne v = true) :
    ExclInv nng eg
      (exclusion_update eg updating pos v (Function.update ne v false, sort)).1 (l ++ [v]) := by
  obtain ⟨h1, h2, h3⟩ := hinv
  have hv' := (h1 v).mp hv
  refine ⟨?_, ?_, ?_⟩
  · intro x
    rw [exclusion_update_ne, h1]
    constructor
    · rintro ⟨⟨ha, hb, hc⟩, hd, he⟩
      refine ⟨ha, ?_, ?_⟩
      · simp [hb, hd]
      · intro s hs
        rcases List.mem_append.mp hs with h | h
        · exact hc s h
        · rw [List.mem_singleton] at h; subst h; exact he
    · rintro ⟨ha, hb, hc⟩
      refine ⟨⟨ha, ?_, ?_⟩, ?_, ?_⟩
      · intro h; exact hb (List.mem_append_left _ h)
      · intro s hs; exact hc s (List.mem_append_left _ hs)
      · intro h; exact hb (by simp [h])
      · exact hc v (by simp)
  · intro s hs
    rcases List.mem_append.mp hs with h | h
    · exact h2 s h
    · rw [List.mem_singleton] at h; subst h; exact hv'.1
  · rw [List.pairwise_append]
    refine ⟨h3, List.pairwise_singleton _ _, ?_⟩
    intro s hs s' hs'
    rw [List.mem_singleton] at hs'
    subst hs'
    refine ⟨?_, hv'.2.2 s hs⟩
    intro h
    subst h
    exact hv'.2.1 hs

theorem ExclInv_init (nng eg : iscc_Digraph) : ExclInv nng eg (exclusion_init nng) [] := by
  refine ⟨?_, ?_, List.Pairwise.nil⟩
  · intro x; simp
  · intro s hs; simp at hs

theorem exclusion_exclinv (clabel_max : Nat) (mem : Mem) (nng : iscc_Digraph)
    (updating : Bool) (out1 : iscc_SeedResult) (h0 : out1.count = 0)
    (hok : (iscc_findseeds_exclusion clabel_max mem nng updating out1).ec = SCC_ER_OK) :
    (iscc_exclusion_graph mem nng (exclusion_init nng)).1 = SCC_ER_OK ∧
    ExclInv nng (iscc_exclusion_graph mem nng (exclusion_init nng)).2
      (iscc_findseeds_exclusion clabel_max mem nng updating out1).marks
      (iscc_findseeds_exclusion clabel_max mem nng updating out1).out.toList := by
  unfold iscc_findseeds_exclusion at hok ⊢
  dsimp only at hok ⊢
  by_cases hm : (!mem AllocSite.not_excluded nng.vertices) = true
  · rw [if_pos hm] at hok; simp at hok
  rw [if_neg hm] at hok ⊢
  by_cases he : (iscc_exclusion_graph mem nng (exclusion_init nng)).1 ≠ SCC_ER_OK
  · rw [if_pos he] at hok; exact absurd hok he
  rw [if_neg he] at hok ⊢
  by_cases hs : (iscc_fs_sort_by_inwards mem
      (iscc_exclusion_graph mem nng (exclusion_init nng)).2 updating).1 ≠ SCC_ER_OK
  · rw [if_pos hs] at hok; exact absurd hok hs
  rw [if_neg hs] at hok ⊢
  by_cases hm2 : (!mem AllocSite.seeds out1.capacity) = true
  · rw [if_pos hm2] at hok; simp at hok
  rw [if_neg hm2] at hok ⊢
  refine ⟨not_not.mp he, ?_⟩
  exact exclusion_loop_rule clabel_max mem _ updating
    (fun _ ne _ out =>
      ExclInv nng (iscc_exclusion_graph mem nng (exclusion_init nng)).2 ne out.toList)
    (fun _ _ _ _ hP _ => hP)
    (fun pos ne sort out hP hc ha => by
      show ExclInv nng _ _ (iscc_fs_add_seed clabel_max mem _ out).2.toList
      rw [toList_add_seed clabel_max mem _ out ha]
      exact ExclInv_step nng _ updating pos ne sort _ _ hP hc)
    nng.vertices 0 (exclusion_init nng) _ { out1 with seeds := some (fun _ => 0) }
    (by
      show ExclInv nng _ _ (iscc_SeedResult.toList { out1 with seeds := some (fun _ => 0) })
      rw [toList_of_count_zero _ _ h0]
      exact ExclInv_init nng _) hok

theorem ExclInv_disjoint (mem : Mem) (nng : iscc_Digraph) (hsound : iscc_digraph_is_sound nng)
    (he : (iscc_exclusion_graph mem nng (exclusion_init nng)).1 = SCC_ER_OK)
    (ne : Nat → Bool) (l : List Nat)
    (h : ExclInv nng (iscc_exclusion_graph mem nng (exclusion_init nng)).2 ne l) :
    (∀ s, s ∈ l → s < nng.vertices) ∧
    l.Pairwise (fun s s' => ∀ x, x ∈ nng.closed s → x ∉ nng.closed s') := by
  obtain ⟨_, h2, h3⟩ := h
  constructor
  · intro s hs
    exact ((exclusion_init_true nng s).mp (h2 s hs)).1
  · have h4 : l.Pairwise (fun s s' =>
        (exclusion_init nng s = true ∧ exclusion_init nng s' = true) ∧
          (s' ≠ s ∧ s' ∉ (iscc_exclusion_graph mem nng (exclusion_init nng)).2.arcs s)) := by
      rw [List.pairwise_and_iff]
      refine ⟨?_, h3⟩
      rw [List.pairwise_iff_forall_sublist]
      intro a b hab
      have := hab.subset
      exact ⟨h2 a (this (by simp)), h2 b (this (by simp))⟩
    refine h4.imp ?_
    rintro s s' ⟨⟨hs, hs'⟩, hne, hnot⟩ x hx hx'
    rw [exclusion_graph_arcs mem nng _ he] at hnot
    have hsN := ((exclusion_init_true nng s).mp hs).1
    have hsN' := ((exclusion_init_true nng s').mp hs').1
    apply hnot
    refine ⟨hsN, hs, hsN', hs', ?_⟩
    rcases List.mem_cons.mp hx with h | h
    · rcases List.mem_cons.mp hx' with h' | h'
      · exact absurd (h'.symm.trans h) hne
      · rw [h] at h'
        exact Or.inr (Or.inr (Or.inl h'))
    · rcases List.mem_cons.mp hx' with h' | h'
      · rw [h'] at h
        exact Or.inl h
      · exact Or.inr (Or.inr (Or.inr ⟨x, mem_arcs_lt nng hsound s x hsN h, h, h'⟩))

theorem pairwise_disjoint_all {α : Type} (closed : α → List Nat) (l : List α)
    (hnd : ∀ s, s ∈ l → closed s ≠ [])
    (hp : l.Pairwise (fun s s' => ∀ x, x ∈ closed s → x ∉ closed s')) :
    l.Nodup ∧ ∀ s ∈ l, ∀ s' ∈ l, s ≠ s' → ∀ x, x ∈ closed s → x ∉ closed s' := by
  constructor
  · refine List.Pairwise.imp_of_mem ?_ hp
    intro a b ha _ hab heq
    subst heq
    obtain ⟨x, hx⟩ := List.exists_mem_of_ne_nil _ (hnd a ha)
    exact hab x hx hx
  · intro s hs s' hs' hne
    have hsymm : Symmetric (fun s s' => ∀ x, x ∈ closed s → x ∉ closed s') := by
      intro a b hab x hxb hxa
      exact hab x hxa hxb
    exact hp.forall hsymm hs hs' hne

theorem surj_of_inj_lt (n : Nat) (f : Nat → Nat) (hlt : ∀ v, v < n → f v < n)
    (hinj : ∀ u, u < n → ∀ v, v < n → f u = f v → u = v) :
    ∀ i, i < n → ∃ v, v < n ∧ f v = i := by
  intro i hi
  have := Finset.surj_on_of_inj_on_of_card_le (s := Finset.range n) (t := Finset.range n)
    (fun a _ => f a)
    (fun a ha => Finset.mem_range.mpr (hlt a (Finset.mem_range.mp ha)))
    (fun a b ha hb h => hinj a (Finset.mem_range.mp ha) b (Finset.mem_range.mp hb) h)
    (Nat.le_refl _) i (Finset.mem_range.mpr hi)
  obtain ⟨a, ha, h⟩ := this
  exact ⟨a, Finset.mem_range.mp ha, h.symm⟩

theorem countP_range_succ (p : Nat → Bool) (v : Nat) :
    (List.range (v + 1)).countP p = (List.range v).countP p + (if p v then 1 else 0) := by
  rw [List.range_succ, List.countP_append]
  simp [List.countP_cons]

theorem countP_range_mono (p : Nat → Bool) (a b : Nat) (h : a ≤ b) :
    (List.range a).countP p ≤ (List.range b).countP p :=
  List.Sublist.countP_le _ (List.range_sublist.mpr h)

theorem countP_range_lt_of_mem (p : Nat → Bool) (v n : Nat) (hv : v < n) (hp : p v = true) :
    (List.range v).countP p < (List.range n).countP p := by
  have h1 := countP_range_succ p v
  have h2 := countP_range_mono p (v + 1) n hv
  rw [hp] at h1
  simp at h1
  omega

theorem countP_le_split (l : List Nat) (key : Nat → Nat) (b : Nat) :
    l.countP (fun u => decide (key u < b + 1)) =
      l.countP (fun u => decide (key u < b)) + l.countP (fun u => decide (key u = b)) := by
  induction l with
  | nil => simp
  | cons a l ih =>
    simp only [List.countP_cons, ih]
    by_cases h1 : key a < b
    · have h2 : key a < b + 1 := by omega
      have h3 : ¬ key a = b := by omega
      simp [h1, h2, h3]; omega
    · by_cases h3 : key a = b
      · have h2 : key a < b + 1 := by omega
        simp [h1, h2, h3]; omega
      · have h2 : ¬ key a < b + 1 := by omega
        simp [h1, h2, h3]

theorem countP_lt_mono (l : List Nat) (key : Nat → Nat) (a b : Nat) (h : a ≤ b) :
    l.countP (fun u => decide (key u < a)) ≤ l.countP (fun u => decide (key u < b)) := by
  apply List.countP_mono_left
  intro x _ hx
  simp only [decide_eq_true_eq] at hx ⊢
  omega

theorem sorted_pos_lt_next (n : Nat) (key : Nat → Nat) (v : Nat) (hv : v < n) :
    sorted_pos n key v < (List.range n).countP (fun u => decide (key u < key v + 1)) := by
  unfold sorted_pos
  rw [countP_le_split]
  have := countP_range_lt_of_mem (fun u => decide (key u = key v)) v n hv (by simp)
  omega

theorem sorted_pos_lt (n : Nat) (key : Nat → Nat) (v : Nat) (hv : v < n) :
    sorted_pos n key v < n := by
  have h1 := sorted_pos_lt_next n key v hv
  have h2 : (List.range n).countP (fun u => decide (key u < key v + 1)) ≤ n := by
    have := List.countP_le_length (fun u => decide (key u < key v + 1)) (l := List.range n)
    simpa using this
  omega

/-- The position is strictly increasing in the pair (key, vertex ID). -/
theorem sorted_pos_strict (n : Nat) (key : Nat → Nat) (u v : Nat) (hu : u < n)
    (h : key u < key v ∨ (key u = key v ∧ u < v)) :
    sorted_pos n key u < sorted_pos n key v := by
  rcases h with h | ⟨h1, h2⟩
  · have h1 := sorted_pos_lt_next n key u hu
    have h2 := countP_lt_mono (List.range n) key (key u + 1) (key v) h
    unfold sorted_pos at h1 ⊢
    omega
  · unfold sorted_pos
    rw [h1]
    have := countP_range_lt_of_mem (fun w => decide (key w = key v)) u v h2 (by simp [h1])
    omega

theorem sorted_pos_inj (n : Nat) (key : Nat → Nat) (u v : Nat) (hu : u < n) (hv : v < n)
    (h : sorted_pos n key u = sorted_pos n key v) : u = v := by
  by_contra hne
  rcases Nat.lt_trichotomy (key u) (key v) with h1 | h1 | h1
  · have := sorted_pos_strict n key u v hu (Or.inl h1); omega
  · rcases Nat.lt_or_gt_of_ne hne with h2 | h2
    · have := sorted_pos_strict n key u v hu (Or.inr ⟨h1, h2⟩); omega
    · have := sorted_pos_strict n key v u hv (Or.inr ⟨h1.symm, h2⟩); omega
  · have := sorted_pos_strict n key v u hv (Or.inl h1); omega

/-- Position `sorted_pos v` lies at or after the start of bucket `b` iff `b ≤ key v`. -/
theorem bucket_start_le_pos (n : Nat) (key : Nat → Nat) (b v : Nat) (hv : v < n) :
    (List.range n).countP (fun u => decide (key u < b)) ≤ sorted_pos n key v ↔ b ≤ key v := by
  constructor
  · intro h
    by_contra hlt
    have h1 := sorted_pos_lt_next n key v hv
    have h2 := countP_lt_mono (List.range n) key (key v + 1) b (by omega)
    omega
  · intro h
    have := countP_lt_mono (List.range n) key b (key v) h
    unfold sorted_pos
    omega

/-! ## The loops of `iscc_fs_sort_by_inwards` -/

theorem foldl_count_inwards (l : List Nat) (c0 : Nat → Nat) (w : Nat) :
    (l.foldl (fun c a => Function.update c a (c a + 1)) c0) w = c0 w + l.count w := by
  induction l generalizing c0 with
  | nil => simp
  | cons a l ih =>
    rw [List.foldl_cons, ih]
    by_cases h : w = a
    · subst h; simp; omega
    · have h' : ¬ a = w := fun e => h e.symm
      simp [Function.update_noteq h, List.count_cons, h']

theorem sort_count_inwards_eq (nng : iscc_Digraph) (w : Nat) :
    sort_count_inwards nng w = (nng.arc_slice 0 (nng.tp nng.vertices)).count w := by
  unfold sort_count_inwards
  rw [foldl_count_inwards]
  simp

theorem foldl_max_ge (key : Nat → Nat) (l : List Nat) (m0 : Nat) :
    m0 ≤ l.foldl (fun m v => if m < key v then key v else m) m0 ∧
    ∀ v ∈ l, key v ≤ l.foldl (fun m v => if m < key v then key v else m) m0 := by
  induction l generalizing m0 with
  | nil => simp
  | cons a l ih =>
    rw [List.foldl_cons]
    have hm : m0 ≤ (if m0 < key a then key a else m0) ∧
        key a ≤ (if m0 < key a then key a else m0) := by
      split_ifs <;> omega
    generalize (if m0 < key a then key a else m0) = m1 at hm ⊢
    obtain ⟨h1, h2⟩ := ih m1
    constructor
    · omega
    · intro v hv
      rcases List.mem_cons.mp hv with h | h
      · subst h; omega
      · exact h2 v h

theorem sort_max_inwards_ge (n : Nat) (key : Nat → Nat) (v : Nat) (hv : v < n) :
    key v ≤ sort_max_inwards n key :=
  (foldl_max_ge key (List.range n) 0).2 v (List.mem_range.mpr hv)

theorem foldl_bucket_count (key : Nat → Nat) (l : List Nat) (bc0 : Nat → Nat) (b : Nat) :
    (l.foldl (fun bc v => Function.update bc (key v) (bc (key v) + 1)) bc0) b =
      bc0 b + l.countP (fun u => decide (key u = b)) := by
  induction l generalizing bc0 with
  | nil => simp
  | cons a l ih =>
    rw [List.foldl_cons, ih]
    by_cases h : b = key a
    · subst h; simp [List.countP_cons]; omega
    · have h' : ¬ key a = b := fun e => h e.symm
      simp [Function.update_noteq h, List.countP_cons, h']

theorem sort_bucket_count_eq (n : Nat) (key : Nat → Nat) (b : Nat) :
    sort_bucket_count n key b = (List.range n).countP (fun u => decide (key u = b)) := by
  unfold sort_bucket_count
  rw [foldl_bucket_count]
  simp

theorem foldl_bucket_cumsum (n : Nat) (key : Nat → Nat) (m : Nat) :
    ((List.range m).foldl
      (fun (st : Nat × (Nat → Nat)) b =>
        (st.1 + sort_bucket_count n key b,
          Function.update st.2 b (st.1 + sort_bucket_count n key b)))
      (0, fun _ => 0)).1 = (List.range n).countP (fun u => decide (key u < m)) ∧
    ∀ b, b < m →
      ((List.range m).foldl
        (fun (st : Nat × (Nat → Nat)) b =>
          (st.1 + sort_bucket_count n key b,
            Function.update st.2 b (st.1 + sort_bucket_count n key b)))
        (0, fun _ => 0)).2 b = (List.range n).countP (fun u => decide (key u < b + 1)) := by
  induction m with
  | zero => simp
  | succ m ih =>
    rw [List.range_succ, List.foldl_append]
    simp only [List.foldl_cons, List.foldl_nil]
    obtain ⟨h1, h2⟩ := ih
    rw [h1, sort_bucket_count_eq, ← countP_le_split]
    refine ⟨rfl, ?_⟩
    intro b hb
    by_cases h : b = m
    · subst h; simp
    · rw [Function.update_noteq h]
      exact h2 b (by omega)

theorem sort_bucket_cumsum_eq (n : Nat) (key : Nat → Nat) (m b : Nat) (hb : b ≤ m) :
    (sort_bucket_cumsum m (sort_bucket_count n key)).2 b =
      (List.range n).countP (fun u => decide (key u < b + 1)) := by
  unfold sort_bucket_cumsum
  exact (foldl_bucket_cumsum n key (m + 1)).2 b (by omega)

/-- The placing loop puts every vertex `u < t` at `sorted_pos u` and moves every bucket
start down to the first slot of its bucket. -/
theorem sort_place_spec (mk : Bool) (n m : Nat) (key : Nat → Nat)
    (hkey : ∀ v, v < n → key v ≤ m) :
    ∀ t, t ≤ n → ∀ sr : iscc_fs_SortResult,
      sr.inwards_count = key →
      (∀ b, b ≤ m → sr.bucket_index b =
        (List.range n).countP (fun u => decide (key u < b)) +
          (List.range t).countP (fun u => decide (key u = b))) →
      (∀ u, t ≤ u → u < n → sr.sorted_vertices (sorted_pos n key u) = u ∧
        (mk = true → sr.vertex_index u = sorted_pos n key u)) →
      (sort_place mk t sr).inwards_count = key ∧
      (∀ b, b ≤ m → (sort_place mk t sr).bucket_index b =
        (List.range n).countP (fun u => decide (key u < b))) ∧
      (∀ u, u < n → (sort_place mk t sr).sorted_vertices (sorted_pos n key u) = u ∧
        (mk = true → (sort_place mk t sr).vertex_index u = sorted_pos n key u)) := by
  intro t
  induction t with
  | zero =>
    intro _ sr h1 h2 h3
    refine ⟨h1, ?_, fun u hu => h3 u (Nat.zero_le _) hu⟩
    intro b hb
    have := h2 b hb
    simpa using this
  | succ t ih =>
    intro ht sr h1 h2 h3
    unfold sort_place
    have htn : t < n := by omega
    have hslot : sr.bucket_index (sr.inwards_count t) - 1 = sorted_pos n key t := by
      rw [h1, h2 (key t) (hkey t htn), countP_range_succ]
      unfold sorted_pos
      simp
    apply ih (by omega)
    · exact h1
    · intro b hb
      dsimp only
      by_cases hbt : b = sr.inwards_count t
      · rw [hbt, Function.update_same, hslot]
        rw [h1]
        rfl
      · rw [Function.update_noteq hbt, h2 b hb, countP_range_succ]
        have : ¬ key t = b := by
          intro e; apply hbt; rw [h1]; exact e.symm
        simp [this]
    · intro u hu hun
      dsimp only
      rw [hslot]
      by_cases hut : u = t
      · subst hut
        refine ⟨Function.update_same _ _ _, ?_⟩
        intro hmk
        rw [if_pos hmk, Function.update_same]
      · have hne : sorted_pos n key u ≠ sorted_pos n key t := by
          intro e
          exact hut (sorted_pos_inj n key u t hun htn e)
        have := h3 u (by omega) hun
        refine ⟨by rw [Function.update_noteq hne]; exact this.1, ?_⟩
        intro hmk
        rw [if_pos hmk, Function.update_noteq hut]
        exact this.2 hmk

theorem sort_by_inwards_spec (mem : Mem) (dg : iscc_Digraph) (mk : Bool)
    (hok : (iscc_fs_sort_by_inwards mem dg mk).1 = SCC_ER_OK) :
    (∀ u, u < dg.vertices →
      (iscc_fs_sort_by_inwards mem dg mk).2.sorted_vertices
        (sorted_pos dg.vertices (sort_count_inwards dg) u) = u) ∧
    (mk = true →
      (iscc_fs_sort_by_inwards mem dg mk).2.inwards_count = sort_count_inwards dg ∧
      (∀ u, u < dg.vertices → (iscc_fs_sort_by_inwards mem dg mk).2.vertex_index u =
        sorted_pos dg.vertices (sort_count_inwards dg) u) ∧
      (∀ b, b ≤ sort_max_inwards dg.vertices (sort_count_inwards dg) →
        (iscc_fs_sort_by_inwards mem dg mk).2.bucket_index b =
          (List.range dg.vertices).countP (fun u => decide (sort_count_inwards dg u < b)))) := by
  have hplace := fun (mk : Bool) => sort_place_spec mk dg.vertices
    (sort_max_inwards dg.vertices (sort_count_inwards dg)) (sort_count_inwards dg)
    (fun v hv => sort_max_inwards_ge dg.vertices (sort_count_inwards dg) v hv)
    dg.vertices (Nat.le_refl _)
    { inwards_count := sort_count_inwards dg, sorted_vertices := fun _ => 0,
      vertex_index := fun _ => 0,
      bucket_index := (sort_bucket_cumsum (sort_max_inwards dg.vertices (sort_count_inwards dg))
        (sort_bucket_count dg.vertices (sort_count_inwards dg))).2 }
    rfl
    (fun b hb => by
      dsimp only
      rw [sort_bucket_cumsum_eq _ _ _ b hb, countP_le_split])
    (fun u h1 h2 => by omega)
  unfold iscc_fs_sort_by_inwards at hok ⊢
  dsimp only at hok ⊢
  by_cases h1 : (!(mem AllocSite.inwards_count dg.vertices &&
      mem AllocSite.sorted_vertices dg.vertices)) = true
  · rw [if_pos h1] at hok; simp at hok
  rw [if_neg h1] at hok ⊢
  by_cases h2 : (!(mem AllocSite.bucket_count
        (sort_max_inwards dg.vertices (sort_count_inwards dg) + 1) &&
      mem AllocSite.bucket_index
        (sort_max_inwards dg.vertices (sort_count_inwards dg) + 1))) = true
  · rw [if_pos h2] at hok; simp at hok
  rw [if_neg h2] at hok ⊢
  cases mk
  · simp only [Bool.false_eq_true, if_false, false_implies, and_true]
    intro u hu
    exact ((hplace false).2.2 u hu).1
  · simp only [if_true] at hok ⊢
    by_cases h3 : (!mem AllocSite.vertex_index dg.vertices) = true
    · rw [if_pos h3] at hok; simp at hok
    rw [if_neg h3] at hok ⊢
    dsimp only
    refine ⟨fun u hu => ((hplace true).2.2 u hu).1, fun _ => ⟨(hplace true).1, ?_, ?_⟩⟩
    · intro u hu
      exact ((hplace true).2.2 u hu).2 rfl
    · intro b hb
      exact (hplace true).2.1 b hb

/-- Every vertex occurs in `sorted_vertices` after the bucket sort. -/
theorem sort_by_inwards_perm (mem : Mem) (dg : iscc_Digraph) (mk : Bool)
    (hok : (iscc_fs_sort_by_inwards mem dg mk).1 = SCC_ER_OK) (u : Nat)
    (hu : u < dg.vertices) :
    ∃ i, i < dg.vertices ∧ (iscc_fs_sort_by_inwards mem dg mk).2.sorted_vertices i = u :=
  ⟨sorted_pos dg.vertices (sort_count_inwards dg) u, sorted_pos_lt _ _ u hu,
    (sort_by_inwards_spec mem dg mk hok).1 u hu⟩

theorem sort_by_inwards_SortInv (mem : Mem) (dg : iscc_Digraph)
    (hok : (iscc_fs_sort_by_inwards mem dg true).1 = SCC_ER_OK) :
    SortInv dg.vertices 0 (sort_max_inwards dg.vertices (sort_count_inwards dg))
      (iscc_fs_sort_by_inwards mem dg true).2 ∧
    (iscc_fs_sort_by_inwards mem dg true).2.inwards_count = sort_count_inwards dg := by
  obtain ⟨h1, h2⟩ := sort_by_inwards_spec mem dg true hok
  obtain ⟨h2, h3, h4⟩ := h2 rfl
  refine ⟨⟨?_, ?_, ?_, ?_⟩, h2⟩
  · intro v hv
    rw [h3 v hv]
    exact sorted_pos_lt _ _ v hv
  · intro v hv
    rw [h3 v hv]
    exact h1 v hv
  · intro v hv
    rw [h2]
    exact sort_max_inwards_ge _ _ v hv
  · intro b hb i _ hi
    obtain ⟨u, hu, hpu⟩ := surj_of_inj_lt dg.vertices
      (sorted_pos dg.vertices (sort_count_inwards dg))
      (fun v hv => sorted_pos_lt _ _ v hv)
      (fun u hu v hv h => sorted_pos_inj _ _ u v hu hv h) i hi
    rw [h4 b hb, h2, ← hpu, h1 u hu]
    exact bucket_start_le_pos _ _ b u hu

/-! ## One decrement keeps the sort structure consistent -/

theorem decrease_fields (v : Nat) (sr : iscc_fs_SortResult) (cur : Nat) :
    (iscc_fs_decrease_v_in_sort v sr cur).inwards_count =
      Function.update sr.inwards_count v (sr.inwards_count v - 1) ∧
    (iscc_fs_decrease_v_in_sort v sr cur).bucket_index =
      Function.update
        (if sr.bucket_index (sr.inwards_count v) ≤ cur then
          Function.update sr.bucket_index (sr.inwards_count v - 1) (decrease_move_to v sr cur)
         else sr.bucket_index)
        (sr.inwards_count v) (decrease_move_to v sr cur + 1) ∧
    (iscc_fs_decrease_v_in_sort v sr cur).sorted_vertices =
      (if sr.vertex_index v ≠ decrease_move_to v sr cur then
        Function.update
          (Function.update sr.sorted_vertices (sr.vertex_index v)
            (sr.sorted_vertices (decrease_move_to v sr cur)))
          (decrease_move_to v sr cur) v
       else sr.sorted_vertices) ∧
    (iscc_fs_decrease_v_in_sort v sr cur).vertex_index =
      (if sr.vertex_index v ≠ decrease_move_to v sr cur then
        Function.update (Function.update sr.vertex_index v (decrease_move_to v sr cur))
          (sr.sorted_vertices (decrease_move_to v sr cur)) (sr.vertex_index v)
       else sr.vertex_index) := by
  unfold iscc_fs_decrease_v_in_sort decrease_move_to
  dsimp only
  by_cases hcl : sr.bucket_index (sr.inwards_count v) ≤ cur
  · have hd : decide (sr.bucket_index (sr.inwards_count v) ≤ cur) = true := decide_eq_true hcl
    have hmt : (if decide (sr.bucket_index (sr.inwards_count v) ≤ cur) = true then cur + 1
        else sr.bucket_index (sr.inwards_count v)) = cur + 1 := by simp [hcl]
    rw [hmt]
    simp only [hd]
    simp only [hcl, if_true]
    by_cases hne : sr.vertex_index v = cur + 1
    · simp [hne]
    · simp [hne, Function.update_noteq hne]
  · have hd : decide (sr.bucket_index (sr.inwards_count v) ≤ cur) = false :=
      decide_eq_false hcl
    have hmt : (if decide (sr.bucket_index (sr.inwards_count v) ≤ cur) = true then cur + 1
        else sr.bucket_index (sr.inwards_count v)) = sr.bucket_index (sr.inwards_count v) := by
      simp [hcl]
    rw [hmt]
    simp only [hd]
    simp only [hcl, if_false, Bool.false_eq_true]
    by_cases hne : sr.vertex_index v = sr.bucket_index (sr.inwards_count v)
    · simp [hne]
    · simp [hne, Function.update_noteq hne]

theorem SortInv.perm {n lo m : Nat} {sr : iscc_fs_SortResult} (h : SortInv n lo m sr) :
    ∀ i, i < n → sr.sorted_vertices i < n ∧ sr.vertex_index (sr.sorted_vertices i) = i := by
  intro i hi
  obtain ⟨v, hv, hvi⟩ := surj_of_inj_lt n sr.vertex_index h.vidx_lt
    (fun a ha b hb e => by
      have h1 := h.sorted_vidx a ha
      have h2 := h.sorted_vidx b hb
      rw [e] at h1
      rw [← h1, h2]) i hi
  have := h.sorted_vidx v hv
  rw [hvi] at this
  rw [this]
  exact ⟨hv, hvi⟩

theorem SortInv.mono {n lo lo' m : Nat} {sr : iscc_fs_SortResult} (h : SortInv n lo m sr)
    (hlo : lo ≤ lo') : SortInv n lo' m sr :=
  ⟨h.vidx_lt, h.sorted_vidx, h.key_le, fun b hb i hi hin => h.bucket b hb i (by omega) hin⟩

/-- Moving a pending vertex with a positive key one bucket down keeps the sort structure
consistent and leaves the positions up to the scan cursor untouched. -/
theorem decrease_SortInv (n m cur v : Nat) (sr : iscc_fs_SortResult)
    (h : SortInv n (cur + 1) m sr) (hv : v < n) (hpos : cur < sr.vertex_index v)
    (hkey : 1 ≤ sr.inwards_count v) :
    SortInv n (cur + 1) m (iscc_fs_decrease_v_in_sort v sr cur) ∧
    (∀ i, i ≤ cur →
      (iscc_fs_decrease_v_in_sort v sr cur).sorted_vertices i = sr.sorted_vertices i) := by
  obtain ⟨hcnt, hbidx, hsorted, hvidx⟩ := decrease_fields v sr cur
  have hmf_lt : sr.vertex_index v < n := h.vidx_lt v hv
  have hsmf : sr.sorted_vertices (sr.vertex_index v) = v := h.sorted_vidx v hv
  have hcm : sr.inwards_count v ≤ m := h.key_le v hv
  have hbc : sr.bucket_index (sr.inwards_count v) ≤ sr.vertex_index v :=
    (h.bucket _ hcm _ (by omega) hmf_lt).mpr (by rw [hsmf])
  have hmt_cases :
      (sr.bucket_index (sr.inwards_count v) ≤ cur ∧ decrease_move_to v sr cur = cur + 1) ∨
      (cur < sr.bucket_index (sr.inwards_count v) ∧
        decrease_move_to v sr cur = sr.bucket_index (sr.inwards_count v)) := by
    unfold decrease_move_to
    by_cases hcl : sr.bucket_index (sr.inwards_count v) ≤ cur
    · exact Or.inl ⟨hcl, if_pos hcl⟩
    · exact Or.inr ⟨by omega, if_neg hcl⟩
  generalize decrease_move_to v sr cur = mt at hbidx hsorted hvidx hmt_cases
  generalize iscc_fs_decrease_v_in_sort v sr cur = sr' at hcnt hbidx hsorted hvidx ⊢
  generalize hc : sr.inwards_count v = c at hcnt hbidx hcm hbc hmt_cases hkey
  generalize hmf : sr.vertex_index v = mf at hsorted hvidx hmf_lt hsmf hbc hpos
  have hmt_le : mt ≤ mf := by rcases hmt_cases with ⟨_, e⟩ | ⟨_, e⟩ <;> omega
  have hmt_gt : cur < mt := by rcases hmt_cases with ⟨_, e⟩ | ⟨_, e⟩ <;> omega
  have hbmt : sr.bucket_index c ≤ mt := by rcases hmt_cases with ⟨_, e⟩ | ⟨_, e⟩ <;> omega
  have hmt_lt : mt < n := by omega
  obtain ⟨hw_lt, hvw⟩ := h.perm mt hmt_lt
  have hkw : sr.inwards_count (sr.sorted_vertices mt) = c := by
    have h1 : c ≤ sr.inwards_count (sr.sorted_vertices mt) :=
      (h.bucket c hcm mt (by omega) hmt_lt).mp hbmt
    by_contra hne
    have h2 : c + 1 ≤ sr.inwards_count (sr.sorted_vertices mt) := by omega
    have h3 : c + 1 ≤ m := Nat.le_trans h2 (h.key_le _ hw_lt)
    have h4 := (h.bucket (c + 1) h3 mt (by omega) hmt_lt).mpr h2
    have h5 := (h.bucket (c + 1) h3 mf (by omega) hmf_lt).mp (by omega)
    rw [hsmf, hc] at h5
    omega
  generalize hw : sr.sorted_vertices mt = w at hsorted hvidx hw_lt hvw hkw
  have hwv : mf = mt → w = v := by
    intro e; rw [← hw, ← e, hsmf]
  have hwv' : w = v → mf = mt := by
    intro e; rw [← hvw, e, hmf]
  have hS : ∀ i, sr'.sorted_vertices i =
      if i = mt then v else if i = mf then w else sr.sorted_vertices i := by
    intro i
    rw [hsorted]
    by_cases hne : mf = mt
    · rw [if_neg (by simpa using hne)]
      by_cases hi : i = mt
      · rw [if_pos hi, hi, ← hne, hsmf]
      · rw [if_neg hi, if_neg (by omega)]
    · rw [if_pos hne]
      by_cases hi : i = mt
      · rw [if_pos hi, hi, Function.update_same]
      · rw [if_neg hi, Function.update_noteq hi]
        by_cases hi2 : i = mf
        · rw [if_pos hi2, hi2, Function.update_same]
        · rw [if_neg hi2, Function.update_noteq hi2]
  have hV : ∀ x, sr'.vertex_index x =
      if x = w then mf else if x = v then mt else sr.vertex_index x := by
    intro x
    rw [hvidx]
    by_cases hne : mf = mt
    · rw [if_neg (by simpa using hne)]
      by_cases hx : x = w
      · rw [if_pos hx, hx, hwv hne, hmf]
      · rw [if_neg hx, if_neg (by rw [← hwv hne]; exact hx)]
    · rw [if_pos hne]
      by_cases hx : x = w
      · rw [if_pos hx, hx, Function.update_same]
      · rw [if_neg hx, Function.update_noteq hx]
        by_cases hx2 : x = v
        · rw [if_pos hx2, hx2, Function.update_same]
        · rw [if_neg hx2, Function.update_noteq hx2]
  have hC : ∀ x, sr'.inwards_count x = if x = v then c - 1 else sr.inwards_count x := by
    intro x
    rw [hcnt]
    by_cases hx : x = v
    · rw [if_pos hx, hx, Function.update_same]
    · rw [if_neg hx, Function.update_noteq hx]
  have hK : ∀ i, i < n → sr'.inwards_count (sr'.sorted_vertices i) =
      if i = mt then c - 1 else sr.inwards_count (sr.sorted_vertices i) := by
    intro i hi
    rw [hS, hC]
    by_cases h1 : i = mt
    · simp [h1]
    · rw [if_neg h1, if_neg h1]
      by_cases h2 : i = mf
      · have : w ≠ v := fun e => h1 (by rw [h2]; exact hwv' e)
        rw [if_pos h2, if_neg this, hkw, h2, hsmf, hc]
      · have : sr.sorted_vertices i ≠ v := by
          intro e
          have := (h.perm i hi).2
          rw [e, hmf] at this
          exact h2 this.symm
        rw [if_neg h2, if_neg this]
  refine ⟨⟨?_, ?_, ?_, ?_⟩, ?_⟩
  · intro x hx
    rw [hV]
    have := h.vidx_lt x hx
    split_ifs <;> omega
  · intro x hx
    rw [hV, hS]
    by_cases h1 : x = w
    · rw [if_pos h1]
      by_cases h2 : mf = mt
      · rw [if_pos h2, h1, hwv h2]
      · rw [if_neg h2, if_pos rfl, h1]
    · rw [if_neg h1]
      by_cases h2 : x = v
      · rw [if_pos h2, if_pos rfl, h2]
      · rw [if_neg h2]
        have hp := h.sorted_vidx x hx
        have h3 : sr.vertex_index x ≠ mt := by
          intro e; rw [e, hw] at hp; exact h1 hp.symm
        have h4 : sr.vertex_index x ≠ mf := by
          intro e; rw [e, hsmf] at hp; exact h2 hp.symm
        rw [if_neg h3, if_neg h4, hp]
  · intro x hx
    rw [hC]
    have := h.key_le x hx
    split_ifs <;> omega
  · intro b hb i hlo hi
    rw [hK i hi, hbidx]
    have hold := h.bucket b hb i hlo hi
    by_cases hbc' : b = c
    · subst hbc'
      rw [Function.update_same]
      by_cases h1 : i = mt
      · rw [if_pos h1]; omega
      · rw [if_neg h1]
        rcases hmt_cases with ⟨hcl, e⟩ | ⟨hcl, e⟩ <;> omega
    · rw [Function.update_noteq hbc']
      rcases hmt_cases with ⟨hcl, e⟩ | ⟨hcl, e⟩
      · rw [if_pos hcl]
        by_cases hb1 : b = c - 1
        · subst hb1
          rw [Function.update_same]
          have hall := (h.bucket c hcm i hlo hi).mp (by omega)
          by_cases h1 : i = mt
          · rw [if_pos h1]; omega
          · rw [if_neg h1]; omega
        · rw [Function.update_noteq hb1]
          by_cases h1 : i = mt
          · rw [if_pos h1]
            rw [h1, hw, hkw] at hold
            omega
          · rw [if_neg h1]; exact hold
      · rw [if_neg (by omega)]
        by_cases h1 : i = mt
        · rw [if_pos h1]
          rw [h1, hw, hkw] at hold
          omega
        · rw [if_neg h1]; exact hold
  · intro i hi
    rw [hS, if_neg (by omega), if_neg (by omega)]

/-! ## Guarded decrements along a list of targets -/

theorem dec_fold_SortInv (n m cur : Nat) (g : iscc_fs_SortResult → Nat → Bool)
    (sr0 : iscc_fs_SortResult)
    (hg : ∀ sr w, w < n → SortInv n (cur + 1) m sr →
      (∀ i, i ≤ cur → sr.sorted_vertices i = sr0.sorted_vertices i) →
      g sr w = true → cur < sr.vertex_index w) :
    ∀ (T : List Nat) (sr : iscc_fs_SortResult) (d : Nat → Nat),
      (∀ w, w ∈ T → w < n) →
      SortInv n (cur + 1) m sr →
      (∀ i, i ≤ cur → sr.sorted_vertices i = sr0.sorted_vertices i) →
      (∀ w, sr0.inwards_count w ≤ sr.inwards_count w + d w) →
      (∀ w, d w + T.count w ≤ sr0.inwards_count w) →
      SortInv n (cur + 1) m
        (T.foldl (fun sr w => if g sr w then iscc_fs_decrease_v_in_sort w sr cur else sr) sr) ∧
      (∀ i, i ≤ cur →
        (T.foldl (fun sr w => if g sr w then iscc_fs_decrease_v_in_sort w sr cur else sr)
          sr).sorted_vertices i = sr0.sorted_vertices i) ∧
      (∀ w, sr0.inwards_count w ≤
        (T.foldl (fun sr w => if g sr w then iscc_fs_decrease_v_in_sort w sr cur else sr)
          sr).inwards_count w + d w + T.count w) := by
  intro T
  induction T with
  | nil =>
    intro sr d _ h1 h2 h3 _
    exact ⟨h1, h2, by simpa using h3⟩
  | cons a T ih =>
    intro sr d hT h1 h2 h3 h4
    rw [List.foldl_cons]
    have ha : a < n := hT a (List.mem_cons_self _ _)
    have hT' : ∀ w, w ∈ T → w < n := fun w hw => hT w (List.mem_cons_of_mem _ hw)
    have hd' : ∀ w, (d w + if w = a then 1 else 0) + T.count w ≤ sr0.inwards_count w := by
      intro w
      have := h4 w
      rw [List.count_cons] at this
      by_cases hw : w = a
      · subst hw; simp at this ⊢; omega
      · have hw' : ¬ (a == w) = true := by simpa using fun e => hw e.symm
        simp [hw, hw'] at this ⊢; omega
    have hfin : ∀ sr1 : iscc_fs_SortResult,
        (∀ w, sr0.inwards_count w ≤ sr1.inwards_count w + (d w + if w = a then 1 else 0) +
          T.count w) →
        ∀ w, sr0.inwards_count w ≤ sr1.inwards_count w + d w + (a :: T).count w := by
      intro sr1 hh w
      have := hh w
      rw [List.count_cons]
      by_cases hw : w = a
      · subst hw; simp at this ⊢; omega
      · have hw' : ¬ (a == w) = true := by simpa using fun e => hw e.symm
        simp [hw, hw'] at this ⊢; omega
    by_cases hga : g sr a = true
    · rw [if_pos hga]
      have hk : 1 ≤ sr.inwards_count a := by
        have e1 := h3 a
        have e2 := h4 a
        rw [List.count_cons_self] at e2
        omega
      obtain ⟨i1, i2⟩ := decrease_SortInv n m cur a sr h1 ha (hg sr a ha h1 h2 hga) hk
      have hc := (decrease_fields a sr cur).1
      obtain ⟨r1, r2, r3⟩ := ih (iscc_fs_decrease_v_in_sort a sr cur)
        (fun w => d w + if w = a then 1 else 0) hT' i1
        (fun i hi => by rw [i2 i hi, h2 i hi])
        (fun w => by
          rw [hc]
          have := h3 w
          by_cases hw : w = a
          · subst hw; simp; omega
          · simp [Function.update_noteq hw, hw]; omega)
        hd'
      exact ⟨r1, r2, hfin _ r3⟩
    · rw [if_neg hga]
      obtain ⟨r1, r2, r3⟩ := ih sr (fun w => d w + if w = a then 1 else 0) hT' h1 h2
        (fun w => by
          have := h3 w
          show sr0.inwards_count w ≤ sr.inwards_count w + (d w + if w = a then 1 else 0)
          omega) hd'
      exact ⟨r1, r2, hfin _ r3⟩

/-! ## Live in-degree -/

theorem sum_range_update_live (g : Nat → Nat) (live : Nat → Bool) (u : Nat)
    (hu : live u = true) (n : Nat) :
    ((List.range n).map (fun x => if live x then g x else 0)).sum =
      ((List.range n).map (fun x => if Function.update live u false x then g x else 0)).sum +
        (if u < n then g u else 0) := by
  induction n with
  | zero => simp
  | succ n ih =>
    rw [List.range_succ, List.map_append, List.map_append, List.sum_append, List.sum_append, ih]
    simp only [List.map_cons, List.map_nil, List.sum_cons, List.sum_nil, Nat.add_zero]
    by_cases h : n = u
    · subst h
      simp [hu]
    · rw [Function.update_noteq h]
      have h1 : (u < n + 1) ↔ u < n := by omega
      simp only [h1]
      omega

theorem live_indegree_remove (dg : iscc_Digraph) (live : Nat → Bool) (u w : Nat)
    (hu : u < dg.vertices) (hl : live u = true) :
    live_indegree dg live w =
      live_indegree dg (Function.update live u false) w + (dg.arcs u).count w := by
  unfold live_indegree
  rw [sum_range_update_live (fun x => (dg.arcs x).count w) live u hl dg.vertices, if_pos hu]

theorem live_indegree_mono (dg : iscc_Digraph) (live live' : Nat → Bool) (w : Nat)
    (h : ∀ u, live' u = true → live u = true) :
    live_indegree dg live' w ≤ live_indegree dg live w := by
  unfold live_indegree
  apply List.sum_le_sum
  intro u _
  by_cases h1 : live' u = true
  · simp [h1, h u h1]
  · simp [h1]

theorem live_indegree_remove_list (dg : iscc_Digraph) (w : Nat) :
    ∀ (A : List Nat) (live live' : Nat → Bool), A.Nodup →
      (∀ a, a ∈ A → a < dg.vertices ∧ live a = true ∧ live' a = false) →
      (∀ u, live' u = true → live u = true) →
      (A.map (fun a => (dg.arcs a).count w)).sum + live_indegree dg live' w ≤
        live_indegree dg live w := by
  intro A
  induction A with
  | nil =>
    intro live live' _ _ h
    simpa using live_indegree_mono dg live live' w h
  | cons a A ih =>
    intro live live' hnd hA h
    obtain ⟨ha1, ha2, ha3⟩ := hA a (List.mem_cons_self _ _)
    rw [List.nodup_cons] at hnd
    have := ih (Function.update live a false) live' hnd.2
      (fun b hb => by
        obtain ⟨b1, b2, b3⟩ := hA b (List.mem_cons_of_mem _ hb)
        have hne : b ≠ a := fun e => hnd.1 (e ▸ hb)
        exact ⟨b1, by rw [Function.update_noteq hne]; exact b2, b3⟩)
      (fun u hu => by
        by_cases hua : u = a
        · rw [hua, ha3] at hu; exact absurd hu (by decide)
        · rw [Function.update_noteq hua]; exact h u hu)
    rw [live_indegree_remove dg live a w ha1 ha2]
    simp only [List.map_cons, List.sum_cons]
    omega

theorem arc_slice_append (dg : iscc_Digraph) (lo mid hi : Nat) (h1 : lo ≤ mid) (h2 : mid ≤ hi) :
    dg.arc_slice lo hi = dg.arc_slice lo mid ++ dg.arc_slice mid hi := by
  unfold iscc_Digraph.arc_slice
  rw [← List.map_append]
  congr 1
  have e1 : hi - lo = (mid - lo) + (hi - mid) := by omega
  have e2 : mid = lo + (mid - lo) := by omega
  rw [e1]
  conv_rhs => rw [e2]
  have e3 : lo + (mid - lo) - lo + (hi - (lo + (mid - lo))) = (mid - lo) + (hi - mid) := by omega
  rw [Nat.add_sub_cancel_left]
  have := List.range'_append lo (mid - lo) (hi - (lo + (mid - lo))) 1
  simp only [Nat.one_mul] at this
  rw [this]
  congr 1
  omega

theorem sum_count_arcs (dg : iscc_Digraph) (hs : iscc_digraph_is_sound dg) (w : Nat) :
    ∀ n, n ≤ dg.vertices →
      ((List.range n).map (fun u => (dg.arcs u).count w)).sum =
        (dg.arc_slice 0 (dg.tp n)).count w := by
  intro n
  induction n with
  | zero =>
    intro _
    rw [hs.2.1]
    simp [iscc_Digraph.arc_slice]
  | succ n ih =>
    intro hn
    rw [List.range_succ, List.map_append, List.sum_append, ih (by omega)]
    rw [arc_slice_append dg 0 (dg.tp n) (dg.tp (n + 1)) (Nat.zero_le _) (hs.2.2.1 n (by omega))]
    rw [List.count_append]
    simp [iscc_Digraph.arcs]

theorem live_indegree_le_count (dg : iscc_Digraph) (hs : iscc_digraph_is_sound dg)
    (live : Nat → Bool) (w : Nat) :
    live_indegree dg live w ≤ sort_count_inwards dg w := by
  rw [sort_count_inwards_eq, ← sum_count_arcs dg hs w dg.vertices (Nat.le_refl _)]
  have := live_indegree_mono dg (fun _ => true) live w (fun _ _ => rfl)
  unfold live_indegree at this ⊢
  simpa using this

theorem foldl_flatMap_eq {α β : Type} (f : β → α → β) (g : Nat → List α) :
    ∀ (l : List Nat) (b : β),
      l.foldl (fun b v => (g v).foldl f b) b = (l.flatMap g).foldl f b := by
  intro l
  induction l with
  | nil => intro b; rfl
  | cons a l ih =>
    intro b
    rw [List.foldl_cons, List.flatMap_cons, List.foldl_append, ih]

theorem inwards_update_eq (nng : iscc_Digraph) (marks : Nat → Bool) (pos seed : Nat)
    (sort : iscc_fs_SortResult) :
    inwards_update nng marks pos seed sort =
      ((nng.arcs seed).flatMap nng.arcs).foldl
        (fun sr w =>
          if !marks w && decide (pos < sr.vertex_index w) then
            iscc_fs_decrease_v_in_sort w sr pos
          else sr)
        sort := by
  unfold inwards_update
  exact foldl_flatMap_eq _ nng.arcs (nng.arcs seed) sort

/-- The update after a seed keeps the sort structure consistent, leaves the scanned
positions untouched and keeps every key at least the live in-degree. -/
theorem inwards_update_inv (nng : iscc_Digraph) (hs : iscc_digraph_is_sound nng)
    (hd : no_duplicate_arcs nng) (m pos seed : Nat) (marks : Nat → Bool)
    (sort : iscc_fs_SortResult) (hseed : seed < nng.vertices)
    (hc : iscc_fs_check_neighbors_marks seed nng marks = true)
    (hinv : SortInv nng.vertices (pos + 1) m sort)
    (hlb : ∀ w, live_indegree nng (fun u => !marks u) w ≤ sort.inwards_count w) :
    SortInv nng.vertices (pos + 1) m
      (inwards_update nng (iscc_fs_mark_seed_neighbors seed nng marks) pos seed sort) ∧
    (∀ i, i ≤ pos →
      (inwards_update nng (iscc_fs_mark_seed_neighbors seed nng marks) pos seed
        sort).sorted_vertices i = sort.sorted_vertices i) ∧
    (∀ w, live_indegree nng (fun u => !(iscc_fs_mark_seed_neighbors seed nng marks) u) w ≤
      (inwards_update nng (iscc_fs_mark_seed_neighbors seed nng marks) pos seed
        sort).inwards_count w) := by
  rw [inwards_update_eq]
  rw [check_neighbors_marks_true] at hc
  obtain ⟨_, _, hc3⟩ := hc
  have hcount : ∀ w, ((nng.arcs seed).flatMap nng.arcs).count w +
      live_indegree nng (fun u => !(iscc_fs_mark_seed_neighbors seed nng marks) u) w ≤
      live_indegree nng (fun u => !marks u) w := by
    intro w
    rw [List.count_flatMap]
    refine live_indegree_remove_list nng w (nng.arcs seed) _ _ (hd seed hseed) ?_ ?_
    · intro a ha
      refine ⟨mem_arcs_lt nng hs seed a hseed ha, by simp [hc3 a ha], ?_⟩
      have : iscc_fs_mark_seed_neighbors seed nng marks a = true :=
        (mark_seed_neighbors_true seed nng marks a).mpr (Or.inr (List.mem_cons_of_mem _ ha))
      simp [this]
    · intro u hu
      simp only [Bool.not_eq_true', ] at hu ⊢
      by_contra hne
      have hm : marks u = true := by simpa using hne
      have : iscc_fs_mark_seed_neighbors seed nng marks u = true :=
        (mark_seed_neighbors_true seed nng marks u).mpr (Or.inl hm)
      rw [this] at hu
      exact absurd hu (by decide)
  obtain ⟨r1, r2, r3⟩ := dec_fold_SortInv nng.vertices m pos
    (fun (sr : iscc_fs_SortResult) w =>
      !(iscc_fs_mark_seed_neighbors seed nng marks) w && decide (pos < sr.vertex_index w))
    sort
    (fun sr w _ _ _ hg => by
      simp only [Bool.and_eq_true, decide_eq_true_eq] at hg
      exact hg.2)
    ((nng.arcs seed).flatMap nng.arcs) sort (fun _ => 0)
    (fun w hw => by
      rw [List.mem_flatMap] at hw
      obtain ⟨a, ha, hwa⟩ := hw
      exact mem_arcs_lt nng hs a w (mem_arcs_lt nng hs seed a hseed ha) hwa)
    hinv (fun _ _ => rfl) (fun w => by omega)
    (fun w => by
      have h1 := hcount w
      have h2 := hlb w
      dsimp only
      omega)
  refine ⟨r1, r2, ?_⟩
  intro w
  have h1 := hcount w
  have h2 := hlb w
  have h3 := r3 w
  omega

/-! ## Maximality for the lexical and inwards finders -/

theorem check_false_of_marks_le (nng : iscc_Digraph) (marks marks' : Nat → Bool) (v : Nat)
    (hle : ∀ x, marks x = true → marks' x = true)
    (h : iscc_fs_check_neighbors_marks v nng marks = false) :
    iscc_fs_check_neighbors_marks v nng marks' = false := by
  by_contra hc
  have hc' : iscc_fs_check_neighbors_marks v nng marks' = true := by simpa using hc
  rw [check_neighbors_marks_true] at hc'
  have : iscc_fs_check_neighbors_marks v nng marks = true := by
    rw [check_neighbors_marks_true]
    refine ⟨?_, hc'.2.1, ?_⟩
    · by_contra hm
      have := hle v (by simpa using hm)
      rw [hc'.1] at this
      exact absurd this (by decide)
    · intro a ha
      by_contra hm
      have := hle a (by simpa using hm)
      rw [hc'.2.2 a ha] at this
      exact absurd this (by decide)
  rw [h] at this
  exact absurd this (by decide)

theorem check_false_of_marked (nng : iscc_Digraph) (marks : Nat → Bool) (v : Nat)
    (h : marks v = true) : iscc_fs_check_neighbors_marks v nng marks = false := by
  unfold iscc_fs_check_neighbors_marks
  simp [h]

theorem check_false_after_mark (nng : iscc_Digraph) (marks : Nat → Bool) (s v : Nat)
    (h : v = s ∨ iscc_fs_check_neighbors_marks v nng marks = false) :
    iscc_fs_check_neighbors_marks v nng (iscc_fs_mark_seed_neighbors s nng marks) = false := by
  rcases h with h | h
  · apply check_false_of_marked
    rw [mark_seed_neighbors_true, h]
    exact Or.inr (List.mem_cons_self _ _)
  · apply check_false_of_marks_le nng marks _ v _ h
    intro x hx
    rw [mark_seed_neighbors_true]
    exact Or.inl hx

theorem length_arcs (dg : iscc_Digraph) (v : Nat) :
    (dg.arcs v).length = dg.tp (v + 1) - dg.tp v := by
  simp [iscc_Digraph.arcs, iscc_Digraph.arc_slice]

theorem not_valid_of_check_false (nng : iscc_Digraph) (marks : Nat → Bool) (l : List Nat)
    (hinv : SeedInv nng marks l) (v : Nat)
    (h : iscc_fs_check_neighbors_marks v nng marks = false) : ¬ valid_next_seed nng l v := by
  rintro ⟨h1, h2, h3⟩
  have : iscc_fs_check_neighbors_marks v nng marks = true := by
    rw [check_neighbors_marks_true]
    refine ⟨?_, ?_, ?_⟩
    · by_contra hm
      exact h1 ((hinv.1 v).mp (by simpa using hm))
    · rw [length_arcs] at h2
      omega
    · intro a ha
      by_contra hm
      exact h3 a ha ((hinv.1 a).mp (by simpa using hm))
  rw [h] at this
  exact absurd this (by decide)

theorem lexical_scanned (clabel_max : Nat) (mem : Mem) (nng : iscc_Digraph)
    (out1 : iscc_SeedResult) (h0 : out1.count = 0)
    (hok : (iscc_findseeds_lexical clabel_max mem nng out1).ec = SCC_ER_OK) :
    (∀ u, u < nng.vertices →
      iscc_fs_check_neighbors_marks u nng
        (iscc_findseeds_lexical clabel_max mem nng out1).marks = false) ∧
    (∀ s, s ∈ (iscc_findseeds_lexical clabel_max mem nng out1).out.toList →
      s < nng.vertices) := by
  unfold iscc_findseeds_lexical at hok ⊢
  by_cases hm : (!(mem AllocSite.marks nng.vertices &&
      mem AllocSite.seeds out1.capacity)) = true
  · rw [if_pos hm] at hok
    simp at hok
  · rw [if_neg hm] at hok ⊢
    have := lexical_loop_rule clabel_max mem nng
      (fun cv marks out =>
        (∀ u, u < cv → iscc_fs_check_neighbors_marks u nng marks = false) ∧
        (∀ s, s ∈ out.toList → s < cv))
      (fun cv marks _ hP hc => by
        refine ⟨?_, fun s hs => Nat.lt_succ_of_lt (hP.2 s hs)⟩
        intro u hu
        by_cases e : u = cv
        · rw [e]; exact hc
        · exact hP.1 u (by omega))
      (fun cv marks out hP _ ha => by
        refine ⟨?_, ?_⟩
        · intro u hu
          apply check_false_after_mark
          by_cases e : u = cv
          · exact Or.inl e
          · exact Or.inr (hP.1 u (by omega))
        · intro s hs
          rw [toList_add_seed clabel_max mem cv out ha] at hs
          rcases List.mem_append.mp hs with h | h
          · exact Nat.lt_succ_of_lt (hP.2 s h)
          · rw [List.mem_singleton] at h
            omega)
      nng.vertices 0 (fun _ => false) { out1 with seeds := some (fun _ => 0) }
      ⟨fun u hu => absurd hu (Nat.not_lt_zero _), fun s hs => by
        rw [toList_of_count_zero _ _ h0] at hs
        simp at hs⟩ hok
    rw [Nat.zero_add] at this
    exact this

theorem inwards_loop_rule_bounded (clabel_max : Nat) (mem : Mem) (nng : iscc_Digraph)
    (updating : Bool) (stop : Nat)
    (P : Nat → (Nat → Bool) → iscc_fs_SortResult → iscc_SeedResult → Prop)
    (hskip : ∀ pos marks sort out, pos < stop → P pos marks sort out →
      iscc_fs_check_neighbors_marks (sort.sorted_vertices pos) nng marks = false →
      P (pos + 1) marks sort out)
    (hseed : ∀ pos marks sort out, pos < stop → P pos marks sort out →
      iscc_fs_check_neighbors_marks (sort.sorted_vertices pos) nng marks = true →
      (iscc_fs_add_seed clabel_max mem (sort.sorted_vertices pos) out).1 = SCC_ER_OK →
      P (pos + 1) (iscc_fs_mark_seed_neighbors (sort.sorted_vertices pos) nng marks)
        (if updating then
          inwards_update nng (iscc_fs_mark_seed_neighbors (sort.sorted_vertices pos) nng marks)
            pos (sort.sorted_vertices pos) sort
         else sort)
        (iscc_fs_add_seed clabel_max mem (sort.sorted_vertices pos) out).2)
    (marks : Nat → Bool) (sort : iscc_fs_SortResult) (out : iscc_SeedResult)
    (h0 : P 0 marks sort out)
    (hok : (inwards_loop clabel_max mem nng updating stop 0 marks sort out).ec = SCC_ER_OK) :
    P stop (inwards_loop clabel_max mem nng updating stop 0 marks sort out).marks
      (inwards_loop clabel_max mem nng updating stop 0 marks sort out).sort
      (inwards_loop clabel_max mem nng updating stop 0 marks sort out).out := by
  have := inwards_loop_rule clabel_max mem nng updating
    (fun pos marks sort out => pos ≤ stop → P pos marks sort out)
    (fun pos marks sort out hP hc hle => hskip pos marks sort out (by omega) (hP (by omega)) hc)
    (fun pos marks sort out hP hc ha hle =>
      hseed pos marks sort out (by omega) (hP (by omega)) hc ha)
    stop 0 marks sort out (fun _ => h0) hok
  rw [Nat.zero_add] at this
  exact this (Nat.le_refl _)

theorem inwards_scanned (clabel_max : Nat) (mem : Mem) (nng : iscc_Digraph)
    (hs : iscc_digraph_is_sound nng) (updating : Bool)
    (hd : updating = true → no_duplicate_arcs nng) (out1 : iscc_SeedResult)
    (h0 : out1.count = 0)
    (hok : (iscc_findseeds_inwards clabel_max mem nng updating out1).ec = SCC_ER_OK) :
    (∀ u, u < nng.vertices →
      iscc_fs_check_neighbors_marks u nng
        (iscc_findseeds_inwards clabel_max mem nng updating out1).marks = false) ∧
    (∀ s, s ∈ (iscc_findseeds_inwards clabel_max mem nng updating out1).out.toList →
      s < nng.vertices) := by
  unfold iscc_findseeds_inwards at hok ⊢
  dsimp only at hok ⊢
  by_cases hsrt : (iscc_fs_sort_by_inwards mem nng updating).1 ≠ SCC_ER_OK
  · rw [if_pos hsrt] at hok
    exact absurd hok hsrt
  rw [if_neg hsrt] at hok ⊢
  have hsrt' : (iscc_fs_sort_by_inwards mem nng updating).1 = SCC_ER_OK := not_not.mp hsrt
  by_cases hm : (!(mem AllocSite.marks nng.vertices &&
      mem AllocSite.seeds out1.capacity)) = true
  · rw [if_pos hm] at hok
    simp at hok
  rw [if_neg hm] at hok ⊢
  have hperm0 : ∀ i, i < nng.vertices →
      (iscc_fs_sort_by_inwards mem nng updating).2.sorted_vertices i < nng.vertices := by
    intro i hi
    obtain ⟨u, hu, hpu⟩ := surj_of_inj_lt nng.vertices
      (sorted_pos nng.vertices (sort_count_inwards nng))
      (fun v hv => sorted_pos_lt _ _ v hv)
      (fun u hu v hv h => sorted_pos_inj _ _ u v hu hv h) i hi
    rw [← hpu, (sort_by_inwards_spec mem nng updating hsrt').1 u hu]
    exact hu
  have key := inwards_loop_rule_bounded clabel_max mem nng updating nng.vertices
    (fun pos marks sort out =>
      (∀ i, i < pos →
        iscc_fs_check_neighbors_marks (sort.sorted_vertices i) nng marks = false) ∧
      (∀ u, u < nng.vertices → ∃ i, i < nng.vertices ∧ sort.sorted_vertices i = u) ∧
      (∀ i, i < nng.vertices → sort.sorted_vertices i < nng.vertices) ∧
      (∀ s, s ∈ out.toList → s < nng.vertices) ∧
      (updating = true →
        SortInv nng.vertices pos (sort_max_inwards nng.vertices (sort_count_inwards nng)) sort ∧
        ∀ w, live_indegree nng (fun u => !marks u) w ≤ sort.inwards_count w))
    (fun pos marks sort _ hpos hP hc => by
      obtain ⟨h1, h2, h2b, h2c, h3⟩ := hP
      refine ⟨?_, h2, h2b, h2c, fun hu => ⟨(h3 hu).1.mono (Nat.le_succ _), (h3 hu).2⟩⟩
      intro i hi
      by_cases e : i = pos
      · rw [e]; exact hc
      · exact h1 i (by omega))
    (fun pos marks sort out hpos hP hc ha => by
      obtain ⟨h1, h2, h2b, h2c, h3⟩ := hP
      have hseeds : ∀ s, s ∈ (iscc_fs_add_seed clabel_max mem (sort.sorted_vertices pos)
          out).2.toList → s < nng.vertices := by
        intro s hs'
        rw [toList_add_seed clabel_max mem _ out ha] at hs'
        rcases List.mem_append.mp hs' with h | h
        · exact h2c s h
        · rw [List.mem_singleton] at h
          rw [h]
          exact h2b pos hpos
      cases updating
      · simp only [Bool.false_eq_true, if_false, false_implies, and_true]
        refine ⟨?_, h2, h2b, hseeds⟩
        intro i hi
        apply check_false_after_mark
        by_cases e : i = pos
        · exact Or.inl (by rw [e])
        · exact Or.inr (h1 i (by omega))
      · simp only [if_true, true_implies]
        obtain ⟨h3a, h3b⟩ := h3 rfl
        have hv : sort.sorted_vertices pos < nng.vertices := (h3a.perm pos hpos).1
        obtain ⟨r1, r2, r3⟩ := inwards_update_inv nng hs (hd rfl) _ pos
          (sort.sorted_vertices pos) marks sort hv hc (h3a.mono (Nat.le_succ _)) h3b
        refine ⟨?_, ?_, ?_, hseeds, r1, r3⟩
        · intro i hi
          rw [r2 i (by omega)]
          apply check_false_after_mark
          by_cases e : i = pos
          · exact Or.inl (by rw [e])
          · exact Or.inr (h1 i (by omega))
        · intro u hu
          exact ⟨_, r1.vidx_lt u hu, r1.sorted_vidx u hu⟩
        · intro i hi
          exact (r1.perm i hi).1)
    (fun _ => false) (iscc_fs_sort_by_inwards mem nng updating).2
    { out1 with seeds := some (fun _ => 0) }
    (by
      refine ⟨fun i hi => absurd hi (Nat.not_lt_zero _),
        fun u hu => sort_by_inwards_perm mem nng updating hsrt' u hu, hperm0, ?_, ?_⟩
      · intro s hs'
        rw [toList_of_count_zero _ _ h0] at hs'
        simp at hs'
      · intro hu
        subst hu
        obtain ⟨i1, i2⟩ := sort_by_inwards_SortInv mem nng hsrt'
        refine ⟨i1, ?_⟩
        intro w
        rw [i2]
        exact live_indegree_le_count nng hs _ w)
    hok
  obtain ⟨k1, k2, _, k4, _⟩ := key
  refine ⟨?_, k4⟩
  intro u hu
  obtain ⟨i, hi, e⟩ := k2 u hu
  rw [← e]
  exact k1 i hi

theorem not_valid_of_ge (nng : iscc_Digraph) (hs : iscc_digraph_is_sound nng) (l : List Nat)
    (v : Nat) (hv : nng.vertices ≤ v) : ¬ valid_next_seed nng l v := by
  rintro ⟨_, h2, _⟩
  rw [length_arcs] at h2
  have : nng.tp (v + 1) = 0 := by
    unfold iscc_Digraph.tp
    rw [List.getD_eq_getElem?_getD, List.getElem?_eq_none (by rw [hs.1]; omega)]
    rfl
  omega

/-- C3: on a sound NNG the seed set that `iscc_find_seeds` returns for Lexical,
InwardsOrder or InwardsUpdating is maximal: no vertex is a valid next seed with respect
to the union of the closed neighbourhoods of the returned seeds. Of the NNG properties
the proof uses soundness and, for InwardsUpdating only, the absence of duplicate arcs. -/
theorem seed_set_maximal_lexical_inwards (clabel_max : Nat) (mem : Mem) (nng : iscc_Digraph)
    (sm : scc_SeedMethod) (out_seeds : iscc_SeedResult)
    (hsound : iscc_digraph_is_sound nng)
    (hdups : sm = SCC_SM_INWARDS_UPDATING → no_duplicate_arcs nng)
    (hsm : sm = SCC_SM_LEXICAL ∨ sm = SCC_SM_INWARDS_ORDER ∨ sm = SCC_SM_INWARDS_UPDATING)
    (hcount : out_seeds.count = 0)
    (hok : (iscc_find_seeds clabel_max mem nng sm out_seeds).1 = SCC_ER_OK) :
    ∀ v, ¬ valid_next_seed nng (iscc_find_seeds clabel_max mem nng sm out_seeds).2.toList v := by
  intro v
  by_cases hv : v < nng.vertices
  swap
  · exact not_valid_of_ge nng hsound _ v (by omega)
  obtain ⟨st, out1, hc1, hec, hl, hcases⟩ :=
    find_seeds_cases clabel_max mem nng sm out_seeds hok
  rw [hl]
  have h0 : out1.count = 0 := by rw [hc1, hcount]
  rcases hcases with ⟨_, hst⟩ | ⟨_, hst⟩ | ⟨hm, hst⟩ | ⟨h, _⟩ | ⟨h, _⟩
  · subst hst
    exact not_valid_of_check_false nng _ _ (lexical_seedinv clabel_max mem nng out1 h0 hec) v
      ((lexical_scanned clabel_max mem nng out1 h0 hec).1 v hv)
  · subst hst
    exact not_valid_of_check_false nng _ _
      (inwards_seedinv clabel_max mem nng false out1 h0 hec) v
      ((inwards_scanned clabel_max mem nng hsound false (fun h => absurd h (by decide)) out1
        h0 hec).1 v hv)
  · subst hst
    exact not_valid_of_check_false nng _ _
      (inwards_seedinv clabel_max mem nng true out1 h0 hec) v
      ((inwards_scanned clabel_max mem nng hsound true (fun _ => hdups hm) out1 h0 hec).1
        v hv)
  · rcases hsm with h' | h' | h' <;> rw [h'] at h <;> exact absurd h (by decide)
  · rcases hsm with h' | h' | h' <;> rw [h'] at h <;> exact absurd h (by decide)

set_option maxRecDepth 100000 in
/-- Witness for C3: InwardsUpdating on the NNG of scenario S3 returns the single seed 0,
after which no vertex is a valid next seed. -/
theorem seed_set_maximal_lexical_inwards_witness :
    (iscc_find_seeds 1000 mem_ok nng_S3 SCC_SM_INWARDS_UPDATING
      ISCC_NULL_SEED_RESULT).2.toList = [0] ∧
    ∀ v, ¬ valid_next_seed nng_S3
      (iscc_find_seeds 1000 mem_ok nng_S3 SCC_SM_INWARDS_UPDATING
        ISCC_NULL_SEED_RESULT).2.toList v :=
  ⟨by decide,
    seed_set_maximal_lexical_inwards 1000 mem_ok nng_S3 SCC_SM_INWARDS_UPDATING
      ISCC_NULL_SEED_RESULT (by decide) (fun _ => by decide) (Or.inr (Or.inr rfl)) rfl
      (by decide)⟩

/-! ## Maximality for the exclusion finders -/

theorem digraph_of_rows_sound (n : Nat) (rows : Nat → List Nat)
    (h : ∀ v, v < n → ∀ x, x ∈ rows v → x < n) :
    iscc_digraph_is_sound (digraph_of_rows n rows) := by
  refine ⟨by simp [digraph_of_rows], ?_, ?_, ?_, ?_, ?_⟩
  · rw [tp_digraph_of_rows n rows 0 (Nat.zero_le _)]
    simp
  · intro v hv
    rw [vertices_digraph_of_rows] at hv
    rw [tp_digraph_of_rows n rows v (by omega), tp_digraph_of_rows n rows (v + 1) (by omega),
      List.range_succ, List.flatMap_append, List.length_append]
    omega
  · rw [vertices_digraph_of_rows, tp_digraph_of_rows n rows n (Nat.le_refl _)]
    exact Nat.le_refl _
  · exact Nat.le_refl _
  · intro a ha
    rw [vertices_digraph_of_rows] at ha ⊢
    rw [tp_digraph_of_rows n rows n (Nat.le_refl _)] at ha
    have hmem : (digraph_of_rows n rows).head.getD a 0 ∈ (List.range n).flatMap rows := by
      show ((List.range n).flatMap rows).getD a 0 ∈ _
      rw [List.getD_eq_getElem?_getD, List.getElem?_eq_getElem ha]
      exact List.getElem_mem _
    rw [List.mem_flatMap] at hmem
    obtain ⟨v, hv, hx⟩ := hmem
    exact h v (List.mem_range.mp hv) _ hx

theorem exclusion_graph_sound (mem : Mem) (nng : iscc_Digraph) (keep : Nat → Bool)
    (h : (iscc_exclusion_graph mem nng keep).1 = SCC_ER_OK) :
    iscc_digraph_is_sound (iscc_exclusion_graph mem nng keep).2 := by
  obtain ⟨he, _, _, hu⟩ := exclusion_graph_ok mem nng keep h
  rw [he]
  unfold iscc_digraph_union_and_delete at hu ⊢
  dsimp only at hu ⊢
  split_ifs at hu ⊢ with hm
  apply digraph_of_rows_sound
  intro v _ x hx
  split_ifs at hx with hk
  · exact List.mem_range.mp (List.mem_filter.mp hx).1
  · simp at hx

theorem exclusion_update_not_updating (eg : iscc_Digraph) (pos seed : Nat)
    (st : (Nat → Bool) × iscc_fs_SortResult) :
    (exclusion_update eg false pos seed st).2 = st.2 := by
  unfold exclusion_update
  generalize eg.arcs seed = l
  induction l generalizing st with
  | nil => rfl
  | cons a l ih =>
    rw [List.foldl_cons, ih]
    by_cases h : st.1 a = true <;> simp [h]

theorem exclusion_update_le (eg : iscc_Digraph) (updating : Bool) (pos seed : Nat)
    (ne : Nat → Bool) (sort : iscc_fs_SortResult) (x : Nat)
    (h : (exclusion_update eg updating pos seed (Function.update ne seed false, sort)).1 x =
      true) : ne x = true ∧ x ≠ seed :=
  ⟨((exclusion_update_ne eg updating pos seed ne sort x).mp h).1,
    ((exclusion_update_ne eg updating pos seed ne sort x).mp h).2.1⟩

/-- The exclusion step with updating keeps the sort structure consistent, leaves the
scanned positions untouched and keeps every key at least the live in-degree. -/
theorem exclusion_update_inv (eg : iscc_Digraph)
    (heg : ∀ u w, w ∈ eg.arcs u → w < eg.vertices) (m pos : Nat)
    (sr0 : iscc_fs_SortResult) :
    ∀ (l : List Nat) (st : (Nat → Bool) × iscc_fs_SortResult),
      (∀ a, a ∈ l → a < eg.vertices) →
      SortInv eg.vertices (pos + 1) m st.2 →
      (∀ i, i ≤ pos → st.2.sorted_vertices i = sr0.sorted_vertices i) →
      (∀ w, live_indegree eg st.1 w ≤ st.2.inwards_count w) →
      (∀ i, i ≤ pos → st.1 (sr0.sorted_vertices i) = false) →
      SortInv eg.vertices (pos + 1) m
        (l.foldl
          (fun (st : (Nat → Bool) × iscc_fs_SortResult) ex_arc =>
            if st.1 ex_arc then
              let not_excluded := Function.update st.1 ex_arc false
              if true then
                (not_excluded,
                  (eg.arcs ex_arc).foldl
                    (fun sr ex_arc_arc =>
                      if not_excluded ex_arc_arc then
                        iscc_fs_decrease_v_in_sort ex_arc_arc sr pos
                      else sr)
                    st.2)
              else (not_excluded, st.2)
            else st)
          st).2 ∧
      (∀ i, i ≤ pos →
        (l.foldl
          (fun (st : (Nat → Bool) × iscc_fs_SortResult) ex_arc =>
            if st.1 ex_arc then
              let not_excluded := Function.update st.1 ex_arc false
              if true then
                (not_excluded,
                  (eg.arcs ex_arc).foldl
                    (fun sr ex_arc_arc =>
                      if not_excluded ex_arc_arc then
                        iscc_fs_decrease_v_in_sort ex_arc_arc sr pos
                      else sr)
                    st.2)
              else (not_excluded, st.2)
            else st)
          st).2.sorted_vertices i = sr0.sorted_vertices i) ∧
      (∀ w, live_indegree eg
        (l.foldl
          (fun (st : (Nat → Bool) × iscc_fs_SortResult) ex_arc =>
            if st.1 ex_arc then
              let not_excluded := Function.update st.1 ex_arc false
              if true then
                (not_excluded,
                  (eg.arcs ex_arc).foldl
                    (fun sr ex_arc_arc =>
                      if not_excluded ex_arc_arc then
                        iscc_fs_decrease_v_in_sort ex_arc_arc sr pos
                      else sr)
                    st.2)
              else (not_excluded, st.2)
            else st)
          st).1 w ≤
        (l.foldl
          (fun (st : (Nat → Bool) × iscc_fs_SortResult) ex_arc =>
            if st.1 ex_arc then
              let not_excluded := Function.update st.1 ex_arc false
              if true then
                (not_excluded,
                  (eg.arcs ex_arc).foldl
                    (fun sr ex_arc_arc =>
                      if not_excluded ex_arc_arc then
                        iscc_fs_decrease_v_in_sort ex_arc_arc sr pos
                      else sr)
                    st.2)
              else (not_excluded, st.2)
            else st)
          st).2.inwards_count w) := by
  intro l
  induction l with
  | nil =>
    intro st _ h1 h2 h3 _
    exact ⟨h1, h2, h3⟩
  | cons a l ih =>
    intro st hl h1 h2 h3 h4
    rw [List.foldl_cons]
    have ha : a < eg.vertices := hl a (List.mem_cons_self _ _)
    have hl' : ∀ b, b ∈ l → b < eg.vertices := fun b hb => hl b (List.mem_cons_of_mem _ hb)
    by_cases hna : st.1 a = true
    · rw [if_pos hna]
      dsimp only
      rw [if_pos rfl]
      have hrem := fun w => live_indegree_remove eg st.1 a w ha hna
      obtain ⟨r1, r2, r3⟩ := dec_fold_SortInv eg.vertices m pos
        (fun (_ : iscc_fs_SortResult) w => Function.update st.1 a false w) st.2
        (fun sr w hw hsr hfr hg => by
          by_contra hle
          have hle' : sr.vertex_index w ≤ pos := by omega
          have e1 := hsr.sorted_vidx w hw
          rw [hfr _ hle', h2 _ hle'] at e1
          have e2 := h4 _ hle'
          rw [e1] at e2
          have hg' : Function.update st.1 a false w = true := hg
          by_cases hwa : w = a
          · rw [hwa, Function.update_same] at hg'
            exact absurd hg' (by decide)
          · rw [Function.update_noteq hwa, e2] at hg'
            exact absurd hg' (by decide))
        (eg.arcs a) st.2 (fun _ => 0)
        (fun w hw => heg a w hw) h1 (fun _ _ => rfl) (fun w => by omega)
        (fun w => by
          have e1 := hrem w
          have e2 := h3 w
          dsimp only
          omega)
      apply ih _ hl' r1
      · intro i hi
        rw [r2 i hi, h2 i hi]
      · intro w
        have e1 := hrem w
        have e2 := h3 w
        have e3 := r3 w
        dsimp only
        omega
      · intro i hi
        dsimp only
        by_cases e : sr0.sorted_vertices i = a
        · rw [e, Function.update_same]
        · rw [Function.update_noteq e]
          exact h4 i hi
    · rw [if_neg hna]
      exact ih st hl' h1 h2 h3 h4

theorem exclusion_loop_rule_bounded (clabel_max : Nat) (mem : Mem) (eg : iscc_Digraph)
    (updating : Bool) (stop : Nat)
    (P : Nat → (Nat → Bool) → iscc_fs_SortResult → iscc_SeedResult → Prop)
    (hskip : ∀ pos ne sort out, pos < stop → P pos ne sort out →
      ne (sort.sorted_vertices pos) = false → P (pos + 1) ne sort out)
    (hseed : ∀ pos ne sort out, pos < stop → P pos ne sort out →
      ne (sort.sorted_vertices pos) = true →
      (iscc_fs_add_seed clabel_max mem (sort.sorted_vertices pos) out).1 = SCC_ER_OK →
      P (pos + 1)
        (exclusion_update eg updating pos (sort.sorted_vertices pos)
          (Function.update ne (sort.sorted_vertices pos) false, sort)).1
        (exclusion_update eg updating pos (sort.sorted_vertices pos)
          (Function.update ne (sort.sorted_vertices pos) false, sort)).2
        (iscc_fs_add_seed clabel_max mem (sort.sorted_vertices pos) out).2)
    (ne : Nat → Bool) (sort : iscc_fs_SortResult) (out : iscc_SeedResult)
    (h0 : P 0 ne sort out)
    (hok : (exclusion_loop clabel_max mem eg updating stop 0 ne sort out).ec = SCC_ER_OK) :
    P stop (exclusion_loop clabel_max mem eg updating stop 0 ne sort out).marks
      (exclusion_loop clabel_max mem eg updating stop 0 ne sort out).sort
      (exclusion_loop clabel_max mem eg updating stop 0 ne sort out).out := by
  have := exclusion_loop_rule clabel_max mem eg updating
    (fun pos ne sort out => pos ≤ stop → P pos ne sort out)
    (fun pos ne sort out hP hc hle => hskip pos ne sort out (by omega) (hP (by omega)) hc)
    (fun pos ne sort out hP hc ha hle =>
      hseed pos ne sort out (by omega) (hP (by omega)) hc ha)
    stop 0 ne sort out (fun _ => h0) hok
  rw [Nat.zero_add] at this
  exact this (Nat.le_refl _)

theorem exclusion_scanned (clabel_max : Nat) (mem : Mem) (nng : iscc_Digraph)
    (updating : Bool) (out1 : iscc_SeedResult)
    (hok : (iscc_findseeds_exclusion clabel_max mem nng updating out1).ec = SCC_ER_OK) :
    ∀ u, u < nng.vertices →
      (iscc_findseeds_exclusion clabel_max mem nng updating out1).marks u = false := by
  unfold iscc_findseeds_exclusion at hok ⊢
  dsimp only at hok ⊢
  by_cases hm : (!mem AllocSite.not_excluded nng.vertices) = true
  · rw [if_pos hm] at hok; simp at hok
  rw [if_neg hm] at hok ⊢
  by_cases he : (iscc_exclusion_graph mem nng (exclusion_init nng)).1 ≠ SCC_ER_OK
  · rw [if_pos he] at hok; exact absurd hok he
  rw [if_neg he] at hok ⊢
  have he' := not_not.mp he
  by_cases hsrt : (iscc_fs_sort_by_inwards mem
      (iscc_exclusion_graph mem nng (exclusion_init nng)).2 updating).1 ≠ SCC_ER_OK
  · rw [if_pos hsrt] at hok; exact absurd hok hsrt
  rw [if_neg hsrt] at hok ⊢
  have hsrt' := not_not.mp hsrt
  by_cases hm2 : (!mem AllocSite.seeds out1.capacity) = true
  · rw [if_pos hm2] at hok; simp at hok
  rw [if_neg hm2] at hok ⊢
  have hEv := exclusion_graph_vertices mem nng (exclusion_init nng) he'
  have hEs := exclusion_graph_sound mem nng (exclusion_init nng) he'
  have heg : ∀ u w, w ∈ (iscc_exclusion_graph mem nng (exclusion_init nng)).2.arcs u →
      w < (iscc_exclusion_graph mem nng (exclusion_init nng)).2.vertices := by
    intro u w hw
    rw [hEv]
    exact ((exclusion_graph_arcs mem nng _ he' u w).mp hw).2.2.1
  generalize (iscc_exclusion_graph mem nng (exclusion_init nng)).2 = eg
    at hok hsrt' hEv hEs heg ⊢
  rw [← hEv] at hok ⊢
  have key := exclusion_loop_rule_bounded clabel_max mem eg updating eg.vertices
    (fun pos ne sort _ =>
      (∀ i, i < pos → ne (sort.sorted_vertices i) = false) ∧
      (∀ u, u < eg.vertices → ∃ i, i < eg.vertices ∧ sort.sorted_vertices i = u) ∧
      (updating = true →
        SortInv eg.vertices pos (sort_max_inwards eg.vertices (sort_count_inwards eg)) sort ∧
        ∀ w, live_indegree eg ne w ≤ sort.inwards_count w))
    (fun pos ne sort _ hpos hP hc => by
      obtain ⟨h1, h2, h3⟩ := hP
      refine ⟨?_, h2, fun hu => ⟨(h3 hu).1.mono (Nat.le_succ _), (h3 hu).2⟩⟩
      intro i hi
      by_cases e : i = pos
      · rw [e]; exact hc
      · exact h1 i (by omega))
    (fun pos ne sort _ hpos hP hc _ => by
      obtain ⟨h1, h2, h3⟩ := hP
      have hle := exclusion_update_le eg updating pos (sort.sorted_vertices pos) ne sort
      have hscan : ∀ i, i < pos + 1 →
          (exclusion_update eg updating pos (sort.sorted_vertices pos)
            (Function.update ne (sort.sorted_vertices pos) false, sort)).1
            (sort.sorted_vertices i) = false := by
        intro i hi
        by_contra hne
        have := hle _ (by simpa using hne)
        by_cases e : i = pos
        · exact this.2 (by rw [e])
        · rw [h1 i (by omega)] at this
          exact absurd this.1 (by decide)
      cases updating
      · simp only [Bool.false_eq_true, false_implies, and_true]
        rw [exclusion_update_not_updating]
        exact ⟨hscan, h2⟩
      · simp only [true_implies]
        obtain ⟨h3a, h3b⟩ := h3 rfl
        obtain ⟨r1, r2, r3⟩ := exclusion_update_inv eg heg _ pos sort
          (eg.arcs (sort.sorted_vertices pos))
          (Function.update ne (sort.sorted_vertices pos) false, sort)
          (fun a ha => heg _ a ha) (h3a.mono (Nat.le_succ _)) (fun _ _ => rfl)
          (fun w => Nat.le_trans
            (live_indegree_mono eg ne _ w (fun u hu => by
              have hu' : Function.update ne (sort.sorted_vertices pos) false u = true := hu
              by_cases e : u = sort.sorted_vertices pos
              · rw [e, Function.update_same] at hu'
                exact absurd hu' (by decide)
              · rw [Function.update_noteq e] at hu'
                exact hu'))
            (h3b w))
          (fun i hi => by
            dsimp only
            by_cases e : i = pos
            · rw [e, Function.update_same]
            · by_cases e2 : sort.sorted_vertices i = sort.sorted_vertices pos
              · rw [e2, Function.update_same]
              · rw [Function.update_noteq e2]
                exact h1 i (by omega))
        refine ⟨?_, ?_, r1, r3⟩
        · intro i hi
          have := r2 i (by omega)
          unfold exclusion_update
          rw [this]
          exact hscan i hi
        · intro u hu
          exact ⟨_, r1.vidx_lt u hu, r1.sorted_vidx u hu⟩)
    (exclusion_init nng) (iscc_fs_sort_by_inwards mem eg updating).2
    { out1 with seeds := some (fun _ => 0) }
    (by
      refine ⟨fun i hi => absurd hi (Nat.not_lt_zero _),
        fun u hu => sort_by_inwards_perm mem eg updating hsrt' u hu, ?_⟩
      intro hu
      subst hu
      obtain ⟨i1, i2⟩ := sort_by_inwards_SortInv mem eg hsrt'
      refine ⟨i1, ?_⟩
      intro w
      rw [i2]
      exact live_indegree_le_count eg hEs _ w)
    hok
  obtain ⟨k1, k2, _⟩ := key
  intro u hu
  obtain ⟨i, hi, e⟩ := k2 u hu
  rw [← e]
  exact k1 i hi

theorem ExclInv_not_valid (mem : Mem) (nng : iscc_Digraph)
    (he : (iscc_exclusion_graph mem nng (exclusion_init nng)).1 = SCC_ER_OK)
    (ne : Nat → Bool) (l : List Nat)
    (h : ExclInv nng (iscc_exclusion_graph mem nng (exclusion_init nng)).2 ne l)
    (v : Nat) (hv : v < nng.vertices) (hne : ne v = false) : ¬ valid_next_seed nng l v := by
  rintro ⟨h1, h2, h3⟩
  have hinit : exclusion_init nng v = true := by
    rw [exclusion_init_true]
    refine ⟨hv, ?_⟩
    rw [length_arcs] at h2
    omega
  have hnot : ¬ (exclusion_init nng v = true ∧ v ∉ l ∧
      ∀ s ∈ l, v ∉ (iscc_exclusion_graph mem nng (exclusion_init nng)).2.arcs s) := by
    intro hh
    have := (h.1 v).mpr hh
    rw [hne] at this
    exact absurd this (by decide)
  apply hnot
  refine ⟨hinit, ?_, ?_⟩
  · intro hvl
    exact h1 ⟨v, hvl, List.mem_cons_self _ _⟩
  · intro s hs hvs
    rw [exclusion_graph_arcs mem nng _ he] at hvs
    obtain ⟨_, _, _, _, hor⟩ := hvs
    rcases hor with h' | h' | h' | ⟨x, _, hxs, hxv⟩
    · exact h1 ⟨s, hs, List.mem_cons_of_mem _ h'⟩
    · exact h1 ⟨s, hs, by rw [h']; exact List.mem_cons_self _ _⟩
    · exact h3 s h' ⟨s, hs, List.mem_cons_self _ _⟩
    · exact h3 x hxv ⟨s, hs, List.mem_cons_of_mem _ hxs⟩

/-- C4: on a sound NNG, with the digraph operations of section 4.C, the seed set that
`iscc_find_seeds` returns for ExclusionOrder or ExclusionUpdating is maximal: after
marking the closed neighbourhoods of all returned seeds no vertex is a valid next
seed. -/
theorem seed_set_maximal_exclusion (clabel_max : Nat) (mem : Mem) (nng : iscc_Digraph)
    (sm : scc_SeedMethod) (out_seeds : iscc_SeedResult)
    (hsound : iscc_digraph_is_sound nng)
    (hsm : sm = SCC_SM_EXCLUSION_ORDER ∨ sm = SCC_SM_EXCLUSION_UPDATING)
    (hcount : out_seeds.count = 0)
    (hok : (iscc_find_seeds clabel_max mem nng sm out_seeds).1 = SCC_ER_OK) :
    ∀ v, ¬ valid_next_seed nng (iscc_find_seeds clabel_max mem nng sm out_seeds).2.toList v := by
  intro v
  by_cases hv : v < nng.vertices
  swap
  · exact not_valid_of_ge nng hsound _ v (by omega)
  obtain ⟨st, out1, hc1, hec, hl, hcases⟩ :=
    find_seeds_cases clabel_max mem nng sm out_seeds hok
  rw [hl]
  have h0 : out1.count = 0 := by rw [hc1, hcount]
  rcases hcases with ⟨h, _⟩ | ⟨h, _⟩ | ⟨h, _⟩ | ⟨_, hst⟩ | ⟨_, hst⟩
  · rcases hsm with h' | h' <;> rw [h'] at h <;> exact absurd h (by decide)
  · rcases hsm with h' | h' <;> rw [h'] at h <;> exact absurd h (by decide)
  · rcases hsm with h' | h' <;> rw [h'] at h <;> exact absurd h (by decide)
  · subst hst
    obtain ⟨he, hinv⟩ := exclusion_exclinv clabel_max mem nng false out1 h0 hec
    exact ExclInv_not_valid mem nng he _ _ hinv v hv
      (exclusion_scanned clabel_max mem nng false out1 hec v hv)
  · subst hst
    obtain ⟨he, hinv⟩ := exclusion_exclinv clabel_max mem nng true out1 h0 hec
    exact ExclInv_not_valid mem nng he _ _ hinv v hv
      (exclusion_scanned clabel_max mem nng true out1 hec v hv)

set_option maxRecDepth 100000 in
/-- Witness for C4: ExclusionOrder on the NNG of scenario S3 (five collinear points,
`k = 2`) returns the single seed 0, after which no vertex is a valid next seed. -/
theorem seed_set_maximal_exclusion_witness :
    (iscc_find_seeds 1000 mem_ok nng_S3 SCC_SM_EXCLUSION_ORDER
      ISCC_NULL_SEED_RESULT).2.toList = [0] ∧
    ∀ v, ¬ valid_next_seed nng_S3
      (iscc_find_seeds 1000 mem_ok nng_S3 SCC_SM_EXCLUSION_ORDER
        ISCC_NULL_SEED_RESULT).2.toList v :=
  ⟨by decide,
    seed_set_maximal_exclusion 1000 mem_ok nng_S3 SCC_SM_EXCLUSION_ORDER
      ISCC_NULL_SEED_RESULT (by decide) (Or.inl rfl) rfl (by decide)⟩

/-! ## Labelling the closed neighbourhoods of the seeds -/

theorem foldl_assign_label (k : Nat) (l : List Nat) (st : LabelState) :
    (∀ y, (l.foldl (assign_label k) st).labels y =
      if y ∈ l then some k else st.labels y) ∧
    (st.relabelled = false → l.Nodup → (∀ x, x ∈ l → st.labels x = none) →
      (l.foldl (assign_label k) st).relabelled = false) := by
  induction l generalizing st with
  | nil => simp
  | cons a l ih =>
    rw [List.foldl_cons]
    obtain ⟨h1, h2⟩ := ih (assign_label k st a)
    constructor
    · intro y
      rw [h1]
      by_cases hy : y ∈ l
      · simp [hy]
      · by_cases hya : y = a
        · simp [hya, assign_label]
        · simp [hy, hya, assign_label, Function.update_noteq hya]
    · intro hr hnd hnone
      rw [List.nodup_cons] at hnd
      apply h2
      · simp [assign_label, hr, hnone a (List.mem_cons_self _ _)]
      · exact hnd.2
      · intro x hx
        have hxa : x ≠ a := fun e => hnd.1 (e ▸ hx)
        simp only [assign_label, Function.update_noteq hxa]
        exact hnone x (List.mem_cons_of_mem _ hx)

theorem label_seeds_spec (nng : iscc_Digraph) :
    ∀ (seeds : List Nat) (k0 : Nat) (st : LabelState),
      st.relabelled = false → (seeds.flatMap nng.closed).Nodup →
      (∀ x, x ∈ seeds.flatMap nng.closed → st.labels x = none) →
      (label_seeds nng seeds k0 st).relabelled = false ∧
      ∀ y i, (label_seeds nng seeds k0 st).labels y = some i ↔
        (st.labels y = some i ∨
          ∃ j s, seeds[j]? = some s ∧ i = k0 + j ∧ y ∈ nng.closed s) := by
  intro seeds
  induction seeds with
  | nil =>
    intro k0 st hr _ _
    refine ⟨hr, ?_⟩
    intro y i
    simp [label_seeds]
  | cons s rest ih =>
    intro k0 st hr hnd hnone
    rw [List.flatMap_cons, List.nodup_append] at hnd
    obtain ⟨hnd1, hnd2, hdisj⟩ := hnd
    obtain ⟨f1, f2⟩ := foldl_assign_label k0 (nng.closed s) st
    have f2' := f2 hr hnd1 (fun x hx => hnone x (by
      rw [List.flatMap_cons]; exact List.mem_append_left _ hx))
    unfold label_seeds
    obtain ⟨r1, r2⟩ := ih (k0 + 1) _ f2' hnd2 (fun x hx => by
      rw [f1, if_neg (fun h => hdisj h hx)]
      exact hnone x (by rw [List.flatMap_cons]; exact List.mem_append_right _ hx))
    refine ⟨r1, ?_⟩
    intro y i
    rw [r2, f1]
    constructor
    · rintro (h | ⟨j, s', hj, hi, hy⟩)
      · by_cases hys : y ∈ nng.closed s
        · rw [if_pos hys] at h
          refine Or.inr ⟨0, s, List.getElem?_cons_zero, ?_, hys⟩
          simpa using (Option.some.inj h).symm
        · rw [if_neg hys] at h
          exact Or.inl h
      · exact Or.inr ⟨j + 1, s', by simpa using hj, by omega, hy⟩
    · rintro (h | ⟨j, s', hj, hi, hy⟩)
      · have hys : y ∉ nng.closed s := by
          intro hys
          have := hnone y (by rw [List.flatMap_cons]; exact List.mem_append_left _ hys)
          rw [this] at h
          exact absurd h (by simp)
        rw [if_neg hys]
        exact Or.inl h
      · cases j with
        | zero =>
          simp only [List.getElem?_cons_zero, Option.some.injEq] at hj
          subst hj
          rw [if_pos hy]
          exact Or.inl (by rw [hi]; rfl)
        | succ j =>
          exact Or.inr ⟨j, s', by simpa using hj, by omega, hy⟩

theorem length_filter_mem_range (n : Nat) (c : List Nat) (hnd : c.Nodup)
    (hlt : ∀ x, x ∈ c → x < n) :
    ((List.range n).filter (fun v => decide (v ∈ c))).length = c.length := by
  apply List.Perm.length_eq
  rw [List.perm_ext_iff_of_nodup ((List.nodup_range n).filter _) hnd]
  intro a
  simp only [List.mem_filter, List.mem_range, decide_eq_true_eq]
  exact ⟨fun h => h.2, fun h => ⟨hlt a h, h⟩⟩

theorem labelling_of_disjoint_seeds (nng : iscc_Digraph) (hsound : iscc_digraph_is_sound nng)
    (k : Nat) (hreg : is_regular_nng nng k) (l : List Nat)
    (hpw : l.Pairwise (fun s s' => ∀ x, x ∈ nng.closed s → x ∉ nng.closed s'))
    (hlt : ∀ s, s ∈ l → s < nng.vertices) :
    (label_seeds nng l 0 unassigned).relabelled = false ∧
    ∀ i, i < l.length →
      cluster_size nng.vertices (label_seeds nng l 0 unassigned).labels i = k + 1 := by
  have hclosed : ∀ s, s ∈ l → (nng.closed s).Nodup := by
    intro s hs
    obtain ⟨_, h2, h3⟩ := hreg s (hlt s hs)
    exact List.nodup_cons.mpr ⟨h3, h2⟩
  have hnd : (l.flatMap nng.closed).Nodup := by
    rw [List.nodup_flatMap]
    refine ⟨hclosed, hpw.imp ?_⟩
    intro a b hab x hxa hxb
    exact hab x hxa hxb
  obtain ⟨r1, r2⟩ := label_seeds_spec nng l 0 unassigned rfl hnd (fun _ _ => rfl)
  refine ⟨r1, ?_⟩
  intro i hi
  have hs : l[i]? = some l[i] := List.getElem?_eq_getElem hi
  have hmem : l[i] ∈ l := List.getElem_mem _
  have hiff : ∀ y, (label_seeds nng l 0 unassigned).labels y = some i ↔
      y ∈ nng.closed l[i] := by
    intro y
    rw [r2]
    constructor
    · rintro (h | ⟨j, s, hj, hij, hy⟩)
      · exact absurd h (by simp [unassigned])
      · have : j = i := by omega
        subst this
        rw [hs] at hj
        rw [Option.some.inj hj]
        exact hy
    · intro hy
      exact Or.inr ⟨i, l[i], hs, by omega, hy⟩
  unfold cluster_size
  have hfilter : (List.range nng.vertices).filter
      (fun v => decide ((label_seeds nng l 0 unassigned).labels v = some i)) =
      (List.range nng.vertices).filter (fun v => decide (v ∈ nng.closed l[i])) := by
    apply List.filter_congr
    intro x _
    simp only [hiff x]
  rw [hfilter, length_filter_mem_range _ _ (hclosed _ hmem)]
  · have := (hreg l[i] (hlt _ hmem)).1
    simp [iscc_Digraph.closed, this]
  · intro x hx
    rcases List.mem_cons.mp hx with h | h
    · rw [h]; exact hlt _ hmem
    · exact mem_arcs_lt nng hsound _ x (hlt _ hmem) h

theorem orderedInsert_insert_after (d : Nat → ℚ) (a c : Nat) (s : List Nat) :
    List.orderedInsert (fun a b => d a ≤ d b) a (insert_after d c s) =
      insert_after d c (List.orderedInsert (fun a b => d a ≤ d b) a s) := by
  induction s with
  | nil =>
    by_cases h : d a ≤ d c <;> simp [insert_after, List.orderedInsert, h]
  | cons x s ih =>
    by_cases h1 : d x ≤ d c
    · by_cases h2 : d a ≤ d x
      · have h3 : d a ≤ d c := le_trans h2 h1
        simp [insert_after, List.orderedInsert, h1, h2, h3]
      · simp [insert_after, List.orderedInsert, h1, h2, ih]
    · by_cases h2 : d a ≤ d x
      · by_cases h3 : d a ≤ d c
        · simp [insert_after, List.orderedInsert, h1, h2, h3]
        · simp [insert_after, List.orderedInsert, h1, h2, h3]
      · have h3 : ¬ d a ≤ d c := by
          intro h; apply h2; exact le_trans h (le_of_lt (not_le.mp h1))
        simp [insert_after, List.orderedInsert, h1, h2, h3]

theorem insertionSort_append_singleton (d : Nat → ℚ) (l : List Nat) (c : Nat) :
    List.insertionSort (fun a b => d a ≤ d b) (l ++ [c]) =
      insert_after d c (List.insertionSort (fun a b => d a ≤ d b) l) := by
  induction l with
  | nil => simp [insert_after]
  | cons a l ih =>
    rw [List.cons_append, List.insertionSort, ih, List.insertionSort]
    exact orderedInsert_insert_after d a c _

theorem insert_after_append_gt (d : Nat → ℚ) (c y : Nat) (l : List Nat) (h : ¬ d y ≤ d c) :
    insert_after d c (l ++ [y]) = insert_after d c l ++ [y] := by
  induction l with
  | nil => simp [insert_after, h]
  | cons x l ih =>
    by_cases h1 : d x ≤ d c <;> simp [insert_after, h1, ih]

theorem insert_after_of_le (d : Nat → ℚ) (c : Nat) (l : List Nat)
    (h : ∀ x, x ∈ l → d x ≤ d c) : insert_after d c l = l ++ [c] := by
  induction l with
  | nil => rfl
  | cons x l ih =>
    have h1 : d x ≤ d c := h x (List.mem_cons_self _ _)
    simp [insert_after, h1, ih (fun y hy => h y (List.mem_cons_of_mem _ hy))]

theorem length_insert_after (d : Nat → ℚ) (c : Nat) (l : List Nat) :
    (insert_after d c l).length = l.length + 1 := by
  induction l with
  | nil => rfl
  | cons x l ih =>
    by_cases h1 : d x ≤ d c <;> simp [insert_after, h1, ih]

theorem reverse_insert_after (d : Nat → ℚ) (c : Nat) (w : List Nat)
    (hs : w.Pairwise (fun a b => d a ≤ d b)) :
    (insert_after d c w).reverse =
      List.orderedInsert (fun a b => d b ≤ d a) c w.reverse := by
  induction w using List.reverseRecOn with
  | nil => simp [insert_after]
  | append_singleton w y ih =>
    rw [List.pairwise_append] at hs
    obtain ⟨hs1, _, hs3⟩ := hs
    rw [List.reverse_append, List.reverse_singleton, List.singleton_append]
    by_cases h : d y ≤ d c
    · rw [insert_after_of_le d c (w ++ [y])]
      · simp [List.orderedInsert, h]
      · intro x hx
        rcases List.mem_append.mp hx with h' | h'
        · exact le_trans (hs3 x h' y (List.mem_singleton_self y)) h
        · rw [List.mem_singleton] at h'; rw [h']; exact h
    · rw [insert_after_append_gt d c y w h, List.reverse_append, List.reverse_singleton,
        List.singleton_append, ih hs1]
      simp [List.orderedInsert, h]

theorem take_insert_after_of_le (d : Nat → ℚ) (c : Nat) :
    ∀ (k : Nat) (s : List Nat), k ≤ s.length → (∀ x, x ∈ s.take k → d x ≤ d c) →
      (insert_after d c s).take k = s.take k := by
  intro k
  induction k with
  | zero => intro s _ _; simp
  | succ k ih =>
    intro s hk h
    cases s with
    | nil => simp at hk
    | cons x l =>
      have h1 : d x ≤ d c := h x (by simp)
      simp only [insert_after, h1, if_true, List.take_succ_cons]
      rw [ih l (by simpa using hk) (fun y hy => h y (by simp [hy]))]

theorem take_insert_after_of_gt (d : Nat → ℚ) (c : Nat) :
    ∀ (k : Nat) (s : List Nat), k < s.length → d c < d (s.getD k 0) →
      (insert_after d c s).take (k + 1) = insert_after d c (s.take k) := by
  intro k
  induction k with
  | zero =>
    intro s hk h
    cases s with
    | nil => simp at hk
    | cons x l =>
      have h1 : ¬ d x ≤ d c := by simpa using h
      simp [insert_after, h1]
  | succ k ih =>
    intro s hk h
    cases s with
    | nil => simp at hk
    | cons x l =>
      by_cases h1 : d x ≤ d c
      · simp only [insert_after, h1, if_true, List.take_succ_cons]
        rw [ih l (by simpa using hk) (by simpa using h)]
      · simp [insert_after, h1]

/-! ## The search window -/

theorem length_nn_block {α : Type} (f : Nat → α) (b n : Nat) :
    (nn_block f b n).length = n := by
  simp [nn_block]

theorem nn_block_succ {α : Type} (f : Nat → α) (b n : Nat) :
    nn_block f b (n + 1) = nn_block f b n ++ [f (b + n)] := by
  simp [nn_block, List.range_succ]

theorem nn_block_congr {α : Type} (f g : Nat → α) (b n : Nat)
    (h : ∀ j, j < n → f (b + j) = g (b + j)) : nn_block f b n = nn_block g b n := by
  unfold nn_block
  apply List.map_congr_left
  intro j hj
  exact h j (List.mem_range.mp hj)

theorem getD_nn_block (f : Nat → Nat) (b n j : Nat) (hj : j < n) :
    (nn_block f b n).getD j 0 = f (b + j) := by
  simp [nn_block, List.getD_eq_getElem?_getD, List.getElem?_map, List.getElem?_range hj]

theorem take_nn_block {α : Type} (f : Nat → α) (b n m : Nat) (h : m ≤ n) :
    (nn_block f b n).take m = nn_block f b m := by
  unfold nn_block
  rw [← List.map_take, List.take_range, Nat.min_eq_left h]

theorem nn_bubble_spec (d : Nat → ℚ) :
    ∀ (n ib db : Nat) (a : (Nat → Nat) × (Nat → ℚ)),
      (∀ j, j ≤ n → a.2 (db + j) = d (a.1 (ib + j))) →
      (nn_block (nn_bubble n (ib + n) (db + n) a).1 ib (n + 1)).reverse =
          List.orderedInsert (fun x y => d y ≤ d x) (a.1 (ib + n)) (nn_block a.1 ib n).reverse ∧
        (∀ j, j ≤ n → (nn_bubble n (ib + n) (db + n) a).2 (db + j) =
          d ((nn_bubble n (ib + n) (db + n) a).1 (ib + j))) ∧
        (∀ i, (i < ib ∨ ib + n < i) → (nn_bubble n (ib + n) (db + n) a).1 i = a.1 i) ∧
        (∀ i, (i < db ∨ db + n < i) → (nn_bubble n (ib + n) (db + n) a).2 i = a.2 i) := by
  intro n
  induction n with
  | zero =>
    intro ib db a h
    refine ⟨?_, ?_, ?_, ?_⟩
    · simp [nn_bubble, nn_block, List.range_succ]
    · intro j hj; exact h j hj
    · intro i _; rfl
    · intro i _; rfl
  | succ n ih =>
    intro ib db a h
    have e1 : ib + (n + 1) - 1 = ib + n := by omega
    have e2 : db + (n + 1) - 1 = db + n := by omega
    have hx : a.2 (db + (n + 1)) = d (a.1 (ib + (n + 1))) := h (n + 1) (le_refl _)
    have hy : a.2 (db + n) = d (a.1 (ib + n)) := h n (Nat.le_succ n)
    by_cases hgt : a.2 (db + n) > a.2 (db + (n + 1))
    · -- the new entry moves one slot to the left
      have hstep : nn_bubble (n + 1) (ib + (n + 1)) (db + (n + 1)) a =
          nn_bubble n (ib + n) (db + n)
            (Function.update (Function.update a.1 (ib + (n + 1)) (a.1 (ib + n))) (ib + n)
                (a.1 (ib + (n + 1))),
              Function.update (Function.update a.2 (db + (n + 1)) (a.2 (db + n))) (db + n)
                (a.2 (db + (n + 1)))) := by
        rw [nn_bubble, e1, e2, if_pos hgt]
      rw [hstep]
      generalize ha2 : ((Function.update (Function.update a.1 (ib + (n + 1)) (a.1 (ib + n)))
          (ib + n) (a.1 (ib + (n + 1))),
        Function.update (Function.update a.2 (db + (n + 1)) (a.2 (db + n))) (db + n)
          (a.2 (db + (n + 1)))) : (Nat → Nat) × (Nat → ℚ)) = a2
      have a2i : ∀ i, a2.1 i = if i = ib + n then a.1 (ib + (n + 1))
          else if i = ib + (n + 1) then a.1 (ib + n) else a.1 i := by
        intro i; rw [← ha2]; dsimp only
        by_cases c1 : i = ib + n
        · rw [if_pos c1, c1, Function.update_same]
        · rw [if_neg c1, Function.update_noteq c1]
          by_cases c2 : i = ib + (n + 1)
          · rw [if_pos c2, c2, Function.update_same]
          · rw [if_neg c2, Function.update_noteq c2]
      have a2d : ∀ i, a2.2 i = if i = db + n then a.2 (db + (n + 1))
          else if i = db + (n + 1) then a.2 (db + n) else a.2 i := by
        intro i; rw [← ha2]; dsimp only
        by_cases c1 : i = db + n
        · rw [if_pos c1, c1, Function.update_same]
        · rw [if_neg c1, Function.update_noteq c1]
          by_cases c2 : i = db + (n + 1)
          · rw [if_pos c2, c2, Function.update_same]
          · rw [if_neg c2, Function.update_noteq c2]
      have hpre : ∀ j, j ≤ n → a2.2 (db + j) = d (a2.1 (ib + j)) := by
        intro j hj
        rw [a2i, a2d]
        by_cases c : j = n
        · subst c; simp [hx]
        · have c1 : db + j ≠ db + n := by omega
          have c2 : db + j ≠ db + (n + 1) := by omega
          have c3 : ib + j ≠ ib + n := by omega
          have c4 : ib + j ≠ ib + (n + 1) := by omega
          rw [if_neg c1, if_neg c2, if_neg c3, if_neg c4]
          exact h j (by omega)
      obtain ⟨r1, r2, r3, r4⟩ := ih ib db a2 hpre
      have hblk : nn_block a2.1 ib n = nn_block a.1 ib n := by
        apply nn_block_congr
        intro j hj
        rw [a2i, if_neg (by omega), if_neg (by omega)]
      have hlast : (nn_bubble n (ib + n) (db + n) a2).1 (ib + (n + 1)) = a.1 (ib + n) := by
        rw [r3 _ (Or.inr (by omega)), a2i, if_neg (by omega), if_pos rfl]
      have hlastd : (nn_bubble n (ib + n) (db + n) a2).2 (db + (n + 1)) = a.2 (db + n) := by
        rw [r4 _ (Or.inr (by omega)), a2d, if_neg (by omega), if_pos rfl]
      refine ⟨?_, ?_, ?_, ?_⟩
      · rw [nn_block_succ, List.reverse_append, List.reverse_singleton, List.singleton_append,
          r1, hlast, hblk, a2i, if_pos rfl, nn_block_succ a.1, List.reverse_append,
          List.reverse_singleton, List.singleton_append]
        have hnle : ¬ d (a.1 (ib + n)) ≤ d (a.1 (ib + (n + 1))) := by
          rw [← hx, ← hy]; exact not_le.mpr hgt
        simp [List.orderedInsert, hnle]
      · intro j hj
        by_cases c : j = n + 1
        · subst c; rw [hlast, hlastd]; exact hy
        · exact r2 j (by omega)
      · intro i hi
        rw [r3 i (by omega), a2i, if_neg (by omega), if_neg (by omega)]
      · intro i hi
        rw [r4 i (by omega), a2d, if_neg (by omega), if_neg (by omega)]
    · have hstep : nn_bubble (n + 1) (ib + (n + 1)) (db + (n + 1)) a = a := by
        rw [nn_bubble, e2, if_neg hgt]
      rw [hstep]
      refine ⟨?_, h, fun _ _ => rfl, fun _ _ => rfl⟩
      rw [nn_block_succ, List.reverse_append, List.reverse_singleton, List.singleton_append,
        nn_block_succ a.1 ib n, List.reverse_append, List.reverse_singleton,
        List.singleton_append]
      have hle : d (a.1 (ib + n)) ≤ d (a.1 (ib + (n + 1))) := by
        rw [← hx, ← hy]; exact not_lt.mp hgt
      simp [List.orderedInsert, hle]

theorem nn_bubble_window (d : Nat → ℚ) (k ib db n1 : Nat) (idx0 : Nat → Nat) (dst0 : Nat → ℚ)
    (a : (Nat → Nat) × (Nat → ℚ)) (hk : n1 + 1 ≤ k)
    (hp : ∀ j, j ≤ n1 → a.2 (db + j) = d (a.1 (ib + j)))
    (hs : (nn_block a.1 ib n1).Pairwise (fun x y => d x ≤ d y))
    (hf1 : ∀ i, i < ib → a.1 i = idx0 i) (hf2 : ∀ i, i < db → a.2 i = dst0 i) :
    WindowInv d k ib db idx0 dst0 (insert_after d (a.1 (ib + n1)) (nn_block a.1 ib n1))
      { nn_indices := (nn_bubble n1 (ib + n1) (db + n1) a).1
        dists := (nn_bubble n1 (ib + n1) (db + n1) a).2
        index_pos := ib + n1 + 1
        dist_pos := db + n1 + 1 } := by
  obtain ⟨r1, r2, r3, r4⟩ := nn_bubble_spec d n1 ib db a hp
  rw [← reverse_insert_after d _ _ hs] at r1
  have r1' := List.reverse_injective r1
  have hlen : (insert_after d (a.1 (ib + n1)) (nn_block a.1 ib n1)).length = n1 + 1 := by
    rw [length_insert_after, length_nn_block]
  refine ⟨?_, ?_, ?_, ?_, ?_, ?_, ?_⟩
  · rw [hlen]; exact hk
  · rw [hlen]; rfl
  · rw [hlen]; rfl
  · rw [hlen]; exact r1'
  · intro j hj; rw [hlen] at hj; exact r2 j (by omega)
  · intro i hi; exact (r3 i (Or.inl hi)).trans (hf1 i hi)
  · intro i hi; exact (r4 i (Or.inl hi)).trans (hf2 i hi)

theorem pairwise_take_sorted (d : Nat → ℚ) (l : List Nat) (k : Nat) :
    ((List.insertionSort (fun a b => d a ≤ d b) l).take k).Pairwise (fun a b => d a ≤ d b) := by
  have h : (List.insertionSort (fun a b => d a ≤ d b) l).Sorted (fun a b => d a ≤ d b) := by
    have : IsTotal Nat (fun a b => d a ≤ d b) := ⟨fun a b => le_total (d a) (d b)⟩
    have : IsTrans Nat (fun a b => d a ≤ d b) := ⟨fun a b c h1 h2 => le_trans h1 h2⟩
    exact List.sorted_insertionSort _ l
  exact List.Pairwise.sublist (List.take_sublist _ _) h

theorem nn_visit_window (sqrt : ℚ → ℚ) (so : scc_NNSearchObject) (q ib db : Nat)
    (idx0 : Nat → Nat) (dst0 : Nat → ℚ) (cs : List Nat) (c : Nat) (st : NNState)
    (hk : 1 ≤ so.k)
    (hinv : WindowInv (iscc_get_dist sqrt so.data_set_object q) so.k ib db idx0 dst0
      ((List.insertionSort
        (fun a b => iscc_get_dist sqrt so.data_set_object q a ≤
          iscc_get_dist sqrt so.data_set_object q b)
        (cs.filter (nn_admissible sqrt so q))).take so.k) st) :
    WindowInv (iscc_get_dist sqrt so.data_set_object q) so.k ib db idx0 dst0
      ((List.insertionSort
        (fun a b => iscc_get_dist sqrt so.data_set_object q a ≤
          iscc_get_dist sqrt so.data_set_object q b)
        ((cs ++ [c]).filter (nn_admissible sqrt so q))).take so.k)
      (nn_visit sqrt so q db (db + so.k) st c) := by
  generalize hd : iscc_get_dist sqrt so.data_set_object q = d at hinv ⊢
  generalize hA : cs.filter (nn_admissible sqrt so q) = A at hinv
  generalize hS : List.insertionSort (fun a b => d a ≤ d b) A = S at hinv
  generalize hkk : so.k = k at hk hinv ⊢
  have hsorted : (S.take k).Pairwise (fun a b => d a ≤ d b) := by
    rw [← hS]; exact pairwise_take_sorted d A k
  by_cases hc : (so.radius_search && decide (d c ≥ so.radius)) = true
  · have hna : nn_admissible sqrt so q c = false := by
      unfold nn_admissible; rw [hd, hc]; rfl
    have hv : nn_visit sqrt so q db (db + k) st c = st := by
      unfold nn_visit; dsimp only; rw [hd, if_pos hc]
    rw [hv, List.filter_append, hA]
    simp only [List.filter_cons, hna, List.filter_nil, List.append_nil, Bool.false_eq_true,
      if_false]
    rw [hS]; exact hinv
  · have hc' : (so.radius_search && decide (d c ≥ so.radius)) = false := by
      rwa [Bool.not_eq_true] at hc
    have hna : nn_admissible sqrt so q c = true := by
      unfold nn_admissible; rw [hd, hc']; rfl
    have hflt : (cs ++ [c]).filter (nn_admissible sqrt so q) = A ++ [c] := by
      rw [List.filter_append, hA]; simp [List.filter_cons, hna]
    rw [hflt, insertionSort_append_singleton, hS]
    obtain ⟨i1, i2, i3, i4, i5, i6, i7⟩ := hinv
    have hlen : (S.take k).length = min k S.length := List.length_take _ _
    by_cases hfull : st.dist_pos = db + k
    · obtain ⟨n, rfl⟩ : ∃ n, k = n + 1 := ⟨k - 1, by omega⟩
      have hWl : (S.take (n + 1)).length = n + 1 := by omega
      have hSl : n + 1 ≤ S.length := by omega
      rw [hWl] at i2 i3 i4 i5
      have hB : nn_block st.nn_indices ib n = S.take n := by
        rw [← take_nn_block st.nn_indices ib (n + 1) n (Nat.le_succ n), i4, List.take_take,
          Nat.min_eq_left (Nat.le_succ n)]
      have hW : S.take (n + 1) = S.take n ++ [st.nn_indices (ib + n)] := by
        rw [← i4, nn_block_succ, hB]
      have ht : S.getD n 0 = st.nn_indices (ib + n) := by
        rw [← getD_nn_block st.nn_indices ib (n + 1) n (Nat.lt_succ_self n), i4]
        simp [List.getD_eq_getElem?_getD, List.getElem?_take]
      have hBs : (S.take n).Pairwise (fun a b => d a ≤ d b) := by
        rw [hW, List.pairwise_append] at hsorted; exact hsorted.1
      have hBt : ∀ x, x ∈ S.take n → d x ≤ d (st.nn_indices (ib + n)) := by
        intro x hx
        rw [hW, List.pairwise_append] at hsorted
        exact hsorted.2.2 x hx _ (List.mem_singleton_self _)
      have e1 : db + (n + 1) - 1 - db = n := by omega
      have e2 : db + (n + 1) - 1 = db + n := by omega
      have e3 : ib + (n + 1) - 1 = ib + n := by omega
      have hlast : st.dists (db + n) = d (st.nn_indices (ib + n)) := i5 n (Nat.lt_succ_self n)
      by_cases hgt : st.dists (db + n) > d c
      · have hv : nn_visit sqrt so q db (db + (n + 1)) st c =
            { nn_indices := (nn_bubble n (ib + n) (db + n)
                (Function.update st.nn_indices (ib + n) c,
                  Function.update st.dists (db + n) (d c))).1
              dists := (nn_bubble n (ib + n) (db + n)
                (Function.update st.nn_indices (ib + n) c,
                  Function.update st.dists (db + n) (d c))).2
              index_pos := ib + n + 1
              dist_pos := db + n + 1 } := by
          unfold nn_visit; dsimp only; rw [hd, if_neg hc, if_neg (not_not.mpr hfull)]
          rw [i2, i3, e2, e3, if_pos hgt]
          dsimp only
          rw [e1, e2, e3]
          rfl
        have hw := nn_bubble_window d (n + 1) ib db n idx0 dst0
          (Function.update st.nn_indices (ib + n) c, Function.update st.dists (db + n) (d c))
          (le_refl _)
          (by
            intro j hj
            dsimp only
            by_cases cj : j = n
            · subst cj; rw [Function.update_same, Function.update_same]
            · rw [Function.update_noteq (by omega), Function.update_noteq (by omega)]
              exact i5 j (by omega))
          (by
            dsimp only
            rw [nn_block_congr _ st.nn_indices ib n
              (fun j hj => Function.update_noteq (by omega) _ _), hB]
            exact hBs)
          (by
            intro i hi; dsimp only
            rw [Function.update_noteq (by omega)]; exact i6 i hi)
          (by
            intro i hi; dsimp only
            rw [Function.update_noteq (by omega)]; exact i7 i hi)
        dsimp only at hw
        rw [Function.update_same, nn_block_congr _ st.nn_indices ib n
          (fun j hj => Function.update_noteq (by omega) _ _), hB] at hw
        rw [hv, take_insert_after_of_gt d c n S (by omega) (by rw [ht, ← hlast]; exact hgt)]
        exact hw
      · have hv : nn_visit sqrt so q db (db + (n + 1)) st c =
            { nn_indices := (nn_bubble n (ib + n) (db + n) (st.nn_indices, st.dists)).1
              dists := (nn_bubble n (ib + n) (db + n) (st.nn_indices, st.dists)).2
              index_pos := ib + n + 1
              dist_pos := db + n + 1 } := by
          unfold nn_visit; dsimp only; rw [hd, if_neg hc, if_neg (not_not.mpr hfull)]
          rw [i2, i3, e2, if_neg hgt, i2, i3, e1, e2, e3]
          rfl
        have hw := nn_bubble_window d (n + 1) ib db n idx0 dst0 (st.nn_indices, st.dists)
          (le_refl _) (fun j hj => i5 j (by omega)) (by dsimp only; rw [hB]; exact hBs) i6 i7
        dsimp only at hw
        rw [hB, insert_after_of_le d _ _ hBt, ← hW] at hw
        have hle : d (st.nn_indices (ib + n)) ≤ d c := by
          rw [← hlast]; exact not_lt.mp hgt
        rw [hv, take_insert_after_of_le d c (n + 1) S hSl
          (by
            intro x hx
            rw [hW] at hx
            rcases List.mem_append.mp hx with h' | h'
            · exact le_trans (hBt x h') hle
            · rw [List.mem_singleton] at h'; rw [h']; exact hle)]
        exact hw
    · have hn : (S.take k).length < k := by omega
      have hSl : S.length < k := by omega
      have hWS : S.take k = S := List.take_of_length_le (by omega)
      rw [hWS] at i1 i2 i3 i4 i5 hsorted
      have hv : nn_visit sqrt so q db (db + k) st c =
          { nn_indices := (nn_bubble S.length (ib + S.length) (db + S.length)
              (Function.update st.nn_indices (ib + S.length) c,
                Function.update st.dists (db + S.length) (d c))).1
            dists := (nn_bubble S.length (ib + S.length) (db + S.length)
              (Function.update st.nn_indices (ib + S.length) c,
                Function.update st.dists (db + S.length) (d c))).2
            index_pos := ib + S.length + 1
            dist_pos := db + S.length + 1 } := by
        unfold nn_visit; dsimp only; rw [hd, if_neg hc, if_pos hfull]
        dsimp only
        rw [i2, i3]
        have e1 : db + S.length + 1 - 1 - db = S.length := by omega
        have e2 : db + S.length + 1 - 1 = db + S.length := by omega
        have e3 : ib + S.length + 1 - 1 = ib + S.length := by omega
        rw [e1, e2, e3]
      have hblk : nn_block (Function.update st.nn_indices (ib + S.length) c) ib S.length = S := by
        rw [nn_block_congr _ st.nn_indices ib S.length
          (fun j hj => Function.update_noteq (by omega) _ _), i4]
      have hw := nn_bubble_window d k ib db S.length idx0 dst0
        (Function.update st.nn_indices (ib + S.length) c,
          Function.update st.dists (db + S.length) (d c))
        (by omega)
        (by
          intro j hj
          dsimp only
          by_cases cj : j = S.length
          · subst cj; rw [Function.update_same, Function.update_same]
          · rw [Function.update_noteq (by omega), Function.update_noteq (by omega)]
            exact i5 j (by omega))
        (by dsimp only; rw [hblk]; exact hsorted)
        (by
          intro i hi; dsimp only
          rw [Function.update_noteq (by omega)]; exact i6 i hi)
        (by
          intro i hi; dsimp only
          rw [Function.update_noteq (by omega)]; exact i7 i hi)
      dsimp only at hw
      rw [Function.update_same, hblk] at hw
      rw [hv, List.take_of_length_le (by rw [length_insert_after]; omega)]
      exact hw

theorem nn_fold_window (sqrt : ℚ → ℚ) (so : scc_NNSearchObject) (q ib db : Nat)
    (idx0 : Nat → Nat) (dst0 : Nat → ℚ) (hk : 1 ≤ so.k) :
    ∀ (cs done : List Nat) (st : NNState),
      WindowInv (iscc_get_dist sqrt so.data_set_object q) so.k ib db idx0 dst0
        ((List.insertionSort
          (fun a b => iscc_get_dist sqrt so.data_set_object q a ≤
            iscc_get_dist sqrt so.data_set_object q b)
          (done.filter (nn_admissible sqrt so q))).take so.k) st →
      WindowInv (iscc_get_dist sqrt so.data_set_object q) so.k ib db idx0 dst0
        ((List.insertionSort
          (fun a b => iscc_get_dist sqrt so.data_set_object q a ≤
            iscc_get_dist sqrt so.data_set_object q b)
          ((done ++ cs).filter (nn_admissible sqrt so q))).take so.k)
        (cs.foldl (nn_visit sqrt so q db (db + so.k)) st) := by
  intro cs
  induction cs with
  | nil => intro done st h; simpa using h
  | cons c cs ih =>
    intro done st h
    have h1 := nn_visit_window sqrt so q ib db idx0 dst0 done c st hk h
    have h2 := ih (done ++ [c]) _ h1
    rw [List.append_assoc, List.singleton_append] at h2
    exact h2

theorem nn_fill_spec : ∀ (m : Nat) (st : NNState),
    (nn_fill m st).index_pos = st.index_pos + m ∧
    (nn_fill m st).dist_pos = st.dist_pos + m ∧
    (∀ j, j < m → (nn_fill m st).nn_indices (st.index_pos + j) = SCC_VID_MAX) ∧
    (∀ j, j < m → (nn_fill m st).dists (st.dist_pos + j) = -1) ∧
    (∀ i, i < st.index_pos → (nn_fill m st).nn_indices i = st.nn_indices i) ∧
    (∀ i, i < st.dist_pos → (nn_fill m st).dists i = st.dists i) := by
  intro m
  induction m with
  | zero =>
    intro st
    exact ⟨rfl, rfl, fun j hj => absurd hj (Nat.not_lt_zero j),
      fun j hj => absurd hj (Nat.not_lt_zero j), fun _ _ => rfl, fun _ _ => rfl⟩
  | succ m ih =>
    intro st
    obtain ⟨r1, r2, r3, r4, r5, r6⟩ := ih
      { nn_indices := Function.update st.nn_indices st.index_pos SCC_VID_MAX
        dists := Function.update st.dists st.dist_pos (-1)
        index_pos := st.index_pos + 1
        dist_pos := st.dist_pos + 1 }
    dsimp only at r1 r2 r3 r4 r5 r6
    rw [nn_fill]
    refine ⟨by rw [r1]; omega, by rw [r2]; omega, ?_, ?_, ?_, ?_⟩
    · intro j hj
      cases j with
      | zero =>
        have h5 := r5 st.index_pos (Nat.lt_succ_self _)
        rw [Function.update_same] at h5
        exact h5
      | succ j =>
        have e : st.index_pos + (j + 1) = st.index_pos + 1 + j := by omega
        rw [e]; exact r3 j (by omega)
    · intro j hj
      cases j with
      | zero =>
        have h6 := r6 st.dist_pos (Nat.lt_succ_self _)
        rw [Function.update_same] at h6
        exact h6
      | succ j =>
        have e : st.dist_pos + (j + 1) = st.dist_pos + 1 + j := by omega
        rw [e]; exact r4 j (by omega)
    · intro i hi
      rw [r5 i (by omega), Function.update_noteq (by omega)]
    · intro i hi
      rw [r6 i (by omega), Function.update_noteq (by omega)]

theorem nn_query_step_spec (sqrt : ℚ → ℚ) (so : scc_NNSearchObject)
    (query_indices : Option (List Nat)) (scratch : Bool) (st : NNState) (qp db : Nat)
    (hk : 1 ≤ so.k) (hdb : db = if scratch then 0 else st.dist_pos) :
    (nn_query_step sqrt so query_indices scratch st qp).index_pos = st.index_pos + so.k ∧
    (nn_query_step sqrt so query_indices scratch st qp).dist_pos = db + so.k ∧
    nn_block (nn_query_step sqrt so query_indices scratch st qp).nn_indices st.index_pos
        ((nn_sorted sqrt so (nn_query query_indices qp)).take so.k).length =
      (nn_sorted sqrt so (nn_query query_indices qp)).take so.k ∧
    (∀ j, j < ((nn_sorted sqrt so (nn_query query_indices qp)).take so.k).length →
      (nn_query_step sqrt so query_indices scratch st qp).dists (db + j) =
        iscc_get_dist sqrt so.data_set_object (nn_query query_indices qp)
          ((nn_query_step sqrt so query_indices scratch st qp).nn_indices
            (st.index_pos + j))) ∧
    (∀ j, ((nn_sorted sqrt so (nn_query query_indices qp)).take so.k).length ≤ j → j < so.k →
      (nn_query_step sqrt so query_indices scratch st qp).nn_indices (st.index_pos + j) =
          SCC_VID_MAX ∧
        (nn_query_step sqrt so query_indices scratch st qp).dists (db + j) = -1) ∧
    (∀ i, i < st.index_pos →
      (nn_query_step sqrt so query_indices scratch st qp).nn_indices i = st.nn_indices i) ∧
    (∀ i, i < db →
      (nn_query_step sqrt so query_indices scratch st qp).dists i = st.dists i) := by
  generalize hst0 : (if scratch then { st with dist_pos := 0 } else st : NNState) = st0
  have h01 : st0.nn_indices = st.nn_indices := by
    rw [← hst0]; cases scratch <;> rfl
  have h02 : st0.dists = st.dists := by
    rw [← hst0]; cases scratch <;> rfl
  have h03 : st0.index_pos = st.index_pos := by
    rw [← hst0]; cases scratch <;> rfl
  have h04 : st0.dist_pos = db := by
    rw [← hst0, hdb]; cases scratch <;> rfl
  have hinit : WindowInv (iscc_get_dist sqrt so.data_set_object (nn_query query_indices qp))
      so.k st.index_pos db st.nn_indices st.dists
      ((List.insertionSort
        (fun a b =>
          iscc_get_dist sqrt so.data_set_object (nn_query query_indices qp) a ≤
            iscc_get_dist sqrt so.data_set_object (nn_query query_indices qp) b)
        (([] : List Nat).filter (nn_admissible sqrt so (nn_query query_indices qp)))).take
          so.k) st0 := by
    refine ⟨by simp, by simpa using h03, by simpa using h04, by simp [nn_block], ?_, ?_, ?_⟩
    · intro j hj; simp at hj
    · intro i _; rw [h01]
    · intro i _; rw [h02]
  have hw := nn_fold_window sqrt so (nn_query query_indices qp) st.index_pos db st.nn_indices
    st.dists hk so.search_set [] st0 hinit
  rw [List.nil_append] at hw
  have hstep : nn_query_step sqrt so query_indices scratch st qp =
      nn_fill (db + so.k - (so.search_set.foldl
          (nn_visit sqrt so (nn_query query_indices qp) db (db + so.k)) st0).dist_pos)
        (so.search_set.foldl
          (nn_visit sqrt so (nn_query query_indices qp) db (db + so.k)) st0) := by
    unfold nn_query_step
    dsimp only
    rw [hst0, h04, scc_NNSearchObject.search_set, List.foldl_map]
  rw [hstep]
  generalize so.search_set.foldl
    (nn_visit sqrt so (nn_query query_indices qp) db (db + so.k)) st0 = st1 at hw ⊢
  change WindowInv _ so.k st.index_pos db st.nn_indices st.dists
    ((nn_sorted sqrt so (nn_query query_indices qp)).take so.k) st1 at hw
  generalize (nn_sorted sqrt so (nn_query query_indices qp)).take so.k = w at hw ⊢
  obtain ⟨i1, i2, i3, i4, i5, i6, i7⟩ := hw
  obtain ⟨r1, r2, r3, r4, r5, r6⟩ := nn_fill_spec (db + so.k - st1.dist_pos) st1
  have em : db + so.k - st1.dist_pos = so.k - w.length := by omega
  rw [em] at r1 r2 r3 r4 r5 r6 ⊢
  refine ⟨by rw [r1, i2]; omega, by rw [r2, i3]; omega, ?_, ?_, ?_, ?_, ?_⟩
  · refine Eq.trans ?_ i4
    apply nn_block_congr
    intro j hj
    exact r5 _ (by omega)
  · intro j hj
    rw [r6 _ (by omega), r5 _ (by omega)]
    exact i5 j hj
  · intro j hj1 hj2
    have e1 : st.index_pos + j = st1.index_pos + (j - w.length) := by omega
    have e2 : db + j = st1.dist_pos + (j - w.length) := by omega
    rw [e1, e2]
    exact ⟨r3 _ (by omega), r4 _ (by omega)⟩
  · intro i hi
    rw [r5 i (by omega)]; exact i6 i hi
  · intro i hi
    rw [r6 i (by omega)]; exact i7 i hi

theorem nn_block_ok_of_agree (sqrt : ℚ → ℚ) (so : scc_NNSearchObject)
    (query_indices : Option (List Nat)) (scratch : Bool) (st st' : NNState) (qp b : Nat)
    (hb : qp * so.k + so.k ≤ b)
    (h1 : ∀ i, i < b → st'.nn_indices i = st.nn_indices i)
    (h2 : scratch = false → ∀ i, i < b → st'.dists i = st.dists i)
    (h : nn_block_ok sqrt so query_indices scratch st qp) :
    nn_block_ok sqrt so query_indices scratch st' qp := by
  unfold nn_block_ok at h ⊢
  have hlen : ((nn_sorted sqrt so (nn_query query_indices qp)).take so.k).length ≤ so.k := by
    rw [List.length_take]; exact Nat.min_le_left _ _
  generalize (nn_sorted sqrt so (nn_query query_indices qp)).take so.k = w at h hlen ⊢
  obtain ⟨a1, a2, a3⟩ := h
  refine ⟨?_, ?_, ?_⟩
  · refine Eq.trans ?_ a1
    apply nn_block_congr
    intro j hj
    exact h1 _ (by omega)
  · intro j hj1 hj2
    rw [h1 _ (by omega)]; exact a2 j hj1 hj2
  · intro hs
    obtain ⟨b1, b2⟩ := a3 hs
    refine ⟨?_, ?_⟩
    · intro j hj
      rw [h2 hs _ (by omega), h1 _ (by omega)]; exact b1 j hj
    · intro j hj1 hj2
      rw [h2 hs _ (by omega)]; exact b2 j hj1 hj2

theorem nn_outer_inv (sqrt : ℚ → ℚ) (so : scc_NNSearchObject)
    (query_indices : Option (List Nat)) (scratch : Bool) (st_init : NNState)
    (hk : 1 ≤ so.k) (h0 : st_init.index_pos = 0) (h0' : st_init.dist_pos = 0) :
    ∀ t : Nat,
      ((List.range t).foldl (nn_query_step sqrt so query_indices scratch) st_init).index_pos =
          t * so.k ∧
        (scratch = false →
          ((List.range t).foldl (nn_query_step sqrt so query_indices scratch)
            st_init).dist_pos = t * so.k) ∧
        ∀ qp, qp < t → nn_block_ok sqrt so query_indices scratch
          ((List.range t).foldl (nn_query_step sqrt so query_indices scratch) st_init) qp := by
  intro t
  induction t with
  | zero =>
    refine ⟨by simpa using h0, fun _ => by simpa using h0', ?_⟩
    intro qp hqp; exact absurd hqp (Nat.not_lt_zero qp)
  | succ t ih =>
    rw [List.range_succ, List.foldl_append, List.foldl_cons, List.foldl_nil]
    generalize (List.range t).foldl (nn_query_step sqrt so query_indices scratch) st_init = st
      at ih ⊢
    obtain ⟨ih1, ih2, ih3⟩ := ih
    obtain ⟨s1, s2, s3, s4, s5, s6, s7⟩ := nn_query_step_spec sqrt so query_indices scratch st t
      (if scratch then 0 else st.dist_pos) hk rfl
    have hmul : (t + 1) * so.k = t * so.k + so.k := Nat.succ_mul t so.k
    refine ⟨by rw [s1, ih1, hmul], ?_, ?_⟩
    · intro hs
      rw [s2, hs, hmul, ih2 hs]; rfl
    · intro qp hqp
      by_cases hlt : qp < t
      · have hb : qp * so.k + so.k ≤ t * so.k := by
          rw [← Nat.succ_mul]; exact Nat.mul_le_mul_right _ hlt
        refine nn_block_ok_of_agree sqrt so query_indices scratch st _ qp (t * so.k) hb ?_ ?_
          (ih3 qp hlt)
        · intro i hi; exact s6 i (by rw [ih1]; exact hi)
        · intro hs i hi
          apply s7
          rw [hs]
          show i < st.dist_pos
          rw [ih2 hs]; exact hi
      · have hqt : qp = t := by omega
        subst hqt
        rw [ih1] at s3 s4 s5
        unfold nn_block_ok
        refine ⟨s3, fun j hj1 hj2 => (s5 j hj1 hj2).1, ?_⟩
        intro hs
        have hdb : (if scratch = true then 0 else st.dist_pos) = qp * so.k := by
          rw [hs]; exact ih2 hs
        rw [hdb] at s4 s5
        exact ⟨s4, fun j hj1 hj2 => (s5 j hj1 hj2).2⟩

theorem nn_search_indices (sqrt : ℚ → ℚ) (mem : Mem) (so : scc_NNSearchObject)
    (n_query_points : Nat) (query_indices : Option (List Nat)) (nn_indices : Nat → Nat)
    (nn_dists : Option (Nat → ℚ)) (qp : Nat) (hq : qp < n_query_points)
    (hok : (scc_nearest_neighbor_search sqrt mem so n_query_points query_indices nn_indices
      nn_dists).1 = true) :
    nn_block (scc_nearest_neighbor_search sqrt mem so n_query_points query_indices nn_indices
          nn_dists).2.1 (qp * so.k)
        ((nn_sorted sqrt so (nn_query query_indices qp)).take so.k).length =
      (nn_sorted sqrt so (nn_query query_indices qp)).take so.k ∧
    ∀ j, ((nn_sorted sqrt so (nn_query query_indices qp)).take so.k).length ≤ j → j < so.k →
      (scc_nearest_neighbor_search sqrt mem so n_query_points query_indices nn_indices
        nn_dists).2.1 (qp * so.k + j) = SCC_VID_MAX := by
  by_cases hk : 1 ≤ so.k
  · cases nn_dists with
    | none =>
      unfold scc_nearest_neighbor_search at hok ⊢
      dsimp only at hok ⊢
      by_cases hm : (!(mem AllocSite.sort_scratch so.k)) = true
      · rw [if_pos hm] at hok; simp at hok
      · rw [if_neg hm]
        obtain ⟨_, _, h3⟩ := nn_outer_inv sqrt so query_indices true
          { nn_indices := nn_indices, dists := fun _ => 0, index_pos := 0, dist_pos := 0 }
          hk rfl rfl n_query_points
        exact ⟨(h3 qp hq).1, (h3 qp hq).2.1⟩
    | some d =>
      unfold scc_nearest_neighbor_search
      dsimp only
      obtain ⟨_, _, h3⟩ := nn_outer_inv sqrt so query_indices false
        { nn_indices := nn_indices, dists := d, index_pos := 0, dist_pos := 0 }
        hk rfl rfl n_query_points
      exact ⟨(h3 qp hq).1, (h3 qp hq).2.1⟩
  · have hk0 : so.k = 0 := by omega
    rw [hk0]
    refine ⟨by simp [nn_block], ?_⟩
    intro j _ hj; exact absurd hj (Nat.not_lt_zero j)

theorem nn_search_dists (sqrt : ℚ → ℚ) (mem : Mem) (so : scc_NNSearchObject)
    (n_query_points : Nat) (query_indices : Option (List Nat)) (nn_indices : Nat → Nat)
    (nn_dists : Nat → ℚ) (qp : Nat) (hq : qp < n_query_points) :
    ∃ od, (scc_nearest_neighbor_search sqrt mem so n_query_points query_indices nn_indices
        (some nn_dists)).2.2 = some od ∧
      (∀ j, j < ((nn_sorted sqrt so (nn_query query_indices qp)).take so.k).length →
        od (qp * so.k + j) =
          iscc_get_dist sqrt so.data_set_object (nn_query query_indices qp)
            ((scc_nearest_neighbor_search sqrt mem so n_query_points query_indices nn_indices
              (some nn_dists)).2.1 (qp * so.k + j))) ∧
      ∀ j, ((nn_sorted sqrt so (nn_query query_indices qp)).take so.k).length ≤ j →
        j < so.k → od (qp * so.k + j) = -1 := by
  unfold scc_nearest_neighbor_search
  dsimp only
  refine ⟨_, rfl, ?_⟩
  by_cases hk : 1 ≤ so.k
  · obtain ⟨_, _, h3⟩ := nn_outer_inv sqrt so query_indices false
      { nn_indices := nn_indices, dists := nn_dists, index_pos := 0, dist_pos := 0 }
      hk rfl rfl n_query_points
    exact (h3 qp hq).2.2 rfl
  · have hk0 : so.k = 0 := by omega
    rw [hk0]
    refine ⟨?_, ?_⟩
    · intro j hj; simp at hj
    · intro j _ hj; exact absurd hj (Nat.not_lt_zero j)

/-! ## The reference list of a query -/

theorem nn_sorted_perm (sqrt : ℚ → ℚ) (so : scc_NNSearchObject) (q : Nat) :
    (nn_sorted sqrt so q).Perm (nn_admissible_list sqrt so q) :=
  List.perm_insertionSort _ _

theorem nn_sorted_pairwise (sqrt : ℚ → ℚ) (so : scc_NNSearchObject) (q : Nat) :
    (nn_sorted sqrt so q).Pairwise
      (fun a b => iscc_get_dist sqrt so.data_set_object q a ≤
        iscc_get_dist sqrt so.data_set_object q b) := by
  have h := pairwise_take_sorted (iscc_get_dist sqrt so.data_set_object q)
    (nn_admissible_list sqrt so q) (nn_admissible_list sqrt so q).length
  rw [List.take_of_length_le (by rw [List.length_insertionSort])] at h
  exact h

theorem length_take_nn_sorted (sqrt : ℚ → ℚ) (so : scc_NNSearchObject) (q : Nat) :
    ((nn_sorted sqrt so q).take so.k).length =
      min so.k (nn_admissible_list sqrt so q).length := by
  rw [List.length_take, nn_sorted, List.length_insertionSort]

theorem nn_block_append_replicate {α : Type} (f : Nat → α) (b n : Nat) (c : α) :
    ∀ m : Nat, (∀ j, n ≤ j → j < n + m → f (b + j) = c) →
      nn_block f b (n + m) = nn_block f b n ++ List.replicate m c := by
  intro m
  induction m with
  | zero => intro _; simp
  | succ m ih =>
    intro h
    rw [← Nat.add_assoc, nn_block_succ, ih (fun j h1 h2 => h j h1 (by omega)),
      h (n + m) (by omega) (by omega), List.replicate_succ', List.append_assoc]

theorem dist_S4 (sqrt : ℚ → ℚ) (i j : Nat) :
    iscc_get_dist sqrt ds_S4 i j =
      sqrt ((([0, 1, 2] : List ℚ).getD i 0 - ([0, 1, 2] : List ℚ).getD j 0) ^ 2) := by
  simp [iscc_get_dist, ds_S4, List.range_succ, sq]

theorem admissible_list_S4 (sqrt : ℚ → ℚ) (q : Nat) :
    nn_admissible_list sqrt so_S4 q = [0, 1, 2] := rfl

theorem nn_sorted_S4_query0 (sqrt : ℚ → ℚ) (h0 : sqrt 0 = 0) (h1 : sqrt 1 = 1)
    (h4 : sqrt 4 = 2) : nn_sorted sqrt so_S4 0 = [0, 1, 2] := by
  have e : so_S4.data_set_object = ds_S4 := rfl
  have d0 : iscc_get_dist sqrt ds_S4 0 0 = 0 := by rw [dist_S4]; norm_num [h0]
  have d1 : iscc_get_dist sqrt ds_S4 0 1 = 1 := by rw [dist_S4]; norm_num [h1]
  have d2 : iscc_get_dist sqrt ds_S4 0 2 = 2 := by rw [dist_S4]; norm_num [h4]
  rw [nn_sorted, admissible_list_S4, e]
  simp [List.insertionSort, List.orderedInsert, d0, d1, d2]

theorem nn_sorted_S4_query1 (sqrt : ℚ → ℚ) (h0 : sqrt 0 = 0) (h1 : sqrt 1 = 1) :
    nn_sorted sqrt so_S4 1 = [1, 0, 2] := by
  have e : so_S4.data_set_object = ds_S4 := rfl
  have d0 : iscc_get_dist sqrt ds_S4 1 0 = 1 := by rw [dist_S4]; norm_num [h1]
  have d1 : iscc_get_dist sqrt ds_S4 1 1 = 0 := by rw [dist_S4]; norm_num [h0]
  have d2 : iscc_get_dist sqrt ds_S4 1 2 = 1 := by rw [dist_S4]; norm_num [h1]
  rw [nn_sorted, admissible_list_S4, e]
  simp [List.insertionSort, List.orderedInsert, d0, d1, d2]

theorem sqrt_S4_values : sqrt_S4 0 = 0 ∧ sqrt_S4 1 = 1 ∧ sqrt_S4 4 = 2 := by
  refine ⟨?_, ?_, ?_⟩ <;> norm_num [sqrt_S4]

/-! ## Claims on the nearest-neighbour search -/

/-- C6: for every query number `qp` of a successful search, the first `min k m` slots of
the query's output block (from slot `qp * k` on) hold exactly the first `k` entries of
the reference list `nn_sorted`. That list is a rearrangement of the `m` admissible search
points, ascending in the distance to the query, and stable: two admissible points of
which the one enumerated earlier is not farther keep their enumeration order, so that
among equal distances the point enumerated earlier comes first. -/
theorem nn_search_stable_k_nearest (sqrt : ℚ → ℚ) (mem : Mem) (so : scc_NNSearchObject)
    (n_query_points : Nat) (query_indices : Option (List Nat)) (nn_indices : Nat → Nat)
    (nn_dists : Option (Nat → ℚ)) (qp : Nat) (hq : qp < n_query_points)
    (hok : (scc_nearest_neighbor_search sqrt mem so n_query_points query_indices nn_indices
      nn_dists).1 = true) :
    nn_block (scc_nearest_neighbor_search sqrt mem so n_query_points query_indices nn_indices
          nn_dists).2.1 (qp * so.k)
        (min so.k (nn_admissible_list sqrt so (nn_query query_indices qp)).length) =
      (nn_sorted sqrt so (nn_query query_indices qp)).take so.k ∧
    (nn_sorted sqrt so (nn_query query_indices qp)).Perm
      (nn_admissible_list sqrt so (nn_query query_indices qp)) ∧
    (nn_sorted sqrt so (nn_query query_indices qp)).Pairwise
      (fun a b =>
        iscc_get_dist sqrt so.data_set_object (nn_query query_indices qp) a ≤
          iscc_get_dist sqrt so.data_set_object (nn_query query_indices qp) b) ∧
    ∀ a b, List.Sublist [a, b] (nn_admissible_list sqrt so (nn_query query_indices qp)) →
      iscc_get_dist sqrt so.data_set_object (nn_query query_indices qp) a ≤
        iscc_get_dist sqrt so.data_set_object (nn_query query_indices qp) b →
      List.Sublist [a, b] (nn_sorted sqrt so (nn_query query_indices qp)) := by
  refine ⟨?_, nn_sorted_perm sqrt so _, nn_sorted_pairwise sqrt so _, ?_⟩
  · rw [← length_take_nn_sorted]
    exact (nn_search_indices sqrt mem so n_query_points query_indices nn_indices nn_dists qp
      hq hok).1
  · intro a b hab hd
    exact List.pair_sublist_insertionSort hd hab

theorem nn_search_stable_k_nearest_witness :
    (nn_sorted sqrt_S4 so_S4 (nn_query none 1)).take so_S4.k = [1, 0] ∧
    nn_block (scc_nearest_neighbor_search sqrt_S4 mem_ok so_S4 3 none (fun _ => 0) none).2.1
        (1 * so_S4.k) (min so_S4.k (nn_admissible_list sqrt_S4 so_S4 (nn_query none 1)).length) =
      (nn_sorted sqrt_S4 so_S4 (nn_query none 1)).take so_S4.k :=
  ⟨by
    have h : nn_query none 1 = 1 := rfl
    rw [h, nn_sorted_S4_query1 sqrt_S4 sqrt_S4_values.1 sqrt_S4_values.2.1]
    rfl,
    (nn_search_stable_k_nearest sqrt_S4 mem_ok so_S4 3 none (fun _ => 0) none 1 (by decide)
      rfl).1⟩

theorem nn_search_dists_out (sqrt : ℚ → ℚ) (mem : Mem) (so : scc_NNSearchObject)
    (n_query_points : Nat) (query_indices : Option (List Nat)) (nn_indices : Nat → Nat)
    (nn_dists : Option (Nat → ℚ)) (qp : Nat) (hq : qp < n_query_points) (od : Nat → ℚ)
    (hod : (scc_nearest_neighbor_search sqrt mem so n_query_points query_indices nn_indices
      nn_dists).2.2 = some od) :
    (∀ j, j < min so.k (nn_admissible_list sqrt so (nn_query query_indices qp)).length →
      od (qp * so.k + j) =
        iscc_get_dist sqrt so.data_set_object (nn_query query_indices qp)
          ((scc_nearest_neighbor_search sqrt mem so n_query_points query_indices nn_indices
            nn_dists).2.1 (qp * so.k + j))) ∧
    ∀ j, min so.k (nn_admissible_list sqrt so (nn_query query_indices qp)).length ≤ j →
      j < so.k → od (qp * so.k + j) = -1 := by
  cases nn_dists with
  | none =>
    exfalso
    unfold scc_nearest_neighbor_search at hod
    dsimp only at hod
    split_ifs at hod
  | some d =>
    obtain ⟨od', h1, h2, h3⟩ := nn_search_dists sqrt mem so n_query_points query_indices
      nn_indices d qp hq
    rw [h1] at hod
    have e : od' = od := Option.some.inj hod
    rw [e, length_take_nn_sorted] at h2 h3
    exact ⟨h2, h3⟩

theorem nn_block_map {α β : Type} (f : Nat → α) (g : α → β) (b n : Nat) :
    nn_block (fun i => g (f i)) b n = (nn_block f b n).map g := by
  simp [nn_block, List.map_map, Function.comp_def]

/-- C7: for every query number `qp` of a successful search, the output block of the
query is the slots `qp * k` to `qp * k + k - 1`: it holds the nearest admissible search
points followed by `SCC_VID_MAX` entries. The listed search points are in non-decreasing
order of their distance to the query, and when the caller asks for the distances, the
distance written next to each listed point is its distance to the query, so that the
written distances are non-decreasing from the first slot of the block on. -/
theorem nn_search_distances_ascending (sqrt : ℚ → ℚ) (mem : Mem) (so : scc_NNSearchObject)
    (n_query_points : Nat) (query_indices : Option (List Nat)) (nn_indices : Nat → Nat)
    (nn_dists : Option (Nat → ℚ)) (qp : Nat) (hq : qp < n_query_points)
    (hok : (scc_nearest_neighbor_search sqrt mem so n_query_points query_indices nn_indices
      nn_dists).1 = true) :
    nn_block (scc_nearest_neighbor_search sqrt mem so n_query_points query_indices nn_indices
          nn_dists).2.1 (qp * so.k) so.k =
      (nn_sorted sqrt so (nn_query query_indices qp)).take so.k ++
        List.replicate
          (so.k - min so.k (nn_admissible_list sqrt so (nn_query query_indices qp)).length)
          SCC_VID_MAX ∧
    (nn_block (scc_nearest_neighbor_search sqrt mem so n_query_points query_indices nn_indices
          nn_dists).2.1 (qp * so.k)
        (min so.k (nn_admissible_list sqrt so (nn_query query_indices qp)).length)).Pairwise
      (fun a b =>
        iscc_get_dist sqrt so.data_set_object (nn_query query_indices qp) a ≤
          iscc_get_dist sqrt so.data_set_object (nn_query query_indices qp) b) ∧
    ∀ od, (scc_nearest_neighbor_search sqrt mem so n_query_points query_indices nn_indices
        nn_dists).2.2 = some od →
      (∀ j, j < min so.k (nn_admissible_list sqrt so (nn_query query_indices qp)).length →
        od (qp * so.k + j) =
          iscc_get_dist sqrt so.data_set_object (nn_query query_indices qp)
            ((scc_nearest_neighbor_search sqrt mem so n_query_points query_indices
              nn_indices nn_dists).2.1 (qp * so.k + j))) ∧
      (nn_block od (qp * so.k)
        (min so.k (nn_admissible_list sqrt so (nn_query query_indices qp)).length)).Pairwise
        (fun x y => x ≤ y) := by
  obtain ⟨h1, h2⟩ := nn_search_indices sqrt mem so n_query_points query_indices nn_indices
    nn_dists qp hq hok
  rw [length_take_nn_sorted] at h1 h2
  have hsorted : (nn_block (scc_nearest_neighbor_search sqrt mem so n_query_points
      query_indices nn_indices nn_dists).2.1 (qp * so.k)
      (min so.k (nn_admissible_list sqrt so (nn_query query_indices qp)).length)).Pairwise
      (fun a b =>
        iscc_get_dist sqrt so.data_set_object (nn_query query_indices qp) a ≤
          iscc_get_dist sqrt so.data_set_object (nn_query query_indices qp) b) := by
    rw [h1]
    exact List.Pairwise.sublist (List.take_sublist _ _) (nn_sorted_pairwise sqrt so _)
  refine ⟨?_, hsorted, ?_⟩
  · have hle : min so.k (nn_admissible_list sqrt so (nn_query query_indices qp)).length ≤
        so.k := Nat.min_le_left _ _
    have e := nn_block_append_replicate
      (scc_nearest_neighbor_search sqrt mem so n_query_points query_indices nn_indices
        nn_dists).2.1 (qp * so.k)
      (min so.k (nn_admissible_list sqrt so (nn_query query_indices qp)).length) SCC_VID_MAX
      (so.k - min so.k (nn_admissible_list sqrt so (nn_query query_indices qp)).length)
      (fun j hj1 hj2 => h2 j hj1 (by omega))
    rw [Nat.add_sub_cancel' hle, h1] at e
    exact e
  · intro od hod
    obtain ⟨d1, _⟩ := nn_search_dists_out sqrt mem so n_query_points query_indices nn_indices
      nn_dists qp hq od hod
    refine ⟨d1, ?_⟩
    rw [nn_block_congr od
      (fun i => iscc_get_dist sqrt so.data_set_object (nn_query query_indices qp)
        ((scc_nearest_neighbor_search sqrt mem so n_query_points query_indices nn_indices
          nn_dists).2.1 i)) _ _ d1, nn_block_map, List.pairwise_map]
    exact hsorted

theorem nn_search_distances_ascending_witness :
    (nn_sorted sqrt_S4 so_S4 (nn_query none 0)).take so_S4.k = [0, 1] ∧
    nn_block (scc_nearest_neighbor_search sqrt_S4 mem_ok so_S4 3 none (fun _ => 0)
          (some (fun _ => 0))).2.1 (0 * so_S4.k) so_S4.k =
      (nn_sorted sqrt_S4 so_S4 (nn_query none 0)).take so_S4.k ++
        List.replicate
          (so_S4.k - min so_S4.k (nn_admissible_list sqrt_S4 so_S4 (nn_query none 0)).length)
          SCC_VID_MAX :=
  ⟨by
    have h : nn_query none 0 = 0 := rfl
    rw [h, nn_sorted_S4_query0 sqrt_S4 sqrt_S4_values.1 sqrt_S4_values.2.1
      sqrt_S4_values.2.2]
    rfl,
    (nn_search_distances_ascending sqrt_S4 mem_ok so_S4 3 none (fun _ => 0)
      (some (fun _ => 0)) 0 (by decide) rfl).1⟩

theorem admissible_list_S4_radius (sqrt : ℚ → ℚ) (h0 : sqrt 0 = 0) (h1 : sqrt 1 = 1)
    (h4 : sqrt 4 = 2) : nn_admissible_list sqrt so_S4_radius 0 = [0, 1] := by
  have d0 : iscc_get_dist sqrt ds_S4 0 0 = 0 := by rw [dist_S4]; norm_num [h0]
  have d1 : iscc_get_dist sqrt ds_S4 0 1 = 1 := by rw [dist_S4]; norm_num [h1]
  have d2 : iscc_get_dist sqrt ds_S4 0 2 = 2 := by rw [dist_S4]; norm_num [h4]
  simp [nn_admissible_list, nn_admissible, scc_NNSearchObject.search_set,
    scc_NNSearchObject.search_point, so_S4_radius, List.range_succ, List.filter_cons, d0, d1,
    d2]
  norm_num

/-- C10: for every query number `qp` of a successful search that has only `m < k`
admissible search points, the first `m` slots of the query's output block hold the
admissible search points (each one once), every remaining slot of the block holds the
index `SCC_VID_MAX`, and when the caller asks for the distances, every remaining slot of
the distance block holds `-1`. -/
theorem nn_search_sentinel_fill (sqrt : ℚ → ℚ) (mem : Mem) (so : scc_NNSearchObject)
    (n_query_points : Nat) (query_indices : Option (List Nat)) (nn_indices : Nat → Nat)
    (nn_dists : Option (Nat → ℚ)) (qp : Nat) (hq : qp < n_query_points)
    (hok : (scc_nearest_neighbor_search sqrt mem so n_query_points query_indices nn_indices
      nn_dists).1 = true)
    (hm : (nn_admissible_list sqrt so (nn_query query_indices qp)).length < so.k) :
    (nn_block (scc_nearest_neighbor_search sqrt mem so n_query_points query_indices nn_indices
          nn_dists).2.1 (qp * so.k)
        (nn_admissible_list sqrt so (nn_query query_indices qp)).length).Perm
      (nn_admissible_list sqrt so (nn_query query_indices qp)) ∧
    (∀ j, (nn_admissible_list sqrt so (nn_query query_indices qp)).length ≤ j → j < so.k →
      (scc_nearest_neighbor_search sqrt mem so n_query_points query_indices nn_indices
        nn_dists).2.1 (qp * so.k + j) = SCC_VID_MAX) ∧
    ∀ od, (scc_nearest_neighbor_search sqrt mem so n_query_points query_indices nn_indices
        nn_dists).2.2 = some od →
      ∀ j, (nn_admissible_list sqrt so (nn_query query_indices qp)).length ≤ j → j < so.k →
        od (qp * so.k + j) = -1 := by
  obtain ⟨h1, h2⟩ := nn_search_indices sqrt mem so n_query_points query_indices nn_indices
    nn_dists qp hq hok
  have hmin : min so.k (nn_admissible_list sqrt so (nn_query query_indices qp)).length =
      (nn_admissible_list sqrt so (nn_query query_indices qp)).length :=
    Nat.min_eq_right (Nat.le_of_lt hm)
  rw [length_take_nn_sorted, hmin] at h1 h2
  refine ⟨?_, h2, ?_⟩
  · rw [h1, List.take_of_length_le
      (by rw [nn_sorted, List.length_insertionSort]; exact Nat.le_of_lt hm)]
    exact nn_sorted_perm sqrt so _
  · intro od hod
    have h3 := (nn_search_dists_out sqrt mem so n_query_points query_indices nn_indices
      nn_dists qp hq od hod).2
    rw [hmin] at h3
    exact h3

theorem nn_search_sentinel_fill_witness :
    nn_admissible_list sqrt_S4 so_S4_radius (nn_query none 0) = [0, 1] ∧
    ∀ j, (nn_admissible_list sqrt_S4 so_S4_radius (nn_query none 0)).length ≤ j →
      j < so_S4_radius.k →
      (scc_nearest_neighbor_search sqrt_S4 mem_ok so_S4_radius 3 none (fun _ => 0)
        (some (fun _ => 0))).2.1 (0 * so_S4_radius.k + j) = SCC_VID_MAX :=
  ⟨admissible_list_S4_radius sqrt_S4 sqrt_S4_values.1 sqrt_S4_values.2.1 sqrt_S4_values.2.2,
    (nn_search_sentinel_fill sqrt_S4 mem_ok so_S4_radius 3 none (fun _ => 0)
      (some (fun _ => 0)) 0 (by decide) rfl
      (by
        have h : nn_query none 0 = 0 := rfl
        rw [h, admissible_list_S4_radius sqrt_S4 sqrt_S4_values.1 sqrt_S4_values.2.1
          sqrt_S4_values.2.2]
        decide)).2.1⟩

/-! ## The query itself as a search point -/

theorem mem_take_of_sorted (d : Nat → ℚ) (l : List Nat) (x k : Nat)
    (hs : l.Pairwise (fun a b => d a ≤ d b)) (hx : x ∈ l)
    (hc : (l.filter (fun s => decide (d s ≤ d x))).length ≤ k) : x ∈ l.take k := by
  obtain ⟨a, b, rfl⟩ := List.append_of_mem hx
  rw [List.pairwise_append] at hs
  have ha : a.filter (fun s => decide (d s ≤ d x)) = a := by
    rw [List.filter_eq_self]
    intro y hy
    exact decide_eq_true (hs.2.2 y hy x (List.mem_cons_self _ _))
  have hxx : decide (d x ≤ d x) = true := decide_eq_true (le_refl _)
  rw [List.filter_append, ha, List.filter_cons, if_pos hxx, List.length_append,
    List.length_cons] at hc
  rw [List.take_append_eq_append_take]
  obtain ⟨n, hn⟩ : ∃ n, k - a.length = n + 1 := ⟨k - a.length - 1, by omega⟩
  rw [hn, List.take_succ_cons]
  exact List.mem_append_right _ (List.mem_cons_self _ _)

theorem nn_search_block_S4 (sqrt : ℚ → ℚ) (mem : Mem) (n_query_points : Nat)
    (query_indices : Option (List Nat)) (nn_indices : Nat → Nat) (nn_dists : Nat → ℚ)
    (qp : Nat) (hq : qp < n_query_points) (w : List Nat)
    (hw : (nn_sorted sqrt so_S4 (nn_query query_indices qp)).take 2 = w)
    (hlen : w.length = 2) :
    nn_block (scc_nearest_neighbor_search sqrt mem so_S4 n_query_points query_indices
        nn_indices (some nn_dists)).2.1 (qp * 2) 2 = w ∧
    ∃ od, (scc_nearest_neighbor_search sqrt mem so_S4 n_query_points query_indices
        nn_indices (some nn_dists)).2.2 = some od ∧
      nn_block od (qp * 2) 2 =
        w.map (iscc_get_dist sqrt ds_S4 (nn_query query_indices qp)) := by
  have hk : so_S4.k = 2 := rfl
  have hds : so_S4.data_set_object = ds_S4 := rfl
  have h1 := (nn_search_indices sqrt mem so_S4 n_query_points query_indices nn_indices
    (some nn_dists) qp hq rfl).1
  obtain ⟨od, e1, e2, _⟩ := nn_search_dists sqrt mem so_S4 n_query_points query_indices
    nn_indices nn_dists qp hq
  rw [hk, hw, hlen] at h1
  rw [hk, hw, hlen, hds] at e2
  refine ⟨h1, od, e1, ?_⟩
  rw [nn_block_congr od
    (fun i => iscc_get_dist sqrt ds_S4 (nn_query query_indices qp)
      ((scc_nearest_neighbor_search sqrt mem so_S4 n_query_points query_indices nn_indices
        (some nn_dists)).2.1 i)) _ _ e2, nn_block_map, h1]

/-- Counterexample to C8: in scenario S4 (`x = [0, 1, 2]`, `k = 2`, every row a search
point and a query), query 1 is a member of the search set and the two neighbours
returned for it are `[1, 0]`: the query is listed as its own neighbour, and the nearest
points of `S \ {1}`, which are 0 and 2, are not what is returned. -/
theorem nn_search_lists_query_on_S4 :
    1 ∈ so_S4.search_set ∧
    nn_block (scc_nearest_neighbor_search sqrt_S4 mem_ok so_S4 3 none (fun _ => 0)
      (some (fun _ => 0))).2.1 (1 * 2) 2 = [1, 0] :=
  ⟨by decide,
    (nn_search_block_S4 sqrt_S4 mem_ok 3 none (fun _ => 0) (fun _ => 0) 1 (by decide) [1, 0]
      (by
        have h : nn_query none 1 = 1 := rfl
        rw [h, nn_sorted_S4_query1 sqrt_S4 sqrt_S4_values.1 sqrt_S4_values.2.1]
        rfl)
      rfl).1⟩

/-- C8 (amended): for every query number `qp` of a successful search whose query point
`q` is a member of the search set, the neighbours written for `q` are the `k` closest
admissible search points with `q` itself taking part; `q` is listed as its own neighbour
whenever it is admissible and at most `k` admissible search points, `q` included, are at
a distance of at most `d(q, q)` from `q`. -/
theorem nn_search_query_takes_part (sqrt : ℚ → ℚ) (mem : Mem) (so : scc_NNSearchObject)
    (n_query_points : Nat) (query_indices : Option (List Nat)) (nn_indices : Nat → Nat)
    (nn_dists : Option (Nat → ℚ)) (qp : Nat) (hq : qp < n_query_points)
    (hok : (scc_nearest_neighbor_search sqrt mem so n_query_points query_indices nn_indices
      nn_dists).1 = true)
    (hmem : nn_query query_indices qp ∈ so.search_set)
    (hadm : nn_admissible sqrt so (nn_query query_indices qp) (nn_query query_indices qp) =
      true)
    (hcnt : ((nn_admissible_list sqrt so (nn_query query_indices qp)).filter
      (fun s => decide
        (iscc_get_dist sqrt so.data_set_object (nn_query query_indices qp) s ≤
          iscc_get_dist sqrt so.data_set_object (nn_query query_indices qp)
            (nn_query query_indices qp)))).length ≤ so.k) :
    nn_block (scc_nearest_neighbor_search sqrt mem so n_query_points query_indices nn_indices
          nn_dists).2.1 (qp * so.k)
        (min so.k (nn_admissible_list sqrt so (nn_query query_indices qp)).length) =
      (nn_sorted sqrt so (nn_query query_indices qp)).take so.k ∧
    nn_query query_indices qp ∈
      nn_block (scc_nearest_neighbor_search sqrt mem so n_query_points query_indices
          nn_indices nn_dists).2.1 (qp * so.k)
        (min so.k (nn_admissible_list sqrt so (nn_query query_indices qp)).length) := by
  have h1 := (nn_search_indices sqrt mem so n_query_points query_indices nn_indices nn_dists
    qp hq hok).1
  rw [length_take_nn_sorted] at h1
  refine ⟨h1, ?_⟩
  rw [h1]
  apply mem_take_of_sorted _ _ _ _ (nn_sorted_pairwise sqrt so _)
  · rw [(nn_sorted_perm sqrt so _).mem_iff]
    unfold nn_admissible_list
    exact List.mem_filter.mpr ⟨hmem, hadm⟩
  · rw [((nn_sorted_perm sqrt so (nn_query query_indices qp)).filter _).length_eq]
    exact hcnt

theorem nn_search_query_takes_part_witness :
    nn_query none 0 ∈ so_S4.search_set ∧
    nn_query none 0 ∈
      nn_block (scc_nearest_neighbor_search sqrt_S4 mem_ok so_S4 3 none (fun _ => 0)
          none).2.1 (0 * so_S4.k)
        (min so_S4.k (nn_admissible_list sqrt_S4 so_S4 (nn_query none 0)).length) :=
  ⟨by decide,
    (nn_search_query_takes_part sqrt_S4 mem_ok so_S4 3 none (fun _ => 0) none 0 (by decide)
      rfl (by decide) rfl
      (by
        have h : nn_query none 0 = 0 := rfl
        have e : so_S4.data_set_object = ds_S4 := rfl
        have ek : so_S4.k = 2 := rfl
        rw [h, admissible_list_S4, e, ek]
        norm_num [dist_S4, sqrt_S4, List.filter_cons])).2⟩

/-- Counterexample to C9: in scenario S4 with the single query 0, the two neighbours
written are `[0, 1]` and not `[1, 2]`. -/
theorem nn_search_S4_query0_lists_itself :
    nn_block (scc_nearest_neighbor_search sqrt_S4 mem_ok so_S4 1 (some [0]) (fun _ => 0)
      (some (fun _ => 0))).2.1 0 2 = [0, 1] ∧
    nn_block (scc_nearest_neighbor_search sqrt_S4 mem_ok so_S4 1 (some [0]) (fun _ => 0)
      (some (fun _ => 0))).2.1 0 2 ≠ [1, 2] := by
  have h := (nn_search_block_S4 sqrt_S4 mem_ok 1 (some [0]) (fun _ => 0) (fun _ => 0) 0
    (by decide) [0, 1]
    (by
      have h : nn_query (some [0]) 0 = 0 := rfl
      rw [h, nn_sorted_S4_query0 sqrt_S4 sqrt_S4_values.1 sqrt_S4_values.2.1
        sqrt_S4_values.2.2]
      rfl)
    rfl).1
  rw [Nat.zero_mul] at h
  rw [h]
  exact ⟨rfl, by decide⟩

/-- C9 (amended): on the data set `x = [0, 1, 2]` with `k = 2` and all three rows as
search points, given a square root that is exact on 0, 1 and 4, the search returns for
query 0 the neighbours `[0, 1]` with the distances `[0, 1]`, and for query 1 the
neighbours `[1, 0]` with the distances `[0, 1]`: the query itself comes first, followed
by the lower index of the two points at distance 1. -/
theorem nn_search_S4_results (sqrt : ℚ → ℚ) (mem : Mem) (nn_indices : Nat → Nat)
    (nn_dists : Nat → ℚ) (h0 : sqrt 0 = 0) (h1 : sqrt 1 = 1) (h4 : sqrt 4 = 2) :
    nn_block (scc_nearest_neighbor_search sqrt mem so_S4 1 (some [0]) nn_indices
      (some nn_dists)).2.1 0 2 = [0, 1] ∧
    (∃ od, (scc_nearest_neighbor_search sqrt mem so_S4 1 (some [0]) nn_indices
        (some nn_dists)).2.2 = some od ∧ nn_block od 0 2 = [0, 1]) ∧
    nn_block (scc_nearest_neighbor_search sqrt mem so_S4 1 (some [1]) nn_indices
      (some nn_dists)).2.1 0 2 = [1, 0] ∧
    ∃ od, (scc_nearest_neighbor_search sqrt mem so_S4 1 (some [1]) nn_indices
        (some nn_dists)).2.2 = some od ∧ nn_block od 0 2 = [0, 1] := by
  have q0 : nn_query (some [0]) 0 = 0 := rfl
  have q1 : nn_query (some [1]) 0 = 1 := rfl
  obtain ⟨a1, od0, a2, a3⟩ := nn_search_block_S4 sqrt mem 1 (some [0]) nn_indices nn_dists 0
    (by decide) [0, 1] (by rw [q0, nn_sorted_S4_query0 sqrt h0 h1 h4]; rfl) rfl
  obtain ⟨b1, od1, b2, b3⟩ := nn_search_block_S4 sqrt mem 1 (some [1]) nn_indices nn_dists 0
    (by decide) [1, 0] (by rw [q1, nn_sorted_S4_query1 sqrt h0 h1]; rfl) rfl
  rw [Nat.zero_mul] at a1 a3 b1 b3
  refine ⟨a1, ⟨od0, a2, ?_⟩, b1, od1, b2, ?_⟩
  · rw [a3, q0]
    simp only [List.map_cons, List.map_nil, dist_S4]
    norm_num [h0, h1]
  · rw [b3, q1]
    simp only [List.map_cons, List.map_nil, dist_S4]
    norm_num [h0, h1]

theorem nn_search_S4_results_witness :
    nn_block (scc_nearest_neighbor_search sqrt_S4 mem_ok so_S4 1 (some [0]) (fun _ => 0)
      (some (fun _ => 0))).2.1 0 2 = [0, 1] ∧
    (∃ od, (scc_nearest_neighbor_search sqrt_S4 mem_ok so_S4 1 (some [0]) (fun _ => 0)
        (some (fun _ => 0))).2.2 = some od ∧ nn_block od 0 2 = [0, 1]) ∧
    nn_block (scc_nearest_neighbor_search sqrt_S4 mem_ok so_S4 1 (some [1]) (fun _ => 0)
      (some (fun _ => 0))).2.1 0 2 = [1, 0] ∧
    ∃ od, (scc_nearest_neighbor_search sqrt_S4 mem_ok so_S4 1 (some [1]) (fun _ => 0)
        (some (fun _ => 0))).2.2 = some od ∧ nn_block od 0 2 = [0, 1] :=
  nn_search_S4_results sqrt_S4 mem_ok (fun _ => 0) (fun _ => 0) (by simp [sqrt_S4])
    (by simp [sqrt_S4]) (by simp [sqrt_S4])

/-! ## Radius search -/

theorem nn_admissible_iff (sqrt : ℚ → ℚ) (so : scc_NNSearchObject) (q s : Nat) :
    nn_admissible sqrt so q s = true ↔
      (so.radius_search = true → iscc_get_dist sqrt so.data_set_object q s < so.radius) := by
  unfold nn_admissible
  cases hr : so.radius_search
  · simp
  · simp

/-- C11: for every query number `qp` of a successful search, every neighbour written for
the query is a search point, and with radius search enabled its distance to the query is
strictly smaller than the radius (so a point at a distance equal to the radius is never
returned); with radius search disabled every search point is admissible, whatever its
distance. -/
theorem nn_search_radius_strict (sqrt : ℚ → ℚ) (mem : Mem) (so : scc_NNSearchObject)
    (n_query_points : Nat) (query_indices : Option (List Nat)) (nn_indices : Nat → Nat)
    (nn_dists : Option (Nat → ℚ)) (qp : Nat) (hq : qp < n_query_points)
    (hok : (scc_nearest_neighbor_search sqrt mem so n_query_points query_indices nn_indices
      nn_dists).1 = true) :
    (∀ x, x ∈ nn_block (scc_nearest_neighbor_search sqrt mem so n_query_points query_indices
          nn_indices nn_dists).2.1 (qp * so.k)
        (min so.k (nn_admissible_list sqrt so (nn_query query_indices qp)).length) →
      x ∈ so.search_set ∧
        (so.radius_search = true →
          iscc_get_dist sqrt so.data_set_object (nn_query query_indices qp) x < so.radius)) ∧
    (so.radius_search = false →
      nn_admissible_list sqrt so (nn_query query_indices qp) = so.search_set) := by
  refine ⟨?_, ?_⟩
  · intro x hx
    have h1 := (nn_search_indices sqrt mem so n_query_points query_indices nn_indices nn_dists
      qp hq hok).1
    rw [length_take_nn_sorted] at h1
    rw [h1] at hx
    have hx2 : x ∈ nn_admissible_list sqrt so (nn_query query_indices qp) :=
      (nn_sorted_perm sqrt so _).mem_iff.mp (List.mem_of_mem_take hx)
    unfold nn_admissible_list at hx2
    obtain ⟨hx3, hx4⟩ := List.mem_filter.mp hx2
    exact ⟨hx3, (nn_admissible_iff sqrt so _ x).mp hx4⟩
  · intro hr
    unfold nn_admissible_list
    rw [List.filter_eq_self]
    intro s _
    rw [nn_admissible_iff]
    intro h; rw [hr] at h; exact absurd h (by decide)

theorem nn_search_radius_strict_witness :
    nn_admissible_list sqrt_S4 so_S4_radius (nn_query none 0) = [0, 1] ∧
    ∀ x, x ∈ nn_block (scc_nearest_neighbor_search sqrt_S4 mem_ok so_S4_radius 3 none
          (fun _ => 0) none).2.1 (0 * so_S4_radius.k)
        (min so_S4_radius.k
          (nn_admissible_list sqrt_S4 so_S4_radius (nn_query none 0)).length) →
      x ∈ so_S4_radius.search_set ∧
        (so_S4_radius.radius_search = true →
          iscc_get_dist sqrt_S4 so_S4_radius.data_set_object (nn_query none 0) x <
            so_S4_radius.radius) :=
  ⟨admissible_list_S4_radius sqrt_S4 sqrt_S4_values.1 sqrt_S4_values.2.1 sqrt_S4_values.2.2,
    (nn_search_radius_strict sqrt_S4 mem_ok so_S4_radius 3 none (fun _ => 0) none 0
      (by decide) rfl).1⟩

/-! ## The farthest search point -/

theorem foldl_sq_nonneg (f : Nat → ℚ) :
    ∀ (l : List Nat) (a : ℚ), 0 ≤ a → 0 ≤ l.foldl (fun t dim => t + f dim * f dim) a := by
  intro l
  induction l with
  | nil => intro a ha; exact ha
  | cons x l ih =>
    intro a ha
    exact ih _ (add_nonneg ha (mul_self_nonneg _))

theorem iscc_get_dist_nonneg (sqrt : ℚ → ℚ) (hsqrt : ∀ x, 0 ≤ x → 0 ≤ sqrt x)
    (ds : scc_DataSetObject) (i j : Nat) : 0 ≤ iscc_get_dist sqrt ds i j := by
  unfold iscc_get_dist
  apply hsqrt
  exact foldl_sq_nonneg _ _ 0 (le_refl 0)

theorem max_fold_spec (f : Nat → ℚ) (qp : Nat) :
    ∀ (l : List Nat) (m : ℚ) (idx : Nat → Nat),
      (l.foldl (fun (st : ℚ × (Nat → Nat)) s =>
          if st.1 < f s then (f s, Function.update st.2 qp s) else st) (m, idx) = (m, idx) ∧
        ∀ s, s ∈ l → f s ≤ m) ∨
      ∃ i, i < l.length ∧
        (l.foldl (fun (st : ℚ × (Nat → Nat)) s =>
          if st.1 < f s then (f s, Function.update st.2 qp s) else st) (m, idx)).1 =
            f (l.getD i 0) ∧
        (l.foldl (fun (st : ℚ × (Nat → Nat)) s =>
          if st.1 < f s then (f s, Function.update st.2 qp s) else st) (m, idx)).2 qp =
            l.getD i 0 ∧
        (∀ p, p ≠ qp →
          (l.foldl (fun (st : ℚ × (Nat → Nat)) s =>
            if st.1 < f s then (f s, Function.update st.2 qp s) else st) (m, idx)).2 p =
              idx p) ∧
        (∀ j, j < i → f (l.getD j 0) < f (l.getD i 0)) ∧
        m < f (l.getD i 0) ∧
        ∀ s, s ∈ l → f s ≤ f (l.getD i 0) := by
  intro l
  induction l with
  | nil =>
    intro m idx
    left
    exact ⟨rfl, fun s hs => absurd hs (List.not_mem_nil s)⟩
  | cons x l ih =>
    intro m idx
    rw [List.foldl_cons]
    by_cases hlt : m < f x
    · rw [if_pos hlt]
      rcases ih (f x) (Function.update idx qp x) with ⟨h1, h2⟩ | ⟨i, hi, h1, h2, h3, h4, h5, h6⟩
      · right
        refine ⟨0, Nat.succ_pos _, ?_, ?_, ?_, ?_, hlt, ?_⟩
        · rw [h1]; rfl
        · rw [h1]; exact Function.update_same _ _ _
        · intro p hp; rw [h1]; exact Function.update_noteq hp _ _
        · intro j hj; exact absurd hj (Nat.not_lt_zero j)
        · intro s hs
          rcases List.mem_cons.mp hs with h | h
          · rw [h]; exact le_refl _
          · exact h2 s h
      · right
        refine ⟨i + 1, Nat.succ_lt_succ hi, h1, h2, ?_, ?_, lt_trans hlt h5, ?_⟩
        · intro p hp; rw [h3 p hp]; exact Function.update_noteq hp _ _
        · intro j hj
          cases j with
          | zero => exact h5
          | succ j => exact h4 j (Nat.lt_of_succ_lt_succ hj)
        · intro s hs
          rcases List.mem_cons.mp hs with h | h
          · rw [h]; exact le_of_lt h5
          · exact h6 s h
    · rw [if_neg hlt]
      rcases ih m idx with ⟨h1, h2⟩ | ⟨i, hi, h1, h2, h3, h4, h5, h6⟩
      · left
        refine ⟨h1, ?_⟩
        intro s hs
        rcases List.mem_cons.mp hs with h | h
        · rw [h]; exact not_lt.mp hlt
        · exact h2 s h
      · right
        refine ⟨i + 1, Nat.succ_lt_succ hi, h1, h2, h3, ?_, h5, ?_⟩
        · intro j hj
          cases j with
          | zero => exact lt_of_le_of_lt (not_lt.mp hlt) h5
          | succ j => exact h4 j (Nat.lt_of_succ_lt_succ hj)
        · intro s hs
          rcases List.mem_cons.mp hs with h | h
          · rw [h]; exact le_trans (not_lt.mp hlt) (le_of_lt h5)
          · exact h6 s h

theorem max_dist_query_step_frame (sqrt : ℚ → ℚ) (mdo : scc_MaxDistObject)
    (query_indices : Option (List Nat)) (st : (Nat → Nat) × Option (Nat → ℚ)) (qp p : Nat)
    (hp : p ≠ qp) :
    (max_dist_query_step sqrt mdo query_indices st qp).1 p = st.1 p ∧
    ∀ od, (max_dist_query_step sqrt mdo query_indices st qp).2 = some od →
      ∃ od0, st.2 = some od0 ∧ od p = od0 p := by
  unfold max_dist_query_step
  dsimp only
  rw [← List.foldl_map]
  refine ⟨?_, ?_⟩
  · rcases max_fold_spec
        (iscc_get_dist sqrt mdo.data_set_object (nn_query query_indices qp)) qp
        ((List.range mdo.n_search_points).map mdo.search_point) (-1) st.1 with
      ⟨h1, _⟩ | ⟨i, _, _, _, h3, _⟩
    · unfold max_dist_visit; dsimp only; rw [h1]
    · unfold max_dist_visit; dsimp only; exact h3 p hp
  · intro od hod
    cases h : st.2 with
    | none => rw [h] at hod; simp at hod
    | some od0 =>
      rw [h] at hod
      refine ⟨od0, rfl, ?_⟩
      have e := Option.some.inj hod
      rw [← e]
      exact Function.update_noteq hp _ _

theorem max_dist_query_step_spec (sqrt : ℚ → ℚ) (hsqrt : ∀ x, 0 ≤ x → 0 ≤ sqrt x)
    (mdo : scc_MaxDistObject) (hne : 0 < mdo.n_search_points)
    (query_indices : Option (List Nat)) (st : (Nat → Nat) × Option (Nat → ℚ)) (qp : Nat) :
    max_dist_ok sqrt mdo query_indices (max_dist_query_step sqrt mdo query_indices st qp)
      qp := by
  have hlen : mdo.search_set.length = mdo.n_search_points := by
    simp [scc_MaxDistObject.search_set]
  have hstep : max_dist_query_step sqrt mdo query_indices st qp =
      ((mdo.search_set.foldl (fun (s : ℚ × (Nat → Nat)) x =>
          if s.1 < iscc_get_dist sqrt mdo.data_set_object (nn_query query_indices qp) x then
            (iscc_get_dist sqrt mdo.data_set_object (nn_query query_indices qp) x,
              Function.update s.2 qp x)
          else s) (-1, st.1)).2,
        st.2.map (fun d => Function.update d qp
          (mdo.search_set.foldl (fun (s : ℚ × (Nat → Nat)) x =>
            if s.1 < iscc_get_dist sqrt mdo.data_set_object (nn_query query_indices qp) x
            then
              (iscc_get_dist sqrt mdo.data_set_object (nn_query query_indices qp) x,
                Function.update s.2 qp x)
            else s) (-1, st.1)).1)) := by
    unfold max_dist_query_step scc_MaxDistObject.search_set
    dsimp only
    rw [List.foldl_map]
    rfl
  rw [hstep]
  rcases max_fold_spec (iscc_get_dist sqrt mdo.data_set_object (nn_query query_indices qp))
      qp mdo.search_set (-1) st.1 with ⟨_, h2⟩ | ⟨i, hi, h1, h2, _, h4, _, h6⟩
  · exfalso
    have hmem : mdo.search_set.getD 0 0 ∈ mdo.search_set := by
      rw [List.getD_eq_getElem _ _ (by rw [hlen]; exact hne)]
      exact List.getElem_mem _
    have h3 := h2 _ hmem
    have h4 := iscc_get_dist_nonneg sqrt hsqrt mdo.data_set_object
      (nn_query query_indices qp) (mdo.search_set.getD 0 0)
    linarith
  · unfold max_dist_ok
    dsimp only
    rw [h2]
    refine ⟨i, hi, rfl, h4, h6, ?_⟩
    intro od hod
    cases h : st.2 with
    | none => rw [h] at hod; simp at hod
    | some od0 =>
      rw [h] at hod
      have e := Option.some.inj hod
      rw [← e]
      dsimp only
      rw [Function.update_same, h1]

theorem max_dist_ok_of_frame (sqrt : ℚ → ℚ) (mdo : scc_MaxDistObject)
    (query_indices : Option (List Nat)) (out out1 : (Nat → Nat) × Option (Nat → ℚ))
    (qp : Nat) (h1 : out1.1 qp = out.1 qp)
    (h2 : ∀ od, out1.2 = some od → ∃ od0, out.2 = some od0 ∧ od qp = od0 qp)
    (h : max_dist_ok sqrt mdo query_indices out qp) :
    max_dist_ok sqrt mdo query_indices out1 qp := by
  unfold max_dist_ok at h ⊢
  rw [h1]
  obtain ⟨i, a1, a2, a3, a4, a5⟩ := h
  refine ⟨i, a1, a2, a3, a4, ?_⟩
  intro od hod
  obtain ⟨od0, e1, e2⟩ := h2 od hod
  rw [e2]; exact a5 od0 e1

theorem max_dist_outer (sqrt : ℚ → ℚ) (hsqrt : ∀ x, 0 ≤ x → 0 ≤ sqrt x)
    (mdo : scc_MaxDistObject) (hne : 0 < mdo.n_search_points)
    (query_indices : Option (List Nat)) (st0 : (Nat → Nat) × Option (Nat → ℚ)) :
    ∀ t qp, qp < t →
      max_dist_ok sqrt mdo query_indices
        ((List.range t).foldl (max_dist_query_step sqrt mdo query_indices) st0) qp := by
  intro t
  induction t with
  | zero => intro qp hqp; exact absurd hqp (Nat.not_lt_zero qp)
  | succ t ih =>
    intro qp hqp
    rw [List.range_succ, List.foldl_append, List.foldl_cons, List.foldl_nil]
    by_cases hlt : qp < t
    · have hne' : qp ≠ t := Nat.ne_of_lt hlt
      obtain ⟨f1, f2⟩ := max_dist_query_step_frame sqrt mdo query_indices
        ((List.range t).foldl (max_dist_query_step sqrt mdo query_indices) st0) t qp hne'
      exact max_dist_ok_of_frame sqrt mdo query_indices _ _ qp f1 f2 (ih qp hlt)
    · have hqt : qp = t := by omega
      rw [hqt]
      exact max_dist_query_step_spec sqrt hsqrt mdo hne query_indices _ t

/-- C12: given a square root that is non-negative on non-negative numbers, for every
query number `qp` and every non-empty search set, `scc_get_max_dist` returns `true` and
writes as index `qp` a member of the search set that is at least as far from the query as
every search point; every search point enumerated before it is strictly closer, so among
several farthest points the one enumerated first is returned; the distance written (when
the caller asks for distances) is the distance of that point. -/
theorem max_dist_returns_first_farthest (sqrt : ℚ → ℚ) (hsqrt : ∀ x, 0 ≤ x → 0 ≤ sqrt x)
    (mdo : scc_MaxDistObject) (hne : 0 < mdo.n_search_points) (n_query_points : Nat)
    (query_indices : Option (List Nat)) (max_indices : Nat → Nat)
    (max_dists : Option (Nat → ℚ)) (qp : Nat) (hq : qp < n_query_points) :
    (scc_get_max_dist sqrt mdo n_query_points query_indices max_indices max_dists).1 = true ∧
    ∃ i, i < mdo.search_set.length ∧
      mdo.search_set.getD i 0 =
        (scc_get_max_dist sqrt mdo n_query_points query_indices max_indices
          max_dists).2.1 qp ∧
      (∀ j, j < i →
        iscc_get_dist sqrt mdo.data_set_object (nn_query query_indices qp)
            (mdo.search_set.getD j 0) <
          iscc_get_dist sqrt mdo.data_set_object (nn_query query_indices qp)
            ((scc_get_max_dist sqrt mdo n_query_points query_indices max_indices
              max_dists).2.1 qp)) ∧
      (∀ s, s ∈ mdo.search_set →
        iscc_get_dist sqrt mdo.data_set_object (nn_query query_indices qp) s ≤
          iscc_get_dist sqrt mdo.data_set_object (nn_query query_indices qp)
            ((scc_get_max_dist sqrt mdo n_query_points query_indices max_indices
              max_dists).2.1 qp)) ∧
      ∀ od, (scc_get_max_dist sqrt mdo n_query_points query_indices max_indices
          max_dists).2.2 = some od →
        od qp = iscc_get_dist sqrt mdo.data_set_object (nn_query query_indices qp)
          ((scc_get_max_dist sqrt mdo n_query_points query_indices max_indices
            max_dists).2.1 qp) :=
  ⟨rfl, max_dist_outer sqrt hsqrt mdo hne query_indices (max_indices, max_dists)
    n_query_points qp hq⟩

theorem sqrt_S4_nonneg : ∀ x : ℚ, 0 ≤ x → 0 ≤ sqrt_S4 x := by
  intro x hx
  unfold sqrt_S4
  split_ifs
  · norm_num
  · exact hx

theorem max_dist_returns_first_farthest_witness :
    (scc_get_max_dist sqrt_S4 mdo_S4 3 none (fun _ => 0) (some (fun _ => 0))).1 = true ∧
    ∃ i, i < mdo_S4.search_set.length ∧
      mdo_S4.search_set.getD i 0 =
        (scc_get_max_dist sqrt_S4 mdo_S4 3 none (fun _ => 0) (some (fun _ => 0))).2.1 1 ∧
      (∀ j, j < i →
        iscc_get_dist sqrt_S4 mdo_S4.data_set_object (nn_query none 1)
            (mdo_S4.search_set.getD j 0) <
          iscc_get_dist sqrt_S4 mdo_S4.data_set_object (nn_query none 1)
            ((scc_get_max_dist sqrt_S4 mdo_S4 3 none (fun _ => 0)
              (some (fun _ => 0))).2.1 1)) ∧
      (∀ s, s ∈ mdo_S4.search_set →
        iscc_get_dist sqrt_S4 mdo_S4.data_set_object (nn_query none 1) s ≤
          iscc_get_dist sqrt_S4 mdo_S4.data_set_object (nn_query none 1)
            ((scc_get_max_dist sqrt_S4 mdo_S4 3 none (fun _ => 0)
              (some (fun _ => 0))).2.1 1)) ∧
      ∀ od, (scc_get_max_dist sqrt_S4 mdo_S4 3 none (fun _ => 0)
          (some (fun _ => 0))).2.2 = some od →
        od 1 = iscc_get_dist sqrt_S4 mdo_S4.data_set_object (nn_query none 1)
          ((scc_get_max_dist sqrt_S4 mdo_S4 3 none (fun _ => 0) (some (fun _ => 0))).2.1 1) :=
  max_dist_returns_first_farthest sqrt_S4 sqrt_S4_nonneg mdo_S4 (by decide) 3 none
    (fun _ => 0) (some (fun _ => 0)) 1 (by decide)

/-! ## The distance matrix -/

theorem row_offset_double (n : Nat) :
    ∀ i, i ≤ n → 2 * row_offset n i + i * (i + 1) = 2 * (i * n) := by
  intro i
  induction i with
  | zero => intro _; simp [row_offset]
  | succ i ih =>
    intro hi
    have h := ih (Nat.le_of_succ_le hi)
    rw [row_offset]
    have e1 : (i + 1) * (i + 1 + 1) = i * (i + 1) + 2 * (i + 1) := by ring
    have e2 : (i + 1) * n = i * n + n := by ring
    rw [e1, e2]
    omega

theorem row_offset_closed (n i : Nat) (hi : i ≤ n) :
    row_offset n i = i * n - i * (i + 1) / 2 := by
  have h := row_offset_double n i hi
  have hev : i * (i + 1) % 2 = 0 := Nat.even_iff.mp (Nat.even_mul_succ_self i)
  omega

theorem row_offset_total (n : Nat) : row_offset n n = n * (n - 1) / 2 := by
  have h := row_offset_double n n (le_refl n)
  cases n with
  | zero => rfl
  | succ m =>
    have e1 : (m + 1) * (m + 1 + 1) = (m + 1) * m + 2 * (m + 1) := by ring
    have e2 : (m + 1) * (m + 1) = (m + 1) * m + (m + 1) := by ring
    rw [e1, e2] at h
    rw [Nat.add_sub_cancel]
    omega

theorem row_offset_mono (n : Nat) : ∀ i r, r ≤ i → row_offset n r ≤ row_offset n i := by
  intro i
  induction i with
  | zero => intro r hr; rw [Nat.le_zero.mp hr]
  | succ i ih =>
    intro r hr
    by_cases h : r = i + 1
    · rw [h]
    · have := ih r (by omega)
      rw [row_offset]; omega

theorem dist_matrix_inner (g : Nat → ℚ) :
    ∀ (len a c : Nat) (out : Nat → ℚ),
      ((List.range' a len).foldl
          (fun (st : Nat × (Nat → ℚ)) p2 => (st.1 + 1, Function.update st.2 st.1 (g p2)))
          (c, out)).1 = c + len ∧
      (∀ t, t < len →
        ((List.range' a len).foldl
          (fun (st : Nat × (Nat → ℚ)) p2 => (st.1 + 1, Function.update st.2 st.1 (g p2)))
          (c, out)).2 (c + t) = g (a + t)) ∧
      (∀ p, (p < c ∨ c + len ≤ p) →
        ((List.range' a len).foldl
          (fun (st : Nat × (Nat → ℚ)) p2 => (st.1 + 1, Function.update st.2 st.1 (g p2)))
          (c, out)).2 p = out p) := by
  intro len
  induction len with
  | zero =>
    intro a c out
    exact ⟨rfl, fun t ht => absurd ht (Nat.not_lt_zero t), fun _ _ => rfl⟩
  | succ len ih =>
    intro a c out
    rw [List.range'_succ, List.foldl_cons]
    dsimp only
    obtain ⟨h1, h2, h3⟩ := ih (a + 1) (c + 1) (Function.update out c (g a))
    refine ⟨by rw [h1]; omega, ?_, ?_⟩
    · intro t ht
      cases t with
      | zero =>
        have h := h3 c (Or.inl (Nat.lt_succ_self c))
        rw [Function.update_same] at h
        exact h
      | succ t =>
        have e1 : c + (t + 1) = c + 1 + t := by omega
        have e2 : a + (t + 1) = a + 1 + t := by omega
        rw [e1, e2]; exact h2 t (by omega)
    · intro p hp
      rw [h3 p (by omega), Function.update_noteq (by omega)]

theorem dist_matrix_outer (sqrt : ℚ → ℚ) (ds : scc_DataSetObject) (n : Nat)
    (point : Nat → Nat) (out0 : Nat → ℚ) :
    ∀ i, i ≤ n →
      ((List.range i).foldl
        (fun st p1 =>
          (List.range' (p1 + 1) (n - (p1 + 1))).foldl
            (fun (st : Nat × (Nat → ℚ)) p2 =>
              (st.1 + 1,
                Function.update st.2 st.1 (iscc_get_dist sqrt ds (point p1) (point p2))))
            st)
        (0, out0)).1 = row_offset n i ∧
      (∀ r j, r < i → r < j → j < n →
        ((List.range i).foldl
          (fun st p1 =>
            (List.range' (p1 + 1) (n - (p1 + 1))).foldl
              (fun (st : Nat × (Nat → ℚ)) p2 =>
                (st.1 + 1,
                  Function.update st.2 st.1 (iscc_get_dist sqrt ds (point p1) (point p2))))
              st)
          (0, out0)).2 (row_offset n r + (j - r - 1)) =
            iscc_get_dist sqrt ds (point r) (point j)) ∧
      (∀ p, row_offset n i ≤ p →
        ((List.range i).foldl
          (fun st p1 =>
            (List.range' (p1 + 1) (n - (p1 + 1))).foldl
              (fun (st : Nat × (Nat → ℚ)) p2 =>
                (st.1 + 1,
                  Function.update st.2 st.1 (iscc_get_dist sqrt ds (point p1) (point p2))))
              st)
          (0, out0)).2 p = out0 p) := by
  intro i
  induction i with
  | zero =>
    intro _
    exact ⟨rfl, fun r j hr _ _ => absurd hr (Nat.not_lt_zero r), fun _ _ => rfl⟩
  | succ i ih =>
    intro hi
    obtain ⟨a1, a2, a3⟩ := ih (Nat.le_of_succ_le hi)
    rw [List.range_succ, List.foldl_append, List.foldl_cons, List.foldl_nil]
    generalize (List.range i).foldl
        (fun st p1 =>
          (List.range' (p1 + 1) (n - (p1 + 1))).foldl
            (fun (st : Nat × (Nat → ℚ)) p2 =>
              (st.1 + 1,
                Function.update st.2 st.1 (iscc_get_dist sqrt ds (point p1) (point p2))))
            st)
        (0, out0) = st at a1 a2 a3 ⊢
    obtain ⟨c, out⟩ := st
    replace a1 : c = row_offset n i := a1
    replace a2 : ∀ r j, r < i → r < j → j < n →
        out (row_offset n r + (j - r - 1)) = iscc_get_dist sqrt ds (point r) (point j) := a2
    replace a3 : ∀ p, row_offset n i ≤ p → out p = out0 p := a3
    obtain ⟨b1, b2, b3⟩ := dist_matrix_inner
      (fun p2 => iscc_get_dist sqrt ds (point i) (point p2)) (n - (i + 1)) (i + 1) c out
    subst a1
    have hrow : row_offset n (i + 1) = row_offset n i + (n - (i + 1)) := by
      rw [row_offset]; omega
    refine ⟨by rw [b1, hrow], ?_, ?_⟩
    · intro r j hr hrj hj
      by_cases hri : r = i
      · subst hri
        have e1 : r + 1 + (j - r - 1) = j := by omega
        have h := b2 (j - r - 1) (by omega)
        rw [e1] at h
        exact h
      · have hlt : r < i := by omega
        have hm := row_offset_mono n i (r + 1) (by omega)
        rw [row_offset] at hm
        rw [b3 _ (Or.inl (by omega))]
        exact a2 r j hlt hrj hj
    · intro p hp
      rw [hrow] at hp
      rw [b3 p (Or.inr hp)]
      exact a3 p (by omega)

/-- C13: `scc_get_dist_matrix` returns `true` and writes `n (n - 1) / 2` values: the write
pointer ends that many slots after the start and no later slot of the output changes. For
every `i < j < n` the value at position `i n - i (i + 1) / 2 + (j - i - 1)` is the
distance between point `i` and point `j` of the list (row `i` and row `j` when the list
is omitted), so the pairs appear in lexicographic order. -/
theorem dist_matrix_layout (sqrt : ℚ → ℚ) (data_set_object : scc_DataSetObject)
    (n_points : Nat) (point_indices : Option (List Nat)) (output_dists : Nat → ℚ) :
    (scc_get_dist_matrix sqrt data_set_object n_points point_indices output_dists).1 = true ∧
    (dist_matrix_loops sqrt data_set_object n_points (dist_matrix_point point_indices)
      output_dists).1 = n_points * (n_points - 1) / 2 ∧
    (scc_get_dist_matrix sqrt data_set_object n_points point_indices output_dists).2 =
      (dist_matrix_loops sqrt data_set_object n_points (dist_matrix_point point_indices)
        output_dists).2 ∧
    (∀ i j, i < j → j < n_points →
      (scc_get_dist_matrix sqrt data_set_object n_points point_indices output_dists).2
          (i * n_points - i * (i + 1) / 2 + (j - i - 1)) =
        iscc_get_dist sqrt data_set_object (dist_matrix_point point_indices i)
          (dist_matrix_point point_indices j)) ∧
    ∀ p, n_points * (n_points - 1) / 2 ≤ p →
      (scc_get_dist_matrix sqrt data_set_object n_points point_indices output_dists).2 p =
        output_dists p := by
  have hrun : (scc_get_dist_matrix sqrt data_set_object n_points point_indices
      output_dists).2 =
      (dist_matrix_loops sqrt data_set_object n_points (dist_matrix_point point_indices)
        output_dists).2 := by
    cases point_indices <;> rfl
  have hret : (scc_get_dist_matrix sqrt data_set_object n_points point_indices
      output_dists).1 = true := by
    cases point_indices <;> rfl
  obtain ⟨a1, a2, a3⟩ := dist_matrix_outer sqrt data_set_object n_points
    (dist_matrix_point point_indices) output_dists n_points (le_refl _)
  refine ⟨hret, ?_, hrun, ?_, ?_⟩
  · rw [← row_offset_total]; exact a1
  · intro i j hij hj
    rw [hrun, ← row_offset_closed n_points i (by omega)]
    exact a2 i j (by omega) hij hj
  · intro p hp
    rw [hrun]
    exact a3 p (by rw [row_offset_total]; exact hp)

/-! ## Error codes of the seed finders -/

theorem find_seeds_eq (clabel_max : Nat) (mem : Mem) (nng : iscc_Digraph)
    (sm : scc_SeedMethod) (out_seeds : iscc_SeedResult) :
    iscc_find_seeds clabel_max mem nng sm out_seeds =
      if (find_seeds_switch clabel_max mem nng sm (find_seeds_start out_seeds)).1 = SCC_ER_OK
      then
        if (find_seeds_switch clabel_max mem nng sm (find_seeds_start out_seeds)).2.count <
              (find_seeds_switch clabel_max mem nng sm (find_seeds_start out_seeds)).2.capacity ∧
            (find_seeds_switch clabel_max mem nng sm (find_seeds_start out_seeds)).2.count > 0
        then
          if mem AllocSite.seeds_shrink
              (find_seeds_switch clabel_max mem nng sm (find_seeds_start out_seeds)).2.count
          then
            (SCC_ER_OK,
              { (find_seeds_switch clabel_max mem nng sm (find_seeds_start out_seeds)).2 with
                capacity :=
                  (find_seeds_switch clabel_max mem nng sm
                    (find_seeds_start out_seeds)).2.count })
          else (SCC_ER_OK, (find_seeds_switch clabel_max mem nng sm (find_seeds_start out_seeds)).2)
        else (SCC_ER_OK, (find_seeds_switch clabel_max mem nng sm (find_seeds_start out_seeds)).2)
      else ((find_seeds_switch clabel_max mem nng sm (find_seeds_start out_seeds)).1,
        ISCC_NULL_SEED_RESULT) := by
  cases sm <;> rfl

theorem lexical_loop_track (clabel_max : Nat) (mem : Mem) (nng : iscc_Digraph)
    (I : iscc_SeedResult → Prop) (Q : scc_ErrorCode → iscc_SeedResult → Prop)
    (hok : ∀ s out, I out → (iscc_fs_add_seed clabel_max mem s out).1 = SCC_ER_OK →
      I (iscc_fs_add_seed clabel_max mem s out).2)
    (herr : ∀ s out, I out → (iscc_fs_add_seed clabel_max mem s out).1 ≠ SCC_ER_OK →
      Q (iscc_fs_add_seed clabel_max mem s out).1 (iscc_fs_add_seed clabel_max mem s out).2)
    (hend : ∀ out, I out → Q SCC_ER_OK out) :
    ∀ n cv marks out, I out →
      Q (lexical_loop clabel_max mem nng n cv marks out).ec
        (lexical_loop clabel_max mem nng n cv marks out).out := by
  intro n
  induction n with
  | zero => intro cv marks out hI; exact hend out hI
  | succ n ih =>
    intro cv marks out hI
    unfold lexical_loop
    by_cases hc : iscc_fs_check_neighbors_marks cv nng marks = true
    · rw [if_pos hc]
      dsimp only
      by_cases ha : (iscc_fs_add_seed clabel_max mem cv out).1 ≠ SCC_ER_OK
      · rw [if_pos ha]; exact herr cv out hI ha
      · rw [if_neg ha]; exact ih _ _ _ (hok cv out hI (not_not.mp ha))
    · rw [if_neg hc]; exact ih _ _ _ hI

theorem inwards_loop_track (clabel_max : Nat) (mem : Mem) (nng : iscc_Digraph)
    (updating : Bool)
    (I : iscc_SeedResult → Prop) (Q : scc_ErrorCode → iscc_SeedResult → Prop)
    (hok : ∀ s out, I out → (iscc_fs_add_seed clabel_max mem s out).1 = SCC_ER_OK →
      I (iscc_fs_add_seed clabel_max mem s out).2)
    (herr : ∀ s out, I out → (iscc_fs_add_seed clabel_max mem s out).1 ≠ SCC_ER_OK →
      Q (iscc_fs_add_seed clabel_max mem s out).1 (iscc_fs_add_seed clabel_max mem s out).2)
    (hend : ∀ out, I out → Q SCC_ER_OK out) :
    ∀ n pos marks sort out, I out →
      Q (inwards_loop clabel_max mem nng updating n pos marks sort out).ec
        (inwards_loop clabel_max mem nng updating n pos marks sort out).out := by
  intro n
  induction n with
  | zero => intro pos marks sort out hI; exact hend out hI
  | succ n ih =>
    intro pos marks sort out hI
    unfold inwards_loop
    dsimp only
    by_cases hc : iscc_fs_check_neighbors_marks (sort.sorted_vertices pos) nng marks = true
    · rw [if_pos hc]
      by_cases ha : (iscc_fs_add_seed clabel_max mem (sort.sorted_vertices pos) out).1 ≠
          SCC_ER_OK
      · rw [if_pos ha]; exact herr _ out hI ha
      · rw [if_neg ha]; exact ih _ _ _ _ (hok _ out hI (not_not.mp ha))
    · rw [if_neg hc]; exact ih _ _ _ _ hI

theorem exclusion_loop_track (clabel_max : Nat) (mem : Mem) (eg : iscc_Digraph)
    (updating : Bool)
    (I : iscc_SeedResult → Prop) (Q : scc_ErrorCode → iscc_SeedResult → Prop)
    (hok : ∀ s out, I out → (iscc_fs_add_seed clabel_max mem s out).1 = SCC_ER_OK →
      I (iscc_fs_add_seed clabel_max mem s out).2)
    (herr : ∀ s out, I out → (iscc_fs_add_seed clabel_max mem s out).1 ≠ SCC_ER_OK →
      Q (iscc_fs_add_seed clabel_max mem s out).1 (iscc_fs_add_seed clabel_max mem s out).2)
    (hend : ∀ out, I out → Q SCC_ER_OK out) :
    ∀ n pos ne sort out, I out →
      Q (exclusion_loop clabel_max mem eg updating n pos ne sort out).ec
        (exclusion_loop clabel_max mem eg updating n pos ne sort out).out := by
  intro n
  induction n with
  | zero => intro pos ne sort out hI; exact hend out hI
  | succ n ih =>
    intro pos ne sort out hI
    unfold exclusion_loop
    dsimp only
    by_cases hc : ne (sort.sorted_vertices pos) = true
    · rw [if_pos hc]
      by_cases ha : (iscc_fs_add_seed clabel_max mem (sort.sorted_vertices pos) out).1 ≠
          SCC_ER_OK
      · rw [if_pos ha]; exact herr _ out hI ha
      · rw [if_neg ha]; exact ih _ _ _ _ (hok _ out hI (not_not.mp ha))
    · rw [if_neg hc]; exact ih _ _ _ _ hI

theorem sort_by_inwards_error (mem : Mem) (dg : iscc_Digraph) (mk : Bool)
    (h : (iscc_fs_sort_by_inwards mem dg mk).1 ≠ SCC_ER_OK) :
    (iscc_fs_sort_by_inwards mem dg mk).1 = SCC_ER_NO_MEMORY ∧
      ∃ site n, mem site n = false := by
  unfold iscc_fs_sort_by_inwards at h ⊢
  dsimp only at h ⊢
  by_cases h1 : (!(mem AllocSite.inwards_count dg.vertices &&
      mem AllocSite.sorted_vertices dg.vertices)) = true
  · rw [if_pos h1]
    refine ⟨rfl, ?_⟩
    simp only [Bool.not_eq_true', Bool.and_eq_false_iff] at h1
    rcases h1 with h1 | h1
    · exact ⟨_, _, h1⟩
    · exact ⟨_, _, h1⟩
  · rw [if_neg h1] at h ⊢
    by_cases h2 : (!(mem AllocSite.bucket_count
        (sort_max_inwards dg.vertices (sort_count_inwards dg) + 1) &&
        mem AllocSite.bucket_index
          (sort_max_inwards dg.vertices (sort_count_inwards dg) + 1))) = true
    · rw [if_pos h2]
      refine ⟨rfl, ?_⟩
      simp only [Bool.not_eq_true', Bool.and_eq_false_iff] at h2
      rcases h2 with h2 | h2
      · exact ⟨_, _, h2⟩
      · exact ⟨_, _, h2⟩
    · rw [if_neg h2] at h ⊢
      cases mk with
      | false => simp at h
      | true =>
        simp only [if_true] at h ⊢
        by_cases h3 : (!(mem AllocSite.vertex_index dg.vertices)) = true
        · rw [if_pos h3]
          refine ⟨rfl, ?_⟩
          simp only [Bool.not_eq_true'] at h3
          exact ⟨_, _, h3⟩
        · rw [if_neg h3] at h
          simp at h

theorem exclusion_graph_error (mem : Mem) (nng : iscc_Digraph) (ne : Nat → Bool)
    (h : (iscc_exclusion_graph mem nng ne).1 ≠ SCC_ER_OK) :
    (iscc_exclusion_graph mem nng ne).1 = SCC_ER_NO_MEMORY ∧
      ∃ site n, mem site n = false := by
  unfold iscc_exclusion_graph at h ⊢
  dsimp only at h ⊢
  have ht : (iscc_digraph_transpose mem nng).1 ≠ SCC_ER_OK →
      (iscc_digraph_transpose mem nng).1 = SCC_ER_NO_MEMORY ∧
        ∃ site n, mem site n = false := by
    intro h'
    unfold iscc_digraph_transpose at h' ⊢
    by_cases c : (!(mem AllocSite.nng_transpose (nng.tp nng.vertices))) = true
    · rw [if_pos c]
      simp only [Bool.not_eq_true'] at c
      exact ⟨rfl, _, _, c⟩
    · rw [if_neg c] at h'; simp at h'
  have hp : ∀ a b fd idg, (iscc_adjacency_product mem a b fd idg).1 ≠ SCC_ER_OK →
      (iscc_adjacency_product mem a b fd idg).1 = SCC_ER_NO_MEMORY ∧
        ∃ site n, mem site n = false := by
    intro a b fd idg h'
    unfold iscc_adjacency_product at h' ⊢
    dsimp only at h' ⊢
    split_ifs at h' ⊢ with c
    · simp only [Bool.not_eq_true'] at c
      exact ⟨rfl, _, _, c⟩
    · simp at h'
  have hu : ∀ n l km, (iscc_digraph_union_and_delete mem n l km).1 ≠ SCC_ER_OK →
      (iscc_digraph_union_and_delete mem n l km).1 = SCC_ER_NO_MEMORY ∧
        ∃ site n, mem site n = false := by
    intro n l km h'
    unfold iscc_digraph_union_and_delete at h' ⊢
    dsimp only at h' ⊢
    split_ifs at h' ⊢ with c
    · simp only [Bool.not_eq_true'] at c
      exact ⟨rfl, _, _, c⟩
    · simp at h'
  by_cases c1 : (iscc_digraph_transpose mem nng).1 ≠ SCC_ER_OK
  · rw [if_pos c1]; exact ht c1
  · rw [if_neg c1] at h ⊢
    by_cases c2 : (iscc_adjacency_product mem nng (iscc_digraph_transpose mem nng).2 true
        false).1 ≠ SCC_ER_OK
    · rw [if_pos c2]; exact hp _ _ _ _ c2
    · rw [if_neg c2] at h ⊢
      by_cases c3 : (iscc_digraph_union_and_delete mem nng.vertices
          [nng, (iscc_adjacency_product mem nng (iscc_digraph_transpose mem nng).2 true
            false).2] ne).1 ≠ SCC_ER_OK
      · rw [if_pos c3]; exact hu _ _ _ c3
      · rw [if_neg c3] at h; simp at h

theorem find_seeds_switch_track (clabel_max : Nat) (mem : Mem) (nng : iscc_Digraph)
    (I : iscc_SeedResult → Prop) (Q : scc_ErrorCode → iscc_SeedResult → Prop)
    (hok : ∀ s out, I out → (iscc_fs_add_seed clabel_max mem s out).1 = SCC_ER_OK →
      I (iscc_fs_add_seed clabel_max mem s out).2)
    (herr : ∀ s out, I out → (iscc_fs_add_seed clabel_max mem s out).1 ≠ SCC_ER_OK →
      Q (iscc_fs_add_seed clabel_max mem s out).1 (iscc_fs_add_seed clabel_max mem s out).2)
    (hend : ∀ out, I out → Q SCC_ER_OK out)
    (out1 : iscc_SeedResult)
    (hearly : (∃ site n, mem site n = false) → Q SCC_ER_NO_MEMORY out1)
    (hstart : I { out1 with seeds := some (fun _ => 0) })
    (sm : scc_SeedMethod) (hsm : sm ≠ SCC_SM_UNKNOWN) :
    Q (find_seeds_switch clabel_max mem nng sm out1).1
      (find_seeds_switch clabel_max mem nng sm out1).2 := by
  have hlex : Q (iscc_findseeds_lexical clabel_max mem nng out1).ec
      (iscc_findseeds_lexical clabel_max mem nng out1).out := by
    unfold iscc_findseeds_lexical
    by_cases hm : (!(mem AllocSite.marks nng.vertices &&
        mem AllocSite.seeds out1.capacity)) = true
    · rw [if_pos hm]
      apply hearly
      simp only [Bool.not_eq_true', Bool.and_eq_false_iff] at hm
      rcases hm with hm | hm
      · exact ⟨_, _, hm⟩
      · exact ⟨_, _, hm⟩
    · rw [if_neg hm]
      exact lexical_loop_track clabel_max mem nng I Q hok herr hend _ _ _ _ hstart
  have hinw : ∀ updating, Q (iscc_findseeds_inwards clabel_max mem nng updating out1).ec
      (iscc_findseeds_inwards clabel_max mem nng updating out1).out := by
    intro updating
    unfold iscc_findseeds_inwards
    dsimp only
    by_cases hs : (iscc_fs_sort_by_inwards mem nng updating).1 ≠ SCC_ER_OK
    · rw [if_pos hs]
      obtain ⟨e1, e2⟩ := sort_by_inwards_error mem nng updating hs
      dsimp only
      rw [e1]; exact hearly e2
    · rw [if_neg hs]
      by_cases hm : (!(mem AllocSite.marks nng.vertices &&
          mem AllocSite.seeds out1.capacity)) = true
      · rw [if_pos hm]
        apply hearly
        simp only [Bool.not_eq_true', Bool.and_eq_false_iff] at hm
        rcases hm with hm | hm
        · exact ⟨_, _, hm⟩
        · exact ⟨_, _, hm⟩
      · rw [if_neg hm]
        exact inwards_loop_track clabel_max mem nng updating I Q hok herr hend _ _ _ _ _ hstart
  have hexc : ∀ updating, Q (iscc_findseeds_exclusion clabel_max mem nng updating out1).ec
      (iscc_findseeds_exclusion clabel_max mem nng updating out1).out := by
    intro updating
    unfold iscc_findseeds_exclusion
    dsimp only
    by_cases hn : (!(mem AllocSite.not_excluded nng.vertices)) = true
    · rw [if_pos hn]
      apply hearly
      simp only [Bool.not_eq_true'] at hn
      exact ⟨_, _, hn⟩
    · rw [if_neg hn]
      by_cases he : (iscc_exclusion_graph mem nng (exclusion_init nng)).1 ≠ SCC_ER_OK
      · rw [if_pos he]
        obtain ⟨e1, e2⟩ := exclusion_graph_error mem nng _ he
        dsimp only
        rw [e1]; exact hearly e2
      · rw [if_neg he]
        by_cases hs : (iscc_fs_sort_by_inwards mem
            (iscc_exclusion_graph mem nng (exclusion_init nng)).2 updating).1 ≠ SCC_ER_OK
        · rw [if_pos hs]
          obtain ⟨e1, e2⟩ := sort_by_inwards_error mem _ updating hs
          dsimp only
          rw [e1]; exact hearly e2
        · rw [if_neg hs]
          by_cases hm : (!(mem AllocSite.seeds out1.capacity)) = true
          · rw [if_pos hm]
            apply hearly
            simp only [Bool.not_eq_true'] at hm
            exact ⟨_, _, hm⟩
          · rw [if_neg hm]
            exact exclusion_loop_track clabel_max mem _ updating I Q hok herr hend _ _ _ _ _
              hstart
  cases sm with
  | SCC_SM_LEXICAL => exact hlex
  | SCC_SM_INWARDS_ORDER => exact hinw false
  | SCC_SM_INWARDS_UPDATING => exact hinw true
  | SCC_SM_EXCLUSION_ORDER => exact hexc false
  | SCC_SM_EXCLUSION_UPDATING => exact hexc true
  | SCC_SM_UNKNOWN => exact absurd rfl hsm

theorem add_seed_cases (clabel_max : Nat) (mem : Mem) (s : Nat) (out : iscc_SeedResult) :
    ((iscc_fs_add_seed clabel_max mem s out).1 = SCC_ER_OK ∧
        (iscc_fs_add_seed clabel_max mem s out).2.count = out.count + 1 ∧
        out.count + 1 ≠ clabel_max) ∨
      ((iscc_fs_add_seed clabel_max mem s out).1 = SCC_ER_TOO_LARGE_PROBLEM ∧
        (iscc_fs_add_seed clabel_max mem s out).2.count = out.count + 1 ∧
        out.count + 1 = clabel_max) ∨
      ((iscc_fs_add_seed clabel_max mem s out).1 = SCC_ER_NO_MEMORY ∧
        (iscc_fs_add_seed clabel_max mem s out).2.count = out.count ∧
        ∃ site n, mem site n = false) := by
  unfold iscc_fs_add_seed
  dsimp only
  by_cases h1 : out.count = out.capacity
  · rw [if_pos h1]
    by_cases h2 : mem AllocSite.seeds_grow
        (if out.capacity + (out.capacity >>> 3) + 1024 > clabel_max then clabel_max
          else out.capacity + (out.capacity >>> 3) + 1024) = true
    · rw [if_pos h2]
      dsimp only
      rw [if_neg (by simp)]
      by_cases h3 : out.count + 1 = clabel_max
      · rw [if_pos h3]; exact Or.inr (Or.inl ⟨rfl, rfl, h3⟩)
      · rw [if_neg h3]; exact Or.inl ⟨rfl, rfl, h3⟩
    · rw [if_neg h2]
      dsimp only
      rw [if_pos (by simp)]
      exact Or.inr (Or.inr ⟨rfl, rfl, _, _, by simpa using h2⟩)
  · rw [if_neg h1]
    dsimp only
    rw [if_neg (by simp)]
    by_cases h3 : out.count + 1 = clabel_max
    · rw [if_pos h3]; exact Or.inr (Or.inl ⟨rfl, rfl, h3⟩)
    · rw [if_neg h3]; exact Or.inl ⟨rfl, rfl, h3⟩

theorem find_seeds_start_count (out_seeds : iscc_SeedResult) :
    (find_seeds_start out_seeds).count = out_seeds.count := by
  unfold find_seeds_start
  split <;> rfl

/-- C14: `iscc_find_seeds` returns the error code of the heuristic it runs. When that code
is an error, the seed result it leaves is the null seed result (no array, count 0), so
nothing of a partially filled seed list is visible. On success the result has the seed
array and the count of the heuristic: the array is present and it lists exactly `count`
seeds, those the heuristic appended; its capacity is `count` when the final shrinking
reallocation succeeded and the heuristic's capacity otherwise. -/
theorem find_seeds_no_partial_result (clabel_max : Nat) (mem : Mem) (nng : iscc_Digraph)
    (sm : scc_SeedMethod) (out_seeds : iscc_SeedResult) :
    (iscc_find_seeds clabel_max mem nng sm out_seeds).1 =
      (find_seeds_switch clabel_max mem nng sm (find_seeds_start out_seeds)).1 ∧
    ((find_seeds_switch clabel_max mem nng sm (find_seeds_start out_seeds)).1 ≠ SCC_ER_OK →
      (iscc_find_seeds clabel_max mem nng sm out_seeds).2 = ISCC_NULL_SEED_RESULT) ∧
    ((find_seeds_switch clabel_max mem nng sm (find_seeds_start out_seeds)).1 = SCC_ER_OK →
      (iscc_find_seeds clabel_max mem nng sm out_seeds).2.seeds =
        (find_seeds_switch clabel_max mem nng sm (find_seeds_start out_seeds)).2.seeds ∧
      (iscc_find_seeds clabel_max mem nng sm out_seeds).2.seeds.isSome = true ∧
      (iscc_find_seeds clabel_max mem nng sm out_seeds).2.count =
        (find_seeds_switch clabel_max mem nng sm (find_seeds_start out_seeds)).2.count ∧
      (iscc_find_seeds clabel_max mem nng sm out_seeds).2.toList =
        (find_seeds_switch clabel_max mem nng sm (find_seeds_start out_seeds)).2.toList ∧
      (iscc_find_seeds clabel_max mem nng sm out_seeds).2.toList.length =
        (iscc_find_seeds clabel_max mem nng sm out_seeds).2.count ∧
      ((iscc_find_seeds clabel_max mem nng sm out_seeds).2.capacity =
          (iscc_find_seeds clabel_max mem nng sm out_seeds).2.count ∨
        (iscc_find_seeds clabel_max mem nng sm out_seeds).2.capacity =
          (find_seeds_switch clabel_max mem nng sm
            (find_seeds_start out_seeds)).2.capacity)) := by
  have hsome : (find_seeds_switch clabel_max mem nng sm (find_seeds_start out_seeds)).1 =
      SCC_ER_OK →
      (find_seeds_switch clabel_max mem nng sm
        (find_seeds_start out_seeds)).2.seeds.isSome = true := by
    by_cases hsm : sm = SCC_SM_UNKNOWN
    · rw [hsm]; intro h
      have h' : SCC_ER_NOT_IMPLEMENTED = SCC_ER_OK := h
      exact absurd h' (by decide)
    · exact find_seeds_switch_track clabel_max mem nng (fun out => out.seeds.isSome = true)
        (fun ec out => ec = SCC_ER_OK → out.seeds.isSome = true)
        (fun s out _ h => by
          show (iscc_fs_add_seed clabel_max mem s out).2.seeds.isSome = true
          rw [(add_seed_ok clabel_max mem s out h).2]; rfl)
        (fun s out _ h h' => absurd h' h)
        (fun out h _ => h)
        (find_seeds_start out_seeds)
        (fun _ h => absurd h (by decide))
        rfl sm hsm
  rw [find_seeds_eq]
  generalize find_seeds_switch clabel_max mem nng sm (find_seeds_start out_seeds) = r
    at hsome ⊢
  by_cases hr : r.1 = SCC_ER_OK
  · rw [if_pos hr]
    have hs := hsome hr
    refine ⟨?_, fun h => absurd hr h, fun _ => ?_⟩
    · split_ifs <;> exact hr.symm
    · split_ifs
      · exact ⟨rfl, hs, rfl, rfl, by simp [iscc_SeedResult.toList], Or.inl rfl⟩
      · exact ⟨rfl, hs, rfl, rfl, by simp [iscc_SeedResult.toList], Or.inr rfl⟩
      · exact ⟨rfl, hs, rfl, rfl, by simp [iscc_SeedResult.toList], Or.inr rfl⟩
  · rw [if_neg hr]
    exact ⟨rfl, fun _ => rfl, fun h => absurd h hr⟩

set_option maxRecDepth 100000 in
/-- Counterexample to C15: on the NNG of scenario S1 the Lexical heuristic selects the two
seeds `[0, 2]`. With `SCC_CLABEL_MAX = 2` the number of seeds does not exceed the maximum
label count, yet the run fails with `SCC_ER_TOO_LARGE_PROBLEM`: the heuristic stops with
a seed count of 2 right after the second seed is appended. -/
theorem too_large_at_exactly_clabel_max :
    (iscc_find_seeds 1000 mem_ok nng_S1 SCC_SM_LEXICAL ISCC_NULL_SEED_RESULT).2.toList =
      [0, 2] ∧
    (find_seeds_switch 2 mem_ok nng_S1 SCC_SM_LEXICAL
      (find_seeds_start ISCC_NULL_SEED_RESULT)).2.count = 2 ∧
    (iscc_find_seeds 2 mem_ok nng_S1 SCC_SM_LEXICAL ISCC_NULL_SEED_RESULT).1 =
      SCC_ER_TOO_LARGE_PROBLEM := by
  decide

/-- C15 (amended): for a positive `SCC_CLABEL_MAX` and an empty seed result to start from,
a run of one of the five heuristics fails with `SCC_ER_TOO_LARGE_PROBLEM` exactly when
its seed count reaches `SCC_CLABEL_MAX` (the check follows the append); with every other
outcome, success included, the run has selected fewer than `SCC_CLABEL_MAX` seeds; and
when no allocation fails the run either succeeds or fails with that code.
`iscc_find_seeds` returns the code of the run. -/
theorem too_large_iff_count_reaches_max (clabel_max : Nat) (mem : Mem) (nng : iscc_Digraph)
    (sm : scc_SeedMethod) (out_seeds : iscc_SeedResult) (hmax : 0 < clabel_max)
    (h0 : out_seeds.count = 0) (hsm : sm ≠ SCC_SM_UNKNOWN) :
    (iscc_find_seeds clabel_max mem nng sm out_seeds).1 =
      (find_seeds_switch clabel_max mem nng sm (find_seeds_start out_seeds)).1 ∧
    ((find_seeds_switch clabel_max mem nng sm (find_seeds_start out_seeds)).1 =
        SCC_ER_TOO_LARGE_PROBLEM ↔
      (find_seeds_switch clabel_max mem nng sm (find_seeds_start out_seeds)).2.count =
        clabel_max) ∧
    ((find_seeds_switch clabel_max mem nng sm (find_seeds_start out_seeds)).1 ≠
        SCC_ER_TOO_LARGE_PROBLEM →
      (find_seeds_switch clabel_max mem nng sm (find_seeds_start out_seeds)).2.count <
        clabel_max) ∧
    ((∀ site n, mem site n = true) →
      (find_seeds_switch clabel_max mem nng sm (find_seeds_start out_seeds)).1 = SCC_ER_OK ∨
      (find_seeds_switch clabel_max mem nng sm (find_seeds_start out_seeds)).1 =
        SCC_ER_TOO_LARGE_PROBLEM) := by
  have hc0 : (find_seeds_start out_seeds).count = 0 := by
    rw [find_seeds_start_count]; exact h0
  have hq := find_seeds_switch_track clabel_max mem nng
    (fun out => out.count < clabel_max)
    (fun ec out =>
      (ec = SCC_ER_TOO_LARGE_PROBLEM → out.count = clabel_max) ∧
      (ec ≠ SCC_ER_TOO_LARGE_PROBLEM → out.count < clabel_max) ∧
      ((∀ site n, mem site n = true) → ec = SCC_ER_OK ∨ ec = SCC_ER_TOO_LARGE_PROBLEM))
    (fun s out hI h => by
      show (iscc_fs_add_seed clabel_max mem s out).2.count < clabel_max
      have hI' : out.count < clabel_max := hI
      rcases add_seed_cases clabel_max mem s out with ⟨_, a2, a3⟩ | ⟨a1, _, _⟩ | ⟨a1, _, _⟩
      · rw [a2]; omega
      · rw [a1] at h; exact absurd h (by decide)
      · rw [a1] at h; exact absurd h (by decide))
    (fun s out hI h => by
      have hI' : out.count < clabel_max := hI
      rcases add_seed_cases clabel_max mem s out with ⟨a1, _, _⟩ | ⟨a1, a2, a3⟩ | ⟨a1, a2, a3⟩
      · exact absurd a1 h
      · rw [a1]
        exact ⟨fun _ => a2.trans a3, fun h' => absurd rfl h', fun _ => Or.inr rfl⟩
      · rw [a1]
        refine ⟨fun h' => absurd h' (by decide), fun _ => by rw [a2]; exact hI',
          fun hm => ?_⟩
        obtain ⟨site, n, hf⟩ := a3
        rw [hm site n] at hf
        exact absurd hf (by decide))
    (fun out hI => ⟨fun h' => absurd h' (by decide), fun _ => hI, fun _ => Or.inl rfl⟩)
    (find_seeds_start out_seeds)
    (fun hex => by
      refine ⟨fun h' => absurd h' (by decide), fun _ => by rw [hc0]; exact hmax,
        fun hm => ?_⟩
      obtain ⟨site, n, hf⟩ := hex
      rw [hm site n] at hf
      exact absurd hf (by decide))
    (by show (find_seeds_start out_seeds).count < clabel_max; rw [hc0]; exact hmax)
    sm hsm
  obtain ⟨q1, q2, q3⟩ := hq
  refine ⟨?_, ⟨q1, ?_⟩, q2, q3⟩
  · rw [find_seeds_eq]
    split_ifs with c1 <;> first | exact c1.symm | rfl
  · intro hcount
    by_contra hne
    have := q2 hne
    omega

set_option maxRecDepth 100000 in
theorem too_large_iff_count_reaches_max_witness :
    (iscc_find_seeds 2 mem_ok nng_S1 SCC_SM_LEXICAL ISCC_NULL_SEED_RESULT).1 =
      SCC_ER_TOO_LARGE_PROBLEM ∧
    ((find_seeds_switch 2 mem_ok nng_S1 SCC_SM_LEXICAL
        (find_seeds_start ISCC_NULL_SEED_RESULT)).1 = SCC_ER_TOO_LARGE_PROBLEM ↔
      (find_seeds_switch 2 mem_ok nng_S1 SCC_SM_LEXICAL
        (find_seeds_start ISCC_NULL_SEED_RESULT)).2.count = 2) :=
  ⟨by decide,
    (too_large_iff_count_reaches_max 2 mem_ok nng_S1 SCC_SM_LEXICAL ISCC_NULL_SEED_RESULT
      (by decide) rfl (by decide)).2.1⟩

/-! ## The distance operation -/

theorem add_seed_clabel_irrelevant (m1 m2 : Nat) (mem : Mem) (s : Nat) (out : iscc_SeedResult)
    (hcap : out.count < out.capacity) (h1 : out.count + 1 < m1) (h2 : out.count + 1 < m2) :
    iscc_fs_add_seed m1 mem s out = iscc_fs_add_seed m2 mem s out ∧
    (iscc_fs_add_seed m1 mem s out).1 = SCC_ER_OK ∧
    (iscc_fs_add_seed m1 mem s out).2.count = out.count + 1 ∧
    (iscc_fs_add_seed m1 mem s out).2.capacity = out.capacity := by
  have key : ∀ m, out.count + 1 < m → iscc_fs_add_seed m mem s out =
      (SCC_ER_OK,
        ({ capacity := out.capacity
           count := out.count + 1
           seeds := some (Function.update out.seed out.count s) } : iscc_SeedResult)) := by
    intro m hm
    unfold iscc_fs_add_seed
    dsimp only
    rw [if_neg (Nat.ne_of_lt hcap)]
    dsimp only
    rw [if_neg (by simp), if_neg (Nat.ne_of_lt hm)]
  rw [key m1 h1, key m2 h2]
  exact ⟨rfl, rfl, rfl, rfl⟩

theorem lexical_loop_clabel_irrelevant (m1 m2 : Nat) (mem : Mem) (nng : iscc_Digraph) :
    ∀ n cv marks out, out.count + n < out.capacity → out.count + n < m1 →
      out.count + n < m2 →
      lexical_loop m1 mem nng n cv marks out = lexical_loop m2 mem nng n cv marks out := by
  intro n
  induction n with
  | zero => intro cv marks out _ _ _; rfl
  | succ n ih =>
    intro cv marks out hc h1 h2
    obtain ⟨e1, e2, e3, e4⟩ := add_seed_clabel_irrelevant m1 m2 mem cv out (by omega)
      (by omega) (by omega)
    unfold lexical_loop
    by_cases hck : iscc_fs_check_neighbors_marks cv nng marks = true
    · rw [if_pos hck, if_pos hck]
      dsimp only
      have hne : ¬ ((iscc_fs_add_seed m1 mem cv out).1 ≠ SCC_ER_OK) := by rw [e2]; simp
      rw [if_neg hne, ← e1, if_neg hne]
      exact ih _ _ _ (by rw [e3, e4]; omega) (by rw [e3]; omega) (by rw [e3]; omega)
    · rw [if_neg hck, if_neg hck]
      exact ih _ _ _ (by omega) (by omega) (by omega)

theorem inwards_loop_clabel_irrelevant (m1 m2 : Nat) (mem : Mem) (nng : iscc_Digraph)
    (updating : Bool) :
    ∀ n pos marks sort out, out.count + n < out.capacity → out.count + n < m1 →
      out.count + n < m2 →
      inwards_loop m1 mem nng updating n pos marks sort out =
        inwards_loop m2 mem nng updating n pos marks sort out := by
  intro n
  induction n with
  | zero => intro pos marks sort out _ _ _; rfl
  | succ n ih =>
    intro pos marks sort out hc h1 h2
    obtain ⟨e1, e2, e3, e4⟩ := add_seed_clabel_irrelevant m1 m2 mem
      (sort.sorted_vertices pos) out (by omega) (by omega) (by omega)
    unfold inwards_loop
    dsimp only
    by_cases hck : iscc_fs_check_neighbors_marks (sort.sorted_vertices pos) nng marks = true
    · rw [if_pos hck, if_pos hck]
      have hne : ¬ ((iscc_fs_add_seed m1 mem (sort.sorted_vertices pos) out).1 ≠
          SCC_ER_OK) := by rw [e2]; simp
      rw [if_neg hne, ← e1, if_neg hne]
      exact ih _ _ _ _ (by rw [e3, e4]; omega) (by rw [e3]; omega) (by rw [e3]; omega)
    · rw [if_neg hck, if_neg hck]
      exact ih _ _ _ _ (by omega) (by omega) (by omega)

theorem exclusion_loop_clabel_irrelevant (m1 m2 : Nat) (mem : Mem) (eg : iscc_Digraph)
    (updating : Bool) :
    ∀ n pos ne sort out, out.count + n < out.capacity → out.count + n < m1 →
      out.count + n < m2 →
      exclusion_loop m1 mem eg updating n pos ne sort out =
        exclusion_loop m2 mem eg updating n pos ne sort out := by
  intro n
  induction n with
  | zero => intro pos ne sort out _ _ _; rfl
  | succ n ih =>
    intro pos ne sort out hc h1 h2
    obtain ⟨e1, e2, e3, e4⟩ := add_seed_clabel_irrelevant m1 m2 mem
      (sort.sorted_vertices pos) out (by omega) (by omega) (by omega)
    unfold exclusion_loop
    dsimp only
    by_cases hck : ne (sort.sorted_vertices pos) = true
    · rw [if_pos hck, if_pos hck]
      have hne : ¬ ((iscc_fs_add_seed m1 mem (sort.sorted_vertices pos) out).1 ≠
          SCC_ER_OK) := by rw [e2]; simp
      rw [if_neg hne, ← e1, if_neg hne]
      exact ih _ _ _ _ (by rw [e3, e4]; omega) (by rw [e3]; omega) (by rw [e3]; omega)
    · rw [if_neg hck, if_neg hck]
      exact ih _ _ _ _ (by omega) (by omega) (by omega)

theorem find_seeds_clabel_irrelevant (m1 m2 : Nat) (mem : Mem) (nng : iscc_Digraph)
    (sm : scc_SeedMethod) (out_seeds : iscc_SeedResult) (h0 : out_seeds.count = 0)
    (hn : nng.vertices < 128) (h1 : nng.vertices < m1) (h2 : nng.vertices < m2) :
    iscc_find_seeds m1 mem nng sm out_seeds = iscc_find_seeds m2 mem nng sm out_seeds := by
  have hc0 : (find_seeds_start out_seeds).count = 0 := by
    rw [find_seeds_start_count]; exact h0
  have hcap : 128 ≤ (find_seeds_start out_seeds).capacity := by
    unfold find_seeds_start
    split
    · exact le_refl _
    · omega
  have hsw : find_seeds_switch m1 mem nng sm (find_seeds_start out_seeds) =
      find_seeds_switch m2 mem nng sm (find_seeds_start out_seeds) := by
    generalize find_seeds_start out_seeds = out1 at hc0 hcap
    have hlex : iscc_findseeds_lexical m1 mem nng out1 =
        iscc_findseeds_lexical m2 mem nng out1 := by
      unfold iscc_findseeds_lexical
      split
      · rfl
      · exact lexical_loop_clabel_irrelevant m1 m2 mem nng _ _ _ _
          (by show out1.count + _ < out1.capacity; omega)
          (by show out1.count + _ < m1; omega) (by show out1.count + _ < m2; omega)
    have hinw : ∀ u, iscc_findseeds_inwards m1 mem nng u out1 =
        iscc_findseeds_inwards m2 mem nng u out1 := by
      intro u
      unfold iscc_findseeds_inwards
      dsimp only
      split
      · rfl
      · split
        · rfl
        · exact inwards_loop_clabel_irrelevant m1 m2 mem nng u _ _ _ _ _
            (by show out1.count + _ < out1.capacity; omega)
            (by show out1.count + _ < m1; omega) (by show out1.count + _ < m2; omega)
    have hexc : ∀ u, iscc_findseeds_exclusion m1 mem nng u out1 =
        iscc_findseeds_exclusion m2 mem nng u out1 := by
      intro u
      unfold iscc_findseeds_exclusion
      dsimp only
      split
      · rfl
      · split
        · rfl
        · split
          · rfl
          · split
            · rfl
            · exact exclusion_loop_clabel_irrelevant m1 m2 mem _ u _ _ _ _ _
                (by show out1.count + _ < out1.capacity; omega)
                (by show out1.count + _ < m1; omega) (by show out1.count + _ < m2; omega)
    cases sm <;> simp only [find_seeds_switch, hlex, hinw, hexc]
  rw [find_seeds_eq, find_seeds_eq, hsw]

/-! ## Scenario S2 -/

set_option maxRecDepth 100000 in
theorem hexagon_inwards_updating_run :
    (iscc_find_seeds 1000 mem_ok nng_S2 SCC_SM_INWARDS_UPDATING ISCC_NULL_SEED_RESULT).1 =
      SCC_ER_OK ∧
    (iscc_find_seeds 1000 mem_ok nng_S2 SCC_SM_INWARDS_UPDATING
      ISCC_NULL_SEED_RESULT).2.toList = [0, 3] := by
  decide

/-- C17: on the NNG of the regular hexagon with `k = 2`, whenever no allocation fails and
`SCC_CLABEL_MAX` is larger than the six vertices, InwardsUpdating succeeds and returns
exactly the two seeds 0 and 3. Their closed neighbourhoods are `{5, 0, 1}` and
`{2, 3, 4}`, each three consecutive vertices of the hexagon, and together they contain
each of the six vertices once. -/
theorem hexagon_inwards_updating (clabel_max : Nat) (mem : Mem) (hmax : 6 < clabel_max)
    (hmem : ∀ site n, mem site n = true) :
    (iscc_find_seeds clabel_max mem nng_S2 SCC_SM_INWARDS_UPDATING ISCC_NULL_SEED_RESULT).1 =
      SCC_ER_OK ∧
    (iscc_find_seeds clabel_max mem nng_S2 SCC_SM_INWARDS_UPDATING
      ISCC_NULL_SEED_RESULT).2.toList = [0, 3] ∧
    nng_S2.closed 0 = [0, 1, 5] ∧ nng_S2.closed 3 = [3, 2, 4] ∧
    (nng_S2.closed 0 ++ nng_S2.closed 3).Perm (List.range 6) := by
  have hm : mem = mem_ok := funext (fun site => funext (fun n => hmem site n))
  rw [hm, find_seeds_clabel_irrelevant clabel_max 1000 mem_ok nng_S2 SCC_SM_INWARDS_UPDATING
    ISCC_NULL_SEED_RESULT rfl (by decide) hmax (by decide)]
  exact ⟨hexagon_inwards_updating_run.1, hexagon_inwards_updating_run.2, by decide, by decide,
    by decide⟩

theorem hexagon_inwards_updating_witness :
    (iscc_find_seeds 1000 mem_ok nng_S2 SCC_SM_INWARDS_UPDATING
      ISCC_NULL_SEED_RESULT).2.toList = [0, 3] ∧
    (nng_S2.closed 0 ++ nng_S2.closed 3).Perm (List.range 6) :=
  ⟨(hexagon_inwards_updating 1000 mem_ok (by decide) (fun _ _ => rfl)).2.1,
    (hexagon_inwards_updating 1000 mem_ok (by decide) (fun _ _ => rfl)).2.2.2.2⟩

/-! ## The Lexical heuristic refines the greedy scan of the spec -/

theorem check_eq_spec_valid (nng : iscc_Digraph) (hs : iscc_digraph_is_sound nng)
    (marks : Nat → Bool) (cv : Nat) (hcv : cv < nng.vertices) :
    iscc_fs_check_neighbors_marks cv nng marks = spec_valid_next_seed nng marks cv := by
  rw [Bool.eq_iff_iff, check_neighbors_marks_true]
  have hle := hs.2.2.1 cv hcv
  have hlen := length_arcs nng cv
  unfold spec_valid_next_seed
  simp only [Bool.and_eq_true, Bool.not_eq_true', decide_eq_true_eq, List.all_eq_true]
  constructor
  · rintro ⟨h1, h2, h3⟩
    exact ⟨⟨h1, by omega⟩, h3⟩
  · rintro ⟨⟨h1, h2⟩, h3⟩
    exact ⟨h1, by omega, h3⟩

theorem mark_eq_spec_mark (nng : iscc_Digraph) (marks : Nat → Bool) (cv : Nat) :
    iscc_fs_mark_seed_neighbors cv nng marks = spec_mark_closed nng marks cv := by
  funext x
  rw [Bool.eq_iff_iff, mark_seed_neighbors_true]
  unfold spec_mark_closed
  simp

theorem greedy_fold_succ (nng : iscc_Digraph) (cv : Nat) :
    (List.range (cv + 1)).foldl (spec_greedy_step nng) (fun _ => false, []) =
      spec_greedy_step nng
        ((List.range cv).foldl (spec_greedy_step nng) (fun _ => false, [])) cv := by
  rw [List.range_succ, List.foldl_append]
  rfl

theorem greedy_step_skip (nng : iscc_Digraph) (st : (Nat → Bool) × List Nat) (cv : Nat)
    (h : spec_valid_next_seed nng st.1 cv = false) : spec_greedy_step nng st cv = st := by
  unfold spec_greedy_step
  rw [if_neg (by rw [h]; simp)]

theorem greedy_step_seed (nng : iscc_Digraph) (st : (Nat → Bool) × List Nat) (cv : Nat)
    (h : spec_valid_next_seed nng st.1 cv = true) :
    spec_greedy_step nng st cv = (spec_mark_closed nng st.1 cv, st.2 ++ [cv]) := by
  unfold spec_greedy_step
  rw [if_pos h]

theorem lexical_refines_greedy (clabel_max : Nat) (mem : Mem) (nng : iscc_Digraph)
    (hs : iscc_digraph_is_sound nng) (out1 : iscc_SeedResult) (h0 : out1.count = 0)
    (hok : (iscc_findseeds_lexical clabel_max mem nng out1).ec = SCC_ER_OK) :
    (iscc_findseeds_lexical clabel_max mem nng out1).out.toList = spec_lexical nng ∧
    (iscc_findseeds_lexical clabel_max mem nng out1).out.toList.Pairwise (fun a b => a < b) := by
  unfold iscc_findseeds_lexical at hok ⊢
  by_cases hm : (!(mem AllocSite.marks nng.vertices &&
      mem AllocSite.seeds out1.capacity)) = true
  · rw [if_pos hm] at hok
    simp at hok
  · rw [if_neg hm] at hok ⊢
    have h := lexical_loop_rule clabel_max mem nng
      (fun cv marks out => cv ≤ nng.vertices →
        marks = ((List.range cv).foldl (spec_greedy_step nng) (fun _ => false, [])).1 ∧
        out.toList = ((List.range cv).foldl (spec_greedy_step nng) (fun _ => false, [])).2 ∧
        (∀ s, s ∈ out.toList → s < cv) ∧ out.toList.Pairwise (fun a b => a < b))
      (fun cv marks out hP hc hle => by
        obtain ⟨p1, p2, p3, p4⟩ := hP (Nat.le_of_succ_le hle)
        rw [check_eq_spec_valid nng hs marks cv hle, p1] at hc
        rw [greedy_fold_succ, greedy_step_skip nng _ cv hc]
        exact ⟨p1, p2, fun s hs' => Nat.lt_succ_of_lt (p3 s hs'), p4⟩)
      (fun cv marks out hP hc ha hle => by
        obtain ⟨p1, p2, p3, p4⟩ := hP (Nat.le_of_succ_le hle)
        rw [check_eq_spec_valid nng hs marks cv hle, p1] at hc
        rw [greedy_fold_succ, greedy_step_seed nng _ cv hc,
          toList_add_seed clabel_max mem cv out ha, mark_eq_spec_mark, p1]
        refine ⟨rfl, by rw [p2], ?_, ?_⟩
        · intro s hs'
          rcases List.mem_append.mp hs' with h' | h'
          · exact Nat.lt_succ_of_lt (p3 s h')
          · rw [List.mem_singleton] at h'; rw [h']; exact Nat.lt_succ_self cv
        · rw [List.pairwise_append]
          refine ⟨p4, List.pairwise_singleton _ _, ?_⟩
          intro a ha' b hb
          rw [List.mem_singleton] at hb
          rw [hb]; exact p3 a ha')
      nng.vertices 0 (fun _ => false) { out1 with seeds := some (fun _ => 0) }
      (fun _ => by
        have e : iscc_SeedResult.toList { out1 with seeds := some (fun _ => 0) } = [] :=
          toList_of_count_zero _ _ h0
        rw [e]
        exact ⟨rfl, rfl, fun s hs' => absurd hs' (List.not_mem_nil s), List.Pairwise.nil⟩)
      hok
    rw [Nat.zero_add] at h
    obtain ⟨_, q2, _, q4⟩ := h (le_refl _)
    exact ⟨q2, q4⟩

/-- C18: for every sound NNG and an empty seed result to start from, the seed list that a
successful run of the Lexical heuristic returns equals the result of the reference greedy
scan of the spec over `v = 0, 1, ..., N - 1`, which starts with no marks and, for each
`v` in turn, appends `v` and marks its closed neighbourhood iff `v` is a valid next seed
at that moment; the returned seeds are in strictly increasing vertex order. -/
theorem lexical_equals_greedy_scan (clabel_max : Nat) (mem : Mem) (nng : iscc_Digraph)
    (out_seeds : iscc_SeedResult) (hs : iscc_digraph_is_sound nng)
    (h0 : out_seeds.count = 0)
    (hok : (iscc_find_seeds clabel_max mem nng SCC_SM_LEXICAL out_seeds).1 = SCC_ER_OK) :
    (iscc_find_seeds clabel_max mem nng SCC_SM_LEXICAL out_seeds).2.toList =
      spec_lexical nng ∧
    (iscc_find_seeds clabel_max mem nng SCC_SM_LEXICAL out_seeds).2.toList.Pairwise
      (fun a b => a < b) := by
  obtain ⟨st, out1, hc, hec, hl, hcase⟩ :=
    find_seeds_cases clabel_max mem nng SCC_SM_LEXICAL out_seeds hok
  rcases hcase with ⟨_, hst⟩ | ⟨h, _⟩ | ⟨h, _⟩ | ⟨h, _⟩ | ⟨h, _⟩
  · rw [hl, hst]
    rw [hst] at hec
    exact lexical_refines_greedy clabel_max mem nng hs out1 (hc.trans h0) hec
  · exact absurd h (by decide)
  · exact absurd h (by decide)
  · exact absurd h (by decide)
  · exact absurd h (by decide)

set_option maxRecDepth 100000 in
theorem lexical_equals_greedy_scan_witness :
    spec_lexical nng_S3 = [0] ∧
    (iscc_find_seeds 1000 mem_ok nng_S3 SCC_SM_LEXICAL ISCC_NULL_SEED_RESULT).2.toList =
      spec_lexical nng_S3 :=
  ⟨by decide,
    (lexical_equals_greedy_scan 1000 mem_ok nng_S3 ISCC_NULL_SEED_RESULT (by decide) rfl
      (by decide)).1⟩

/-! ## The bucket sort orders the vertices by in-degree -/

theorem sort_count_inwards_in_degree (dg : iscc_Digraph) (hs : iscc_digraph_is_sound dg)
    (v : Nat) : sort_count_inwards dg v = in_degree dg v := by
  rw [sort_count_inwards_eq, ← sum_count_arcs dg hs v dg.vertices (le_refl _)]
  unfold in_degree
  rw [List.count_flatMap]
  rfl

theorem sorted_pos_lt_imp (n : Nat) (key : Nat → Nat) (u v : Nat) (_hu : u < n) (hv : v < n)
    (h : sorted_pos n key u < sorted_pos n key v) :
    key u < key v ∨ (key u = key v ∧ u < v) := by
  by_contra hn
  have hcases : u = v ∨ key v < key u ∨ (key v = key u ∧ v < u) := by
    rcases Nat.lt_trichotomy (key u) (key v) with h1 | h1 | h1
    · exact absurd (Or.inl h1) hn
    · rcases Nat.lt_trichotomy u v with h2 | h2 | h2
      · exact absurd (Or.inr ⟨h1, h2⟩) hn
      · exact Or.inl h2
      · exact Or.inr (Or.inr ⟨h1.symm, h2⟩)
    · exact Or.inr (Or.inl h1)
  rcases hcases with h1 | h1
  · rw [h1] at h; exact absurd h (Nat.lt_irrefl _)
  · have := sorted_pos_strict n key v u hv h1
    omega

theorem sort_by_inwards_order (mem : Mem) (dg : iscc_Digraph) (mk : Bool)
    (hok : (iscc_fs_sort_by_inwards mem dg mk).1 = SCC_ER_OK) :
    ((iscc_fs_sort_by_inwards mem dg mk).2.toList dg.vertices).Perm (List.range dg.vertices) ∧
    ((iscc_fs_sort_by_inwards mem dg mk).2.toList dg.vertices).Pairwise
      (fun u v => sort_count_inwards dg u < sort_count_inwards dg v ∨
        (sort_count_inwards dg u = sort_count_inwards dg v ∧ u < v)) := by
  have hspec := (sort_by_inwards_spec mem dg mk hok).1
  generalize (iscc_fs_sort_by_inwards mem dg mk).2 = sr at hspec ⊢
  generalize hkey : sort_count_inwards dg = key at hspec ⊢
  have hsurj := surj_of_inj_lt dg.vertices (sorted_pos dg.vertices key)
    (fun v hv => sorted_pos_lt dg.vertices key v hv)
    (fun u hu v hv h => sorted_pos_inj dg.vertices key u v hu hv h)
  have hlt : ∀ i, i < dg.vertices → sr.sorted_vertices i < dg.vertices := by
    intro i hi
    obtain ⟨v, hv, e⟩ := hsurj i hi
    rw [← e, hspec v hv]; exact hv
  have hpos : ∀ i, i < dg.vertices →
      sorted_pos dg.vertices key (sr.sorted_vertices i) = i := by
    intro i hi
    obtain ⟨v, hv, e⟩ := hsurj i hi
    rw [← e, hspec v hv]
  unfold iscc_fs_SortResult.toList
  refine ⟨?_, ?_⟩
  · rw [List.perm_ext_iff_of_nodup]
    · intro a
      rw [List.mem_map, List.mem_range]
      constructor
      · rintro ⟨i, hi, rfl⟩
        exact hlt i (List.mem_range.mp hi)
      · intro ha
        exact ⟨sorted_pos dg.vertices key a,
          List.mem_range.mpr (sorted_pos_lt dg.vertices key a ha), hspec a ha⟩
    · rw [List.nodup_map_iff_inj_on (List.nodup_range _)]
      intro i hi j hj hij
      rw [← hpos i (List.mem_range.mp hi), ← hpos j (List.mem_range.mp hj), hij]
    · exact List.nodup_range _
  · rw [List.pairwise_map]
    refine List.Pairwise.imp_of_mem ?_ (List.pairwise_lt_range dg.vertices)
    intro i j hi hj hij
    have hi' := List.mem_range.mp hi
    have hj' := List.mem_range.mp hj
    apply sorted_pos_lt_imp dg.vertices key _ _ (hlt i hi') (hlt j hj')
    rw [hpos i hi', hpos j hj']; exact hij

/-! ## The static scan order -/

theorem sort_by_inwards_lt (mem : Mem) (dg : iscc_Digraph) (mk : Bool)
    (hok : (iscc_fs_sort_by_inwards mem dg mk).1 = SCC_ER_OK) (i : Nat)
    (hi : i < dg.vertices) :
    (iscc_fs_sort_by_inwards mem dg mk).2.sorted_vertices i < dg.vertices := by
  have h := (sort_by_inwards_order mem dg mk hok).1
  have hm : (iscc_fs_sort_by_inwards mem dg mk).2.sorted_vertices i ∈
      (iscc_fs_sort_by_inwards mem dg mk).2.toList dg.vertices := by
    unfold iscc_fs_SortResult.toList
    exact List.mem_map.mpr ⟨i, List.mem_range.mpr hi, rfl⟩
  exact List.mem_range.mp (h.mem_iff.mp hm)

theorem toList_sort_succ (sr : iscc_fs_SortResult) (n : Nat) :
    sr.toList (n + 1) = sr.toList n ++ [sr.sorted_vertices n] := by
  simp [iscc_fs_SortResult.toList, List.range_succ]

theorem inwards_order_refines (clabel_max : Nat) (mem : Mem) (nng : iscc_Digraph)
    (hs : iscc_digraph_is_sound nng) (out1 : iscc_SeedResult) (h0 : out1.count = 0)
    (hok : (iscc_findseeds_inwards clabel_max mem nng false out1).ec = SCC_ER_OK) :
    (iscc_fs_sort_by_inwards mem nng false).1 = SCC_ER_OK ∧
    (iscc_findseeds_inwards clabel_max mem nng false out1).sort =
      (iscc_fs_sort_by_inwards mem nng false).2 ∧
    (iscc_findseeds_inwards clabel_max mem nng false out1).out.toList =
      (((iscc_fs_sort_by_inwards mem nng false).2.toList nng.vertices).foldl
        (spec_greedy_step nng) (fun _ => false, [])).2 := by
  unfold iscc_findseeds_inwards at hok ⊢
  dsimp only at hok ⊢
  by_cases hsort : (iscc_fs_sort_by_inwards mem nng false).1 ≠ SCC_ER_OK
  · rw [if_pos hsort] at hok
    exact absurd hok hsort
  rw [if_neg hsort] at hok ⊢
  have hsok : (iscc_fs_sort_by_inwards mem nng false).1 = SCC_ER_OK := not_not.mp hsort
  have hlt := sort_by_inwards_lt mem nng false hsok
  generalize (iscc_fs_sort_by_inwards mem nng false).2 = sr at hok hlt ⊢
  by_cases hm : (!(mem AllocSite.marks nng.vertices &&
      mem AllocSite.seeds out1.capacity)) = true
  · rw [if_pos hm] at hok
    simp at hok
  · rw [if_neg hm] at hok ⊢
    have h := inwards_loop_rule clabel_max mem nng false
      (fun pos marks sort out => sort = sr ∧ (pos ≤ nng.vertices →
        marks = ((sr.toList pos).foldl (spec_greedy_step nng) (fun _ => false, [])).1 ∧
        out.toList = ((sr.toList pos).foldl (spec_greedy_step nng) (fun _ => false, [])).2))
      (fun pos marks sort out hP hc => by
        obtain ⟨p0, hP'⟩ := hP
        refine ⟨p0, fun hle => ?_⟩
        obtain ⟨p1, p2⟩ := hP' (Nat.le_of_succ_le hle)
        rw [p0, check_eq_spec_valid nng hs marks _ (hlt pos hle), p1] at hc
        rw [toList_sort_succ, List.foldl_append, List.foldl_cons, List.foldl_nil,
          greedy_step_skip nng _ _ hc]
        exact ⟨p1, p2⟩)
      (fun pos marks sort out hP hc ha => by
        obtain ⟨p0, hP'⟩ := hP
        refine ⟨by simp [p0], fun hle => ?_⟩
        obtain ⟨p1, p2⟩ := hP' (Nat.le_of_succ_le hle)
        have hc' := hc
        rw [p0, check_eq_spec_valid nng hs marks _ (hlt pos hle), p1] at hc'
        rw [toList_sort_succ, List.foldl_append, List.foldl_cons, List.foldl_nil,
          greedy_step_seed nng _ _ hc', toList_add_seed clabel_max mem _ out ha,
          mark_eq_spec_mark, p0, p1, p2]
        exact ⟨rfl, rfl⟩)
      nng.vertices 0 (fun _ => false) sr { out1 with seeds := some (fun _ => 0) }
      ⟨rfl, fun _ => by
        have e : iscc_SeedResult.toList { out1 with seeds := some (fun _ => 0) } = [] :=
          toList_of_count_zero _ _ h0
        rw [e]
        exact ⟨rfl, rfl⟩⟩
      hok
    rw [Nat.zero_add] at h
    exact ⟨hsok, h.1, (h.2 (le_refl _)).2⟩

theorem exclusion_step_skip (eg : iscc_Digraph) (st : (Nat → Bool) × List Nat) (v : Nat)
    (h : st.1 v = false) : spec_exclusion_step eg st v = st := by
  unfold spec_exclusion_step
  rw [if_neg (by rw [h]; simp)]

theorem exclusion_step_seed (eg : iscc_Digraph) (st : (Nat → Bool) × List Nat) (v : Nat)
    (h : st.1 v = true) :
    spec_exclusion_step eg st v =
      (fun x => st.1 x && !(decide (x = v) || decide (x ∈ eg.arcs v)), st.2 ++ [v]) := by
  unfold spec_exclusion_step
  rw [if_pos h]

theorem exclusion_order_refines (clabel_max : Nat) (mem : Mem) (nng : iscc_Digraph)
    (out1 : iscc_SeedResult) (h0 : out1.count = 0)
    (hok : (iscc_findseeds_exclusion clabel_max mem nng false out1).ec = SCC_ER_OK) :
    (iscc_findseeds_exclusion clabel_max mem nng false out1).sort =
      (iscc_fs_sort_by_inwards mem (iscc_exclusion_graph mem nng (exclusion_init nng)).2
        false).2 ∧
    (iscc_findseeds_exclusion clabel_max mem nng false out1).out.toList =
      (((iscc_fs_sort_by_inwards mem (iscc_exclusion_graph mem nng (exclusion_init nng)).2
          false).2.toList nng.vertices).foldl
        (spec_exclusion_step (iscc_exclusion_graph mem nng (exclusion_init nng)).2)
        (exclusion_init nng, [])).2 := by
  unfold iscc_findseeds_exclusion at hok ⊢
  dsimp only at hok ⊢
  by_cases hn : (!(mem AllocSite.not_excluded nng.vertices)) = true
  · rw [if_pos hn] at hok; simp at hok
  rw [if_neg hn] at hok ⊢
  by_cases he : (iscc_exclusion_graph mem nng (exclusion_init nng)).1 ≠ SCC_ER_OK
  · rw [if_pos he] at hok; exact absurd hok he
  rw [if_neg he] at hok ⊢
  generalize (iscc_exclusion_graph mem nng (exclusion_init nng)).2 = eg at hok ⊢
  by_cases hs : (iscc_fs_sort_by_inwards mem eg false).1 ≠ SCC_ER_OK
  · rw [if_pos hs] at hok; exact absurd hok hs
  rw [if_neg hs] at hok ⊢
  generalize (iscc_fs_sort_by_inwards mem eg false).2 = sr at hok ⊢
  by_cases hm : (!(mem AllocSite.seeds out1.capacity)) = true
  · rw [if_pos hm] at hok; simp at hok
  rw [if_neg hm] at hok ⊢
  have h := exclusion_loop_rule clabel_max mem eg false
    (fun pos ne sort out => sort = sr ∧
      ne = ((sr.toList pos).foldl (spec_exclusion_step eg) (exclusion_init nng, [])).1 ∧
      out.toList = ((sr.toList pos).foldl (spec_exclusion_step eg) (exclusion_init nng, [])).2)
    (fun pos ne sort out hP hc => by
      obtain ⟨p0, p1, p2⟩ := hP
      rw [p0, p1] at hc
      rw [toList_sort_succ, List.foldl_append, List.foldl_cons, List.foldl_nil,
        exclusion_step_skip eg _ _ hc]
      exact ⟨p0, p1, p2⟩)
    (fun pos ne sort out hP hc ha => by
      obtain ⟨p0, p1, p2⟩ := hP
      have hc' := hc
      rw [p0, p1] at hc'
      rw [toList_sort_succ, List.foldl_append, List.foldl_cons, List.foldl_nil,
        exclusion_step_seed eg _ _ hc', toList_add_seed clabel_max mem _ out ha,
        exclusion_update_not_updating]
      refine ⟨p0, ?_, by rw [p0, p2]⟩
      funext x
      rw [Bool.eq_iff_iff, exclusion_update_ne, ← p1, p0]
      simp only [Bool.and_eq_true, Bool.not_eq_true', Bool.or_eq_false_iff,
        decide_eq_false_iff_not, ne_eq])
    nng.vertices 0 (exclusion_init nng) sr { out1 with seeds := some (fun _ => 0) }
    ⟨rfl, rfl, toList_of_count_zero _ _ h0⟩
    hok
  rw [Nat.zero_add] at h
  exact ⟨h.1, h.2.2⟩

/-- C19: for every sound digraph with `N` vertices, after a successful
`iscc_fs_sort_by_inwards` the first `N` entries of `sorted_vertices` are a rearrangement
of `0 .. N-1` in which a vertex of smaller in-degree comes first and vertices of equal
in-degree are in ascending vertex ID. InwardsOrder scans this array unchanged: its seeds
are those of the greedy scan of the spec taken in this order. ExclusionOrder scans the
array sorted for the exclusion graph unchanged: its seeds are those of the exclusion scan
of the spec taken in that order. -/
theorem sort_by_inwards_ascending (mem : Mem) (dg : iscc_Digraph) (make_indices : Bool)
    (hs : iscc_digraph_is_sound dg)
    (hok : (iscc_fs_sort_by_inwards mem dg make_indices).1 = SCC_ER_OK) :
    ((iscc_fs_sort_by_inwards mem dg make_indices).2.toList dg.vertices).Perm
      (List.range dg.vertices) ∧
    ((iscc_fs_sort_by_inwards mem dg make_indices).2.toList dg.vertices).Pairwise
      (fun u v => in_degree dg u < in_degree dg v ∨
        (in_degree dg u = in_degree dg v ∧ u < v)) ∧
    (∀ clabel_max out1, out1.count = 0 →
      (iscc_findseeds_inwards clabel_max mem dg false out1).ec = SCC_ER_OK →
      (iscc_findseeds_inwards clabel_max mem dg false out1).sort =
        (iscc_fs_sort_by_inwards mem dg false).2 ∧
      (iscc_findseeds_inwards clabel_max mem dg false out1).out.toList =
        (((iscc_fs_sort_by_inwards mem dg false).2.toList dg.vertices).foldl
          (spec_greedy_step dg) (fun _ => false, [])).2) ∧
    (∀ clabel_max nng out1, out1.count = 0 →
      (iscc_exclusion_graph mem nng (exclusion_init nng)).2 = dg →
      (iscc_findseeds_exclusion clabel_max mem nng false out1).ec = SCC_ER_OK →
      (iscc_findseeds_exclusion clabel_max mem nng false out1).sort =
        (iscc_fs_sort_by_inwards mem dg false).2 ∧
      (iscc_findseeds_exclusion clabel_max mem nng false out1).out.toList =
        (((iscc_fs_sort_by_inwards mem dg false).2.toList nng.vertices).foldl
          (spec_exclusion_step dg) (exclusion_init nng, [])).2) := by
  obtain ⟨h1, h2⟩ := sort_by_inwards_order mem dg make_indices hok
  refine ⟨h1, ?_, ?_, ?_⟩
  · refine List.Pairwise.imp ?_ h2
    intro u v huv
    rw [sort_count_inwards_in_degree dg hs u, sort_count_inwards_in_degree dg hs v] at huv
    exact huv
  · intro clabel_max out1 h0 hrun
    exact (inwards_order_refines clabel_max mem dg hs out1 h0 hrun).2
  · intro clabel_max nng out1 h0 heg hrun
    have h := exclusion_order_refines clabel_max mem nng out1 h0 hrun
    rw [heg] at h
    exact h

set_option maxRecDepth 100000 in
theorem sort_by_inwards_ascending_witness :
    (iscc_fs_sort_by_inwards mem_ok nng_S3 false).2.toList nng_S3.vertices = [0, 4, 1, 3, 2] ∧
    ((iscc_fs_sort_by_inwards mem_ok nng_S3 false).2.toList nng_S3.vertices).Perm
      (List.range nng_S3.vertices) :=
  ⟨by decide,
    (sort_by_inwards_ascending mem_ok nng_S3 false (by decide) (by decide)).1⟩

/-! ## The index into the sorted array -/

theorem SortInv.index_ok {n lo m : Nat} {sr : iscc_fs_SortResult} (h : SortInv n lo m sr) :
    sort_index_ok n sr := by
  refine ⟨?_, fun v hv => ⟨h.vidx_lt v hv, h.sorted_vidx v hv⟩⟩
  unfold iscc_fs_SortResult.toList
  rw [List.perm_ext_iff_of_nodup]
  · intro a
    rw [List.mem_map, List.mem_range]
    constructor
    · rintro ⟨i, hi, rfl⟩
      exact (h.perm i (List.mem_range.mp hi)).1
    · intro ha
      exact ⟨sr.vertex_index a, List.mem_range.mpr (h.vidx_lt a ha), h.sorted_vidx a ha⟩
  · rw [List.nodup_map_iff_inj_on (List.nodup_range _)]
    intro i hi j hj hij
    rw [← (h.perm i (List.mem_range.mp hi)).2, ← (h.perm j (List.mem_range.mp hj)).2, hij]
  · exact List.nodup_range _

theorem inwards_updating_scan_inv (clabel_max : Nat) (mem : Mem) (nng : iscc_Digraph)
    (hs : iscc_digraph_is_sound nng) (hd : no_duplicate_arcs nng)
    (hsort : (iscc_fs_sort_by_inwards mem nng true).1 = SCC_ER_OK)
    (out : iscc_SeedResult) (stop : Nat) (hstop : stop ≤ nng.vertices)
    (hok : (inwards_loop clabel_max mem nng true stop 0 (fun _ => false)
      (iscc_fs_sort_by_inwards mem nng true).2 out).ec = SCC_ER_OK) :
    SortInv nng.vertices stop (sort_max_inwards nng.vertices (sort_count_inwards nng))
      (inwards_loop clabel_max mem nng true stop 0 (fun _ => false)
        (iscc_fs_sort_by_inwards mem nng true).2 out).sort := by
  have key := inwards_loop_rule_bounded clabel_max mem nng true stop
    (fun pos marks sort _ =>
      SortInv nng.vertices pos (sort_max_inwards nng.vertices (sort_count_inwards nng)) sort ∧
      ∀ w, live_indegree nng (fun u => !marks u) w ≤ sort.inwards_count w)
    (fun pos marks sort _ _ hP _ => ⟨hP.1.mono (Nat.le_succ _), hP.2⟩)
    (fun pos marks sort _ hpos hP hc _ => by
      obtain ⟨h3a, h3b⟩ := hP
      have hv : sort.sorted_vertices pos < nng.vertices := (h3a.perm pos (by omega)).1
      obtain ⟨r1, _, r3⟩ := inwards_update_inv nng hs hd _ pos
        (sort.sorted_vertices pos) marks sort hv hc (h3a.mono (Nat.le_succ _)) h3b
      simp only [if_true]
      exact ⟨r1, r3⟩)
    (fun _ => false) (iscc_fs_sort_by_inwards mem nng true).2 out
    (by
      obtain ⟨i1, i2⟩ := sort_by_inwards_SortInv mem nng hsort
      refine ⟨i1, ?_⟩
      intro w
      rw [i2]
      exact live_indegree_le_count nng hs _ w)
    hok
  exact key.1

theorem exclusion_updating_scan_inv (clabel_max : Nat) (mem : Mem) (nng : iscc_Digraph)
    (he : (iscc_exclusion_graph mem nng (exclusion_init nng)).1 = SCC_ER_OK)
    (hsort : (iscc_fs_sort_by_inwards mem
      (iscc_exclusion_graph mem nng (exclusion_init nng)).2 true).1 = SCC_ER_OK)
    (out : iscc_SeedResult) (stop : Nat)
    (hok : (exclusion_loop clabel_max mem (iscc_exclusion_graph mem nng (exclusion_init nng)).2
      true stop 0 (exclusion_init nng)
      (iscc_fs_sort_by_inwards mem (iscc_exclusion_graph mem nng (exclusion_init nng)).2
        true).2 out).ec = SCC_ER_OK) :
    SortInv nng.vertices stop
      (sort_max_inwards nng.vertices
        (sort_count_inwards (iscc_exclusion_graph mem nng (exclusion_init nng)).2))
      (exclusion_loop clabel_max mem (iscc_exclusion_graph mem nng (exclusion_init nng)).2
        true stop 0 (exclusion_init nng)
        (iscc_fs_sort_by_inwards mem (iscc_exclusion_graph mem nng (exclusion_init nng)).2
          true).2 out).sort := by
  have hEv := exclusion_graph_vertices mem nng (exclusion_init nng) he
  have hEs := exclusion_graph_sound mem nng (exclusion_init nng) he
  have heg : ∀ u w, w ∈ (iscc_exclusion_graph mem nng (exclusion_init nng)).2.arcs u →
      w < (iscc_exclusion_graph mem nng (exclusion_init nng)).2.vertices := by
    intro u w hw
    rw [hEv]
    exact ((exclusion_graph_arcs mem nng _ he u w).mp hw).2.2.1
  generalize (iscc_exclusion_graph mem nng (exclusion_init nng)).2 = eg
    at hok hsort hEv hEs heg ⊢
  rw [← hEv]
  have key := exclusion_loop_rule_bounded clabel_max mem eg true stop
    (fun pos ne sort _ =>
      (∀ i, i < pos → ne (sort.sorted_vertices i) = false) ∧
      SortInv eg.vertices pos (sort_max_inwards eg.vertices (sort_count_inwards eg)) sort ∧
      ∀ w, live_indegree eg ne w ≤ sort.inwards_count w)
    (fun pos ne sort _ hpos hP hc => by
      obtain ⟨h1, h3a, h3b⟩ := hP
      refine ⟨?_, h3a.mono (Nat.le_succ _), h3b⟩
      intro i hi
      by_cases e : i = pos
      · rw [e]; exact hc
      · exact h1 i (by omega))
    (fun pos ne sort _ hpos hP hc _ => by
      obtain ⟨h1, h3a, h3b⟩ := hP
      have hle := exclusion_update_le eg true pos (sort.sorted_vertices pos) ne sort
      have hscan : ∀ i, i < pos + 1 →
          (exclusion_update eg true pos (sort.sorted_vertices pos)
            (Function.update ne (sort.sorted_vertices pos) false, sort)).1
            (sort.sorted_vertices i) = false := by
        intro i hi
        by_contra hne
        have := hle _ (by simpa using hne)
        by_cases e : i = pos
        · exact this.2 (by rw [e])
        · rw [h1 i (by omega)] at this
          exact absurd this.1 (by decide)
      obtain ⟨r1, r2, r3⟩ := exclusion_update_inv eg heg _ pos sort
        (eg.arcs (sort.sorted_vertices pos))
        (Function.update ne (sort.sorted_vertices pos) false, sort)
        (fun a ha => heg _ a ha) (h3a.mono (Nat.le_succ _)) (fun _ _ => rfl)
        (fun w => Nat.le_trans
          (live_indegree_mono eg ne _ w (fun u hu => by
            have hu' : Function.update ne (sort.sorted_vertices pos) false u = true := hu
            by_cases e : u = sort.sorted_vertices pos
            · rw [e, Function.update_same] at hu'
              exact absurd hu' (by decide)
            · rw [Function.update_noteq e] at hu'
              exact hu'))
          (h3b w))
        (fun i hi => by
          dsimp only
          by_cases e : i = pos
          · rw [e, Function.update_same]
          · by_cases e2 : sort.sorted_vertices i = sort.sorted_vertices pos
            · rw [e2, Function.update_same]
            · rw [Function.update_noteq e2]
              exact h1 i (by omega))
      refine ⟨?_, r1, r3⟩
      intro i hi
      have := r2 i (by omega)
      unfold exclusion_update
      rw [this]
      exact hscan i hi)
    (exclusion_init nng) (iscc_fs_sort_by_inwards mem eg true).2 out
    (by
      obtain ⟨i1, i2⟩ := sort_by_inwards_SortInv mem eg hsort
      refine ⟨fun i hi => absurd hi (Nat.not_lt_zero _), i1, ?_⟩
      intro w
      rw [i2]
      exact live_indegree_le_count eg hEs _ w)
    hok
  exact key.2.1

/-- C20: for every sound digraph with `N` vertices: after a successful
`iscc_fs_sort_by_inwards` with `make_indices`, `sorted_vertices` lists every vertex once
and `vertex_index` is its inverse (the slot `vertex_index[v]` contains `v`); a call of
`iscc_fs_decrease_v_in_sort` for a pending vertex with a positive key in a consistent
sort structure keeps both; in a run of InwardsUpdating on an NNG without duplicate arcs
and in a run of ExclusionUpdating, both hold at the end of every iteration of the scan,
where every call made during the iteration is such a call. -/
theorem sort_index_maintained (mem : Mem) (dg : iscc_Digraph)
    (hs : iscc_digraph_is_sound dg) :
    ((iscc_fs_sort_by_inwards mem dg true).1 = SCC_ER_OK →
      sort_index_ok dg.vertices (iscc_fs_sort_by_inwards mem dg true).2) ∧
    (∀ m cur v sr, SortInv dg.vertices (cur + 1) m sr → v < dg.vertices →
      cur < sr.vertex_index v → 1 ≤ sr.inwards_count v →
      sort_index_ok dg.vertices (iscc_fs_decrease_v_in_sort v sr cur) ∧
      SortInv dg.vertices (cur + 1) m (iscc_fs_decrease_v_in_sort v sr cur)) ∧
    (no_duplicate_arcs dg → (iscc_fs_sort_by_inwards mem dg true).1 = SCC_ER_OK →
      ∀ clabel_max out stop, stop ≤ dg.vertices →
        (inwards_loop clabel_max mem dg true stop 0 (fun _ => false)
          (iscc_fs_sort_by_inwards mem dg true).2 out).ec = SCC_ER_OK →
        sort_index_ok dg.vertices
          (inwards_loop clabel_max mem dg true stop 0 (fun _ => false)
            (iscc_fs_sort_by_inwards mem dg true).2 out).sort) ∧
    (∀ nng, (iscc_exclusion_graph mem nng (exclusion_init nng)).1 = SCC_ER_OK →
      (iscc_exclusion_graph mem nng (exclusion_init nng)).2 = dg →
      (iscc_fs_sort_by_inwards mem dg true).1 = SCC_ER_OK →
      ∀ clabel_max out stop,
        (exclusion_loop clabel_max mem dg true stop 0 (exclusion_init nng)
          (iscc_fs_sort_by_inwards mem dg true).2 out).ec = SCC_ER_OK →
        sort_index_ok dg.vertices
          (exclusion_loop clabel_max mem dg true stop 0 (exclusion_init nng)
            (iscc_fs_sort_by_inwards mem dg true).2 out).sort) := by
  refine ⟨?_, ?_, ?_, ?_⟩
  · intro hok
    exact (sort_by_inwards_SortInv mem dg hok).1.index_ok
  · intro m cur v sr hinv hv hpos hkey
    have h := (decrease_SortInv dg.vertices m cur v sr hinv hv hpos hkey).1
    exact ⟨h.index_ok, h⟩
  · intro hd hsort clabel_max out stop hstop hok
    exact (inwards_updating_scan_inv clabel_max mem dg hs hd hsort out stop hstop hok).index_ok
  · intro nng he heg hsort clabel_max out stop hok
    subst heg
    have h := exclusion_updating_scan_inv clabel_max mem nng he hsort out stop hok
    rw [← exclusion_graph_vertices mem nng (exclusion_init nng) he] at h
    exact h.index_ok

set_option maxRecDepth 100000 in
theorem sort_index_maintained_witness :
    (iscc_fs_sort_by_inwards mem_ok nng_S2 true).1 = SCC_ER_OK ∧
    sort_index_ok nng_S2.vertices (iscc_fs_sort_by_inwards mem_ok nng_S2 true).2 :=
  ⟨by decide, (sort_index_maintained mem_ok nng_S2 (by decide)).1 (by decide)⟩

/-! ## Neighbours are distinct members of the search set -/

/-- C29: for every query number `qp` of a successful search whose search set is enumerated
without a repeated entry, every neighbour written for the query (the entries before the
`SCC_VID_MAX` fill) is a member of the search set, and no vertex appears twice among
them. -/
theorem nn_search_members_once (sqrt : ℚ → ℚ) (mem : Mem) (so : scc_NNSearchObject)
    (n_query_points : Nat) (query_indices : Option (List Nat)) (nn_indices : Nat → Nat)
    (nn_dists : Option (Nat → ℚ)) (qp : Nat) (hq : qp < n_query_points)
    (hok : (scc_nearest_neighbor_search sqrt mem so n_query_points query_indices nn_indices
      nn_dists).1 = true)
    (hnd : so.search_set.Nodup) :
    (∀ x, x ∈ nn_block (scc_nearest_neighbor_search sqrt mem so n_query_points query_indices
          nn_indices nn_dists).2.1 (qp * so.k)
        (min so.k (nn_admissible_list sqrt so (nn_query query_indices qp)).length) →
      x ∈ so.search_set) ∧
    (nn_block (scc_nearest_neighbor_search sqrt mem so n_query_points query_indices
        nn_indices nn_dists).2.1 (qp * so.k)
      (min so.k (nn_admissible_list sqrt so (nn_query query_indices qp)).length)).Nodup := by
  have h1 := (nn_search_indices sqrt mem so n_query_points query_indices nn_indices nn_dists
    qp hq hok).1
  rw [length_take_nn_sorted] at h1
  rw [h1]
  have hperm := nn_sorted_perm sqrt so (nn_query query_indices qp)
  have hadm : (nn_admissible_list sqrt so (nn_query query_indices qp)).Nodup := by
    unfold nn_admissible_list
    exact hnd.filter _
  refine ⟨?_, ?_⟩
  · intro x hx
    have hx2 := hperm.mem_iff.mp (List.mem_of_mem_take hx)
    unfold nn_admissible_list at hx2
    exact (List.mem_filter.mp hx2).1
  · exact (hperm.nodup_iff.mpr hadm).sublist (List.take_sublist _ _)

theorem nn_search_members_once_witness :
    so_S4.search_set = [0, 1, 2] ∧
    (nn_block (scc_nearest_neighbor_search sqrt_S4 mem_ok so_S4 3 none (fun _ => 0)
        none).2.1 (2 * so_S4.k)
      (min so_S4.k (nn_admissible_list sqrt_S4 so_S4 (nn_query none 2)).length)).Nodup :=
  ⟨by decide,
    (nn_search_members_once sqrt_S4 mem_ok so_S4 3 none (fun _ => 0) none 2 (by decide) rfl
      (by decide)).2⟩

/-! ## The index output does not depend on the distance output -/

theorem nn_bubble_frame_hi :
    ∀ (n ci cd : Nat) (a : (Nat → Nat) × (Nat → ℚ)) (i : Nat), ci < i →
      (nn_bubble n ci cd a).1 i = a.1 i := by
  intro n
  induction n with
  | zero => intro ci cd a i _; rfl
  | succ n ih =>
    intro ci cd a i hi
    rw [nn_bubble]
    split_ifs
    · rw [ih _ _ _ i (by omega)]
      dsimp only
      rw [Function.update_noteq (by omega), Function.update_noteq (by omega)]
    · rfl

theorem nn_visit_frame_hi (sqrt : ℚ → ℚ) (so : scc_NNSearchObject) (q ib db : Nat)
    (idx0 : Nat → Nat) (dst0 : Nat → ℚ) (w : List Nat) (st : NNState) (c : Nat)
    (hk : 1 ≤ so.k)
    (hinv : WindowInv (iscc_get_dist sqrt so.data_set_object q) so.k ib db idx0 dst0 w st)
    (i : Nat) (hi : ib + so.k ≤ i) :
    (nn_visit sqrt so q db (db + so.k) st c).nn_indices i = st.nn_indices i := by
  obtain ⟨i1, i2, i3, _, _, _, _⟩ := hinv
  unfold nn_visit
  dsimp only
  by_cases hc : (so.radius_search &&
      decide (iscc_get_dist sqrt so.data_set_object q c ≥ so.radius)) = true
  · rw [if_pos hc]
  · rw [if_neg hc]
    by_cases hfull : st.dist_pos ≠ db + so.k
    · rw [if_pos hfull]
      dsimp only
      rw [nn_bubble_frame_hi _ _ _ _ i (by omega)]
      dsimp only
      rw [Function.update_noteq (by omega)]
    · rw [if_neg hfull]
      have hfull' : st.dist_pos = db + so.k := not_not.mp hfull
      by_cases hgt : st.dists (st.dist_pos - 1) >
          iscc_get_dist sqrt so.data_set_object q c
      · rw [if_pos hgt]
        dsimp only
        rw [nn_bubble_frame_hi _ _ _ _ i (by omega)]
        dsimp only
        rw [Function.update_noteq (by omega)]
      · rw [if_neg hgt]
        dsimp only
        rw [nn_bubble_frame_hi _ _ _ _ i (by omega)]

theorem nn_fold_frame_hi (sqrt : ℚ → ℚ) (so : scc_NNSearchObject) (q ib db : Nat)
    (idx0 : Nat → Nat) (dst0 : Nat → ℚ) (hk : 1 ≤ so.k) (i : Nat) (hi : ib + so.k ≤ i) :
    ∀ (cs done : List Nat) (st : NNState),
      WindowInv (iscc_get_dist sqrt so.data_set_object q) so.k ib db idx0 dst0
        ((List.insertionSort
          (fun a b => iscc_get_dist sqrt so.data_set_object q a ≤
            iscc_get_dist sqrt so.data_set_object q b)
          (done.filter (nn_admissible sqrt so q))).take so.k) st →
      (cs.foldl (nn_visit sqrt so q db (db + so.k)) st).nn_indices i = st.nn_indices i := by
  intro cs
  induction cs with
  | nil => intro done st _; rfl
  | cons c cs ih =>
    intro done st h
    have h1 := nn_visit_window sqrt so q ib db idx0 dst0 done c st hk h
    rw [List.foldl_cons, ih (done ++ [c]) _ h1]
    exact nn_visit_frame_hi sqrt so q ib db idx0 dst0 _ st c hk h i hi

theorem nn_fill_frame_hi : ∀ (m : Nat) (st : NNState) (i : Nat), st.index_pos + m ≤ i →
    (nn_fill m st).nn_indices i = st.nn_indices i := by
  intro m
  induction m with
  | zero => intro st i _; rfl
  | succ m ih =>
    intro st i hi
    rw [nn_fill, ih _ i (by dsimp only; omega)]
    dsimp only
    rw [Function.update_noteq (by omega)]

theorem nn_query_step_frame_hi (sqrt : ℚ → ℚ) (so : scc_NNSearchObject)
    (query_indices : Option (List Nat)) (scratch : Bool) (st : NNState) (qp : Nat)
    (hk : 1 ≤ so.k) (i : Nat) (hi : st.index_pos + so.k ≤ i) :
    (nn_query_step sqrt so query_indices scratch st qp).nn_indices i = st.nn_indices i := by
  generalize hdb : (if scratch then 0 else st.dist_pos) = db
  generalize hst0 : (if scratch then { st with dist_pos := 0 } else st : NNState) = st0
  have h01 : st0.nn_indices = st.nn_indices := by
    rw [← hst0]; cases scratch <;> rfl
  have h02 : st0.dists = st.dists := by
    rw [← hst0]; cases scratch <;> rfl
  have h03 : st0.index_pos = st.index_pos := by
    rw [← hst0]; cases scratch <;> rfl
  have h04 : st0.dist_pos = db := by
    rw [← hst0, ← hdb]; cases scratch <;> rfl
  have hinit : WindowInv (iscc_get_dist sqrt so.data_set_object (nn_query query_indices qp))
      so.k st.index_pos db st.nn_indices st.dists
      ((List.insertionSort
        (fun a b =>
          iscc_get_dist sqrt so.data_set_object (nn_query query_indices qp) a ≤
            iscc_get_dist sqrt so.data_set_object (nn_query query_indices qp) b)
        (([] : List Nat).filter (nn_admissible sqrt so (nn_query query_indices qp)))).take
          so.k) st0 := by
    refine ⟨by simp, by simpa using h03, by simpa using h04, by simp [nn_block], ?_, ?_, ?_⟩
    · intro j hj; simp at hj
    · intro i _; rw [h01]
    · intro i _; rw [h02]
  have hw := nn_fold_window sqrt so (nn_query query_indices qp) st.index_pos db st.nn_indices
    st.dists hk so.search_set [] st0 hinit
  have hf := nn_fold_frame_hi sqrt so (nn_query query_indices qp) st.index_pos db
    st.nn_indices st.dists hk i hi so.search_set [] st0 hinit
  have hstep : nn_query_step sqrt so query_indices scratch st qp =
      nn_fill (db + so.k - (so.search_set.foldl
          (nn_visit sqrt so (nn_query query_indices qp) db (db + so.k)) st0).dist_pos)
        (so.search_set.foldl
          (nn_visit sqrt so (nn_query query_indices qp) db (db + so.k)) st0) := by
    unfold nn_query_step
    dsimp only
    rw [hst0, h04, scc_NNSearchObject.search_set, List.foldl_map]
  rw [hstep]
  generalize so.search_set.foldl
    (nn_visit sqrt so (nn_query query_indices qp) db (db + so.k)) st0 = st1 at hw hf ⊢
  obtain ⟨i1, i2, i3, _, _, _, _⟩ := hw
  rw [nn_fill_frame_hi _ _ i (by omega), hf, h01]

theorem nn_outer_frame_hi (sqrt : ℚ → ℚ) (so : scc_NNSearchObject)
    (query_indices : Option (List Nat)) (scratch : Bool) (st_init : NNState)
    (hk : 1 ≤ so.k) (h0 : st_init.index_pos = 0) (h0' : st_init.dist_pos = 0) :
    ∀ t i, t * so.k ≤ i →
      ((List.range t).foldl (nn_query_step sqrt so query_indices scratch) st_init).nn_indices i =
        st_init.nn_indices i := by
  intro t
  induction t with
  | zero => intro i _; rfl
  | succ t ih =>
    intro i hi
    have hmul : (t + 1) * so.k = t * so.k + so.k := Nat.succ_mul t so.k
    rw [List.range_succ, List.foldl_append, List.foldl_cons, List.foldl_nil]
    have hpos := (nn_outer_inv sqrt so query_indices scratch st_init hk h0 h0' t).1
    rw [nn_query_step_frame_hi sqrt so query_indices scratch _ t hk i (by rw [hpos]; omega)]
    exact ih i (by omega)

theorem nn_search_frame_hi (sqrt : ℚ → ℚ) (mem : Mem) (so : scc_NNSearchObject)
    (n_query_points : Nat) (query_indices : Option (List Nat)) (nn_indices : Nat → Nat)
    (nn_dists : Option (Nat → ℚ)) (hk : 1 ≤ so.k) (i : Nat)
    (hi : n_query_points * so.k ≤ i) :
    (scc_nearest_neighbor_search sqrt mem so n_query_points query_indices nn_indices
      nn_dists).2.1 i = nn_indices i := by
  cases nn_dists with
  | none =>
    unfold scc_nearest_neighbor_search
    dsimp only
    split_ifs
    · rfl
    · exact nn_outer_frame_hi sqrt so query_indices true
        { nn_indices := nn_indices, dists := fun _ => 0, index_pos := 0, dist_pos := 0 }
        hk rfl rfl n_query_points i hi
  | some d =>
    exact nn_outer_frame_hi sqrt so query_indices false
      { nn_indices := nn_indices, dists := d, index_pos := 0, dist_pos := 0 }
      hk rfl rfl n_query_points i hi

theorem nn_search_slot (sqrt : ℚ → ℚ) (mem : Mem) (so : scc_NNSearchObject)
    (n_query_points : Nat) (query_indices : Option (List Nat)) (nn_indices : Nat → Nat)
    (nn_dists : Option (Nat → ℚ)) (qp j : Nat) (hq : qp < n_query_points) (hj : j < so.k)
    (hok : (scc_nearest_neighbor_search sqrt mem so n_query_points query_indices nn_indices
      nn_dists).1 = true) :
    (scc_nearest_neighbor_search sqrt mem so n_query_points query_indices nn_indices
        nn_dists).2.1 (qp * so.k + j) =
      if j < ((nn_sorted sqrt so (nn_query query_indices qp)).take so.k).length then
        ((nn_sorted sqrt so (nn_query query_indices qp)).take so.k).getD j 0
      else SCC_VID_MAX := by
  obtain ⟨h1, h2⟩ := nn_search_indices sqrt mem so n_query_points query_indices nn_indices
    nn_dists qp hq hok
  by_cases hlt : j < ((nn_sorted sqrt so (nn_query query_indices qp)).take so.k).length
  · rw [if_pos hlt]
    have hg := getD_nn_block (scc_nearest_neighbor_search sqrt mem so n_query_points
      query_indices nn_indices nn_dists).2.1 (qp * so.k) _ j hlt
    rw [h1] at hg
    exact hg.symm
  · rw [if_neg hlt]
    exact h2 j (by omega) hj

/-- C28: for `k ≥ 1`, when the search without a distance output succeeds (its scratch
window is allocated), the index array it leaves is the same, slot by slot, as the index
array left by the search on the same input with a distance output array. -/
theorem nn_search_indices_independent_of_dists (sqrt : ℚ → ℚ) (mem : Mem)
    (so : scc_NNSearchObject) (n_query_points : Nat) (query_indices : Option (List Nat))
    (nn_indices : Nat → Nat) (nn_dists : Nat → ℚ) (hk : 1 ≤ so.k)
    (hok : (scc_nearest_neighbor_search sqrt mem so n_query_points query_indices nn_indices
      none).1 = true) :
    (scc_nearest_neighbor_search sqrt mem so n_query_points query_indices nn_indices
        (some nn_dists)).1 = true ∧
    (scc_nearest_neighbor_search sqrt mem so n_query_points query_indices nn_indices none).2.1 =
      (scc_nearest_neighbor_search sqrt mem so n_query_points query_indices nn_indices
        (some nn_dists)).2.1 := by
  refine ⟨rfl, ?_⟩
  funext p
  by_cases hp : p < n_query_points * so.k
  · have hdm : p / so.k * so.k + p % so.k = p := by
      rw [Nat.mul_comm]; exact Nat.div_add_mod p so.k
    have hq : p / so.k < n_query_points := Nat.div_lt_of_lt_mul (by rw [Nat.mul_comm]; exact hp)
    have hj : p % so.k < so.k := Nat.mod_lt _ (by omega)
    rw [← hdm, nn_search_slot sqrt mem so n_query_points query_indices nn_indices none _ _ hq hj
      hok, nn_search_slot sqrt mem so n_query_points query_indices nn_indices (some nn_dists)
      _ _ hq hj rfl]
  · rw [nn_search_frame_hi sqrt mem so n_query_points query_indices nn_indices none hk p
      (by omega), nn_search_frame_hi sqrt mem so n_query_points query_indices nn_indices
      (some nn_dists) hk p (by omega)]

theorem nn_search_indices_independent_of_dists_witness :
    (scc_nearest_neighbor_search sqrt_S4 mem_ok so_S4 3 none (fun _ => 0) none).2.1 =
      (scc_nearest_neighbor_search sqrt_S4 mem_ok so_S4 3 none (fun _ => 0)
        (some (fun _ => 7))).2.1 :=
  (nn_search_indices_independent_of_dists sqrt_S4 mem_ok so_S4 3 none (fun _ => 0)
    (fun _ => 7) (by decide) rfl).2

/-! ## The balanced-digraph test helper -/

theorem balanced_loop_iff (dg : iscc_Digraph) (a : Nat) :
    ∀ n i, balanced_loop dg a n i = true ↔ ∀ j, i ≤ j → j < i + n → dg.tp j = j * a := by
  intro n
  induction n with
  | zero => intro i; simp [balanced_loop]; intro j h1 h2; omega
  | succ n ih =>
    intro i
    rw [balanced_loop]
    by_cases h : dg.tp i = i * a
    · rw [if_neg (not_not.mpr h), ih]
      constructor
      · intro hh j h1 h2
        by_cases hj : j = i
        · rw [hj]; exact h
        · exact hh j (by omega) (by omega)
      · intro hh j h1 h2
        exact hh j (by omega) (by omega)
    · rw [if_pos h]
      constructor
      · intro hh; exact absurd hh (by decide)
      · intro hh; exact absurd (hh i (le_refl _) (by omega)) h

theorem assert_balanced_digraph_iff (dg : iscc_Digraph) (vertices a : Nat) :
    assert_balanced_digraph dg vertices a = true ↔
      dg.vertices = vertices ∧ iscc_digraph_is_sound dg ∧
        (dg.tp vertices = 0 ∨ ∀ i, i ≤ vertices → dg.tp i = i * a) := by
  unfold assert_balanced_digraph thm_sound_digraph
  by_cases hs : dg.vertices = vertices ∧ iscc_digraph_is_sound dg
  · rw [decide_eq_true hs]
    by_cases h0 : dg.tp vertices = 0
    · simp [h0, hs.1, hs.2]
    · have e : (!true) = false := rfl
      rw [e, if_neg (by decide), if_pos h0, balanced_loop_iff]
      constructor
      · intro hh
        exact ⟨hs.1, hs.2, Or.inr (fun i hi => hh i (Nat.zero_le _) (by omega))⟩
      · rintro ⟨_, _, hh | hh⟩
        · exact absurd hh h0
        · intro j _ hj; exact hh j (by omega)
  · rw [decide_eq_false hs]
    constructor
    · intro hh; exact absurd hh (by simp)
    · rintro ⟨h1, h2, _⟩; exact absurd ⟨h1, h2⟩ hs

/-- C30: for a digraph `dg` with the given vertex count, `_assert_balanced_digraph`
accepts `dg` iff `dg` is sound and either `tail_ptr[vertices]` is 0 or
`tail_ptr[i] = i * arcs_per_vertex` for every `i ≤ vertices`; an accepted digraph with at
least one arc has exactly `arcs_per_vertex` arcs at every vertex, and a sound digraph
without arcs is accepted for every `arcs_per_vertex`. -/
theorem assert_balanced_digraph_accepts (dg : iscc_Digraph) (vertices arcs_per_vertex : Nat)
    (hv : dg.vertices = vertices) :
    (assert_balanced_digraph dg vertices arcs_per_vertex = true ↔
      iscc_digraph_is_sound dg ∧
        (dg.tp vertices = 0 ∨ ∀ i, i ≤ vertices → dg.tp i = i * arcs_per_vertex)) ∧
    (assert_balanced_digraph dg vertices arcs_per_vertex = true → dg.tp vertices ≠ 0 →
      ∀ v, v < vertices → (dg.arcs v).length = arcs_per_vertex) ∧
    (iscc_digraph_is_sound dg → dg.tp vertices = 0 →
      ∀ a, assert_balanced_digraph dg vertices a = true) := by
  refine ⟨?_, ?_, ?_⟩
  · rw [assert_balanced_digraph_iff]
    exact ⟨fun h => ⟨h.2.1, h.2.2⟩, fun h => ⟨hv, h.1, h.2⟩⟩
  · intro hacc hne v hlt
    obtain ⟨_, _, h0 | hall⟩ := (assert_balanced_digraph_iff dg vertices arcs_per_vertex).mp hacc
    · exact absurd h0 hne
    · rw [length_arcs, hall v (by omega), hall (v + 1) (by omega), Nat.succ_mul]
      omega
  · intro hs h0 a
    exact (assert_balanced_digraph_iff dg vertices a).mpr ⟨hv, hs, Or.inl h0⟩

theorem assert_balanced_digraph_accepts_witness :
    assert_balanced_digraph nng_S1 4 1 = true ∧ nng_S1.tp 4 ≠ 0 ∧
      ∀ v, v < 4 → (nng_S1.arcs v).length = 1 :=
  ⟨by decide, by decide,
    (assert_balanced_digraph_accepts nng_S1 4 1 rfl).2.1 (by decide) (by decide)⟩

/-! ## Arcs of the exclusion graph and overlap of closed neighbourhoods -/

/-- C24: on scenario S1 the Lexical finder, started on an empty result of capacity 128,
allocates the seed array and then, vertex 0 being a valid seed, calls `iscc_fs_add_seed`
on a result whose `seeds` is not NULL, so the entry assertions of `iscc_fs_add_seed` do
not hold at that call, although `capacity >= 128` and `count <= capacity` do; and after
any successful `iscc_fs_add_seed` the array is not NULL either. -/
theorem add_seed_entry_assertion_fails_on_S1 :
    iscc_digraph_is_sound nng_S1 ∧ no_self_loops nng_S1 ∧ no_duplicate_arcs nng_S1 ∧
    iscc_fs_check_neighbors_marks 0 nng_S1 (fun _ => false) = true ∧
    iscc_findseeds_lexical 1000 mem_ok nng_S1 { capacity := 128, count := 0, seeds := none } =
      lexical_loop 1000 mem_ok nng_S1 3 1
        (iscc_fs_mark_seed_neighbors 0 nng_S1 (fun _ => false))
        (iscc_fs_add_seed 1000 mem_ok 0
          { capacity := 128, count := 0, seeds := some (fun _ => 0) }).2 ∧
    ¬ add_seed_asserts { capacity := 128, count := 0, seeds := some (fun _ => 0) } ∧
    (∀ (clabel_max : Nat) (mem : Mem) (s : Nat) (out_seeds : iscc_SeedResult),
      (iscc_fs_add_seed clabel_max mem s out_seeds).1 = SCC_ER_OK →
        ¬ add_seed_asserts (iscc_fs_add_seed clabel_max mem s out_seeds).2) := by
  refine ⟨by decide, by decide, by decide, by decide, rfl, ?_, ?_⟩
  · intro h
    exact absurd h.1 (by simp)
  · intro clabel_max mem s out_seeds hok h
    have hs := h.1
    unfold iscc_fs_add_seed at hok hs
    dsimp only at hok hs
    split_ifs at hok hs <;> simp_all

/-! ## The recorded scans compute what the scans compute -/

theorem foldl_trace_fst {α : Type} (dec : Nat → iscc_fs_SortResult → iscc_fs_SortResult)
    (g : iscc_fs_SortResult → Nat → Bool) (ev : Nat → iscc_fs_SortResult → α) :
    ∀ (T : List Nat) (st : iscc_fs_SortResult × List α),
      (T.foldl (fun (st : iscc_fs_SortResult × List α) w =>
          if g st.1 w then (dec w st.1, st.2 ++ [ev w st.1]) else st) st).1 =
        T.foldl (fun sr w => if g sr w then dec w sr else sr) st.1 := by
  intro T
  induction T with
  | nil => intro st; rfl
  | cons a T ih =>
    intro st
    rw [List.foldl_cons, List.foldl_cons, ih]
    by_cases h : g st.1 a = true
    · rw [if_pos h, if_pos h]
    · rw [if_neg h, if_neg h]

/-! ## The innermost loop of the updates -/

theorem decrease_fold_trace_cons (stable : Bool) (g : iscc_fs_SortResult → Nat → Bool)
    (cur a : Nat) (T : List Nat) (st : iscc_fs_SortResult × List ScanEvent) :
    decrease_fold_trace stable g cur (a :: T) st =
      decrease_fold_trace stable g cur T
        (if g st.1 a then
          (decrease_in_build stable a st.1 cur, st.2 ++ [ScanEvent.decrease a st.1 cur])
        else st) := rfl

theorem decrease_fold_trace_inv (stable : Bool) (n m cur : Nat)
    (hdec : decrease_step_ok stable n m) (g : iscc_fs_SortResult → Nat → Bool)
    (sr0 : iscc_fs_SortResult)
    (hg : ∀ sr w, w < n → BuildInv stable n m (cur + 1) sr →
      (∀ i, i ≤ cur → sr.sorted_vertices i = sr0.sorted_vertices i) →
      g sr w = true → cur < sr.vertex_index w) :
    ∀ (T : List Nat) (st : iscc_fs_SortResult × List ScanEvent) (d : Nat → Nat),
      (∀ w, w ∈ T → w < n) →
      BuildInv stable n m (cur + 1) st.1 →
      (∀ i, i ≤ cur → st.1.sorted_vertices i = sr0.sorted_vertices i) →
      (∀ w, sr0.inwards_count w ≤ st.1.inwards_count w + d w) →
      (∀ w, d w + T.count w ≤ sr0.inwards_count w) →
      BuildInv stable n m (cur + 1) (decrease_fold_trace stable g cur T st).1 ∧
      (∀ i, i ≤ cur →
        (decrease_fold_trace stable g cur T st).1.sorted_vertices i =
          sr0.sorted_vertices i) ∧
      (∀ w, sr0.inwards_count w ≤
        (decrease_fold_trace stable g cur T st).1.inwards_count w + d w + T.count w) ∧
      (∀ e, e ∈ (decrease_fold_trace stable g cur T st).2 →
        e ∈ st.2 ∨ ∃ v sr, e = ScanEvent.decrease v sr cur ∧
          decrease_call_ok stable n m v sr cur) ∧
      (∀ w, (∀ sr, BuildInv stable n m (cur + 1) sr →
          (∀ i, i ≤ cur → sr.sorted_vertices i = sr0.sorted_vertices i) → g sr w = true) →
        (decrease_fold_trace stable g cur T st).1.inwards_count w =
          st.1.inwards_count w - T.count w) := by
  intro T
  induction T with
  | nil =>
    intro st d _ h1 h2 h3 _
    exact ⟨h1, h2, by simpa using h3, fun e he => Or.inl he, fun w _ => by simp
      [decrease_fold_trace]⟩
  | cons a T ih =>
    intro st d hT h1 h2 h3 h4
    rw [decrease_fold_trace_cons]
    have ha : a < n := hT a (List.mem_cons_self _ _)
    have hT' : ∀ w, w ∈ T → w < n := fun w hw => hT w (List.mem_cons_of_mem _ hw)
    have hd' : ∀ w, (d w + if w = a then 1 else 0) + T.count w ≤ sr0.inwards_count w := by
      intro w
      have := h4 w
      rw [List.count_cons] at this
      by_cases hw : w = a
      · subst hw; simp at this ⊢; omega
      · have hw' : ¬ (a == w) = true := by simpa using fun e => hw e.symm
        simp [hw, hw'] at this ⊢; omega
    have hfin : ∀ sr1 : iscc_fs_SortResult,
        (∀ w, sr0.inwards_count w ≤ sr1.inwards_count w + (d w + if w = a then 1 else 0) +
          T.count w) →
        ∀ w, sr0.inwards_count w ≤ sr1.inwards_count w + d w + (a :: T).count w := by
      intro sr1 hh w
      have := hh w
      rw [List.count_cons]
      by_cases hw : w = a
      · subst hw; simp at this ⊢; omega
      · have hw' : ¬ (a == w) = true := by simpa using fun e => hw e.symm
        simp [hw, hw'] at this ⊢; omega
    by_cases hga : g st.1 a = true
    · rw [if_pos hga]
      have hk : 1 ≤ st.1.inwards_count a := by
        have e1 := h3 a
        have e2 := h4 a
        rw [List.count_cons_self] at e2
        omega
      have hcall : decrease_call_ok stable n m a st.1 cur :=
        ⟨h1, ha, hg st.1 a ha h1 h2 hga, hk⟩
      obtain ⟨i1, i2, hc⟩ := hdec a st.1 cur hcall
      obtain ⟨r1, r2, r3, r4, r5⟩ := ih
        (decrease_in_build stable a st.1 cur, st.2 ++ [ScanEvent.decrease a st.1 cur])
        (fun w => d w + if w = a then 1 else 0) hT' i1
        (fun i hi => by rw [i2 i hi, h2 i hi])
        (fun w => by
          dsimp only
          rw [hc]
          have := h3 w
          by_cases hw : w = a
          · subst hw; simp; omega
          · simp [Function.update_noteq hw, hw]; omega)
        hd'
      refine ⟨r1, r2, hfin _ r3, ?_, ?_⟩
      · intro e he
        rcases r4 e he with h | h
        · rcases List.mem_append.mp h with h | h
          · exact Or.inl h
          · rw [List.mem_singleton] at h
            exact Or.inr ⟨a, st.1, h, hcall⟩
        · exact Or.inr h
      · intro w hw
        rw [r5 w hw]
        dsimp only
        rw [hc, List.count_cons]
        by_cases e : w = a
        · subst e; simp; omega
        · have hw' : ¬ (a == w) = true := by simpa using fun e' => e e'.symm
          simp [Function.update_noteq e, hw']
    · rw [if_neg hga]
      obtain ⟨r1, r2, r3, r4, r5⟩ := ih st (fun w => d w + if w = a then 1 else 0) hT' h1 h2
        (fun w => by
          have := h3 w
          show sr0.inwards_count w ≤ st.1.inwards_count w + (d w + if w = a then 1 else 0)
          omega) hd'
      refine ⟨r1, r2, hfin _ r3, r4, ?_⟩
      intro w hw
      rw [r5 w hw, List.count_cons]
      have e : w ≠ a := by
        intro e
        rw [e] at hw
        exact hga (hw st.1 h1 h2)
      have hw' : ¬ (a == w) = true := by simpa using fun e' => e e'.symm
      simp [hw']

theorem decrease_step_ok_default (n m : Nat) : decrease_step_ok false n m := by
  intro v sr cur hcall
  obtain ⟨⟨h1, _⟩, hv, hpos, hkey⟩ := hcall
  obtain ⟨i1, i2⟩ := decrease_SortInv n m cur v sr h1 hv hpos hkey
  exact ⟨⟨i1, fun h => absurd h (by decide)⟩, i2, (decrease_fields v sr cur).1⟩

theorem BuildInv.weaken {stable : Bool} {n m lo lo' : Nat} {sr : iscc_fs_SortResult}
    (h : BuildInv stable n m lo sr) (hle : lo ≤ lo') : BuildInv stable n m lo' sr :=
  ⟨h.1.mono hle, fun hst p hp hn => h.2 hst p (by omega) hn⟩

/-- In a consistent sort structure a vertex that lay behind the cursor still lies behind
it when the entries up to the cursor are those of the earlier structure. -/
theorem pending_stays (n m cur : Nat) (sr0 sr : iscc_fs_SortResult)
    (h0 : SortInv n (cur + 1) m sr0) (h : SortInv n (cur + 1) m sr)
    (hf : ∀ i, i ≤ cur → sr.sorted_vertices i = sr0.sorted_vertices i)
    (w : Nat) (hw : w < n) (hp : cur < sr0.vertex_index w) : cur < sr.vertex_index w := by
  by_contra hle
  have hle' : sr.vertex_index w ≤ cur := by omega
  have e1 := h.sorted_vidx w hw
  rw [hf _ hle'] at e1
  have hlt : sr.vertex_index w < n := h.vidx_lt w hw
  have e2 := (h0.perm (sr.vertex_index w) hlt).2
  rw [e1] at e2
  omega

/-! ## The update of the inwards scan, with its record -/

theorem inwards_update_trace_eq (stable : Bool) (nng : iscc_Digraph) (marks : Nat → Bool)
    (pos seed : Nat) (st : iscc_fs_SortResult × List ScanEvent) :
    inwards_update_trace stable nng marks pos seed st =
      decrease_fold_trace stable
        (fun sr w => !marks w && decide (pos < sr.vertex_index w)) pos
        ((nng.arcs seed).flatMap nng.arcs) st := by
  unfold inwards_update_trace decrease_fold_trace
  exact foldl_flatMap_eq _ nng.arcs (nng.arcs seed) st

theorem live_indegree_after_seed_le (nng : iscc_Digraph) (hs : iscc_digraph_is_sound nng)
    (hd : no_duplicate_arcs nng) (seed : Nat) (marks : Nat → Bool)
    (hseed : seed < nng.vertices)
    (hc : iscc_fs_check_neighbors_marks seed nng marks = true) (w : Nat) :
    ((nng.arcs seed).flatMap nng.arcs).count w +
      live_indegree nng (fun u => !(iscc_fs_mark_seed_neighbors seed nng marks) u) w ≤
      live_indegree nng (fun u => !marks u) w := by
  rw [check_neighbors_marks_true] at hc
  obtain ⟨_, _, hc3⟩ := hc
  rw [List.count_flatMap]
  refine live_indegree_remove_list nng w (nng.arcs seed) _ _ (hd seed hseed) ?_ ?_
  · intro a ha
    refine ⟨mem_arcs_lt nng hs seed a hseed ha, by simp [hc3 a ha], ?_⟩
    have : iscc_fs_mark_seed_neighbors seed nng marks a = true :=
      (mark_seed_neighbors_true seed nng marks a).mpr (Or.inr (List.mem_cons_of_mem _ ha))
    simp [this]
  · intro u hu
    simp only [Bool.not_eq_true'] at hu ⊢
    by_contra hne
    have hm : marks u = true := by simpa using hne
    have : iscc_fs_mark_seed_neighbors seed nng marks u = true :=
      (mark_seed_neighbors_true seed nng marks u).mpr (Or.inl hm)
    rw [this] at hu
    exact absurd hu (by decide)

theorem inwards_update_trace_inv (stable : Bool) (nng : iscc_Digraph)
    (hs : iscc_digraph_is_sound nng) (hd : no_duplicate_arcs nng) (m : Nat)
    (hdec : decrease_step_ok stable nng.vertices m) (pos seed : Nat) (marks : Nat → Bool)
    (sort : iscc_fs_SortResult) (tr : List ScanEvent) (hseed : seed < nng.vertices)
    (hc : iscc_fs_check_neighbors_marks seed nng marks = true)
    (hinv : BuildInv stable nng.vertices m (pos + 1) sort)
    (hlb : ∀ w, live_indegree nng (fun u => !marks u) w ≤ sort.inwards_count w) :
    BuildInv stable nng.vertices m (pos + 1)
      (inwards_update_trace stable nng (iscc_fs_mark_seed_neighbors seed nng marks) pos seed
        (sort, tr)).1 ∧
    (∀ i, i ≤ pos →
      (inwards_update_trace stable nng (iscc_fs_mark_seed_neighbors seed nng marks) pos seed
        (sort, tr)).1.sorted_vertices i = sort.sorted_vertices i) ∧
    (∀ w, live_indegree nng (fun u => !(iscc_fs_mark_seed_neighbors seed nng marks) u) w ≤
      (inwards_update_trace stable nng (iscc_fs_mark_seed_neighbors seed nng marks) pos seed
        (sort, tr)).1.inwards_count w) ∧
    (∀ e, e ∈ (inwards_update_trace stable nng (iscc_fs_mark_seed_neighbors seed nng marks)
        pos seed (sort, tr)).2 → e ∈ tr ∨ ∃ v sr, e = ScanEvent.decrease v sr pos ∧
          decrease_call_ok stable nng.vertices m v sr pos) ∧
    (∀ w, w < nng.vertices → iscc_fs_mark_seed_neighbors seed nng marks w = false →
      pos < sort.vertex_index w →
      (inwards_update_trace stable nng (iscc_fs_mark_seed_neighbors seed nng marks) pos seed
        (sort, tr)).1.inwards_count w =
        sort.inwards_count w - ((nng.arcs seed).flatMap nng.arcs).count w) := by
  rw [inwards_update_trace_eq]
  have hcount := live_indegree_after_seed_le nng hs hd seed marks hseed hc
  obtain ⟨r1, r2, r3, r4, r5⟩ := decrease_fold_trace_inv stable nng.vertices m pos hdec
    (fun (sr : iscc_fs_SortResult) w =>
      !(iscc_fs_mark_seed_neighbors seed nng marks) w && decide (pos < sr.vertex_index w))
    sort
    (fun sr w _ _ _ hg => by
      simp only [Bool.and_eq_true, decide_eq_true_eq] at hg
      exact hg.2)
    ((nng.arcs seed).flatMap nng.arcs) (sort, tr) (fun _ => 0)
    (fun w hw => by
      rw [List.mem_flatMap] at hw
      obtain ⟨a, ha, hwa⟩ := hw
      exact mem_arcs_lt nng hs a w (mem_arcs_lt nng hs seed a hseed ha) hwa)
    hinv (fun _ _ => rfl) (fun w => by dsimp only; omega)
    (fun w => by
      have h1 := hcount w
      have h2 := hlb w
      dsimp only
      omega)
  refine ⟨r1, r2, ?_, r4, ?_⟩
  · intro w
    have h1 := hcount w
    have h2 := hlb w
    have h3 := r3 w
    omega
  · intro w hw hm hp
    refine r5 w ?_
    intro sr hsr hfr
    have := pending_stays nng.vertices m pos sort sr hinv.1 hsr.1 hfr w hw hp
    simp [hm, this]

/-! ## Invariants along the recorded scans -/

theorem inwards_trace_rule (stable : Bool) (clabel_max : Nat) (mem : Mem)
    (nng : iscc_Digraph) (stop : Nat)
    (P : Nat → (Nat → Bool) → iscc_fs_SortResult → List ScanEvent → Prop)
    (R : List ScanEvent → Prop)
    (hend : ∀ pos marks sort tr, P pos marks sort tr → R tr)
    (hfail : ∀ pos marks sort tr, pos < stop → P pos marks sort tr →
      R (tr ++ [ScanEvent.scan pos marks sort]))
    (hskip : ∀ pos marks sort tr, pos < stop → P pos marks sort tr →
      iscc_fs_check_neighbors_marks (sort.sorted_vertices pos) nng marks = false →
      P (pos + 1) marks sort (tr ++ [ScanEvent.scan pos marks sort]))
    (hseed : ∀ pos marks sort tr, pos < stop → P pos marks sort tr →
      iscc_fs_check_neighbors_marks (sort.sorted_vertices pos) nng marks = true →
      P (pos + 1) (iscc_fs_mark_seed_neighbors (sort.sorted_vertices pos) nng marks)
        (inwards_update_trace stable nng
          (iscc_fs_mark_seed_neighbors (sort.sorted_vertices pos) nng marks) pos
          (sort.sorted_vertices pos) (sort, tr ++ [ScanEvent.scan pos marks sort])).1
        (inwards_update_trace stable nng
          (iscc_fs_mark_seed_neighbors (sort.sorted_vertices pos) nng marks) pos
          (sort.sorted_vertices pos) (sort, tr ++ [ScanEvent.scan pos marks sort])).2) :
    ∀ n pos marks sort out tr, pos + n ≤ stop → P pos marks sort tr →
      R (inwards_loop_trace stable clabel_max mem nng n pos marks sort out tr).2 ∧
      ((inwards_loop_trace stable clabel_max mem nng n pos marks sort out tr).1.ec = SCC_ER_OK →
        P (pos + n)
          (inwards_loop_trace stable clabel_max mem nng n pos marks sort out tr).1.marks
          (inwards_loop_trace stable clabel_max mem nng n pos marks sort out tr).1.sort
          (inwards_loop_trace stable clabel_max mem nng n pos marks sort out tr).2) := by
  intro n
  induction n with
  | zero =>
    intro pos marks sort out tr _ hP
    exact ⟨hend _ _ _ _ hP, fun _ => hP⟩
  | succ n ih =>
    intro pos marks sort out tr hle hP
    have e : pos + (n + 1) = pos + 1 + n := by omega
    rw [e]
    unfold inwards_loop_trace
    dsimp only
    by_cases hc : iscc_fs_check_neighbors_marks (sort.sorted_vertices pos) nng marks = true
    · rw [if_pos hc]
      by_cases ha :
          (iscc_fs_add_seed clabel_max mem (sort.sorted_vertices pos) out).1 = SCC_ER_OK
      · rw [if_neg (not_not.mpr ha)]
        exact ih (pos + 1) _ _ _ _ (by omega) (hseed pos marks sort tr (by omega) hP hc)
      · rw [if_pos ha]
        exact ⟨hfail pos marks sort tr (by omega) hP, fun h => absurd h ha⟩
    · rw [if_neg hc]
      have hc' : iscc_fs_check_neighbors_marks (sort.sorted_vertices pos) nng marks = false := by
        simpa using hc
      exact ih (pos + 1) _ _ _ _ (by omega) (hskip pos marks sort tr (by omega) hP hc')

theorem exclusion_trace_rule (stable : Bool) (clabel_max : Nat) (mem : Mem)
    (eg : iscc_Digraph) (stop : Nat)
    (P : Nat → (Nat → Bool) → iscc_fs_SortResult → List ScanEvent → Prop)
    (R : List ScanEvent → Prop)
    (hend : ∀ pos ne sort tr, P pos ne sort tr → R tr)
    (hfail : ∀ pos ne sort tr, pos < stop → P pos ne sort tr →
      R (tr ++ [ScanEvent.scan pos ne sort]))
    (hskip : ∀ pos ne sort tr, pos < stop → P pos ne sort tr →
      ne (sort.sorted_vertices pos) = false →
      P (pos + 1) ne sort (tr ++ [ScanEvent.scan pos ne sort]))
    (hseed : ∀ pos ne sort tr, pos < stop → P pos ne sort tr →
      ne (sort.sorted_vertices pos) = true →
      P (pos + 1)
        (exclusion_update_trace stable eg pos (sort.sorted_vertices pos)
          (Function.update ne (sort.sorted_vertices pos) false, sort,
            tr ++ [ScanEvent.scan pos ne sort])).1
        (exclusion_update_trace stable eg pos (sort.sorted_vertices pos)
          (Function.update ne (sort.sorted_vertices pos) false, sort,
            tr ++ [ScanEvent.scan pos ne sort])).2.1
        (exclusion_update_trace stable eg pos (sort.sorted_vertices pos)
          (Function.update ne (sort.sorted_vertices pos) false, sort,
            tr ++ [ScanEvent.scan pos ne sort])).2.2) :
    ∀ n pos ne sort out tr, pos + n ≤ stop → P pos ne sort tr →
      R (exclusion_loop_trace stable clabel_max mem eg n pos ne sort out tr).2 ∧
      ((exclusion_loop_trace stable clabel_max mem eg n pos ne sort out tr).1.ec = SCC_ER_OK →
        P (pos + n)
          (exclusion_loop_trace stable clabel_max mem eg n pos ne sort out tr).1.marks
          (exclusion_loop_trace stable clabel_max mem eg n pos ne sort out tr).1.sort
          (exclusion_loop_trace stable clabel_max mem eg n pos ne sort out tr).2) := by
  intro n
  induction n with
  | zero =>
    intro pos ne sort out tr _ hP
    exact ⟨hend _ _ _ _ hP, fun _ => hP⟩
  | succ n ih =>
    intro pos ne sort out tr hle hP
    have e : pos + (n + 1) = pos + 1 + n := by omega
    rw [e]
    unfold exclusion_loop_trace
    dsimp only
    by_cases hc : ne (sort.sorted_vertices pos) = true
    · rw [if_pos hc]
      by_cases ha :
          (iscc_fs_add_seed clabel_max mem (sort.sorted_vertices pos) out).1 = SCC_ER_OK
      · rw [if_neg (not_not.mpr ha)]
        exact ih (pos + 1) _ _ _ _ (by omega) (hseed pos ne sort tr (by omega) hP hc)
      · rw [if_pos ha]
        exact ⟨hfail pos ne sort tr (by omega) hP, fun h => absurd h ha⟩
    · rw [if_neg hc]
      have hc' : ne (sort.sorted_vertices pos) = false := by simpa using hc
      exact ih (pos + 1) _ _ _ _ (by omega) (hskip pos ne sort tr (by omega) hP hc')

/-! ## The exclusion step, with its record -/

theorem exclusion_update_trace_eq (stable : Bool) (eg : iscc_Digraph) (pos seed : Nat)
    (st : (Nat → Bool) × iscc_fs_SortResult × List ScanEvent) :
    exclusion_update_trace stable eg pos seed st =
      exclusion_fold_trace stable eg pos (eg.arcs seed) st := rfl

theorem exclusion_fold_trace_cons (stable : Bool) (eg : iscc_Digraph) (pos a : Nat)
    (l : List Nat) (st : (Nat → Bool) × iscc_fs_SortResult × List ScanEvent) :
    exclusion_fold_trace stable eg pos (a :: l) st =
      exclusion_fold_trace stable eg pos l
        (if st.1 a then
          (Function.update st.1 a false,
            decrease_fold_trace stable (fun _ w => Function.update st.1 a false w) pos
              (eg.arcs a) st.2)
        else st) := rfl

theorem exclusion_fold_trace_inv (stable : Bool) (eg : iscc_Digraph)
    (heg : ∀ u w, w ∈ eg.arcs u → w < eg.vertices) (m pos : Nat)
    (hdec : decrease_step_ok stable eg.vertices m) (sr0 : iscc_fs_SortResult) :
    ∀ (l : List Nat) (st : (Nat → Bool) × iscc_fs_SortResult × List ScanEvent),
      (∀ a, a ∈ l → a < eg.vertices) →
      BuildInv stable eg.vertices m (pos + 1) st.2.1 →
      (∀ i, i ≤ pos → st.2.1.sorted_vertices i = sr0.sorted_vertices i) →
      (∀ w, live_indegree eg st.1 w ≤ st.2.1.inwards_count w) →
      (∀ i, i ≤ pos → st.1 (sr0.sorted_vertices i) = false) →
      BuildInv stable eg.vertices m (pos + 1) (exclusion_fold_trace stable eg pos l st).2.1 ∧
      (∀ i, i ≤ pos →
        (exclusion_fold_trace stable eg pos l st).2.1.sorted_vertices i =
          sr0.sorted_vertices i) ∧
      (∀ w, live_indegree eg (exclusion_fold_trace stable eg pos l st).1 w ≤
        (exclusion_fold_trace stable eg pos l st).2.1.inwards_count w) ∧
      (∀ e, e ∈ (exclusion_fold_trace stable eg pos l st).2.2 →
        e ∈ st.2.2 ∨ ∃ v sr, e = ScanEvent.decrease v sr pos ∧
          decrease_call_ok stable eg.vertices m v sr pos) ∧
      (∀ x, (exclusion_fold_trace stable eg pos l st).1 x = true → st.1 x = true) := by
  intro l
  induction l with
  | nil =>
    intro st _ h1 h2 h3 _
    exact ⟨h1, h2, h3, fun e he => Or.inl he, fun x hx => hx⟩
  | cons a l ih =>
    intro st hl h1 h2 h3 h4
    rw [exclusion_fold_trace_cons]
    have ha : a < eg.vertices := hl a (List.mem_cons_self _ _)
    have hl' : ∀ b, b ∈ l → b < eg.vertices := fun b hb => hl b (List.mem_cons_of_mem _ hb)
    by_cases hna : st.1 a = true
    · rw [if_pos hna]
      have hrem := fun w => live_indegree_remove eg st.1 a w ha hna
      obtain ⟨r1, r2, r3, r4, _⟩ := decrease_fold_trace_inv stable eg.vertices m pos hdec
        (fun (_ : iscc_fs_SortResult) w => Function.update st.1 a false w) st.2.1
        (fun sr w hw hsr hfr hg => by
          by_contra hle
          have hle' : sr.vertex_index w ≤ pos := by omega
          have e1 := hsr.1.sorted_vidx w hw
          rw [hfr _ hle', h2 _ hle'] at e1
          have e2 := h4 _ hle'
          rw [e1] at e2
          have hg' : Function.update st.1 a false w = true := hg
          by_cases hwa : w = a
          · rw [hwa, Function.update_same] at hg'
            exact absurd hg' (by decide)
          · rw [Function.update_noteq hwa, e2] at hg'
            exact absurd hg' (by decide))
        (eg.arcs a) st.2 (fun _ => 0)
        (fun w hw => heg a w hw) h1 (fun _ _ => rfl) (fun w => by omega)
        (fun w => by
          have e1 := hrem w
          have e2 := h3 w
          dsimp only
          omega)
      obtain ⟨q1, q2, q3, q4, q5⟩ := ih
        (Function.update st.1 a false,
          decrease_fold_trace stable (fun _ w => Function.update st.1 a false w) pos
            (eg.arcs a) st.2)
        hl' r1
        (fun i hi => by rw [r2 i hi, h2 i hi])
        (fun w => by
          have e1 := hrem w
          have e2 := h3 w
          have e3 := r3 w
          dsimp only at e3 ⊢
          omega)
        (fun i hi => by
          dsimp only
          by_cases e : sr0.sorted_vertices i = a
          · rw [e, Function.update_same]
          · rw [Function.update_noteq e]
            exact h4 i hi)
      refine ⟨q1, q2, q3, ?_, ?_⟩
      · intro e he
        rcases q4 e he with h | h
        · exact r4 e h
        · exact Or.inr h
      · intro x hx
        have := q5 x hx
        dsimp only at this
        by_cases e : x = a
        · rw [e]; exact hna
        · rwa [Function.update_noteq e] at this
    · rw [if_neg hna]
      exact ih st hl' h1 h2 h3 h4

/-! ## The examined vertices -/

theorem examined_append (tr1 tr2 : List ScanEvent) :
    examined (tr1 ++ tr2) = examined tr1 ++ examined tr2 := by
  induction tr1 with
  | nil => rfl
  | cons e tr1 ih =>
    cases e with
    | scan pos marks sort => simp [examined, ih]
    | decrease v sort cur => simp [examined, ih]

theorem examined_decrease_fold_trace (stable : Bool) (g : iscc_fs_SortResult → Nat → Bool)
    (cur : Nat) :
    ∀ (T : List Nat) (st : iscc_fs_SortResult × List ScanEvent),
      examined (decrease_fold_trace stable g cur T st).2 = examined st.2 := by
  intro T
  induction T with
  | nil => intro st; rfl
  | cons a T ih =>
    intro st
    rw [decrease_fold_trace_cons, ih]
    by_cases h : g st.1 a = true
    · rw [if_pos h]
      dsimp only
      rw [examined_append]
      simp [examined]
    · rw [if_neg h]

theorem examined_exclusion_fold_trace (stable : Bool) (eg : iscc_Digraph) (pos : Nat) :
    ∀ (l : List Nat) (st : (Nat → Bool) × iscc_fs_SortResult × List ScanEvent),
      examined (exclusion_fold_trace stable eg pos l st).2.2 = examined st.2.2 := by
  intro l
  induction l with
  | nil => intro st; rfl
  | cons a l ih =>
    intro st
    rw [exclusion_fold_trace_cons, ih]
    by_cases h : st.1 a = true
    · rw [if_pos h]
      dsimp only
      rw [examined_decrease_fold_trace]
    · rw [if_neg h]

theorem examined_scan_step (tr : List ScanEvent) (pos : Nat) (marks : Nat → Bool)
    (sort sort' : iscc_fs_SortResult)
    (h : examined tr = (List.range pos).map sort.sorted_vertices)
    (hf : ∀ i, i ≤ pos → sort'.sorted_vertices i = sort.sorted_vertices i) :
    examined (tr ++ [ScanEvent.scan pos marks sort]) =
      (List.range (pos + 1)).map sort'.sorted_vertices := by
  rw [examined_append, h, List.range_succ, List.map_append]
  simp only [examined, List.map_cons, List.map_nil]
  rw [hf pos (Nat.le_refl _)]
  congr 1
  apply List.map_congr_left
  intro i hi
  rw [hf i (by have := List.mem_range.mp hi; omega)]

theorem SortInv.nodup_map_range {n lo m : Nat} {sr : iscc_fs_SortResult}
    (h : SortInv n lo m sr) (pos : Nat) (hpos : pos ≤ n) :
    ((List.range pos).map sr.sorted_vertices).Nodup := by
  rw [List.nodup_map_iff_inj_on (List.nodup_range _)]
  intro i hi j hj hij
  have hi' := List.mem_range.mp hi
  have hj' := List.mem_range.mp hj
  rw [← (h.perm i (by omega)).2, ← (h.perm j (by omega)).2, hij]

/-! ## Exact bookkeeping of the live in-degree -/

theorem live_indegree_congr (dg : iscc_Digraph) (live live' : Nat → Bool) (w : Nat)
    (h : ∀ u, u < dg.vertices → live u = live' u) :
    live_indegree dg live w = live_indegree dg live' w := by
  unfold live_indegree
  congr 1
  apply List.map_congr_left
  intro u hu
  rw [h u (List.mem_range.mp hu)]

theorem live_indegree_remove_list_eq (dg : iscc_Digraph) (w : Nat) :
    ∀ (A : List Nat) (live : Nat → Bool), A.Nodup →
      (∀ a, a ∈ A → a < dg.vertices ∧ live a = true) →
      live_indegree dg live w =
        (A.map (fun a => (dg.arcs a).count w)).sum +
          live_indegree dg (fun u => live u && !decide (u ∈ A)) w := by
  intro A
  induction A with
  | nil =>
    intro live _ _
    simp
  | cons a A ih =>
    intro live hnd hA
    obtain ⟨ha1, ha2⟩ := hA a (List.mem_cons_self _ _)
    rw [live_indegree_remove dg live a w ha1 ha2,
      ih (Function.update live a false) (List.nodup_cons.mp hnd).2
        (fun b hb => by
          have hba : b ≠ a := fun e => (List.nodup_cons.mp hnd).1 (e ▸ hb)
          rw [Function.update_noteq hba]
          exact hA b (List.mem_cons_of_mem _ hb))]
    rw [List.map_cons, List.sum_cons]
    have e : live_indegree dg (fun u => Function.update live a false u && !decide (u ∈ A)) w =
        live_indegree dg (fun u => live u && !decide (u ∈ a :: A)) w := by
      apply live_indegree_congr
      intro u _
      by_cases hua : u = a
      · subst hua; simp
      · simp [Function.update_noteq hua, hua]
    rw [e]
    omega

theorem live_indegree_after_seed_eq (nng : iscc_Digraph) (hs : iscc_digraph_is_sound nng)
    (hd : no_duplicate_arcs nng) (hsl : no_self_loops nng) (seed : Nat) (marks : Nat → Bool)
    (hseed : seed < nng.vertices)
    (hc : iscc_fs_check_neighbors_marks seed nng marks = true) (w : Nat)
    (hw : iscc_fs_mark_seed_neighbors seed nng marks w = false) :
    live_indegree nng (fun u => !marks u) w =
      live_indegree nng (fun u => !(iscc_fs_mark_seed_neighbors seed nng marks) u) w +
        ((nng.arcs seed).flatMap nng.arcs).count w := by
  rw [check_neighbors_marks_true] at hc
  obtain ⟨hc1, _, hc3⟩ := hc
  have hnd : (seed :: nng.arcs seed).Nodup :=
    List.nodup_cons.mpr ⟨hsl seed hseed, hd seed hseed⟩
  have hw' : w ∉ nng.arcs seed := by
    intro hmem
    have := (mark_seed_neighbors_true seed nng marks w).mpr
      (Or.inr (List.mem_cons_of_mem _ hmem))
    rw [hw] at this
    exact absurd this (by decide)
  rw [live_indegree_remove_list_eq nng w (seed :: nng.arcs seed) (fun u => !marks u) hnd
    (fun a ha => by
      rcases List.mem_cons.mp ha with e | h
      · rw [e]; exact ⟨hseed, by simp [hc1]⟩
      · exact ⟨mem_arcs_lt nng hs seed a hseed h, by simp [hc3 a h]⟩)]
  rw [List.map_cons, List.sum_cons, List.count_eq_zero_of_not_mem hw', Nat.zero_add,
    List.count_flatMap]
  have e : live_indegree nng (fun u => !marks u && !decide (u ∈ seed :: nng.arcs seed)) w =
      live_indegree nng (fun u => !(iscc_fs_mark_seed_neighbors seed nng marks) u) w := by
    apply live_indegree_congr
    intro u _
    have h := mark_seed_neighbors_true seed nng marks u
    unfold iscc_Digraph.closed at h
    by_cases hm : iscc_fs_mark_seed_neighbors seed nng marks u = true
    · rw [hm]
      rcases h.mp hm with h1 | h1
      · simp [h1]
      · simp [h1]
    · have hm' : iscc_fs_mark_seed_neighbors seed nng marks u = false := by simpa using hm
      rw [hm']
      have h2 : ¬ (marks u = true ∨ u ∈ seed :: nng.arcs seed) := fun hh => hm (h.mpr hh)
      have h3 : marks u = false := by
        by_contra hx; exact h2 (Or.inl (by simpa using hx))
      have h4 : u ∉ seed :: nng.arcs seed := fun hx => h2 (Or.inr hx)
      simp [h3, h4]
  rw [e, Nat.add_comm]
  rfl

/-! ## The recorded inwards scan -/

theorem InwardsRunInv.scan_ok {stable : Bool} {nng : iscc_Digraph} {m pos : Nat}
    {marks : Nat → Bool} {sort : iscc_fs_SortResult} {tr : List ScanEvent}
    (h : InwardsRunInv stable nng m pos marks sort tr) (hpos : pos < nng.vertices) :
    ∀ e, e ∈ tr ++ [ScanEvent.scan pos marks sort] → inwards_event_ok stable nng m e := by
  intro e he
  rcases List.mem_append.mp he with h1 | h1
  · exact h.2.2.2.2.2 e h1
  · rw [List.mem_singleton] at h1
    rw [h1]
    exact ⟨⟨hpos, h.2.1⟩, h.2.2.2.1⟩

theorem inwards_trace_inv (stable : Bool) (clabel_max : Nat) (mem : Mem) (nng : iscc_Digraph)
    (hs : iscc_digraph_is_sound nng) (hd : no_duplicate_arcs nng) (m : Nat)
    (hdec : decrease_step_ok stable nng.vertices m) :
    ∀ n pos marks sort out tr, pos + n ≤ nng.vertices →
      InwardsRunInv stable nng m pos marks sort tr →
      ((∀ e, e ∈ (inwards_loop_trace stable clabel_max mem nng n pos marks sort out tr).2 →
          inwards_event_ok stable nng m e) ∧
        (examined
          (inwards_loop_trace stable clabel_max mem nng n pos marks sort out tr).2).Nodup) ∧
      ((inwards_loop_trace stable clabel_max mem nng n pos marks sort out tr).1.ec =
          SCC_ER_OK →
        InwardsRunInv stable nng m (pos + n)
          (inwards_loop_trace stable clabel_max mem nng n pos marks sort out tr).1.marks
          (inwards_loop_trace stable clabel_max mem nng n pos marks sort out tr).1.sort
          (inwards_loop_trace stable clabel_max mem nng n pos marks sort out tr).2) := by
  apply inwards_trace_rule stable clabel_max mem nng nng.vertices
    (InwardsRunInv stable nng m)
    (fun tr => (∀ e, e ∈ tr → inwards_event_ok stable nng m e) ∧ (examined tr).Nodup)
  · intro pos marks sort tr hP
    refine ⟨hP.2.2.2.2.2, ?_⟩
    rw [hP.2.2.2.2.1]
    exact hP.2.1.1.nodup_map_range pos hP.1
  · intro pos marks sort tr hpos hP
    refine ⟨hP.scan_ok hpos, ?_⟩
    rw [examined_scan_step tr pos marks sort sort hP.2.2.2.2.1 (fun _ _ => rfl)]
    exact hP.2.1.1.nodup_map_range (pos + 1) (by omega)
  · intro pos marks sort tr hpos hP _
    refine ⟨by omega, hP.2.1.weaken (Nat.le_succ _), hP.2.2.1, ?_, ?_, hP.scan_ok hpos⟩
    · intro hsl w hw hm hp
      exact hP.2.2.2.1 hsl w hw hm (by omega)
    · exact examined_scan_step tr pos marks sort sort hP.2.2.2.2.1 (fun _ _ => rfl)
  · intro pos marks sort tr hpos hP hc
    have hv : sort.sorted_vertices pos < nng.vertices := (hP.2.1.1.perm pos hpos).1
    obtain ⟨r1, r2, r3, r4, r5⟩ := inwards_update_trace_inv stable nng hs hd m hdec pos
      (sort.sorted_vertices pos) marks sort (tr ++ [ScanEvent.scan pos marks sort]) hv hc
      (hP.2.1.weaken (Nat.le_succ _)) hP.2.2.1
    refine ⟨by omega, r1, r3, ?_, ?_, ?_⟩
    · intro hsl w hw hm hp
      have hpend : pos < sort.vertex_index w :=
        pending_stays nng.vertices m pos _ sort r1.1 (hP.2.1.1.mono (Nat.le_succ _))
          (fun i hi => (r2 i hi).symm) w hw hp
      have hm0 : marks w = false := by
        by_contra hx
        have := (mark_seed_neighbors_true (sort.sorted_vertices pos) nng marks w).mpr
          (Or.inl (by simpa using hx))
        rw [hm] at this
        exact absurd this (by decide)
      rw [r5 w hw hm hpend, hP.2.2.2.1 hsl w hw hm0 (by omega),
        live_indegree_after_seed_eq nng hs hd hsl (sort.sorted_vertices pos) marks hv hc w hm]
      omega
    · rw [inwards_update_trace_eq, examined_decrease_fold_trace]
      rw [inwards_update_trace_eq] at r2
      exact examined_scan_step tr pos marks sort _ hP.2.2.2.2.1 r2
    · intro e he
      rcases r4 e he with h | ⟨v, sr, rfl, h⟩
      · exact hP.scan_ok hpos e h
      · exact ⟨h, fun _ => trivial⟩

/-! ## The recorded exclusion scan -/

theorem ExclusionRunInv.scan_event_ok {stable : Bool} {eg : iscc_Digraph} {m pos : Nat}
    {ne : Nat → Bool} {sort : iscc_fs_SortResult} {tr : List ScanEvent}
    (h : ExclusionRunInv stable eg m pos ne sort tr) (hpos : pos < eg.vertices) :
    ∀ e, e ∈ tr ++ [ScanEvent.scan pos ne sort] → event_ok stable eg.vertices m e := by
  intro e he
  rcases List.mem_append.mp he with h1 | h1
  · exact h.2.2.2.2.2 e h1
  · rw [List.mem_singleton] at h1
    rw [h1]
    exact ⟨hpos, h.2.1⟩

theorem exclusion_trace_inv (stable : Bool) (clabel_max : Nat) (mem : Mem) (eg : iscc_Digraph)
    (heg : ∀ u w, w ∈ eg.arcs u → w < eg.vertices) (m : Nat)
    (hdec : decrease_step_ok stable eg.vertices m) :
    ∀ n pos ne sort out tr, pos + n ≤ eg.vertices →
      ExclusionRunInv stable eg m pos ne sort tr →
      ((∀ e, e ∈ (exclusion_loop_trace stable clabel_max mem eg n pos ne sort out tr).2 →
          event_ok stable eg.vertices m e) ∧
        (examined
          (exclusion_loop_trace stable clabel_max mem eg n pos ne sort out tr).2).Nodup) ∧
      ((exclusion_loop_trace stable clabel_max mem eg n pos ne sort out tr).1.ec =
          SCC_ER_OK →
        ExclusionRunInv stable eg m (pos + n)
          (exclusion_loop_trace stable clabel_max mem eg n pos ne sort out tr).1.marks
          (exclusion_loop_trace stable clabel_max mem eg n pos ne sort out tr).1.sort
          (exclusion_loop_trace stable clabel_max mem eg n pos ne sort out tr).2) := by
  apply exclusion_trace_rule stable clabel_max mem eg eg.vertices
    (ExclusionRunInv stable eg m)
    (fun tr => (∀ e, e ∈ tr → event_ok stable eg.vertices m e) ∧ (examined tr).Nodup)
  · intro pos ne sort tr hP
    refine ⟨hP.2.2.2.2.2, ?_⟩
    rw [hP.2.2.2.2.1]
    exact hP.2.1.1.nodup_map_range pos hP.1
  · intro pos ne sort tr hpos hP
    refine ⟨hP.scan_event_ok hpos, ?_⟩
    rw [examined_scan_step tr pos ne sort sort hP.2.2.2.2.1 (fun _ _ => rfl)]
    exact hP.2.1.1.nodup_map_range (pos + 1) (by omega)
  · intro pos ne sort tr hpos hP hc
    refine ⟨by omega, hP.2.1.weaken (Nat.le_succ _), hP.2.2.1, ?_, ?_, hP.scan_event_ok hpos⟩
    · intro i hi
      by_cases e : i = pos
      · rw [e]; exact hc
      · exact hP.2.2.2.1 i (by omega)
    · exact examined_scan_step tr pos ne sort sort hP.2.2.2.2.1 (fun _ _ => rfl)
  · intro pos ne sort tr hpos hP hc
    have hv : sort.sorted_vertices pos < eg.vertices := (hP.2.1.1.perm pos hpos).1
    have h4 : ∀ i, i ≤ pos →
        Function.update ne (sort.sorted_vertices pos) false (sort.sorted_vertices i) = false := by
      intro i hi
      by_cases e : i = pos
      · rw [e, Function.update_same]
      · by_cases e2 : sort.sorted_vertices i = sort.sorted_vertices pos
        · rw [e2, Function.update_same]
        · rw [Function.update_noteq e2]
          exact hP.2.2.2.1 i (by omega)
    rw [exclusion_update_trace_eq]
    obtain ⟨q1, q2, q3, q4, q5⟩ := exclusion_fold_trace_inv stable eg heg m pos hdec sort
      (eg.arcs (sort.sorted_vertices pos))
      (Function.update ne (sort.sorted_vertices pos) false, sort,
        tr ++ [ScanEvent.scan pos ne sort])
      (fun a ha => heg _ a ha) (hP.2.1.weaken (Nat.le_succ _)) (fun _ _ => rfl)
      (fun w => Nat.le_trans
        (live_indegree_mono eg ne _ w (fun u hu => by
          have hu' : Function.update ne (sort.sorted_vertices pos) false u = true := hu
          by_cases e : u = sort.sorted_vertices pos
          · rw [e, Function.update_same] at hu'
            exact absurd hu' (by decide)
          · rw [Function.update_noteq e] at hu'
            exact hu'))
        (hP.2.2.1 w))
      h4
    refine ⟨by omega, q1, q3, ?_, ?_, ?_⟩
    · intro i hi
      rw [q2 i (by omega)]
      by_contra hx
      have h5 : Function.update ne (sort.sorted_vertices pos) false (sort.sorted_vertices i) =
          true := q5 _ (by simpa using hx)
      rw [h4 i (by omega)] at h5
      exact absurd h5 (by decide)
    · rw [examined_exclusion_fold_trace]
      exact examined_scan_step tr pos ne sort _ hP.2.2.2.2.1 q2
    · intro e he
      rcases q4 e he with h | ⟨v, sr, rfl, h⟩
      · exact hP.scan_event_ok hpos e h
      · exact h

/-! ## The recorded scans of the default build are the scans -/

theorem inwards_update_trace_fst (nng : iscc_Digraph) (marks : Nat → Bool) (pos seed : Nat)
    (st : iscc_fs_SortResult × List ScanEvent) :
    (inwards_update_trace false nng marks pos seed st).1 =
      inwards_update nng marks pos seed st.1 := by
  rw [inwards_update_trace_eq, inwards_update_eq]
  exact foldl_trace_fst (fun w sr => iscc_fs_decrease_v_in_sort w sr pos)
    (fun sr w => !marks w && decide (pos < sr.vertex_index w))
    (fun w sr => ScanEvent.decrease w sr pos) _ st

theorem inwards_loop_trace_fst (clabel_max : Nat) (mem : Mem) (nng : iscc_Digraph) :
    ∀ n pos marks sort out tr,
      (inwards_loop_trace false clabel_max mem nng n pos marks sort out tr).1 =
        inwards_loop clabel_max mem nng true n pos marks sort out := by
  intro n
  induction n with
  | zero => intro pos marks sort out tr; rfl
  | succ n ih =>
    intro pos marks sort out tr
    unfold inwards_loop_trace inwards_loop
    dsimp only
    by_cases hc : iscc_fs_check_neighbors_marks (sort.sorted_vertices pos) nng marks = true
    · rw [if_pos hc, if_pos hc]
      by_cases ha :
          (iscc_fs_add_seed clabel_max mem (sort.sorted_vertices pos) out).1 ≠ SCC_ER_OK
      · rw [if_pos ha, if_pos ha]
      · rw [if_neg ha, if_neg ha, ih, inwards_update_trace_fst, if_pos rfl]
    · rw [if_neg hc, if_neg hc, ih]

theorem exclusion_fold_trace_fst (eg : iscc_Digraph) (pos : Nat) :
    ∀ (l : List Nat) (st : (Nat → Bool) × iscc_fs_SortResult × List ScanEvent),
      ((exclusion_fold_trace false eg pos l st).1, (exclusion_fold_trace false eg pos l st).2.1) =
        l.foldl
          (fun (st : (Nat → Bool) × iscc_fs_SortResult) ex_arc =>
            if st.1 ex_arc then
              let not_excluded := Function.update st.1 ex_arc false
              if true then
                (not_excluded,
                  (eg.arcs ex_arc).foldl
                    (fun sr ex_arc_arc =>
                      if not_excluded ex_arc_arc then
                        iscc_fs_decrease_v_in_sort ex_arc_arc sr pos
                      else sr)
                    st.2)
              else (not_excluded, st.2)
            else st)
          (st.1, st.2.1) := by
  intro l
  induction l with
  | nil => intro st; rfl
  | cons a l ih =>
    intro st
    rw [exclusion_fold_trace_cons, List.foldl_cons, ih]
    by_cases h : st.1 a = true
    · rw [if_pos h, if_pos h]
      dsimp only
      rw [if_pos rfl]
      congr 2
      exact foldl_trace_fst (fun w sr => iscc_fs_decrease_v_in_sort w sr pos)
        (fun _ w => Function.update st.1 a false w)
        (fun w sr => ScanEvent.decrease w sr pos) _ st.2
    · rw [if_neg h, if_neg h]

theorem exclusion_update_trace_fst (eg : iscc_Digraph) (pos seed : Nat)
    (st : (Nat → Bool) × iscc_fs_SortResult × List ScanEvent) :
    ((exclusion_update_trace false eg pos seed st).1,
        (exclusion_update_trace false eg pos seed st).2.1) =
      exclusion_update eg true pos seed (st.1, st.2.1) := by
  rw [exclusion_update_trace_eq, exclusion_fold_trace_fst]
  rfl

theorem exclusion_loop_trace_fst (clabel_max : Nat) (mem : Mem) (eg : iscc_Digraph) :
    ∀ n pos ne sort out tr,
      (exclusion_loop_trace false clabel_max mem eg n pos ne sort out tr).1 =
        exclusion_loop clabel_max mem eg true n pos ne sort out := by
  intro n
  induction n with
  | zero => intro pos ne sort out tr; rfl
  | succ n ih =>
    intro pos ne sort out tr
    unfold exclusion_loop_trace exclusion_loop
    dsimp only
    by_cases hc : ne (sort.sorted_vertices pos) = true
    · rw [if_pos hc, if_pos hc]
      by_cases ha :
          (iscc_fs_add_seed clabel_max mem (sort.sorted_vertices pos) out).1 ≠ SCC_ER_OK
      · rw [if_pos ha, if_pos ha]
      · rw [if_neg ha, if_neg ha, ih]
        have e := exclusion_update_trace_fst eg pos (sort.sorted_vertices pos)
          (Function.update ne (sort.sorted_vertices pos) false, sort,
            tr ++ [ScanEvent.scan pos ne sort])
        rw [← e]
    · rw [if_neg hc, if_neg hc, ih]

/-! ## The scans start from a consistent sort structure -/

theorem sort_by_inwards_BuildInv (stable : Bool) (mem : Mem) (dg : iscc_Digraph)
    (hok : (iscc_fs_sort_by_inwards mem dg true).1 = SCC_ER_OK) :
    BuildInv stable dg.vertices (sort_max_inwards dg.vertices (sort_count_inwards dg)) 0
      (iscc_fs_sort_by_inwards mem dg true).2 := by
  obtain ⟨i1, i2⟩ := sort_by_inwards_SortInv mem dg hok
  refine ⟨i1, fun _ => ?_⟩
  have hpw := (sort_by_inwards_order mem dg true hok).2
  intro p _ hp
  have h := List.pairwise_iff_getElem.mp hpw p (p + 1)
    (by simp [iscc_fs_SortResult.toList]; omega) (by simp [iscc_fs_SortResult.toList]; omega)
    (Nat.lt_succ_self p)
  simp only [iscc_fs_SortResult.toList, List.getElem_map, List.getElem_range] at h
  rw [i2]
  rcases h with h | ⟨h1, h2⟩
  · exact ⟨Nat.le_of_lt h, fun e => absurd e (Nat.ne_of_lt h)⟩
  · exact ⟨Nat.le_of_eq h1, fun _ => h2⟩

theorem live_indegree_all (dg : iscc_Digraph) (hs : iscc_digraph_is_sound dg) (w : Nat) :
    live_indegree dg (fun _ => true) w = sort_count_inwards dg w := by
  rw [sort_count_inwards_eq, ← sum_count_arcs dg hs w dg.vertices (Nat.le_refl _)]
  unfold live_indegree
  simp

theorem inwards_trace_start (stable : Bool) (mem : Mem) (nng : iscc_Digraph)
    (hs : iscc_digraph_is_sound nng)
    (hok : (iscc_fs_sort_by_inwards mem nng true).1 = SCC_ER_OK) :
    InwardsRunInv stable nng (sort_max_inwards nng.vertices (sort_count_inwards nng)) 0
      (fun _ => false) (iscc_fs_sort_by_inwards mem nng true).2 [] := by
  have i2 := (sort_by_inwards_SortInv mem nng hok).2
  refine ⟨Nat.zero_le _, sort_by_inwards_BuildInv stable mem nng hok, ?_, ?_, rfl, ?_⟩
  · intro w
    rw [i2]
    exact live_indegree_le_count nng hs _ w
  · intro _ w _ _ _
    rw [i2]
    exact (live_indegree_all nng hs w).symm
  · intro e he
    exact absurd he (List.not_mem_nil _)

theorem exclusion_trace_start (stable : Bool) (mem : Mem) (eg : iscc_Digraph)
    (hs : iscc_digraph_is_sound eg) (ne : Nat → Bool)
    (hok : (iscc_fs_sort_by_inwards mem eg true).1 = SCC_ER_OK) :
    ExclusionRunInv stable eg (sort_max_inwards eg.vertices (sort_count_inwards eg)) 0
      ne (iscc_fs_sort_by_inwards mem eg true).2 [] := by
  have i2 := (sort_by_inwards_SortInv mem eg hok).2
  refine ⟨Nat.zero_le _, sort_by_inwards_BuildInv stable mem eg hok, ?_, ?_, rfl, ?_⟩
  · intro w
    rw [i2]
    exact live_indegree_le_count eg hs _ w
  · intro i hi
    exact absurd hi (Nat.not_lt_zero _)
  · intro e he
    exact absurd he (List.not_mem_nil _)

theorem sound_arcs_lt (dg : iscc_Digraph) (hs : iscc_digraph_is_sound dg) :
    ∀ u w, w ∈ dg.arcs u → w < dg.vertices := by
  intro u w hw
  unfold iscc_Digraph.arcs at hw
  rw [mem_arc_slice] at hw
  obtain ⟨a, h1, h2, rfl⟩ := hw
  by_cases hu : u < dg.vertices
  · exact mem_arcs_lt dg hs u _ hu (by
      unfold iscc_Digraph.arcs
      rw [mem_arc_slice]
      exact ⟨a, h1, h2, rfl⟩)
  · exfalso
    have h3 : dg.tp (u + 1) = 0 := by
      unfold iscc_Digraph.tp
      rw [List.getD_eq_default]
      rw [hs.1]; omega
    omega

/-! ## Consequences for a single event -/

theorem SortInv.pending_order {n cur m : Nat} {sr : iscc_fs_SortResult}
    (h : SortInv n (cur + 1) m sr) : pending_sorted n cur sr := by
  refine ⟨?_, ?_⟩
  · intro i j hi hij hj
    have hvi := (h.perm i (by omega)).1
    have hb := h.key_le _ hvi
    have h1 := (h.bucket _ hb i (by omega) (by omega)).mpr (Nat.le_refl _)
    exact (h.bucket _ hb j (by omega) hj).mp (by omega)
  · intro i hi hin
    have hvi := (h.perm i hin).1
    exact (h.bucket _ (h.key_le _ hvi) i (by omega) hin).mpr (Nat.le_refl _)

theorem decrease_move_to_gt (v : Nat) (sr : iscc_fs_SortResult) (cur : Nat) :
    cur < decrease_move_to v sr cur := by
  unfold decrease_move_to
  split_ifs <;> omega

theorem decrease_move_to_le {n cur m v : Nat} {sr : iscc_fs_SortResult}
    (h : SortInv n (cur + 1) m sr) (hv : v < n) (hpos : cur < sr.vertex_index v) :
    decrease_move_to v sr cur ≤ sr.vertex_index v ∧
    sr.bucket_index (sr.inwards_count v) ≤ decrease_move_to v sr cur := by
  have hmf := h.vidx_lt v hv
  have hs := h.sorted_vidx v hv
  have hb : sr.bucket_index (sr.inwards_count v) ≤ sr.vertex_index v :=
    (h.bucket _ (h.key_le v hv) _ (by omega) hmf).mpr (by rw [hs])
  unfold decrease_move_to
  split_ifs <;> omega

theorem decrease_same_key {n cur m v : Nat} {sr : iscc_fs_SortResult}
    (h : SortInv n (cur + 1) m sr) (hv : v < n) (hpos : cur < sr.vertex_index v) :
    sr.inwards_count (sr.sorted_vertices (sr.vertex_index v)) =
      sr.inwards_count (sr.sorted_vertices (decrease_move_to v sr cur)) := by
  have hmf := h.vidx_lt v hv
  have hs := h.sorted_vidx v hv
  obtain ⟨h1, h2⟩ := decrease_move_to_le h hv hpos
  have hgt := decrease_move_to_gt v sr cur
  have hge := (h.bucket _ (h.key_le v hv) (decrease_move_to v sr cur) (by omega)
    (by omega)).mp h2
  have hle := h.pending_order.1 (decrease_move_to v sr cur) (sr.vertex_index v) hgt h1 hmf
  rw [hs] at hle ⊢
  omega

theorem event_ok_key_in_range (stable : Bool) (n m : Nat) (e : ScanEvent)
    (h : event_ok stable n m e) : decrease_key_in_range m e := by
  cases e with
  | scan pos marks sort => trivial
  | decrease v sort cur => exact ⟨h.2.2.2, h.1.1.key_le v h.2.1⟩

theorem event_ok_pending_in_order (n m : Nat) (e : ScanEvent) (h : event_ok false n m e) :
    pending_in_order n e := by
  cases e with
  | scan pos marks sort => exact (h.2.1.mono (Nat.le_succ _)).pending_order
  | decrease v sort cur => exact ⟨h.1.1.pending_order, decrease_same_key h.1.1 h.2.1 h.2.2.1⟩

theorem event_ok_decrease_frame (n m : Nat) (e : ScanEvent) (h : event_ok false n m e) :
    decrease_frame e := by
  cases e with
  | scan pos marks sort => trivial
  | decrease v sort cur =>
    obtain ⟨⟨h1, _⟩, hv, hpos, hkey⟩ := h
    refine ⟨(decrease_SortInv n m cur v sort h1 hv hpos hkey).2, hpos,
      decrease_move_to_gt v sort cur, ?_⟩
    rw [(decrease_fields v sort cur).2.2.1, h1.sorted_vidx v hv]
    by_cases hne : sort.vertex_index v ≠ decrease_move_to v sort cur
    · rw [if_pos hne]
    · rw [if_neg hne]
      have e : decrease_move_to v sort cur = sort.vertex_index v := (not_not.mp hne).symm
      rw [e, h1.sorted_vidx v hv]
      funext i
      by_cases hi : i = sort.vertex_index v
      · rw [hi, Function.update_same, h1.sorted_vidx v hv]
      · rw [Function.update_noteq hi, Function.update_noteq hi]

/-! ## Whole runs of the updating scans -/

theorem inwards_run_events (stable : Bool) (clabel_max : Nat) (mem : Mem) (nng : iscc_Digraph)
    (hs : iscc_digraph_is_sound nng) (hd : no_duplicate_arcs nng)
    (hsort : (iscc_fs_sort_by_inwards mem nng true).1 = SCC_ER_OK)
    (hdec : decrease_step_ok stable nng.vertices
      (sort_max_inwards nng.vertices (sort_count_inwards nng)))
    (out : iscc_SeedResult) :
    (∀ e, e ∈ (inwards_loop_trace stable clabel_max mem nng nng.vertices 0 (fun _ => false)
        (iscc_fs_sort_by_inwards mem nng true).2 out []).2 →
      inwards_event_ok stable nng (sort_max_inwards nng.vertices (sort_count_inwards nng)) e) ∧
    (examined (inwards_loop_trace stable clabel_max mem nng nng.vertices 0 (fun _ => false)
        (iscc_fs_sort_by_inwards mem nng true).2 out []).2).Nodup ∧
    ((inwards_loop_trace stable clabel_max mem nng nng.vertices 0 (fun _ => false)
        (iscc_fs_sort_by_inwards mem nng true).2 out []).1.ec = SCC_ER_OK →
      (examined (inwards_loop_trace stable clabel_max mem nng nng.vertices 0 (fun _ => false)
        (iscc_fs_sort_by_inwards mem nng true).2 out []).2).Perm (List.range nng.vertices)) := by
  obtain ⟨⟨r1, r2⟩, r3⟩ := inwards_trace_inv stable clabel_max mem nng hs hd _ hdec
    nng.vertices 0 (fun _ => false) (iscc_fs_sort_by_inwards mem nng true).2 out []
    (by omega) (inwards_trace_start stable mem nng hs hsort)
  refine ⟨r1, r2, fun hok => ?_⟩
  obtain ⟨_, q2, _, _, q5, _⟩ := r3 hok
  rw [Nat.zero_add] at q2 q5
  rw [q5]
  exact q2.1.index_ok.1

theorem exclusion_run_events (stable : Bool) (clabel_max : Nat) (mem : Mem) (eg : iscc_Digraph)
    (hs : iscc_digraph_is_sound eg)
    (hsort : (iscc_fs_sort_by_inwards mem eg true).1 = SCC_ER_OK)
    (hdec : decrease_step_ok stable eg.vertices
      (sort_max_inwards eg.vertices (sort_count_inwards eg)))
    (ne : Nat → Bool) (out : iscc_SeedResult) :
    (∀ e, e ∈ (exclusion_loop_trace stable clabel_max mem eg eg.vertices 0 ne
        (iscc_fs_sort_by_inwards mem eg true).2 out []).2 →
      event_ok stable eg.vertices (sort_max_inwards eg.vertices (sort_count_inwards eg)) e) ∧
    (examined (exclusion_loop_trace stable clabel_max mem eg eg.vertices 0 ne
        (iscc_fs_sort_by_inwards mem eg true).2 out []).2).Nodup ∧
    ((exclusion_loop_trace stable clabel_max mem eg eg.vertices 0 ne
        (iscc_fs_sort_by_inwards mem eg true).2 out []).1.ec = SCC_ER_OK →
      (examined (exclusion_loop_trace stable clabel_max mem eg eg.vertices 0 ne
        (iscc_fs_sort_by_inwards mem eg true).2 out []).2).Perm (List.range eg.vertices)) := by
  obtain ⟨⟨r1, r2⟩, r3⟩ := exclusion_trace_inv stable clabel_max mem eg
    (sound_arcs_lt eg hs) _ hdec
    eg.vertices 0 ne (iscc_fs_sort_by_inwards mem eg true).2 out []
    (by omega) (exclusion_trace_start stable mem eg hs ne hsort)
  refine ⟨r1, r2, fun hok => ?_⟩
  obtain ⟨_, q2, _, _, q5, _⟩ := r3 hok
  rw [Nat.zero_add] at q2 q5
  rw [q5]
  exact q2.1.index_ok.1

/-! ## The stable build: `iscc_fs_debug_bucket_sort` -/

theorem debug_bucket_sort_loop_spec (tmp : Nat) :
    ∀ (f p : Nat) (a : (Nat → Nat) × (Nat → Nat)), f ≤ p →
      (∀ i j, p - f ≤ i → i < p → p - f ≤ j → j < p → a.1 i = a.1 j → i = j) →
      p - f ≤ (debug_bucket_sort_loop tmp f p a).1 ∧
      (debug_bucket_sort_loop tmp f p a).1 ≤ p ∧
      (∀ i, (debug_bucket_sort_loop tmp f p a).1 < i → i ≤ p →
        (debug_bucket_sort_loop tmp f p a).2.1 i = a.1 (i - 1)) ∧
      (∀ i, (i ≤ (debug_bucket_sort_loop tmp f p a).1 ∨ p < i) →
        (debug_bucket_sort_loop tmp f p a).2.1 i = a.1 i) ∧
      (∀ i, (debug_bucket_sort_loop tmp f p a).1 ≤ i → i < p → tmp < a.1 i) ∧
      (p - f < (debug_bucket_sort_loop tmp f p a).1 →
        a.1 ((debug_bucket_sort_loop tmp f p a).1 - 1) ≤ tmp) ∧
      (∀ i, (debug_bucket_sort_loop tmp f p a).1 ≤ i → i < p →
        (debug_bucket_sort_loop tmp f p a).2.2 (a.1 i) = i + 1) ∧
      (∀ w, (∀ i, (debug_bucket_sort_loop tmp f p a).1 ≤ i → i < p → a.1 i ≠ w) →
        (debug_bucket_sort_loop tmp f p a).2.2 w = a.2 w) := by
  intro f
  induction f with
  | zero =>
    intro p a _ _
    refine ⟨Nat.sub_le _ _, Nat.le_refl _, ?_, ?_, ?_, ?_, ?_, ?_⟩
    · intro i h1 h2
      exact absurd h1 (by simp only [debug_bucket_sort_loop]; omega)
    · intro i _; rfl
    · intro i h1 h2
      exact absurd h1 (by simp only [debug_bucket_sort_loop]; omega)
    · intro h
      exact absurd h (by simp only [debug_bucket_sort_loop]; omega)
    · intro i h1 h2
      exact absurd h1 (by simp only [debug_bucket_sort_loop]; omega)
    · intro w _; rfl
  | succ f ih =>
    intro p a hf hinj
    rw [debug_bucket_sort_loop]
    by_cases hge : tmp ≥ a.1 (p - 1)
    · rw [if_pos hge]
      refine ⟨Nat.sub_le _ _, Nat.le_refl _, ?_, ?_, ?_, ?_, ?_, ?_⟩
      · intro i h1 h2; omega
      · intro i _; rfl
      · intro i h1 h2; omega
      · intro _; exact hge
      · intro i h1 h2; omega
      · intro w _; rfl
    · rw [if_neg hge]
      dsimp only
      rw [Function.update_same]
      have hlt : tmp < a.1 (p - 1) := by omega
      have e : p - 1 - f = p - (f + 1) := by omega
      obtain ⟨r1, r2, r3, r4, r5, r6, r7, r8⟩ := ih (p - 1)
        (Function.update a.1 p (a.1 (p - 1)), Function.update a.2 (a.1 (p - 1)) p)
        (by omega)
        (fun i j h1 h2 h3 h4 h => by
          dsimp only at h
          rw [Function.update_noteq (by omega), Function.update_noteq (by omega)] at h
          exact hinj i j (by omega) (by omega) (by omega) (by omega) h)
      generalize debug_bucket_sort_loop tmp f (p - 1)
        (Function.update a.1 p (a.1 (p - 1)), Function.update a.2 (a.1 (p - 1)) p) = r
        at r1 r2 r3 r4 r5 r6 r7 r8 ⊢
      dsimp only at r3 r4 r5 r6 r7 r8
      refine ⟨by omega, by omega, ?_, ?_, ?_, ?_, ?_, ?_⟩
      · intro i h1 h2
        by_cases hi : i = p
        · rw [hi, r4 p (Or.inr (by omega)), Function.update_same]
        · rw [r3 i h1 (by omega), Function.update_noteq (by omega)]
      · intro i h
        rcases h with h | h
        · rw [r4 i (Or.inl h), Function.update_noteq (by omega)]
        · rw [r4 i (Or.inr (by omega)), Function.update_noteq (by omega)]
      · intro i h1 h2
        by_cases hi : i = p - 1
        · rw [hi]; exact hlt
        · have := r5 i h1 (by omega)
          rwa [Function.update_noteq (by omega)] at this
      · intro h
        have := r6 (by omega)
        rwa [Function.update_noteq (by omega)] at this
      · intro i h1 h2
        by_cases hi : i = p - 1
        · rw [hi, r8 (a.1 (p - 1)) (fun j hj1 hj2 => by
            rw [Function.update_noteq (by omega)]
            intro hh
            have := hinj j (p - 1) (by omega) (by omega) (by omega) (by omega) hh
            omega), Function.update_same]
          omega
        · have := r7 i h1 (by omega)
          rwa [Function.update_noteq (by omega)] at this
      · intro w hw
        rw [r8 w (fun i h1 h2 => by
          rw [Function.update_noteq (by omega)]
          exact hw i h1 (by omega))]
        rw [Function.update_noteq]
        exact (hw (p - 1) r2 (by omega)).symm

theorem debug_bucket_sort_spec (n lo m start pos : Nat) (sr : iscc_fs_SortResult)
    (h : SortInv n lo m sr) (hsp : start ≤ pos) (hpn : pos < n)
    (hkey : ∀ i, start ≤ i → i ≤ pos →
      sr.inwards_count (sr.sorted_vertices i) = sr.inwards_count (sr.sorted_vertices pos)) :
    ∃ q, start ≤ q ∧ q ≤ pos ∧
      SortInv n lo m (iscc_fs_debug_bucket_sort start pos sr) ∧
      (iscc_fs_debug_bucket_sort start pos sr).inwards_count = sr.inwards_count ∧
      (iscc_fs_debug_bucket_sort start pos sr).bucket_index = sr.bucket_index ∧
      (∀ i, (iscc_fs_debug_bucket_sort start pos sr).sorted_vertices i =
        if i = q then sr.sorted_vertices pos
        else if q < i ∧ i ≤ pos then sr.sorted_vertices (i - 1) else sr.sorted_vertices i) ∧
      (∀ i, q ≤ i → i < pos → sr.sorted_vertices pos < sr.sorted_vertices i) ∧
      (start < q → sr.sorted_vertices (q - 1) < sr.sorted_vertices pos) := by
  have hinj : ∀ i j, i < n → j < n → sr.sorted_vertices i = sr.sorted_vertices j → i = j := by
    intro i j hi hj e
    rw [← (h.perm i hi).2, ← (h.perm j hj).2, e]
  obtain ⟨r1, r2, r3, r4, r5, r6, r7, r8⟩ := debug_bucket_sort_loop_spec
    (sr.sorted_vertices pos) (pos - start) pos (sr.sorted_vertices, sr.vertex_index)
    (Nat.sub_le _ _)
    (fun i j _ h2 _ h4 e => hinj i j (by omega) (by omega) e)
  have e0 : pos - (pos - start) = start := by omega
  rw [e0] at r1 r6
  have hsorted : ∀ i, (iscc_fs_debug_bucket_sort start pos sr).sorted_vertices i =
      if i = (debug_bucket_sort_loop (sr.sorted_vertices pos) (pos - start) pos
          (sr.sorted_vertices, sr.vertex_index)).1 then sr.sorted_vertices pos
      else if (debug_bucket_sort_loop (sr.sorted_vertices pos) (pos - start) pos
          (sr.sorted_vertices, sr.vertex_index)).1 < i ∧ i ≤ pos then
        sr.sorted_vertices (i - 1)
      else sr.sorted_vertices i := by
    intro i
    unfold iscc_fs_debug_bucket_sort
    dsimp only
    by_cases hi : i = (debug_bucket_sort_loop (sr.sorted_vertices pos) (pos - start) pos
        (sr.sorted_vertices, sr.vertex_index)).1
    · rw [if_pos hi, hi, Function.update_same]
    · rw [if_neg hi, Function.update_noteq hi]
      by_cases hi2 : (debug_bucket_sort_loop (sr.sorted_vertices pos) (pos - start) pos
          (sr.sorted_vertices, sr.vertex_index)).1 < i ∧ i ≤ pos
      · rw [if_pos hi2, r3 i hi2.1 hi2.2]
      · rw [if_neg hi2, r4 i (by omega)]
  have hvidx : (iscc_fs_debug_bucket_sort start pos sr).vertex_index =
      Function.update (debug_bucket_sort_loop (sr.sorted_vertices pos) (pos - start) pos
          (sr.sorted_vertices, sr.vertex_index)).2.2 (sr.sorted_vertices pos)
        (debug_bucket_sort_loop (sr.sorted_vertices pos) (pos - start) pos
          (sr.sorted_vertices, sr.vertex_index)).1 := by
    unfold iscc_fs_debug_bucket_sort
    dsimp only
    rw [Function.update_same]
  generalize (debug_bucket_sort_loop (sr.sorted_vertices pos) (pos - start) pos
    (sr.sorted_vertices, sr.vertex_index)) = r at r1 r2 r3 r4 r5 r6 r7 r8 hsorted hvidx
  dsimp only at r3 r4 r5 r6 r7 r8
  have hne : ∀ i, r.1 ≤ i → i < pos → sr.sorted_vertices i ≠ sr.sorted_vertices pos := by
    intro i h1 h2 e
    have := hinj i pos (by omega) hpn e
    omega
  refine ⟨r.1, r1, r2, ⟨?_, ?_, ?_, ?_⟩, rfl, rfl, hsorted, r5, ?_⟩
  · intro v hv
    rw [hvidx]
    by_cases e1 : v = sr.sorted_vertices pos
    · rw [e1, Function.update_same]; omega
    · rw [Function.update_noteq e1]
      by_cases e2 : r.1 ≤ sr.vertex_index v ∧ sr.vertex_index v < pos
      · have := r7 _ e2.1 e2.2
        rw [h.sorted_vidx v hv] at this
        rw [this]; omega
      · rw [r8 v (fun i h1 h2 e => by
          rw [← e, (h.perm i (by omega)).2] at e2
          exact e2 ⟨h1, h2⟩)]
        exact h.vidx_lt v hv
  · intro v hv
    rw [hvidx, hsorted]
    by_cases e1 : v = sr.sorted_vertices pos
    · rw [e1, Function.update_same, if_pos rfl]
    · rw [Function.update_noteq e1]
      by_cases e2 : r.1 ≤ sr.vertex_index v ∧ sr.vertex_index v < pos
      · have := r7 _ e2.1 e2.2
        rw [h.sorted_vidx v hv] at this
        rw [this, if_neg (by omega), if_pos (by omega), Nat.add_sub_cancel,
          h.sorted_vidx v hv]
      · have e3 : r.2.2 v = sr.vertex_index v := r8 v (fun i h1 h2 e => by
          rw [← e, (h.perm i (by omega)).2] at e2
          exact e2 ⟨h1, h2⟩)
        rw [e3]
        have e4 : sr.vertex_index v ≠ pos := by
          intro e
          have := h.sorted_vidx v hv
          rw [e] at this
          exact e1 this.symm
        rw [if_neg (by omega), if_neg (by omega), h.sorted_vidx v hv]
  · exact h.key_le
  · intro b hb i hi hin
    have hk : sr.inwards_count ((iscc_fs_debug_bucket_sort start pos sr).sorted_vertices i) =
        sr.inwards_count (sr.sorted_vertices i) := by
      rw [hsorted]
      by_cases e1 : i = r.1
      · rw [if_pos e1, e1, hkey r.1 r1 r2]
      · rw [if_neg e1]
        by_cases e2 : r.1 < i ∧ i ≤ pos
        · rw [if_pos e2, hkey (i - 1) (by omega) (by omega), hkey i (by omega) e2.2]
        · rw [if_neg e2]
    show sr.bucket_index b ≤ i ↔
      b ≤ sr.inwards_count ((iscc_fs_debug_bucket_sort start pos sr).sorted_vertices i)
    rw [hk]
    exact h.bucket b hb i hi hin
  · intro hq
    have h1 := r6 hq
    have h2 : sr.sorted_vertices (r.1 - 1) ≠ sr.sorted_vertices pos := by
      intro e
      have := hinj (r.1 - 1) pos (by omega) hpn e
      omega
    omega

/-! ## The stable build: order inside the buckets -/

theorem SortInv.key_mono {n lo m : Nat} {sr : iscc_fs_SortResult} (h : SortInv n lo m sr)
    (i j : Nat) (hi : lo ≤ i) (hij : i ≤ j) (hj : j < n) :
    sr.inwards_count (sr.sorted_vertices i) ≤ sr.inwards_count (sr.sorted_vertices j) := by
  have hvi := (h.perm i (by omega)).1
  have hb := h.key_le _ hvi
  have h1 := (h.bucket _ hb i hi (by omega)).mpr (Nat.le_refl _)
  exact (h.bucket _ hb j (by omega) hj).mp (by omega)

theorem SortInv.sorted_inj {n lo m : Nat} {sr : iscc_fs_SortResult} (h : SortInv n lo m sr)
    (i j : Nat) (hi : i < n) (hj : j < n)
    (e : sr.sorted_vertices i = sr.sorted_vertices j) : i = j := by
  rw [← (h.perm i hi).2, ← (h.perm j hj).2, e]

theorem check_sort_lt (n lo m : Nat) (sr : iscc_fs_SortResult) (h : SortInv n lo m sr)
    (hc : iscc_fs_debug_check_sort n lo sr) (i : Nat) (hi : lo ≤ i) :
    ∀ d, i + d + 1 < n →
      sr.inwards_count (sr.sorted_vertices i) =
        sr.inwards_count (sr.sorted_vertices (i + d + 1)) →
      sr.sorted_vertices i < sr.sorted_vertices (i + d + 1) := by
  intro d
  induction d with
  | zero =>
    intro hn e
    exact (hc i hi hn).2 e
  | succ d ih =>
    intro hn e
    have eq : i + (d + 1) + 1 = i + d + 1 + 1 := by omega
    rw [eq] at hn e ⊢
    have h1 := h.key_mono i (i + d + 1) hi (by omega) (by omega)
    have h2 := h.key_mono (i + d + 1) (i + d + 1 + 1) (by omega) (by omega) hn
    have h3 := ih (by omega) (by omega)
    have h4 := (hc (i + d + 1) (by omega) hn).2 (by omega)
    omega

/-- Keys of the entries between `move_to` and `move_from` at a call that is in order. -/
theorem decrease_segment_keys {n cur m v : Nat} {sr : iscc_fs_SortResult}
    (h : SortInv n (cur + 1) m sr) (hv : v < n) (hpos : cur < sr.vertex_index v)
    (i : Nat) (h1 : decrease_move_to v sr cur ≤ i) (h2 : i ≤ sr.vertex_index v) :
    sr.inwards_count (sr.sorted_vertices i) = sr.inwards_count v := by
  have hmf := h.vidx_lt v hv
  have hs := h.sorted_vidx v hv
  have hgt := decrease_move_to_gt v sr cur
  have e1 := decrease_same_key h hv hpos
  rw [hs] at e1
  have e2 := h.key_mono (decrease_move_to v sr cur) i (by omega) h1 (by omega)
  have e3 := h.key_mono i (sr.vertex_index v) (by omega) h2 hmf
  rw [hs] at e3
  omega

theorem decrease_sorted_form {n cur m v : Nat} {sr : iscc_fs_SortResult}
    (h : SortInv n (cur + 1) m sr) (hv : v < n) (i : Nat) :
    (iscc_fs_decrease_v_in_sort v sr cur).sorted_vertices i =
      if i = decrease_move_to v sr cur then v
      else if i = sr.vertex_index v then sr.sorted_vertices (decrease_move_to v sr cur)
      else sr.sorted_vertices i := by
  rw [(decrease_fields v sr cur).2.2.1]
  by_cases hne : sr.vertex_index v ≠ decrease_move_to v sr cur
  · rw [if_pos hne]
    by_cases e1 : i = decrease_move_to v sr cur
    · rw [if_pos e1, e1, Function.update_same]
    · rw [if_neg e1, Function.update_noteq e1]
      by_cases e2 : i = sr.vertex_index v
      · rw [if_pos e2, e2, Function.update_same]
      · rw [if_neg e2, Function.update_noteq e2]
  · rw [if_neg hne]
    have e : sr.vertex_index v = decrease_move_to v sr cur := not_not.mp hne
    by_cases e1 : i = decrease_move_to v sr cur
    · rw [if_pos e1, e1, ← e, h.sorted_vidx v hv]
    · rw [if_neg e1, if_neg (by rw [e]; exact e1)]

/-- The first half of the stable `iscc_fs_decrease_v_in_sort`: after the swap and the
sort of the old bucket, the vertex stands at `move_to` and the entries that stood from
`move_to` to `move_from - 1` have moved up by one position. -/
theorem stable_old_bucket (n m cur v : Nat) (sr : iscc_fs_SortResult)
    (h : SortInv n (cur + 1) m sr) (hc : iscc_fs_debug_check_sort n (cur + 1) sr)
    (hv : v < n) (hpos : cur < sr.vertex_index v) (hkey : 1 ≤ sr.inwards_count v) :
    SortInv n (cur + 1) m
      (if sr.vertex_index v ≠ decrease_move_to v sr cur then
        iscc_fs_debug_bucket_sort (decrease_move_to v sr cur + 1) (sr.vertex_index v)
          (iscc_fs_decrease_v_in_sort v sr cur)
      else iscc_fs_decrease_v_in_sort v sr cur) ∧
    (if sr.vertex_index v ≠ decrease_move_to v sr cur then
        iscc_fs_debug_bucket_sort (decrease_move_to v sr cur + 1) (sr.vertex_index v)
          (iscc_fs_decrease_v_in_sort v sr cur)
      else iscc_fs_decrease_v_in_sort v sr cur).inwards_count =
      Function.update sr.inwards_count v (sr.inwards_count v - 1) ∧
    (∀ i,
      (if sr.vertex_index v ≠ decrease_move_to v sr cur then
        iscc_fs_debug_bucket_sort (decrease_move_to v sr cur + 1) (sr.vertex_index v)
          (iscc_fs_decrease_v_in_sort v sr cur)
      else iscc_fs_decrease_v_in_sort v sr cur).sorted_vertices i =
      if i = decrease_move_to v sr cur then v
      else if decrease_move_to v sr cur < i ∧ i ≤ sr.vertex_index v then
        sr.sorted_vertices (i - 1)
      else sr.sorted_vertices i) := by
  have hmf := h.vidx_lt v hv
  have hs := h.sorted_vidx v hv
  have hgt := decrease_move_to_gt v sr cur
  have hle := (decrease_move_to_le h hv hpos).1
  obtain ⟨I1, _⟩ := decrease_SortInv n m cur v sr h hv hpos hkey
  have hic := (decrease_fields v sr cur).1
  have hform := fun i => @decrease_sorted_form n cur m v sr h hv i
  have hseg := fun i h1 h2 => @decrease_segment_keys n cur m v sr h hv hpos i h1 h2
  generalize hmt : decrease_move_to v sr cur = mt at hgt hle hform hseg ⊢
  by_cases hne : sr.vertex_index v ≠ mt
  · rw [if_pos hne]
    have hlt : mt < sr.vertex_index v := by omega
    have hx : sr.sorted_vertices mt ≠ v := by
      intro e
      rw [← hs] at e
      exact hne (h.sorted_inj mt (sr.vertex_index v) (by omega) hmf e).symm
    have hnv : ∀ i, mt ≤ i → i < sr.vertex_index v → sr.sorted_vertices i ≠ v := by
      intro i h1 h2 e
      rw [← hs] at e
      have := h.sorted_inj i (sr.vertex_index v) (by omega) hmf e
      omega
    have hk1 : ∀ i, mt + 1 ≤ i → i ≤ sr.vertex_index v →
        (iscc_fs_decrease_v_in_sort v sr cur).inwards_count
          ((iscc_fs_decrease_v_in_sort v sr cur).sorted_vertices i) = sr.inwards_count v := by
      intro i h1 h2
      rw [hic, hform i, if_neg (by omega)]
      by_cases e : i = sr.vertex_index v
      · rw [if_pos e, Function.update_noteq hx]
        exact hseg mt (Nat.le_refl _) (by omega)
      · rw [if_neg e, Function.update_noteq (hnv i (by omega) (by omega))]
        exact hseg i (by omega) h2
    obtain ⟨q, q1, q2, q3, q4, _, q6, _, q8⟩ := debug_bucket_sort_spec n (cur + 1) m (mt + 1)
      (sr.vertex_index v) (iscc_fs_decrease_v_in_sort v sr cur) I1 (by omega) hmf
      (fun i h1 h2 => by rw [hk1 i h1 h2, hk1 _ (by omega) (Nat.le_refl _)])
    have hq : q = mt + 1 := by
      by_contra hq
      have h1 := q8 (by omega)
      rw [hform (q - 1), if_neg (by omega), if_neg (by omega), hform (sr.vertex_index v),
        if_neg (by omega), if_pos rfl] at h1
      have h2 := check_sort_lt n (cur + 1) m sr h hc mt (by omega) (q - 1 - mt - 1)
        (by omega) (by
          rw [hseg mt (Nat.le_refl _) (by omega), hseg _ (by omega) (by omega)])
      have e : mt + (q - 1 - mt - 1) + 1 = q - 1 := by omega
      rw [e] at h2
      omega
    refine ⟨q3, by rw [q4, hic], ?_⟩
    intro i
    rw [q6 i, hq]
    by_cases e1 : i = mt
    · rw [if_pos e1, if_neg (by omega), if_neg (by omega), hform i, if_pos e1]
    · rw [if_neg e1]
      by_cases e2 : i = mt + 1
      · rw [if_pos e2, hform (sr.vertex_index v), if_neg (by omega), if_pos rfl,
          if_pos (by omega), e2, Nat.add_sub_cancel]
      · rw [if_neg e2]
        by_cases e3 : mt + 1 < i ∧ i ≤ sr.vertex_index v
        · rw [if_pos e3, if_pos (by omega), hform (i - 1), if_neg (by omega),
            if_neg (by omega)]
        · rw [if_neg e3, if_neg (by omega), hform i, if_neg e1, if_neg (by omega)]
  · rw [if_neg hne]
    have e : sr.vertex_index v = mt := not_not.mp hne
    refine ⟨I1, hic, ?_⟩
    intro i
    rw [hform i]
    by_cases e1 : i = mt
    · rw [if_pos e1, if_pos e1]
    · rw [if_neg e1, if_neg e1, if_neg (by omega), if_neg (by omega)]

/-- Moving a vertex whose key drops by one from position `mf` down to a position `q` at
the end of the run of the smaller key keeps the entries behind the cursor ordered by key
and, among equal keys, by vertex ID. -/
theorem rotation_check_sort (n m cur v q mt mf : Nat) (sr sr4 : iscc_fs_SortResult)
    (h : SortInv n (cur + 1) m sr) (hc : iscc_fs_debug_check_sort n (cur + 1) sr)
    (h4 : SortInv n (cur + 1) m sr4) (hv : v < n) (hmf : sr.vertex_index v = mf)
    (hk : 1 ≤ sr.inwards_count v) (hq : cur < q) (hqmt : q ≤ mt) (hmtmf : mt ≤ mf)
    (hseg : ∀ i, mt ≤ i → i ≤ mf → sr.inwards_count (sr.sorted_vertices i) = sr.inwards_count v)
    (hic : sr4.inwards_count = Function.update sr.inwards_count v (sr.inwards_count v - 1))
    (hsorted : ∀ i, sr4.sorted_vertices i =
      if i = q then v
      else if q < i ∧ i ≤ mf then sr.sorted_vertices (i - 1) else sr.sorted_vertices i)
    (hlow : ∀ i, q ≤ i → i < mt → v < sr.sorted_vertices i)
    (hprev : ∀ p, cur < p → p + 1 = q →
      sr.inwards_count (sr.sorted_vertices p) = sr.inwards_count v - 1 →
      sr.sorted_vertices p < v) :
    iscc_fs_debug_check_sort n (cur + 1) sr4 := by
  have hmfn : mf < n := by rw [← hmf]; exact h.vidx_lt v hv
  have hs : sr.sorted_vertices mf = v := by rw [← hmf]; exact h.sorted_vidx v hv
  have hnv : ∀ i, i < n → i ≠ mf → sr.sorted_vertices i ≠ v := by
    intro i hi hne e
    rw [← hs] at e
    exact hne (h.sorted_inj i mf hi hmfn e)
  have hK : ∀ i, i < n → i ≠ mf →
      sr4.inwards_count (sr.sorted_vertices i) = sr.inwards_count (sr.sorted_vertices i) := by
    intro i hi hne
    rw [hic, Function.update_noteq (hnv i hi hne)]
  have hKv : sr4.inwards_count v = sr.inwards_count v - 1 := by
    rw [hic, Function.update_same]
  intro p hp hpn
  refine ⟨h4.key_mono p (p + 1) hp (Nat.le_succ _) hpn, ?_⟩
  intro e
  rw [hsorted p, hsorted (p + 1)] at e ⊢
  by_cases c1 : p + 1 < q
  · rw [if_neg (by omega), if_neg (by omega), if_neg (by omega), if_neg (by omega)] at e ⊢
    rw [hK p (by omega) (by omega), hK (p + 1) hpn (by omega)] at e
    exact (hc p hp hpn).2 e
  by_cases c2 : p + 1 = q
  · rw [if_neg (by omega), if_neg (by omega), if_pos c2] at e ⊢
    rw [hK p (by omega) (by omega), hKv] at e
    exact hprev p (by omega) c2 e
  by_cases c3 : p = q
  · by_cases c4 : p + 1 ≤ mf
    · rw [if_pos c3, if_neg (by omega), if_pos (by omega), Nat.add_sub_cancel] at e ⊢
      by_cases c5 : q < mt
      · exact hlow p (by omega) (by omega)
      · rw [hKv, hK p (by omega) (by omega), hseg p (by omega) (by omega)] at e
        omega
    · rw [if_pos c3, if_neg (by omega), if_neg (by omega)] at e ⊢
      have e1 := h.key_mono mf (p + 1) (by omega) (by omega) hpn
      rw [hKv, hK (p + 1) hpn (by omega)] at e
      rw [hs] at e1
      omega
  by_cases c4 : p + 1 ≤ mf
  · rw [if_neg c3, if_pos (by omega), if_neg (by omega), if_pos (by omega),
      Nat.add_sub_cancel] at e ⊢
    rw [hK (p - 1) (by omega) (by omega), hK p (by omega) (by omega)] at e
    have := (hc (p - 1) (by omega) (by omega)).2
    have e2 : p - 1 + 1 = p := by omega
    rw [e2] at this
    exact this e
  by_cases c5 : p = mf
  · rw [if_neg c3, if_pos (by omega), if_neg (by omega), if_neg (by omega)] at e ⊢
    rw [hK (p - 1) (by omega) (by omega), hK (p + 1) hpn (by omega)] at e
    have := check_sort_lt n (cur + 1) m sr h hc (p - 1) (by omega) 1 (by omega)
    have e2 : p - 1 + 1 + 1 = p + 1 := by omega
    rw [e2] at this
    exact this e
  · rw [if_neg c3, if_neg (by omega), if_neg (by omega), if_neg (by omega)] at e ⊢
    rw [hK p (by omega) (by omega), hK (p + 1) hpn (by omega)] at e
    exact (hc p hp hpn).2 e

theorem decrease_step_ok_stable (n m : Nat) : decrease_step_ok true n m := by
  intro v sr cur hcall
  obtain ⟨⟨h, hc'⟩, hv, hpos, hkey⟩ := hcall
  have hc := hc' rfl
  have hmf := h.vidx_lt v hv
  have hgt := decrease_move_to_gt v sr cur
  have hle := (decrease_move_to_le h hv hpos).1
  have hseg := fun i h1 h2 => @decrease_segment_keys n cur m v sr h hv hpos i h1 h2
  obtain ⟨I2, hic2, hs2⟩ := stable_old_bucket n m cur v sr h hc hv hpos hkey
  show BuildInv true n m (cur + 1) (iscc_fs_decrease_v_in_sort_stable v sr cur) ∧
    (∀ i, i ≤ cur →
      (iscc_fs_decrease_v_in_sort_stable v sr cur).sorted_vertices i = sr.sorted_vertices i) ∧
    (iscc_fs_decrease_v_in_sort_stable v sr cur).inwards_count =
      Function.update sr.inwards_count v (sr.inwards_count v - 1)
  unfold iscc_fs_decrease_v_in_sort_stable
  dsimp only
  generalize (if sr.vertex_index v ≠ decrease_move_to v sr cur then
      iscc_fs_debug_bucket_sort (decrease_move_to v sr cur + 1) (sr.vertex_index v)
        (iscc_fs_decrease_v_in_sort v sr cur)
    else iscc_fs_decrease_v_in_sort v sr cur) = sr2 at I2 hic2 hs2 ⊢
  generalize hmt : decrease_move_to v sr cur = mt at hgt hle hseg hs2 ⊢
  have hb : sr2.inwards_count v = sr.inwards_count v - 1 := by
    rw [hic2, Function.update_same]
  rw [hb]
  have hbm : sr.inwards_count v - 1 ≤ m := by
    have := h.key_le v hv
    omega
  -- the structure after the start of the new bucket is moved behind the cursor
  have I3 : ∀ sr3 : iscc_fs_SortResult,
      sr3 = (if sr2.bucket_index (sr.inwards_count v - 1) ≤ cur then
        ({ inwards_count := sr2.inwards_count
           sorted_vertices := sr2.sorted_vertices
           vertex_index := sr2.vertex_index
           bucket_index :=
            Function.update sr2.bucket_index (sr.inwards_count v - 1) (cur + 1) } :
          iscc_fs_SortResult)
      else sr2) →
      SortInv n (cur + 1) m sr3 ∧ cur + 1 ≤ sr3.bucket_index (sr.inwards_count v - 1) ∧
        sr3.sorted_vertices = sr2.sorted_vertices ∧ sr3.inwards_count = sr2.inwards_count := by
    intro sr3 e3
    by_cases hcl : sr2.bucket_index (sr.inwards_count v - 1) ≤ cur
    · rw [if_pos hcl] at e3
      subst e3
      refine ⟨⟨I2.vidx_lt, I2.sorted_vidx, I2.key_le, ?_⟩, ?_, rfl, rfl⟩
      · intro b hb' i hi hin
        dsimp only
        by_cases e : b = sr.inwards_count v - 1
        · rw [e, Function.update_same]
          have := I2.bucket (sr.inwards_count v - 1) hbm i hi hin
          constructor
          · intro _; exact this.mp (by omega)
          · intro _; exact hi
        · rw [Function.update_noteq e]
          exact I2.bucket b hb' i hi hin
      · dsimp only
        rw [Function.update_same]
    · rw [if_neg hcl] at e3
      subst e3
      exact ⟨I2, by omega, rfl, rfl⟩
  generalize (if sr2.bucket_index (sr.inwards_count v - 1) ≤ cur then
      ({ inwards_count := sr2.inwards_count
         sorted_vertices := sr2.sorted_vertices
         vertex_index := sr2.vertex_index
         bucket_index :=
          Function.update sr2.bucket_index (sr.inwards_count v - 1) (cur + 1) } :
        iscc_fs_SortResult)
    else sr2) = sr3 at I3 ⊢
  obtain ⟨J3, hbs, hs3, hic3⟩ := I3 sr3 rfl
  have hs2mt : sr2.sorted_vertices mt = v := by rw [hs2 mt, if_pos rfl]
  have hs2lo : ∀ i, i < mt → sr2.sorted_vertices i = sr.sorted_vertices i := by
    intro i hi
    rw [hs2 i, if_neg (by omega), if_neg (by omega)]
  have hkmt : sr3.inwards_count (sr3.sorted_vertices mt) = sr.inwards_count v - 1 := by
    rw [hs3, hic3, hs2mt, hb]
  have hbsmt : sr3.bucket_index (sr.inwards_count v - 1) ≤ mt :=
    (J3.bucket _ hbm mt (by omega) (by omega)).mpr (by rw [hkmt])
  obtain ⟨q, q1, q2, q3, q4, _, q6, q7, q8⟩ := debug_bucket_sort_spec n (cur + 1) m
    (sr3.bucket_index (sr.inwards_count v - 1)) mt sr3 J3 hbsmt (by omega)
    (fun i h1 h2 => by
      have e1 := (J3.bucket _ hbm i (by omega) (by omega)).mp h1
      have e2 := J3.key_mono i mt (by omega) h2 (by omega)
      omega)
  generalize iscc_fs_debug_bucket_sort (sr3.bucket_index (sr.inwards_count v - 1)) mt sr3 = sr4
    at q3 q4 q6 ⊢
  rw [hs3] at q6 q7 q8
  have hsorted : ∀ i, sr4.sorted_vertices i =
      if i = q then v
      else if q < i ∧ i ≤ sr.vertex_index v then sr.sorted_vertices (i - 1)
      else sr.sorted_vertices i := by
    intro i
    rw [q6 i, hs2mt]
    by_cases e1 : i = q
    · rw [if_pos e1, if_pos e1]
    · rw [if_neg e1, if_neg e1]
      by_cases e2 : q < i ∧ i ≤ mt
      · rw [if_pos e2, if_pos (by omega), hs2lo (i - 1) (by omega)]
      · rw [if_neg e2, hs2 i]
        by_cases e3 : i = mt
        · omega
        · rw [if_neg e3]
          by_cases e4 : mt < i ∧ i ≤ sr.vertex_index v
          · rw [if_pos e4, if_pos (by omega)]
          · rw [if_neg e4, if_neg (by omega)]
  have hic4 : sr4.inwards_count =
      Function.update sr.inwards_count v (sr.inwards_count v - 1) := by
    rw [q4, hic3, hic2]
  refine ⟨⟨q3, fun _ => ?_⟩, ?_, hic4⟩
  · refine rotation_check_sort n m cur v q mt (sr.vertex_index v) sr sr4 h hc q3 hv rfl hkey
      (by omega) q2 hle hseg hic4 hsorted ?_ ?_
    · intro i h1 h2
      have := q7 i h1 h2
      rwa [hs2mt, hs2lo i h2] at this
    · intro p hp hpq hkp
      by_cases hbq : sr3.bucket_index (sr.inwards_count v - 1) < q
      · have := q8 hbq
        rw [hs2mt, hs2lo (q - 1) (by omega)] at this
        have e : q - 1 = p := by omega
        rwa [e] at this
      · exfalso
        have hnot : ¬ sr3.bucket_index (sr.inwards_count v - 1) ≤ p := by omega
        have := (J3.bucket _ hbm p (by omega) (by omega)).not.mp hnot
        rw [hs3, hic3, hs2lo p (by omega), hic2] at this
        have hne : sr.sorted_vertices p ≠ v := by
          intro e
          rw [← h.sorted_vidx v hv] at e
          have := h.sorted_inj p (sr.vertex_index v) (by omega) hmf e
          omega
        rw [Function.update_noteq hne] at this
        omega
  · intro i hi
    rw [hsorted i, if_neg (by omega), if_neg (by omega)]

theorem decrease_step_ok_any (stable : Bool) (n m : Nat) : decrease_step_ok stable n m := by
  cases stable
  · exact decrease_step_ok_default n m
  · exact decrease_step_ok_stable n m

/-! ## The claims about the calls of `iscc_fs_decrease_v_in_sort` -/

/-- C26: in either build (`SCC_STABLE_CLUSTERING` set or not), in the scan of
InwardsUpdating on a sound NNG without duplicate arcs, and in the scan of
ExclusionUpdating on a sound exclusion graph (whether or not a row repeats an arc) with
any initial `not_excluded`, both started from the result of `iscc_fs_sort_by_inwards`, at
every call of `iscc_fs_decrease_v_in_sort` the key `inwards_count[v]` is at least 1 and
at most `max_inwards`, so the decrement does not underflow and
`bucket_index[inwards_count[v] - 1]` is one of the `max_inwards + 1` entries of
`bucket_index`. -/
theorem decrease_key_positive (stable : Bool) (mem : Mem) (dg : iscc_Digraph)
    (hs : iscc_digraph_is_sound dg)
    (hsort : (iscc_fs_sort_by_inwards mem dg true).1 = SCC_ER_OK) (clabel_max : Nat)
    (out : iscc_SeedResult) (e : ScanEvent) :
    (no_duplicate_arcs dg →
      e ∈ (inwards_loop_trace stable clabel_max mem dg dg.vertices 0 (fun _ => false)
        (iscc_fs_sort_by_inwards mem dg true).2 out []).2 →
      decrease_key_in_range (sort_max_inwards dg.vertices (sort_count_inwards dg)) e) ∧
    (∀ not_excluded,
      e ∈ (exclusion_loop_trace stable clabel_max mem dg dg.vertices 0 not_excluded
        (iscc_fs_sort_by_inwards mem dg true).2 out []).2 →
      decrease_key_in_range (sort_max_inwards dg.vertices (sort_count_inwards dg)) e) := by
  refine ⟨fun hd he => ?_, fun ne he => ?_⟩
  · exact event_ok_key_in_range stable dg.vertices _ e
      ((inwards_run_events stable clabel_max mem dg hs hd hsort
        (decrease_step_ok_any _ _ _) out).1 e he).1
  · exact event_ok_key_in_range stable dg.vertices _ e
      ((exclusion_run_events stable clabel_max mem dg hs hsort
        (decrease_step_ok_any _ _ _) ne out).1 e he)

set_option maxRecDepth 100000 in
theorem decrease_key_positive_witness :
    (inwards_loop_trace false 1000 mem_ok nng_S2 nng_S2.vertices 0 (fun _ => false)
        (iscc_fs_sort_by_inwards mem_ok nng_S2 true).2
        { capacity := 128, count := 0, seeds := some (fun _ => 0) } []).2.length = 8 ∧
    ∀ e, e ∈ (inwards_loop_trace false 1000 mem_ok nng_S2 nng_S2.vertices 0 (fun _ => false)
        (iscc_fs_sort_by_inwards mem_ok nng_S2 true).2
        { capacity := 128, count := 0, seeds := some (fun _ => 0) } []).2 →
      decrease_key_in_range (sort_max_inwards nng_S2.vertices (sort_count_inwards nng_S2)) e :=
  ⟨by decide, fun e he =>
    (decrease_key_positive false mem_ok nng_S2 (by decide) (by decide) 1000
      { capacity := 128, count := 0, seeds := some (fun _ => 0) } e).1 (by decide) he⟩

/-- C27: in the default build, in the scan of InwardsUpdating on a sound NNG without
duplicate arcs and in the scan of ExclusionUpdating on a sound exclusion graph, both
started from the result of `iscc_fs_sort_by_inwards`: at the top of every iteration and
at every call of `iscc_fs_decrease_v_in_sort`, the entries of `sorted_vertices` strictly
after the cursor are in non-decreasing order of `inwards_count`, each of them lies at or
after `bucket_index` of its key, and at a call the entries at `move_from` and `move_to`
have the same key. -/
theorem pending_entries_in_order (mem : Mem) (dg : iscc_Digraph)
    (hs : iscc_digraph_is_sound dg)
    (hsort : (iscc_fs_sort_by_inwards mem dg true).1 = SCC_ER_OK) (clabel_max : Nat)
    (out : iscc_SeedResult) (e : ScanEvent) :
    (no_duplicate_arcs dg →
      e ∈ (inwards_loop_trace false clabel_max mem dg dg.vertices 0 (fun _ => false)
        (iscc_fs_sort_by_inwards mem dg true).2 out []).2 →
      pending_in_order dg.vertices e) ∧
    (∀ not_excluded,
      e ∈ (exclusion_loop_trace false clabel_max mem dg dg.vertices 0 not_excluded
        (iscc_fs_sort_by_inwards mem dg true).2 out []).2 →
      pending_in_order dg.vertices e) := by
  refine ⟨fun hd he => ?_, fun ne he => ?_⟩
  · exact event_ok_pending_in_order dg.vertices _ e
      ((inwards_run_events false clabel_max mem dg hs hd hsort
        (decrease_step_ok_default _ _) out).1 e he).1
  · exact event_ok_pending_in_order dg.vertices _ e
      ((exclusion_run_events false clabel_max mem dg hs hsort
        (decrease_step_ok_default _ _) ne out).1 e he)

set_option maxRecDepth 100000 in
theorem pending_entries_in_order_witness :
    (exclusion_loop_trace false 1000 mem_ok nng_S3 nng_S3.vertices 0 (exclusion_init nng_S3)
        (iscc_fs_sort_by_inwards mem_ok nng_S3 true).2
        { capacity := 128, count := 0, seeds := some (fun _ => 0) } []).2.length = 7 ∧
    ∀ e, e ∈ (exclusion_loop_trace false 1000 mem_ok nng_S3 nng_S3.vertices 0
        (exclusion_init nng_S3) (iscc_fs_sort_by_inwards mem_ok nng_S3 true).2
        { capacity := 128, count := 0, seeds := some (fun _ => 0) } []).2 →
      pending_in_order nng_S3.vertices e :=
  ⟨by decide, fun e he =>
    (pending_entries_in_order mem_ok nng_S3 (by decide) (by decide) 1000
      { capacity := 128, count := 0, seeds := some (fun _ => 0) } e).2 _ he⟩

/-- C21: in the default build, in the scan of InwardsUpdating on a sound NNG without
duplicate arcs and in the scan of ExclusionUpdating on a sound exclusion graph, both
started from the result of `iscc_fs_sort_by_inwards`: the recorded scan computes the
state of the scan; every call of `iscc_fs_decrease_v_in_sort` leaves the entries of
`sorted_vertices` at positions up to the cursor unchanged and exchanges two entries
strictly after the cursor; no vertex is examined twice, and in a run that succeeds the
examined vertices are all vertices, each once. -/
theorem decrease_keeps_scanned (mem : Mem) (dg : iscc_Digraph)
    (hs : iscc_digraph_is_sound dg)
    (hsort : (iscc_fs_sort_by_inwards mem dg true).1 = SCC_ER_OK) (clabel_max : Nat)
    (out : iscc_SeedResult) :
    (no_duplicate_arcs dg →
      (inwards_loop_trace false clabel_max mem dg dg.vertices 0 (fun _ => false)
          (iscc_fs_sort_by_inwards mem dg true).2 out []).1 =
        inwards_loop clabel_max mem dg true dg.vertices 0 (fun _ => false)
          (iscc_fs_sort_by_inwards mem dg true).2 out ∧
      (∀ e, e ∈ (inwards_loop_trace false clabel_max mem dg dg.vertices 0 (fun _ => false)
          (iscc_fs_sort_by_inwards mem dg true).2 out []).2 → decrease_frame e) ∧
      (examined (inwards_loop_trace false clabel_max mem dg dg.vertices 0 (fun _ => false)
          (iscc_fs_sort_by_inwards mem dg true).2 out []).2).Nodup ∧
      ((inwards_loop clabel_max mem dg true dg.vertices 0 (fun _ => false)
          (iscc_fs_sort_by_inwards mem dg true).2 out).ec = SCC_ER_OK →
        (examined (inwards_loop_trace false clabel_max mem dg dg.vertices 0 (fun _ => false)
          (iscc_fs_sort_by_inwards mem dg true).2 out []).2).Perm (List.range dg.vertices))) ∧
    (∀ not_excluded,
      (exclusion_loop_trace false clabel_max mem dg dg.vertices 0 not_excluded
          (iscc_fs_sort_by_inwards mem dg true).2 out []).1 =
        exclusion_loop clabel_max mem dg true dg.vertices 0 not_excluded
          (iscc_fs_sort_by_inwards mem dg true).2 out ∧
      (∀ e, e ∈ (exclusion_loop_trace false clabel_max mem dg dg.vertices 0 not_excluded
          (iscc_fs_sort_by_inwards mem dg true).2 out []).2 → decrease_frame e) ∧
      (examined (exclusion_loop_trace false clabel_max mem dg dg.vertices 0 not_excluded
          (iscc_fs_sort_by_inwards mem dg true).2 out []).2).Nodup ∧
      ((exclusion_loop clabel_max mem dg true dg.vertices 0 not_excluded
          (iscc_fs_sort_by_inwards mem dg true).2 out).ec = SCC_ER_OK →
        (examined (exclusion_loop_trace false clabel_max mem dg dg.vertices 0 not_excluded
          (iscc_fs_sort_by_inwards mem dg true).2 out []).2).Perm (List.range dg.vertices))) := by
  refine ⟨fun hd => ?_, fun ne => ?_⟩
  · obtain ⟨r1, r2, r3⟩ := inwards_run_events false clabel_max mem dg hs hd hsort
      (decrease_step_ok_default _ _) out
    refine ⟨inwards_loop_trace_fst _ _ _ _ _ _ _ _ _,
      fun e he => event_ok_decrease_frame dg.vertices _ e (r1 e he).1, r2, fun hok => ?_⟩
    rw [← inwards_loop_trace_fst clabel_max mem dg dg.vertices 0 _ _ out []] at hok
    exact r3 hok
  · obtain ⟨r1, r2, r3⟩ := exclusion_run_events false clabel_max mem dg hs hsort
      (decrease_step_ok_default _ _) ne out
    refine ⟨exclusion_loop_trace_fst _ _ _ _ _ _ _ _ _,
      fun e he => event_ok_decrease_frame dg.vertices _ e (r1 e he), r2, fun hok => ?_⟩
    rw [← exclusion_loop_trace_fst clabel_max mem dg dg.vertices 0 _ _ out []] at hok
    exact r3 hok

set_option maxRecDepth 100000 in
theorem decrease_keeps_scanned_witness :
    (inwards_loop 1000 mem_ok nng_S2 true nng_S2.vertices 0 (fun _ => false)
        (iscc_fs_sort_by_inwards mem_ok nng_S2 true).2
        { capacity := 128, count := 0, seeds := some (fun _ => 0) }).ec = SCC_ER_OK ∧
    (examined (inwards_loop_trace false 1000 mem_ok nng_S2 nng_S2.vertices 0
        (fun _ => false) (iscc_fs_sort_by_inwards mem_ok nng_S2 true).2
        { capacity := 128, count := 0, seeds := some (fun _ => 0) } []).2).Perm
      (List.range nng_S2.vertices) :=
  ⟨by decide,
    ((decrease_keeps_scanned mem_ok nng_S2 (by decide) (by decide) 1000
      { capacity := 128, count := 0, seeds := some (fun _ => 0) }).1 (by decide)).2.2.2
      (by decide)⟩

/-! ## Keys and live in-degrees in the inwards scan -/

/-- C25: in either build, in the scan of InwardsUpdating on a sound NNG without
self-loops or duplicate arcs, started from the result of `iscc_fs_sort_by_inwards`: at
the top of every iteration, every unmarked vertex `w` at or after the cursor has as key
`inwards_count[w]` the number of arcs `v → w` whose tail `v` is unmarked. -/
theorem inwards_count_is_live_indegree (stable : Bool) (mem : Mem) (nng : iscc_Digraph)
    (hs : iscc_digraph_is_sound nng) (hsl : no_self_loops nng) (hd : no_duplicate_arcs nng)
    (hsort : (iscc_fs_sort_by_inwards mem nng true).1 = SCC_ER_OK) (clabel_max : Nat)
    (out : iscc_SeedResult) (pos : Nat) (marks : Nat → Bool) (sort : iscc_fs_SortResult)
    (he : ScanEvent.scan pos marks sort ∈
      (inwards_loop_trace stable clabel_max mem nng nng.vertices 0 (fun _ => false)
        (iscc_fs_sort_by_inwards mem nng true).2 out []).2)
    (w : Nat) (hw : w < nng.vertices) (hm : marks w = false)
    (hp : pos ≤ sort.vertex_index w) :
    sort.inwards_count w = live_indegree nng (fun u => !marks u) w :=
  ((inwards_run_events stable clabel_max mem nng hs hd hsort
    (decrease_step_ok_any _ _ _) out).1 _ he).2 hsl w hw hm hp

set_option maxRecDepth 100000 in
theorem inwards_count_is_live_indegree_witness :
    ScanEvent.scan 0 (fun _ => false) (iscc_fs_sort_by_inwards mem_ok nng_S2 true).2 ∈
      (inwards_loop_trace false 1000 mem_ok nng_S2 nng_S2.vertices 0 (fun _ => false)
        (iscc_fs_sort_by_inwards mem_ok nng_S2 true).2
        { capacity := 128, count := 0, seeds := some (fun _ => 0) } []).2 ∧
    (iscc_fs_sort_by_inwards mem_ok nng_S2 true).2.inwards_count 3 =
      live_indegree nng_S2 (fun u => !(fun _ => false) u) 3 :=
  ⟨List.mem_cons_self _ _,
    inwards_count_is_live_indegree false mem_ok nng_S2 (by decide) (by decide) (by decide)
      (by decide) 1000 { capacity := 128, count := 0, seeds := some (fun _ => 0) } 0
      (fun _ => false) (iscc_fs_sort_by_inwards mem_ok nng_S2 true).2
      (List.mem_cons_self _ _) 3 (by decide) rfl (by decide)⟩

/-! ## The stable build keeps the buckets ordered by vertex ID -/

/-- C23: in the stable build (`SCC_STABLE_CLUSTERING`), in the scan of InwardsUpdating on
a sound NNG without duplicate arcs and in the scan of ExclusionUpdating on a sound
exclusion graph, both started from the result of `iscc_fs_sort_by_inwards`: at the top
of every iteration the checks of `iscc_fs_debug_check_sort` hold, that is, from the
cursor to the end `sorted_vertices` is ordered by `inwards_count` ascending and, among
equal keys, by strictly ascending vertex ID. -/
theorem stable_scan_sorted (mem : Mem) (dg : iscc_Digraph) (hs : iscc_digraph_is_sound dg)
    (hsort : (iscc_fs_sort_by_inwards mem dg true).1 = SCC_ER_OK) (clabel_max : Nat)
    (out : iscc_SeedResult) (pos : Nat) (marks : Nat → Bool) (sort : iscc_fs_SortResult) :
    (no_duplicate_arcs dg →
      ScanEvent.scan pos marks sort ∈
        (inwards_loop_trace true clabel_max mem dg dg.vertices 0 (fun _ => false)
          (iscc_fs_sort_by_inwards mem dg true).2 out []).2 →
      iscc_fs_debug_check_sort dg.vertices pos sort) ∧
    (∀ not_excluded,
      ScanEvent.scan pos marks sort ∈
        (exclusion_loop_trace true clabel_max mem dg dg.vertices 0 not_excluded
          (iscc_fs_sort_by_inwards mem dg true).2 out []).2 →
      iscc_fs_debug_check_sort dg.vertices pos sort) := by
  refine ⟨fun hd he => ?_, fun ne he => ?_⟩
  · exact ((inwards_run_events true clabel_max mem dg hs hd hsort
      (decrease_step_ok_stable _ _) out).1 _ he).1.2.2 rfl
  · exact ((exclusion_run_events true clabel_max mem dg hs hsort
      (decrease_step_ok_stable _ _) ne out).1 _ he).2.2 rfl

set_option maxRecDepth 100000 in
theorem stable_scan_sorted_witness :
    (inwards_loop_trace true 1000 mem_ok nng_S2 nng_S2.vertices 0 (fun _ => false)
        (iscc_fs_sort_by_inwards mem_ok nng_S2 true).2
        { capacity := 128, count := 0, seeds := some (fun _ => 0) } []).2.length = 8 ∧
    iscc_fs_debug_check_sort nng_S2.vertices 0 (iscc_fs_sort_by_inwards mem_ok nng_S2 true).2 :=
  ⟨by decide,
    (stable_scan_sorted mem_ok nng_S2 (by decide) (by decide) 1000
      { capacity := 128, count := 0, seeds := some (fun _ => 0) } 0 (fun _ => false)
      (iscc_fs_sort_by_inwards mem_ok nng_S2 true).2).1 (by decide)
      (List.mem_cons_self _ _)⟩
end Scclust
